import Mathlib

/-!
# The build phase of the grammar compiler (`src/2-build.c`)

A shallow embedding of the build pass: the rule registry (`add_rule`,
`add_token_rule`, `find_rule`), the slot resolver (`add_slot`), the keyword
token interner (`find_token`, `add_keyword_token`), the expression-to-NFA
builder (`build_body_expression`, `connect_expression`,
`build_body_automaton`) and the driver `build`.

Conventions of the embedding.

* Every `exit_with_error()` / `abort()` of the source is a returned
  `Except.error`; the error kinds are the constructors of `build_error`.
* A name with its length (`const char *`, `size_t`) is a `byte_string`; the
  length test followed by `memcmp` is kept as two tests.
* `UINT32_MAX`, used by the source as the "no index" marker, is `none`.
* Source ranges only feed diagnostics and are left out.
* The parse tree is read through typed views (`parsed_expr`, `parsed_body`,
  ...) in place of the `parsed_*_get` / `parsed_*_next` cursor API.
* Constants, enumerators and the determinizer that live in headers outside
  this file are the fields of `build_config`.
* The code that runs an automaton is not part of the sources at hand: the runs
  of an automaton (`reaches`, `automaton.accepts`) and the language an
  expression denotes (`expression_denotes`) are modelled from the spec.
-/

namespace Owl

/-- A byte string: a name or a keyword together with its length. -/
abbrev byte_string := List Char

/-- Modelled from the spec: the label of a transition, either the distinguished
epsilon marker or a symbol id issued from a rule's `next_symbol` counter.  The
`symbol_id` typedef and `SYMBOL_EPSILON` are declared in a header that is not
part of the sources at hand. -/
inductive symbol_id where
  | SYMBOL_EPSILON : symbol_id
  | issued (id : Nat) : symbol_id
deriving DecidableEq, Repr

/-- Modelled from the spec: one labelled edge of the automaton multigraph. -/
structure transition where
  source : Nat
  target : Nat
  symbol : symbol_id
deriving DecidableEq, Repr

/-- Modelled from the spec: an automaton is a start state, a set of accepting
states and a multigraph of transitions labelled by a symbol or by epsilon.  The
`struct automaton` declaration is not part of the sources at hand; a zeroed
automaton (`= \x7b0\x7d`) has start state 0 and nothing else. -/
structure automaton where
  start_state : Nat
  accepting_states : List Nat
  transitions : List transition
deriving DecidableEq, Repr

/-- The zeroed automaton `struct automaton automaton = \x7b0\x7d`. -/
def automaton.zero : automaton :=
  { start_state := 0, accepting_states := [], transitions := [] }

/-- Modelled from the spec: `automaton_set_start_state` designates the start
state. -/
def automaton_set_start_state (a : automaton) (state : Nat) : automaton :=
  { a with start_state := state }

/-- Modelled from the spec: `automaton_mark_accepting_state` adds a state to the
accepting states. -/
def automaton_mark_accepting_state (a : automaton) (state : Nat) : automaton :=
  { a with accepting_states := a.accepting_states ++ [state] }

/-- Modelled from the spec: `automaton_add_transition` adds one edge to the
transition multigraph. -/
def automaton_add_transition (a : automaton) (source target : Nat)
    (symbol : symbol_id) : automaton :=
  { a with transitions := a.transitions ++ [⟨source, target, symbol⟩] }

/-- The roles of a keyword token (`enum token_type`). -/
inductive token_type where
  | TOKEN_NORMAL
  | TOKEN_START
  | TOKEN_END
  | TOKEN_DONT_CARE
deriving DecidableEq, Repr

/-- The fixities of an operator (`enum fixity`). -/
inductive fixity where
  | PREFIX
  | POSTFIX
  | INFIX
deriving DecidableEq, Repr

/-- What the headers outside `2-build.c` provide: the two capacity limits, the
numeric values of the `enum associativity` enumerators (the source also stores
the literal `0` when a section names no associativity) and the determinizer. -/
structure build_config where
  MAX_NUMBER_OF_CHOICES : Nat
  MAX_NUMBER_OF_SLOTS : Nat
  LEFT : Nat
  RIGHT : Nat
  FLAT : Nat
  NONASSOC : Nat
  determinize_minimize : automaton → automaton

/-- The cap on expression nesting (`#define MAX_EXPRESSION_NESTING 3000`). -/
def MAX_EXPRESSION_NESTING : Nat := 3000

/-- A slot of a rule (`struct slot`). -/
structure slot where
  name : byte_string
  symbol : Nat
  rule_index : Nat
deriving DecidableEq, Repr

/-- An interned keyword of a rule (`struct token`). -/
structure token where
  string : byte_string
  type : token_type
  symbol : Nat
deriving DecidableEq, Repr

/-- A guard bracket of a rule (`struct bracket`). -/
structure bracket where
  automaton : automaton
  symbol : Nat
  start_symbol : symbol_id
  end_symbol : symbol_id
deriving DecidableEq, Repr

/-- A named choice clause of a rule (`struct choice`). -/
structure choice where
  name : byte_string
  automaton : automaton
deriving DecidableEq, Repr

/-- A named operator clause of a rule (`struct operator`). -/
structure operator where
  name : byte_string
  fixity : fixity
  associativity : Nat
  precedence : Int
  automaton : automaton
deriving DecidableEq, Repr

/-- A rule of the grammar (`struct rule`).  The three slot indices hold `none`
for `UINT32_MAX`. -/
structure rule where
  name : byte_string
  is_token : Bool
  choices : List choice
  operators : List operator
  brackets : List bracket
  slots : List slot
  keyword_tokens : List token
  operand_slot_index : Option Nat
  left_slot_index : Option Nat
  right_slot_index : Option Nat
  automaton : automaton
deriving DecidableEq, Repr

/-- The grammar under construction (`struct grammar`). -/
structure grammar where
  rules : List rule
  root_rule : Nat
deriving DecidableEq, Repr

/-- The ambient state of the pass (`struct context`); the parse tree pointer is
replaced by the typed views handed to each function. -/
structure context where
  grammar : grammar
  rule_index : Nat
  next_symbol : Nat
  next_state : Nat
  bracket_nesting : Nat
  expression_nesting : Nat
deriving DecidableEq, Repr

/-- The pair of states a compiled fragment has to connect
(`struct boundary_states`). -/
structure boundary_states where
  entry : Nat
  exit : Nat
deriving DecidableEq, Repr

/-- The fatal errors of the pass, one constructor per `exit_with_error` site
(and one for `abort`). -/
inductive build_error where
  | multiple_rules
  | empty_grammar
  | too_many_choices
  | too_many_clauses
  | duplicate_choice
  | duplicate_operator
  | nested_too_deeply
  | unknown_rule_or_token
  | self_reference
  | earlier_rule_reference
  | slot_conflict
  | too_many_slots
  | token_role_conflict
  | invalid_start_keyword
  | invalid_end_keyword
  | aborted
deriving DecidableEq, Repr

deriving instance DecidableEq for Except

mutual
/-- An expression node of the parse tree (`struct parsed_expr`), by kind.  A
literal and the two bracket keywords are held with their quote delimiters, as
the parse tree holds them. -/
inductive parsed_expr where
  | PARSED_CHOICE (operand : parsed_expr_list)
  | PARSED_CONCATENATION (operand : parsed_expr_list)
  | PARSED_IDENT (identifier : byte_string) (rename : Option byte_string)
  | PARSED_LITERAL (string : byte_string)
  | PARSED_PARENS (expr : parsed_expr)
  | PARSED_BRACKETED (expr : parsed_expr_list) (begin_token end_token : byte_string)
  | PARSED_ZERO_OR_MORE (operand : parsed_expr)
  | PARSED_ONE_OR_MORE (operand : parsed_expr)
  | PARSED_OPTIONAL (operand : parsed_expr)
/-- A chain of sibling expressions as `parsed_expr_next` walks it; `empty` is the
cursor whose `.empty` flag is set. -/
inductive parsed_expr_list where
  | empty
  | cons (head : parsed_expr) (next : parsed_expr_list)
end

/-- The fixity node of an `operators` section. -/
inductive parsed_fixity_type where
  | PARSED_PREFIX_OP
  | PARSED_POSTFIX_OP
  | PARSED_INFIX_OP
deriving DecidableEq, Repr

/-- The associativity node of an `operators` section. -/
inductive parsed_assoc_type where
  | PARSED_LEFT_OP
  | PARSED_RIGHT_OP
  | PARSED_FLAT_OP
  | PARSED_NONASSOC_OP
deriving DecidableEq, Repr

/-- One named clause: the identifier and the expression the parse tree pairs up
(`choice_identifier` / `expr`, `op.identifier` / `op.expr`). -/
structure parsed_clause where
  identifier : byte_string
  expr : parsed_expr

/-- One `operators` section (`struct parsed_operators`); `assoc` is `none` when
the associativity node is empty. -/
structure parsed_operators where
  fixity : parsed_fixity_type
  assoc : Option parsed_assoc_type
  operators : List parsed_clause

/-- The body of a rule (`struct parsed_body`): a single unnamed expression when
`body.identifier` is absent, named choices and operator sections otherwise. -/
inductive parsed_body where
  | simple (expr : parsed_expr)
  | clauses (choices : List parsed_clause) (operators : List parsed_operators)

/-- One declared rule (`struct parsed_rule`). -/
structure parsed_rule where
  identifier : byte_string
  body : parsed_body

/-! ## Rule registry -/

/-- The rule `add_rule` appends: the name and the three unset slot indices are
written, every other field is the zeroed memory of the grown array. -/
def rule.fresh (name : byte_string) : rule :=
  { name := name, is_token := false, choices := [], operators := [],
    brackets := [], slots := [], keyword_tokens := [],
    operand_slot_index := none, left_slot_index := none,
    right_slot_index := none, automaton := automaton.zero }

/-- The rule stored at an index (`grammar->rules[index]`). -/
def grammar.rule_at (g : grammar) (index : Nat) : rule :=
  g.rules.getD index (rule.fresh [])

/-- Overwrite the rule stored at an index. -/
def grammar.set_rule (g : grammar) (index : Nat) (r : rule) : grammar :=
  { g with rules := g.rules.set index r }

/-- The rule being filled in (`&ctx->grammar->rules[ctx->rule_index]`). -/
def context.current_rule (ctx : context) : rule :=
  ctx.grammar.rule_at ctx.rule_index

/-- Write back the rule being filled in. -/
def context.set_current_rule (ctx : context) (r : rule) : context :=
  { ctx with grammar := ctx.grammar.set_rule ctx.rule_index r }

/-- The loop of `find_rule`, from index `i` on. -/
def find_rule_from (name : byte_string) : List rule → Nat → Option Nat
  | [], _ => none
  | r :: rest, i =>
    if r.name.length ≠ name.length then find_rule_from name rest (i + 1)
    else if r.name ≠ name then find_rule_from name rest (i + 1)
    else some i

/-- Linear lookup of a rule by name (`find_rule`); `none` is `UINT32_MAX`. -/
def find_rule (ctx : context) (name : byte_string) : Option Nat :=
  find_rule_from name ctx.grammar.rules 0

/-- The comparison `index < number_of_rules` on a possibly absent index:
`UINT32_MAX` is below no rule count. -/
def index_below : Option Nat → Nat → Bool
  | none, _ => false
  | some i, n => decide (i < n)

/-- Register a rule name (`add_rule`); the returned index is `none` for the
duplicate marker `UINT32_MAX`. -/
def add_rule (ctx : context) (name : byte_string) : context × Option Nat :=
  if index_below (find_rule ctx name) ctx.grammar.rules.length then (ctx, none)
  else
    let index := ctx.grammar.rules.length
    ({ ctx with grammar :=
        { ctx.grammar with rules := ctx.grammar.rules ++ [rule.fresh name] } },
     some index)

/-- Register an implicit token rule (`add_token_rule`). -/
def add_token_rule (ctx : context) (name : byte_string) : context :=
  match add_rule ctx name with
  | (ctx, none) => ctx
  | (ctx, some index) =>
    { ctx with grammar :=
        ctx.grammar.set_rule index { ctx.grammar.rule_at index with is_token := true } }

/-! ## Slot resolver -/

/-- The search loop of `add_slot`, from index `slot_index` on: the index at
which the loop stops, or the slot-conflict error. -/
def add_slot_scan (slot_name : byte_string) (referenced_rule_index : Nat) :
    List slot → Nat → Except build_error Nat
  | [], slot_index => .ok slot_index
  | s :: rest, slot_index =>
    if s.name.length ≠ slot_name.length then
      add_slot_scan slot_name referenced_rule_index rest (slot_index + 1)
    else if s.name ≠ slot_name then
      add_slot_scan slot_name referenced_rule_index rest (slot_index + 1)
    else if s.rule_index ≠ referenced_rule_index then .error .slot_conflict
    else .ok slot_index

/-- Resolve or allocate the slot of a name (`add_slot`): the updated context and
rule, and the slot index. -/
def add_slot (cfg : build_config) (ctx : context) (r : rule)
    (slot_name : byte_string) (referenced_rule_index : Nat) :
    Except build_error (context × rule × Nat) :=
  match add_slot_scan slot_name referenced_rule_index r.slots 0 with
  | .error e => .error e
  | .ok slot_index =>
    if slot_index ≥ r.slots.length then
      let symbol := ctx.next_symbol
      let ctx := { ctx with next_symbol := ctx.next_symbol + 1 }
      if r.slots.length ≥ cfg.MAX_NUMBER_OF_SLOTS then .error .too_many_slots
      else
        .ok (ctx,
             { r with slots := r.slots ++
                 [{ name := slot_name, symbol := symbol,
                    rule_index := referenced_rule_index }] },
             slot_index)
    else .ok (ctx, r, slot_index)

/-! ## Keyword token interner -/

/-- The search loop of `find_token`, from index `token_index` on. -/
def find_token_from (string : byte_string) (type : token_type) :
    List token → Nat → Except build_error Nat
  | [], token_index => .ok token_index
  | t :: rest, token_index =>
    if t.string.length ≠ string.length then
      find_token_from string type rest (token_index + 1)
    else if t.string ≠ string then
      find_token_from string type rest (token_index + 1)
    else if type ≠ .TOKEN_DONT_CARE ∧ t.type ≠ type then .error .token_role_conflict
    else .ok token_index

/-- Look a keyword up among the tokens of a rule (`find_token`): the index of
the first token with that text, the token count when there is none, or the
role-conflict error. -/
def find_token (tokens : List token) (string : byte_string) (type : token_type) :
    Except build_error Nat :=
  find_token_from string type tokens 0

/-- The text of a quoted literal without its two delimiters
(`keyword.string + 1`, `keyword.length - 2`). -/
def keyword_text (keyword : byte_string) : byte_string :=
  (keyword.drop 1).take (keyword.length - 2)

/-- The token placed in a slot of the grown token array that is read before it
is written. -/
def token.zero : token :=
  { string := [], type := .TOKEN_NORMAL, symbol := 0 }

/-- Intern a quoted keyword with a role (`add_keyword_token`): the updated
context and rule, and the symbol of the keyword. -/
def add_keyword_token (ctx : context) (r : rule) (keyword : byte_string)
    (type : token_type) : Except build_error (context × rule × symbol_id) :=
  if keyword.length ≤ 2 then .ok (ctx, r, .SYMBOL_EPSILON)
  else
    match find_token r.keyword_tokens (keyword_text keyword) type with
    | .error e => .error e
    | .ok token_index =>
      if token_index ≥ r.keyword_tokens.length then
        let t : token :=
          { string := keyword_text keyword, type := type, symbol := ctx.next_symbol }
        let r := { r with keyword_tokens := r.keyword_tokens ++ [t] }
        let ctx := { ctx with next_symbol := ctx.next_symbol + 1 }
        .ok (ctx, r, .issued ((r.keyword_tokens.getD token_index token.zero).symbol))
      else
        .ok (ctx, r, .issued ((r.keyword_tokens.getD token_index token.zero).symbol))

/-! ## Expression-to-NFA builder -/

/-- The slot read back from a slot index that lies outside the slot array. -/
def slot.zero : slot :=
  { name := [], symbol := 0, rule_index := 0 }

/-- The zeroed bracket record of the grown bracket array. -/
def bracket.zero : bracket :=
  { automaton := automaton.zero, symbol := 0, start_symbol := .issued 0,
    end_symbol := .issued 0 }

/-- The increment of `ctx->expression_nesting++` in the guard of
`build_body_expression`. -/
def context.enter_expression (ctx : context) : context :=
  { ctx with expression_nesting := ctx.expression_nesting + 1 }

/-- The closing `ctx->expression_nesting--` of `build_body_expression`. -/
def context.leave_expression (ctx : context) : context :=
  { ctx with expression_nesting := ctx.expression_nesting - 1 }

/-- The body of `connect_expression`, with the recursive call on its expression
passed in as `build_expr`: two fresh states, the sub-expression built between
them, and the two epsilon edges to the outer boundary. -/
def connect_expression_with
    (build_expr : context → automaton → boundary_states →
      Except build_error (context × automaton))
    (ctx : context) (a : automaton) (outer : boundary_states) :
    Except build_error (context × automaton × boundary_states) :=
  let inner_entry := ctx.next_state
  let ctx := { ctx with next_state := ctx.next_state + 1 }
  let inner_exit := ctx.next_state
  let ctx := { ctx with next_state := ctx.next_state + 1 }
  let inner : boundary_states := { entry := inner_entry, exit := inner_exit }
  match build_expr ctx a inner with
  | .error e => .error e
  | .ok (ctx, a) =>
    let a := automaton_add_transition a outer.entry inner.entry .SYMBOL_EPSILON
    let a := automaton_add_transition a inner.exit outer.exit .SYMBOL_EPSILON
    .ok (ctx, a, inner)

/-- The body of `build_body_automaton`, with the call of `build_body_expression`
on its expression passed in as `build_expr`: a fresh NFA with start state 0 and
accepting state 1, states numbered from 2, the ambient `next_state` restored
afterwards, and the NFA handed to the determinizer. -/
def build_body_automaton_with (cfg : build_config)
    (build_expr : context → automaton → boundary_states →
      Except build_error (context × automaton))
    (ctx : context) : Except build_error (context × automaton) :=
  let a := automaton.zero
  let boundary : boundary_states := { entry := 0, exit := 1 }
  let a := automaton_set_start_state a boundary.entry
  let a := automaton_mark_accepting_state a boundary.exit
  let saved_context := ctx
  let ctx := { ctx with next_state := 2 }
  match build_expr ctx a boundary with
  | .error e => .error e
  | .ok (ctx, a) =>
    let ctx := { ctx with next_state := saved_context.next_state }
    .ok (ctx, cfg.determinize_minimize a)

mutual
/-- Compile one expression between the boundary states `b`
(`build_body_expression`). -/
def build_body_expression (cfg : build_config) (ctx : context) (a : automaton)
    (expr : parsed_expr) (b : boundary_states) :
    Except build_error (context × automaton) :=
  if ctx.expression_nesting > MAX_EXPRESSION_NESTING then .error .nested_too_deeply
  else
    let ctx := ctx.enter_expression
    match expr with
    | .PARSED_CHOICE operand =>
      match build_body_expression_choice cfg ctx a operand b with
      | .error e => .error e
      | .ok (ctx, a) => .ok (ctx.leave_expression, a)
    | .PARSED_CONCATENATION operand =>
      let inner : boundary_states := { entry := ctx.next_state, exit := 0 }
      let ctx := { ctx with next_state := ctx.next_state + 1 }
      let a := automaton_add_transition a b.entry inner.entry .SYMBOL_EPSILON
      match build_body_expression_concatenation cfg ctx a operand inner with
      | .error e => .error e
      | .ok (ctx, a, inner) =>
        let a := automaton_add_transition a inner.exit b.exit .SYMBOL_EPSILON
        .ok (ctx.leave_expression, a)
    | .PARSED_IDENT identifier rename =>
      let rule_name := identifier
      let slot_name :=
        match rename with
        | none => rule_name
        | some name => name
      match find_rule ctx rule_name with
      | none => .error .unknown_rule_or_token
      | some rule_index =>
        if ctx.bracket_nesting = 0 ∧ rule_index ≤ ctx.rule_index then
          if rule_index = ctx.rule_index then .error .self_reference
          else .error .earlier_rule_reference
        else
          match add_slot cfg ctx ctx.current_rule slot_name rule_index with
          | .error e => .error e
          | .ok (ctx, r, slot_index) =>
            let ctx := ctx.set_current_rule r
            let a := automaton_add_transition a b.entry b.exit
              (.issued (r.slots.getD slot_index slot.zero).symbol)
            .ok (ctx.leave_expression, a)
    | .PARSED_LITERAL string =>
      match add_keyword_token ctx ctx.current_rule string .TOKEN_NORMAL with
      | .error e => .error e
      | .ok (ctx, r, symbol) =>
        let ctx := ctx.set_current_rule r
        let a := automaton_add_transition a b.entry b.exit symbol
        .ok (ctx.leave_expression, a)
    | .PARSED_PARENS parens =>
      match build_body_expression cfg ctx a parens b with
      | .error e => .error e
      | .ok (ctx, a) => .ok (ctx.leave_expression, a)
    | .PARSED_BRACKETED bracket_expr begin_token end_token =>
      let r := ctx.current_rule
      let bracket_index := r.brackets.length
      let ctx := ctx.set_current_rule { r with brackets := r.brackets ++ [bracket.zero] }
      match build_body_expression_bracket cfg ctx bracket_expr with
      | .error e => .error e
      | .ok (ctx, bracket_automaton) =>
        let symbol := ctx.next_symbol
        let ctx := { ctx with next_symbol := ctx.next_symbol + 1 }
        match add_keyword_token ctx ctx.current_rule begin_token .TOKEN_START with
        | .error e => .error e
        | .ok (ctx, r, start_symbol) =>
          let ctx := ctx.set_current_rule r
          match add_keyword_token ctx ctx.current_rule end_token .TOKEN_END with
          | .error e => .error e
          | .ok (ctx, r, end_symbol) =>
            let filled : bracket :=
              { automaton := bracket_automaton, symbol := symbol,
                start_symbol := start_symbol, end_symbol := end_symbol }
            let ctx := ctx.set_current_rule
              { r with brackets := r.brackets.set bracket_index filled }
            if start_symbol = .SYMBOL_EPSILON then .error .invalid_start_keyword
            else if end_symbol = .SYMBOL_EPSILON then .error .invalid_end_keyword
            else
              let a := automaton_add_transition a b.entry b.exit (.issued symbol)
              .ok (ctx.leave_expression, a)
    | .PARSED_ZERO_OR_MORE operand =>
      match connect_expression_with
          (fun c a1 b1 => build_body_expression cfg c a1 operand b1) ctx a b with
      | .error e => .error e
      | .ok (ctx, a, inner) =>
        let a := automaton_add_transition a inner.exit inner.entry .SYMBOL_EPSILON
        let a := automaton_add_transition a b.entry b.exit .SYMBOL_EPSILON
        .ok (ctx.leave_expression, a)
    | .PARSED_ONE_OR_MORE operand =>
      match connect_expression_with
          (fun c a1 b1 => build_body_expression cfg c a1 operand b1) ctx a b with
      | .error e => .error e
      | .ok (ctx, a, inner) =>
        let a := automaton_add_transition a inner.exit inner.entry .SYMBOL_EPSILON
        .ok (ctx.leave_expression, a)
    | .PARSED_OPTIONAL operand =>
      match connect_expression_with
          (fun c a1 b1 => build_body_expression cfg c a1 operand b1) ctx a b with
      | .error e => .error e
      | .ok (ctx, a, _) =>
        let a := automaton_add_transition a b.entry b.exit .SYMBOL_EPSILON
        .ok (ctx.leave_expression, a)
/-- The automaton of a bracket in the `PARSED_BRACKETED` case: the one-state
automaton of an empty bracket body, or the nested `build_body_automaton` of the
body with `bracket_nesting` raised for its duration. -/
def build_body_expression_bracket (cfg : build_config) (ctx : context)
    (bracket_expr : parsed_expr_list) : Except build_error (context × automaton) :=
  match bracket_expr with
  | .empty =>
    .ok (ctx, automaton_mark_accepting_state
           (automaton_set_start_state bracket.zero.automaton 0) 0)
  | .cons inner_expr _ =>
    let ctx := { ctx with bracket_nesting := ctx.bracket_nesting + 1 }
    match build_body_automaton_with cfg
        (fun c a1 b1 => build_body_expression cfg c a1 inner_expr b1) ctx with
    | .error e => .error e
    | .ok (ctx, bracket_automaton) =>
      .ok ({ ctx with bracket_nesting := ctx.bracket_nesting - 1 }, bracket_automaton)
/-- The `while (!choice.empty)` loop of the `PARSED_CHOICE` case. -/
def build_body_expression_choice (cfg : build_config) (ctx : context) (a : automaton)
    (choice : parsed_expr_list) (b : boundary_states) :
    Except build_error (context × automaton) :=
  match choice with
  | .empty => .ok (ctx, a)
  | .cons head next =>
    match connect_expression_with
        (fun c a1 b1 => build_body_expression cfg c a1 head b1) ctx a b with
    | .error e => .error e
    | .ok (ctx, a, _) => build_body_expression_choice cfg ctx a next b
/-- The `while (!term.empty)` loop of the `PARSED_CONCATENATION` case; it
returns the boundary `inner` as the loop leaves it. -/
def build_body_expression_concatenation (cfg : build_config) (ctx : context)
    (a : automaton) (term : parsed_expr_list) (inner : boundary_states) :
    Except build_error (context × automaton × boundary_states) :=
  match term with
  | .empty => .ok (ctx, a, inner)
  | .cons head next =>
    let inner : boundary_states := { inner with exit := ctx.next_state }
    let ctx := { ctx with next_state := ctx.next_state + 1 }
    match build_body_expression cfg ctx a head inner with
    | .error e => .error e
    | .ok (ctx, a) =>
      let inner : boundary_states := { inner with entry := inner.exit }
      build_body_expression_concatenation cfg ctx a next inner
end

/-- Build a sub-expression between two fresh states and wire them to the outer
boundary by epsilon edges (`connect_expression`). -/
def connect_expression (cfg : build_config) (ctx : context) (a : automaton)
    (expr : parsed_expr) (outer : boundary_states) :
    Except build_error (context × automaton × boundary_states) :=
  connect_expression_with (fun c a1 b1 => build_body_expression cfg c a1 expr b1)
    ctx a outer

/-- Build the automaton of one expression (`build_body_automaton`). -/
def build_body_automaton (cfg : build_config) (ctx : context) (expr : parsed_expr) :
    Except build_error (context × automaton) :=
  build_body_automaton_with cfg
    (fun c a1 b1 => build_body_expression cfg c a1 expr b1) ctx

/-! ## The driver -/

/-- The name test of `CHECK_FOR_DUPLICATE_CLAUSE` against one existing clause. -/
def same_clause_name (existing elem : byte_string) : Bool :=
  if existing.length ≠ elem.length then false
  else if existing ≠ elem then false
  else true

/-- The first loop of `build`: one `add_rule` per declared rule. -/
def build_add_rules : List parsed_rule → context → Except build_error context
  | [], ctx => .ok ctx
  | parsed :: rest, ctx =>
    match add_rule ctx parsed.identifier with
    | (_, none) => .error .multiple_rules
    | (ctx, some _) => build_add_rules rest ctx

/-- The registration pre-pass of `build`: the user rules, the empty-grammar
check and the three implicit token rules. -/
def build_register_rules (tree : List parsed_rule) (ctx : context) :
    Except build_error context :=
  let ctx := { ctx with grammar := { ctx.grammar with root_rule := 0 } }
  match build_add_rules tree ctx with
  | .error e => .error e
  | .ok ctx =>
    if ctx.grammar.rules.length = 0 then .error .empty_grammar
    else
      let ctx := add_token_rule ctx "identifier".toList
      let ctx := add_token_rule ctx "number".toList
      let ctx := add_token_rule ctx "string".toList
      .ok ctx

/-- The choice loop of `build` for the rule being filled in. -/
def build_choices (cfg : build_config) :
    List parsed_clause → context → Except build_error context
  | [], ctx => .ok ctx
  | clause :: rest, ctx =>
    let r := ctx.current_rule
    if r.choices.length ≥ cfg.MAX_NUMBER_OF_CHOICES then .error .too_many_choices
    else if r.choices.any (fun c => same_clause_name c.name clause.identifier) then
      .error .duplicate_choice
    else
      let choice_index := r.choices.length
      let ctx := ctx.set_current_rule
        { r with choices := r.choices ++
            [{ name := clause.identifier, automaton := automaton.zero }] }
      match build_body_automaton cfg ctx clause.expr with
      | .error e => .error e
      | .ok (ctx, built) =>
        let r := ctx.current_rule
        let filled : choice := { name := clause.identifier, automaton := built }
        let ctx := ctx.set_current_rule
          { r with choices := r.choices.set choice_index filled }
        build_choices cfg rest ctx

/-- The operator loop of one `operators` section of `build`. -/
def build_operators_section (cfg : build_config) (rule_fixity : fixity)
    (rule_associativity : Nat) (precedence : Int) :
    List parsed_clause → context → Except build_error context
  | [], ctx => .ok ctx
  | op :: rest, ctx =>
    let r := ctx.current_rule
    if r.operators.length + r.choices.length ≥ cfg.MAX_NUMBER_OF_CHOICES then
      .error .too_many_clauses
    else if r.choices.any (fun c => same_clause_name c.name op.identifier) then
      .error .duplicate_choice
    else if r.operators.any (fun o => same_clause_name o.name op.identifier) then
      .error .duplicate_operator
    else
      let op_index := r.operators.length
      let added : operator :=
        { name := op.identifier, fixity := rule_fixity,
          associativity := rule_associativity, precedence := precedence,
          automaton := automaton.zero }
      let ctx := ctx.set_current_rule { r with operators := r.operators ++ [added] }
      match build_body_automaton cfg ctx op.expr with
      | .error e => .error e
      | .ok (ctx, built) =>
        let r := ctx.current_rule
        let filled : operator := { added with automaton := built }
        let ctx := ctx.set_current_rule
          { r with operators := r.operators.set op_index filled }
        build_operators_section cfg rule_fixity rule_associativity precedence rest ctx

/-- The loop of `build` over the `operators` sections, `precedence` being the
value the next section receives. -/
def build_operators (cfg : build_config) :
    List parsed_operators → Int → context → Except build_error context
  | [], _, ctx => .ok ctx
  | ops :: rest, precedence, ctx =>
    let rule_fixity : fixity :=
      match ops.fixity with
      | .PARSED_PREFIX_OP => .PREFIX
      | .PARSED_POSTFIX_OP => .POSTFIX
      | .PARSED_INFIX_OP => .INFIX
    let rule_associativity : Nat :=
      match ops.assoc with
      | none => 0
      | some .PARSED_LEFT_OP => cfg.LEFT
      | some .PARSED_RIGHT_OP => cfg.RIGHT
      | some .PARSED_FLAT_OP => cfg.FLAT
      | some .PARSED_NONASSOC_OP => cfg.NONASSOC
    match build_operators_section cfg rule_fixity rule_associativity precedence
        ops.operators ctx with
    | .error e => .error e
    | .ok ctx => build_operators cfg rest (precedence - 1) ctx

/-- The last loop of `build` for a rule: the `left` / `right` or `operand` slot
of each operator, in the order of the rule's operators. -/
def build_operand_slots (cfg : build_config) (rule_index : Nat) :
    List operator → context → Except build_error context
  | [], ctx => .ok ctx
  | op :: rest, ctx =>
    if op.fixity = .INFIX ∧ op.associativity ≠ cfg.FLAT then
      match add_slot cfg ctx ctx.current_rule "left".toList rule_index with
      | .error e => .error e
      | .ok (ctx, r, left_index) =>
        let ctx := ctx.set_current_rule { r with left_slot_index := some left_index }
        match add_slot cfg ctx ctx.current_rule "right".toList rule_index with
        | .error e => .error e
        | .ok (ctx, r, right_index) =>
          let ctx := ctx.set_current_rule { r with right_slot_index := some right_index }
          build_operand_slots cfg rule_index rest ctx
    else
      match add_slot cfg ctx ctx.current_rule "operand".toList rule_index with
      | .error e => .error e
      | .ok (ctx, r, operand_index) =>
        let ctx := ctx.set_current_rule { r with operand_slot_index := some operand_index }
        build_operand_slots cfg rule_index rest ctx

/-- One round of the main loop of `build`: fill in the rule of one declared
rule. -/
def build_fill_rule (cfg : build_config) (parsed : parsed_rule) (ctx : context) :
    Except build_error context :=
  match find_rule ctx parsed.identifier with
  | none => .error .aborted
  | some rule_index =>
    let ctx := { ctx with rule_index := rule_index, next_symbol := 0 }
    match parsed.body with
    | .simple expr =>
      match build_body_automaton cfg ctx expr with
      | .error e => .error e
      | .ok (ctx, built) =>
        .ok (ctx.set_current_rule { ctx.current_rule with automaton := built })
    | .clauses choices operators =>
      match build_choices cfg choices ctx with
      | .error e => .error e
      | .ok ctx =>
        match build_operators cfg operators (-1) ctx with
        | .error e => .error e
        | .ok ctx => build_operand_slots cfg rule_index ctx.current_rule.operators ctx

/-- The main loop of `build` over the declared rules. -/
def build_fill_rules (cfg : build_config) :
    List parsed_rule → context → Except build_error context
  | [], ctx => .ok ctx
  | parsed :: rest, ctx =>
    match build_fill_rule cfg parsed ctx with
    | .error e => .error e
    | .ok ctx => build_fill_rules cfg rest ctx

/-- The zeroed context `build` starts from, around the grammar it is handed. -/
def context.initial (g : Owl.grammar) : context :=
  { grammar := g, rule_index := 0, next_symbol := 0, next_state := 0,
    bracket_nesting := 0, expression_nesting := 0 }

/-- Compile a parsed grammar into the grammar structure (`build`). -/
def build (cfg : build_config) (g : grammar) (tree : List parsed_rule) :
    Except build_error grammar :=
  match build_register_rules tree (context.initial g) with
  | .error e => .error e
  | .ok ctx =>
    match build_fill_rules cfg tree ctx with
    | .error e => .error e
    | .ok ctx => .ok ctx.grammar

/-- The empty grammar a caller hands to `build`. -/
def grammar.zero : grammar :=
  { rules := [], root_rule := 0 }

/-! ## Runners used to state the properties -/

/-- The calls `add_slot(name, target)` made `n` times in a row: the state after
the last call and the slot indices returned, in call order. -/
def add_slot_repeat (cfg : build_config) (slot_name : byte_string)
    (referenced_rule_index : Nat) :
    Nat → context → rule → Except build_error (context × rule × List Nat)
  | 0, ctx, r => .ok (ctx, r, [])
  | n + 1, ctx, r =>
    match add_slot cfg ctx r slot_name referenced_rule_index with
    | .error e => .error e
    | .ok (ctx, r, slot_index) =>
      match add_slot_repeat cfg slot_name referenced_rule_index n ctx r with
      | .error e => .error e
      | .ok (ctx, r, indices) => .ok (ctx, r, slot_index :: indices)


/-- The configuration the worked examples run with: room for 48 clauses and 256
slots, `FLAT` as the zero enumerator, and a determinizer that hands the NFA
back as it is. -/
def example_config : build_config :=
  { MAX_NUMBER_OF_CHOICES := 48, MAX_NUMBER_OF_SLOTS := 256, LEFT := 1, RIGHT := 2,
    FLAT := 0, NONASSOC := 3, determinize_minimize := id }


/-- A keyword literal as the parse tree holds it: the text between two
single-quote delimiters. -/
def quoted (text : byte_string) : byte_string :=
  Char.ofNat 39 :: text ++ [Char.ofNat 39]
/-- The context after `add_rule` has appended a rule of the name. -/
def context.with_new_rule (ctx : context) (r : rule) : context :=
  { ctx with grammar := { ctx.grammar with rules := ctx.grammar.rules ++ [r] } }

/-- One call on the rule registry. -/
inductive registry_call where
  | add_rule (name : byte_string)
  | add_token_rule (name : byte_string)

/-- The registry after one call, whether the call succeeds or fails. -/
def run_registry_call (ctx : context) : registry_call → context
  | .add_rule name => (add_rule ctx name).1
  | .add_token_rule name => add_token_rule ctx name

/-- The registry after a sequence of calls. -/
def run_registry_calls (ctx : context) (calls : List registry_call) : context :=
  calls.foldl run_registry_call ctx

/-- The names held by the registry, by rule index. -/
def context.rule_names (ctx : context) : List byte_string :=
  ctx.grammar.rules.map (fun r => r.name)

/-- The names of the implicit token rules, in the order `build` adds them. -/
def implicit_token_rule_names : List byte_string :=
  ["identifier".toList, "number".toList, "string".toList]

/-- The rule list the registration pre-pass produces for a list of declared
names: the declared rules in order, then the implicit token rules that no
declared rule is named. -/
def registered_rules (names : List byte_string) : List rule :=
  names.map rule.fresh ++
  (implicit_token_rule_names.filter (fun n => decide (n ∉ names))).map
    (fun n => { rule.fresh n with is_token := true })

/-- The context `build` holds after the registration pre-pass on declared rules
of the given names, from the empty grammar. -/
def registered_context (names : List byte_string) : context :=
  { context.initial grammar.zero with
      grammar := { rules := registered_rules names, root_rule := 0 } }

/-- A sequence of `add_keyword_token` calls on one rule, each with its quoted
keyword and role: the state after the last call, or the first error. -/
def add_keyword_tokens :
    List (byte_string × token_type) → context → rule → Except build_error (context × rule)
  | [], ctx, r => .ok (ctx, r)
  | (keyword, type) :: rest, ctx, r =>
    match add_keyword_token ctx r keyword type with
    | .error e => .error e
    | .ok (ctx, r, _) => add_keyword_tokens rest ctx r

/-- What filling in a rule leaves in place: the index of the rule being filled
in, the root rule, the name of every rule, and every rule other than the one
being filled in. -/
def context.frame (c1 c2 : context) : Prop :=
  c2.rule_index = c1.rule_index ∧
  c2.grammar.root_rule = c1.grammar.root_rule ∧
  c2.grammar.rules.map (fun r => r.name) = c1.grammar.rules.map (fun r => r.name) ∧
  ∀ j : Nat, j ≠ c1.rule_index → c2.grammar.rule_at j = c1.grammar.rule_at j

/-- The frame together with the two nesting counters, which every completed
call restores. -/
def context.preserved (c1 c2 : context) : Prop :=
  c1.frame c2 ∧ c2.bracket_nesting = c1.bracket_nesting ∧
  c2.expression_nesting = c1.expression_nesting

/-- The statement that compiling an expression stays inside the frame. -/
def expression_preserved (expr : parsed_expr) : Prop :=
  ∀ (cfg : build_config) (ctx : context) (a : automaton) (b : boundary_states)
    (c1 : context) (a1 : automaton),
    build_body_expression cfg ctx a expr b = .ok (c1, a1) → ctx.preserved c1

/-- The statement that the three loops over a chain of sibling expressions (the
choice loop, the concatenation loop and the bracket body) stay inside the
frame. -/
def expression_list_preserved (l : parsed_expr_list) : Prop :=
  (∀ (cfg : build_config) (ctx : context) (a : automaton) (b : boundary_states)
      (c1 : context) (a1 : automaton),
      build_body_expression_choice cfg ctx a l b = .ok (c1, a1) → ctx.preserved c1) ∧
  (∀ (cfg : build_config) (ctx : context) (a : automaton) (inner : boundary_states)
      (c1 : context) (a1 : automaton) (inner1 : boundary_states),
      build_body_expression_concatenation cfg ctx a l inner = .ok (c1, a1, inner1) →
      ctx.preserved c1) ∧
  (∀ (cfg : build_config) (ctx c1 : context) (a1 : automaton),
      build_body_expression_bracket cfg ctx l = .ok (c1, a1) → ctx.preserved c1)

mutual
/-- The nesting depth of an expression: the largest number of
`build_body_expression` activations that are live at once while it is compiled,
the sub-build of a bracket body included. -/
def parsed_expr.nesting_depth : parsed_expr → Nat
  | .PARSED_CHOICE operand => 1 + operand.nesting_depth
  | .PARSED_CONCATENATION operand => 1 + operand.nesting_depth
  | .PARSED_IDENT _ _ => 1
  | .PARSED_LITERAL _ => 1
  | .PARSED_PARENS expr => 1 + expr.nesting_depth
  | .PARSED_BRACKETED expr _ _ => 1 + expr.head_nesting_depth
  | .PARSED_ZERO_OR_MORE operand => 1 + operand.nesting_depth
  | .PARSED_ONE_OR_MORE operand => 1 + operand.nesting_depth
  | .PARSED_OPTIONAL operand => 1 + operand.nesting_depth
/-- The largest nesting depth among a chain of sibling expressions. -/
def parsed_expr_list.nesting_depth : parsed_expr_list → Nat
  | .empty => 0
  | .cons head next => max head.nesting_depth next.nesting_depth
/-- The nesting depth of the first expression of a chain (the one a bracket
builds), 0 for the empty chain. -/
def parsed_expr_list.head_nesting_depth : parsed_expr_list → Nat
  | .empty => 0
  | .cons head _ => head.nesting_depth
end

/-- An expression wrapped in `n` pairs of parentheses. -/
def nest_parens : Nat → parsed_expr → parsed_expr
  | 0, expr => expr
  | n + 1, expr => .PARSED_PARENS (nest_parens n expr)

/-- The statement that an expression whose nesting depth fits under the cap
never trips the nesting guard. -/
def expression_within_cap (expr : parsed_expr) : Prop :=
  ∀ (cfg : build_config) (ctx : context) (a : automaton) (b : boundary_states),
    ctx.expression_nesting + expr.nesting_depth ≤ MAX_EXPRESSION_NESTING + 1 →
    build_body_expression cfg ctx a expr b ≠ .error .nested_too_deeply

/-- The same statement for the three loops over a chain of sibling
expressions. -/
def expression_list_within_cap (l : parsed_expr_list) : Prop :=
  (∀ (cfg : build_config) (ctx : context) (a : automaton) (b : boundary_states),
      ctx.expression_nesting + l.nesting_depth ≤ MAX_EXPRESSION_NESTING + 1 →
      build_body_expression_choice cfg ctx a l b ≠ .error .nested_too_deeply) ∧
  (∀ (cfg : build_config) (ctx : context) (a : automaton) (inner : boundary_states),
      ctx.expression_nesting + l.nesting_depth ≤ MAX_EXPRESSION_NESTING + 1 →
      build_body_expression_concatenation cfg ctx a l inner ≠ .error .nested_too_deeply) ∧
  (∀ (cfg : build_config) (ctx : context),
      ctx.expression_nesting + l.head_nesting_depth ≤ MAX_EXPRESSION_NESTING + 1 →
      build_body_expression_bracket cfg ctx l ≠ .error .nested_too_deeply)

/-- The statement that an expression that builds has a nesting depth that fits
under the cap. -/
def expression_built_within_cap (expr : parsed_expr) : Prop :=
  ∀ (cfg : build_config) (ctx c1 : context) (a a1 : automaton) (b : boundary_states),
    build_body_expression cfg ctx a expr b = .ok (c1, a1) →
    ctx.expression_nesting + expr.nesting_depth ≤ MAX_EXPRESSION_NESTING + 1

/-- The same statement for the three loops over a chain of sibling
expressions. -/
def expression_list_built_within_cap (l : parsed_expr_list) : Prop :=
  (∀ (cfg : build_config) (ctx c1 : context) (a a1 : automaton) (b : boundary_states),
      build_body_expression_choice cfg ctx a l b = .ok (c1, a1) →
      l.nesting_depth = 0 ∨
      ctx.expression_nesting + l.nesting_depth ≤ MAX_EXPRESSION_NESTING + 1) ∧
  (∀ (cfg : build_config) (ctx c1 : context) (a a1 : automaton)
      (inner inner1 : boundary_states),
      build_body_expression_concatenation cfg ctx a l inner = .ok (c1, a1, inner1) →
      l.nesting_depth = 0 ∨
      ctx.expression_nesting + l.nesting_depth ≤ MAX_EXPRESSION_NESTING + 1) ∧
  (∀ (cfg : build_config) (ctx c1 : context) (a1 : automaton),
      build_body_expression_bracket cfg ctx l = .ok (c1, a1) →
      l.head_nesting_depth = 0 ∨
      ctx.expression_nesting + l.head_nesting_depth ≤ MAX_EXPRESSION_NESTING + 1)

/-- What the compilation of an expression leaves in place in the rule being
filled in: its name, its token flag, its choices and operators, its three
operand slot indices and its automaton; its slots only grow at the end. -/
def rule.clauses_kept (r1 r2 : rule) : Prop :=
  r2.name = r1.name ∧ r2.is_token = r1.is_token ∧ r2.choices = r1.choices ∧
  r2.operators = r1.operators ∧ r2.operand_slot_index = r1.operand_slot_index ∧
  r2.left_slot_index = r1.left_slot_index ∧ r2.right_slot_index = r1.right_slot_index ∧
  r2.automaton = r1.automaton ∧ ∃ extra : List slot, r2.slots = r1.slots ++ extra

/-- The same relation between the rules two contexts are filling in. -/
def context.clauses_kept (c1 c2 : context) : Prop :=
  c1.current_rule.clauses_kept c2.current_rule

/-- The statement that compiling an expression keeps the clauses of the rule
being filled in. -/
def expression_clauses_kept (expr : parsed_expr) : Prop :=
  ∀ (cfg : build_config) (ctx : context) (a : automaton) (b : boundary_states)
    (c1 : context) (a1 : automaton),
    build_body_expression cfg ctx a expr b = .ok (c1, a1) → ctx.clauses_kept c1

/-- The same statement for the three loops over a chain of sibling
expressions. -/
def expression_list_clauses_kept (l : parsed_expr_list) : Prop :=
  (∀ (cfg : build_config) (ctx : context) (a : automaton) (b : boundary_states)
      (c1 : context) (a1 : automaton),
      build_body_expression_choice cfg ctx a l b = .ok (c1, a1) → ctx.clauses_kept c1) ∧
  (∀ (cfg : build_config) (ctx : context) (a : automaton) (inner : boundary_states)
      (c1 : context) (a1 : automaton) (inner1 : boundary_states),
      build_body_expression_concatenation cfg ctx a l inner = .ok (c1, a1, inner1) →
      ctx.clauses_kept c1) ∧
  (∀ (cfg : build_config) (ctx c1 : context) (a1 : automaton),
      build_body_expression_bracket cfg ctx l = .ok (c1, a1) → ctx.clauses_kept c1)

/-- What the clause loops of `build` leave in place in the rule being filled in:
its name and its three operand slot indices; its slots only grow at the end. -/
def rule.indices_kept (r1 r2 : rule) : Prop :=
  r2.name = r1.name ∧ r2.operand_slot_index = r1.operand_slot_index ∧
  r2.left_slot_index = r1.left_slot_index ∧ r2.right_slot_index = r1.right_slot_index ∧
  ∃ extra : List slot, r2.slots = r1.slots ++ extra

/-- What the build records of an operator clause besides its automaton: name,
fixity, associativity and precedence. -/
def operator.declared (o : operator) : byte_string × Owl.fixity × Nat × Int :=
  (o.name, o.fixity, o.associativity, o.precedence)

/-- The names of the choices and of the operators of a rule, in that order. -/
def rule.clause_names (r : rule) : List byte_string :=
  r.choices.map (fun c => c.name) ++ r.operators.map (fun o => o.name)

/-- The fixity an `operators` section declares (the first `switch` of the
operators loop of `build`). -/
def parsed_operators.rule_fixity (ops : parsed_operators) : Owl.fixity :=
  match ops.fixity with
  | .PARSED_PREFIX_OP => .PREFIX
  | .PARSED_POSTFIX_OP => .POSTFIX
  | .PARSED_INFIX_OP => .INFIX

/-- The associativity an `operators` section declares (the second `switch` of
the operators loop of `build`), 0 when the section names none. -/
def parsed_operators.rule_associativity (cfg : build_config) (ops : parsed_operators) : Nat :=
  match ops.assoc with
  | none => 0
  | some .PARSED_LEFT_OP => cfg.LEFT
  | some .PARSED_RIGHT_OP => cfg.RIGHT
  | some .PARSED_FLAT_OP => cfg.FLAT
  | some .PARSED_NONASSOC_OP => cfg.NONASSOC

/-- What the operators loop of `build` records for a list of sections, the
first of which receives `precedence`: one entry per operator, each section one
below the section before it. -/
def declared_operators (cfg : build_config) :
    List parsed_operators → Int → List (byte_string × fixity × Nat × Int)
  | [], _ => []
  | ops :: rest, precedence =>
    ops.operators.map
      (fun op => (op.identifier, ops.rule_fixity, ops.rule_associativity cfg, precedence)) ++
    declared_operators cfg rest (precedence - 1)

/-- The test of the operand slot loop of `build` on one operator: an infix
operator whose associativity is not `FLAT` takes a left and a right operand. -/
def operator.two_sided (cfg : build_config) (o : operator) : Bool :=
  decide (o.fixity = .INFIX ∧ o.associativity ≠ cfg.FLAT)

/-- A slot index of a rule that is set, to a slot of the given name that refers
to the given rule. -/
def rule.slot_is (r : rule) (index : Option Nat) (name : byte_string) (target : Nat) :
    Prop :=
  ∃ i : Nat, index = some i ∧ i < r.slots.length ∧
    (r.slots.getD i slot.zero).name = name ∧
    (r.slots.getD i slot.zero).rule_index = target

/-- The expression grammar
`expr = number : num .operators infix left '+' : add .operators prefix '-' : neg`:
one rule with one choice and two `operators` sections, the first one infix and
left-associative, the second one prefix. -/
def example_expression_tree : List parsed_rule :=
  [⟨"expr".toList, .clauses [⟨"num".toList, .PARSED_IDENT "number".toList none⟩]
      [⟨.PARSED_INFIX_OP, some .PARSED_LEFT_OP,
          [⟨"add".toList, .PARSED_LITERAL (quoted ['+'])⟩]⟩,
       ⟨.PARSED_PREFIX_OP, none, [⟨"neg".toList, .PARSED_LITERAL (quoted ['-'])⟩]⟩]⟩]
mutual
/-- Whether every concatenation of an expression has at least one term; the
body of a guard bracket, which is compiled into an automaton of its own, is not
looked into. -/
def parsed_expr.has_terms : parsed_expr → Bool
  | .PARSED_CHOICE operand => operand.has_terms
  | .PARSED_CONCATENATION .empty => false
  | .PARSED_CONCATENATION (.cons head next) => head.has_terms && next.has_terms
  | .PARSED_IDENT _ _ => true
  | .PARSED_LITERAL _ => true
  | .PARSED_PARENS expr => expr.has_terms
  | .PARSED_BRACKETED _ _ _ => true
  | .PARSED_ZERO_OR_MORE operand => operand.has_terms
  | .PARSED_ONE_OR_MORE operand => operand.has_terms
  | .PARSED_OPTIONAL operand => operand.has_terms
/-- The same test on every expression of a chain of sibling expressions. -/
def parsed_expr_list.has_terms : parsed_expr_list → Bool
  | .empty => true
  | .cons head next => head.has_terms && next.has_terms
end

/-- What a successful fragment build does to the automaton it is handed: the
start state and the accepting states stay, `next_state` does not go down, and
transitions are only added at the end; every added transition leads to the exit
of the boundary or to a state allocated during the build, and, when every
concatenation has a term, starts at the entry of the boundary or at a state
allocated during the build. -/
def fragment_edges (has_terms : Bool) (ctx : context) (a : automaton) (b : boundary_states)
    (c1 : context) (a1 : automaton) : Prop :=
  a1.start_state = a.start_state ∧ a1.accepting_states = a.accepting_states ∧
  ctx.next_state ≤ c1.next_state ∧
  ∃ added : List transition, a1.transitions = a.transitions ++ added ∧
    ∀ t ∈ added,
      (t.target = b.exit ∨ (ctx.next_state ≤ t.target ∧ t.target < c1.next_state)) ∧
      (has_terms = true →
        (t.source = b.entry ∨ (ctx.next_state ≤ t.source ∧ t.source < c1.next_state)))

/-- What a successful run of the concatenation loop does to the automaton: as
for a fragment, where every added transition leads to a state allocated during
the run, and the boundary the loop hands back ends at such a state unless the
chain is empty, in which case it is the boundary the loop was handed. -/
def concatenation_edges (l : parsed_expr_list) (ctx : context) (a : automaton)
    (inner : boundary_states) (c1 : context) (a1 : automaton) (inner1 : boundary_states) :
    Prop :=
  a1.start_state = a.start_state ∧ a1.accepting_states = a.accepting_states ∧
  ctx.next_state ≤ c1.next_state ∧
  (l = .empty → inner1 = inner) ∧
  (l ≠ .empty → ctx.next_state ≤ inner1.exit ∧ inner1.exit < c1.next_state) ∧
  ∃ added : List transition, a1.transitions = a.transitions ++ added ∧
    ∀ t ∈ added,
      (ctx.next_state ≤ t.target ∧ t.target < c1.next_state) ∧
      (l.has_terms = true →
        (t.source = inner.entry ∨ (ctx.next_state ≤ t.source ∧ t.source < c1.next_state)))

/-- The statement that a successful build of an expression only adds
transitions of a fragment. -/
def expression_edges (expr : parsed_expr) : Prop :=
  ∀ (cfg : build_config) (ctx : context) (a : automaton) (b : boundary_states)
    (c1 : context) (a1 : automaton),
    build_body_expression cfg ctx a expr b = .ok (c1, a1) →
    fragment_edges expr.has_terms ctx a b c1 a1

/-- The same statement for the three loops over a chain of sibling expressions;
the bracket body, compiled into an automaton of its own, hands `next_state`
back as it was. -/
def expression_list_edges (l : parsed_expr_list) : Prop :=
  (∀ (cfg : build_config) (ctx : context) (a : automaton) (b : boundary_states)
      (c1 : context) (a1 : automaton),
      build_body_expression_choice cfg ctx a l b = .ok (c1, a1) →
      fragment_edges l.has_terms ctx a b c1 a1) ∧
  (∀ (cfg : build_config) (ctx : context) (a : automaton) (inner : boundary_states)
      (c1 : context) (a1 : automaton) (inner1 : boundary_states),
      build_body_expression_concatenation cfg ctx a l inner = .ok (c1, a1, inner1) →
      concatenation_edges l ctx a inner c1 a1 inner1) ∧
  (∀ (cfg : build_config) (ctx c1 : context) (a1 : automaton),
      build_body_expression_bracket cfg ctx l = .ok (c1, a1) →
      c1.next_state = ctx.next_state)

/-- Modelled from the spec: a run of an automaton.  `reaches ts p w q` holds
when the transitions `ts` lead from state `p` to state `q` while reading the
symbol sequence `w`; an epsilon transition reads nothing.  The code that runs
an automaton is not part of the sources at hand. -/
inductive reaches (ts : List transition) : Nat → List Nat → Nat → Prop
  | done (p : Nat) : reaches ts p [] p
  | epsilon (p q r : Nat) (w : List Nat) :
      (⟨p, q, .SYMBOL_EPSILON⟩ : transition) ∈ ts → reaches ts q w r → reaches ts p w r
  | symbol (p q r s : Nat) (w : List Nat) :
      (⟨p, q, .issued s⟩ : transition) ∈ ts → reaches ts q w r → reaches ts p (s :: w) r

/-- Modelled from the spec: an automaton accepts a symbol sequence when a run
on it leads from the start state to an accepting state. -/
def automaton.accepts (a : automaton) (w : List Nat) : Prop :=
  ∃ f ∈ a.accepting_states, reaches a.transitions a.start_state w f

/-- The grammar `rule = 'a' 'b'`: one rule whose body is the concatenation of
the keywords `a` and `b`. -/
def example_ab_tree : List parsed_rule :=
  [⟨"rule".toList, .simple (.PARSED_CONCATENATION
      (.cons (.PARSED_LITERAL (quoted ['a']))
        (.cons (.PARSED_LITERAL (quoted ['b'])) .empty)))⟩]

/-- The automaton `build_body_automaton` hands to the determinizer for the body
`'a' 'b'` of a rule without tokens: start state 0, accepting state 1, an
epsilon transition into the chain, one transition per keyword, and an epsilon
transition out of it. -/
def example_ab_nfa : automaton :=
  { start_state := 0, accepting_states := [1],
    transitions := [⟨0, 2, .SYMBOL_EPSILON⟩, ⟨2, 3, .issued 0⟩, ⟨3, 4, .issued 1⟩,
      ⟨4, 1, .SYMBOL_EPSILON⟩] }

/-- Modelled from the spec: the language of one transition label, the empty
word for epsilon and the one-symbol word for a symbol. -/
def symbol_language : symbol_id → Language Nat
  | .SYMBOL_EPSILON => 1
  | .issued s => {[s]}

/-- An edge between two states that reads any word of a language. -/
abbrev language_edge := Nat × Language Nat × Nat

/-- A transition as an edge that reads the language of its label. -/
def transition.edge (t : transition) : language_edge :=
  (t.source, symbol_language t.symbol, t.target)

/-- A run over edges labelled by languages: `path es p w q` holds when the edges
`es` lead from state `p` to state `q` while reading `w`, each edge reading one
word of its language. -/
inductive path (es : List language_edge) : Nat → List Nat → Nat → Prop
  | done (p : Nat) : path es p [] p
  | step (p q r : Nat) (L : Language Nat) (u w : List Nat) :
      (p, L, q) ∈ es → u ∈ L → path es q w r → path es p (u ++ w) r

/-- A fragment: edges that lead from an entry state to a different exit state
through internal states only, and read exactly the words of a language on the
way.  Every edge starts at the entry or at an internal state and ends at the
exit or at an internal state; entry and exit are not internal. -/
def fragment (es : List language_edge) (entry exit : Nat) (internal : Nat → Prop)
    (L : Language Nat) : Prop :=
  entry ≠ exit ∧ ¬ internal entry ∧ ¬ internal exit ∧
  (∀ e ∈ es, (e.1 = entry ∨ internal e.1) ∧ (e.2.2 = exit ∨ internal e.2.2)) ∧
  ∀ w : List Nat, path es entry w exit ↔ w ∈ L

mutual
/-- Modelled from the spec: the regular language an expression denotes, for the
symbols the build assigns.  `expression_denotes cfg ctx expr c1 L` reads: the
expression `expr`, compiled from the context `ctx`, leaves the context `c1` and
denotes the language `L`.  A literal denotes the symbol its keyword is interned
with (the empty word for an empty keyword), an identifier reference the symbol
of its slot, a guard bracket the symbol of the bracket; parentheses denote what
they enclose, a choice the union of its alternatives, a concatenation the
product of its terms, `e*` the iteration of `e`, `e+` one `e` followed by the
iteration of `e`, and `e?` the empty word or `e`.  The contexts are threaded as
`build_body_expression` threads them. -/
inductive expression_denotes (cfg : build_config) :
    context → parsed_expr → context → Language Nat → Prop
  | literal (ctx c2 : context) (r2 : rule) (string : byte_string) (symbol : symbol_id) :
      add_keyword_token ctx.enter_expression ctx.current_rule string .TOKEN_NORMAL
        = .ok (c2, r2, symbol) →
      expression_denotes cfg ctx (.PARSED_LITERAL string)
        (c2.set_current_rule r2).leave_expression (symbol_language symbol)
  | ident (ctx c2 : context) (r2 : rule) (identifier : byte_string)
      (rename : Option byte_string) (t i : Nat) :
      find_rule ctx identifier = some t →
      add_slot cfg ctx.enter_expression ctx.current_rule (rename.getD identifier) t
        = .ok (c2, r2, i) →
      expression_denotes cfg ctx (.PARSED_IDENT identifier rename)
        (c2.set_current_rule r2).leave_expression
        (symbol_language (.issued (r2.slots.getD i slot.zero).symbol))
  | bracketed (ctx c1 : context) (a a1 : automaton) (b : boundary_states)
      (bracket_expr : parsed_expr_list) (begin_token end_token : byte_string) (s : Nat) :
      build_body_expression cfg ctx a (.PARSED_BRACKETED bracket_expr begin_token end_token) b
        = .ok (c1, a1) →
      a1 = automaton_add_transition a b.entry b.exit (.issued s) →
      expression_denotes cfg ctx (.PARSED_BRACKETED bracket_expr begin_token end_token) c1
        (symbol_language (.issued s))
  | parens (ctx c2 : context) (expr : parsed_expr) (L : Language Nat) :
      expression_denotes cfg ctx.enter_expression expr c2 L →
      expression_denotes cfg ctx (.PARSED_PARENS expr) c2.leave_expression L
  | choice (ctx c2 : context) (operand : parsed_expr_list) (L : Language Nat) :
      choice_denotes cfg ctx.enter_expression operand c2 L →
      expression_denotes cfg ctx (.PARSED_CHOICE operand) c2.leave_expression L
  | concatenation (ctx c2 : context) (operand : parsed_expr_list) (L : Language Nat) :
      concatenation_denotes cfg
        { ctx.enter_expression with next_state := ctx.next_state + 1 } operand c2 L →
      expression_denotes cfg ctx (.PARSED_CONCATENATION operand) c2.leave_expression L
  | zero_or_more (ctx c2 : context) (operand : parsed_expr) (L : Language Nat) :
      expression_denotes cfg
        { ctx.enter_expression with next_state := ctx.next_state + 1 + 1 } operand c2 L →
      expression_denotes cfg ctx (.PARSED_ZERO_OR_MORE operand) c2.leave_expression
        (KStar.kstar L)
  | one_or_more (ctx c2 : context) (operand : parsed_expr) (L : Language Nat) :
      expression_denotes cfg
        { ctx.enter_expression with next_state := ctx.next_state + 1 + 1 } operand c2 L →
      expression_denotes cfg ctx (.PARSED_ONE_OR_MORE operand) c2.leave_expression
        (L * KStar.kstar L)
  | optional (ctx c2 : context) (operand : parsed_expr) (L : Language Nat) :
      expression_denotes cfg
        { ctx.enter_expression with next_state := ctx.next_state + 1 + 1 } operand c2 L →
      expression_denotes cfg ctx (.PARSED_OPTIONAL operand) c2.leave_expression (1 + L)
/-- The union of the languages of the alternatives of a choice. -/
inductive choice_denotes (cfg : build_config) :
    context → parsed_expr_list → context → Language Nat → Prop
  | empty (ctx : context) : choice_denotes cfg ctx .empty ctx 0
  | cons (ctx c2 c1 : context) (head : parsed_expr) (next : parsed_expr_list)
      (L1 L2 : Language Nat) :
      expression_denotes cfg { ctx with next_state := ctx.next_state + 1 + 1 } head c2 L1 →
      choice_denotes cfg c2 next c1 L2 →
      choice_denotes cfg ctx (.cons head next) c1 (L1 + L2)
/-- The product of the languages of the terms of a concatenation. -/
inductive concatenation_denotes (cfg : build_config) :
    context → parsed_expr_list → context → Language Nat → Prop
  | empty (ctx : context) : concatenation_denotes cfg ctx .empty ctx 1
  | cons (ctx c2 c1 : context) (head : parsed_expr) (next : parsed_expr_list)
      (L1 L2 : Language Nat) :
      expression_denotes cfg { ctx with next_state := ctx.next_state + 1 } head c2 L1 →
      concatenation_denotes cfg c2 next c1 L2 →
      concatenation_denotes cfg ctx (.cons head next) c1 (L1 * L2)
end

/-- What a successful fragment build has added, in terms of runs: the start
state and the accepting states stay, `next_state` does not go down, and the
transitions added at the end form a fragment between the two states of the
boundary, through states allocated during the build, for the language `L`. -/
def built_fragment (ctx : context) (a : automaton) (b : boundary_states) (c1 : context)
    (a1 : automaton) (L : Language Nat) : Prop :=
  ctx.next_state ≤ c1.next_state ∧ a1.start_state = a.start_state ∧
  a1.accepting_states = a.accepting_states ∧
  ∃ added : List transition, a1.transitions = a.transitions ++ added ∧
    fragment (added.map transition.edge) b.entry b.exit
      (fun s => ctx.next_state ≤ s ∧ s < c1.next_state) L

/-- What a successful run of the concatenation loop has added: nothing for the
empty chain, and otherwise a fragment from the entry the loop was handed to the
exit it hands back, which is a state allocated during the run. -/
def built_chain (l : parsed_expr_list) (ctx : context) (a : automaton)
    (inner : boundary_states) (c1 : context) (a1 : automaton) (inner1 : boundary_states)
    (L : Language Nat) : Prop :=
  ctx.next_state ≤ c1.next_state ∧ a1.start_state = a.start_state ∧
  a1.accepting_states = a.accepting_states ∧
  ∃ added : List transition, a1.transitions = a.transitions ++ added ∧
    (l = .empty → inner1 = inner ∧ added = [] ∧ L = 1) ∧
    (l ≠ .empty →
      ctx.next_state ≤ inner1.exit ∧ inner1.exit < c1.next_state ∧
      fragment (added.map transition.edge) inner.entry inner1.exit
        (fun s => ctx.next_state ≤ s ∧ s < c1.next_state ∧ s ≠ inner1.exit) L)

/-- The statement that a successful build of an expression, every concatenation
of which has a term, on a boundary of two different states that are already
allocated, adds a fragment for the language the expression denotes. -/
def expression_fragment (expr : parsed_expr) : Prop :=
  ∀ (cfg : build_config) (ctx : context) (a : automaton) (b : boundary_states)
    (c1 : context) (a1 : automaton),
    expr.has_terms = true → b.entry < ctx.next_state → b.exit < ctx.next_state →
    b.entry ≠ b.exit →
    build_body_expression cfg ctx a expr b = .ok (c1, a1) →
    ∃ L : Language Nat, expression_denotes cfg ctx expr c1 L ∧ built_fragment ctx a b c1 a1 L

/-- The same statement for the choice loop and the concatenation loop. -/
def expression_list_fragment (l : parsed_expr_list) : Prop :=
  (∀ (cfg : build_config) (ctx : context) (a : automaton) (b : boundary_states)
      (c1 : context) (a1 : automaton),
      l.has_terms = true → b.entry < ctx.next_state → b.exit < ctx.next_state →
      b.entry ≠ b.exit →
      build_body_expression_choice cfg ctx a l b = .ok (c1, a1) →
      ∃ L : Language Nat, choice_denotes cfg ctx l c1 L ∧ built_fragment ctx a b c1 a1 L) ∧
  (∀ (cfg : build_config) (ctx : context) (a : automaton) (inner : boundary_states)
      (c1 : context) (a1 : automaton) (inner1 : boundary_states),
      l.has_terms = true → inner.entry < ctx.next_state →
      build_body_expression_concatenation cfg ctx a l inner = .ok (c1, a1, inner1) →
      ∃ L : Language Nat, concatenation_denotes cfg ctx l c1 L ∧
        built_chain l ctx a inner c1 a1 inner1 L)

/-- The statement that an expression compiled from a context denotes one
language only, and leaves one context only. -/
def expression_denotes_once (expr : parsed_expr) : Prop :=
  ∀ (cfg : build_config) (ctx c1 c2 : context) (L1 L2 : Language Nat),
    expression_denotes cfg ctx expr c1 L1 → expression_denotes cfg ctx expr c2 L2 →
    c1 = c2 ∧ L1 = L2

/-- The same statement for the alternatives of a choice and for the terms of a
concatenation. -/
def expression_list_denotes_once (l : parsed_expr_list) : Prop :=
  (∀ (cfg : build_config) (ctx c1 c2 : context) (L1 L2 : Language Nat),
    choice_denotes cfg ctx l c1 L1 → choice_denotes cfg ctx l c2 L2 → c1 = c2 ∧ L1 = L2) ∧
  (∀ (cfg : build_config) (ctx c1 c2 : context) (L1 L2 : Language Nat),
    concatenation_denotes cfg ctx l c1 L1 → concatenation_denotes cfg ctx l c2 L2 →
    c1 = c2 ∧ L1 = L2)

/-! ## The symbol ids of a rule -/

/-- The symbol ids written into the bracket records of a rule, by record index
from `index` on.  `PARSED_BRACKETED` appends the record of a group before it
compiles the body of the group and writes `bracket->symbol` after it; the
records at the `pending` indices, those of the groups whose body is being
compiled, hold no symbol id yet and are left out. -/
def issued_bracket_symbols (pending : List Nat) : List bracket → Nat → List Nat
  | [], _ => []
  | b :: rest, index =>
    if index ∈ pending then issued_bracket_symbols pending rest (index + 1)
    else b.symbol :: issued_bracket_symbols pending rest (index + 1)

/-- The symbol ids a rule holds: those of its slots, of its keyword tokens and
of its brackets, in that order. -/
def rule.held_symbols (r : rule) (pending : List Nat) : List Nat :=
  r.slots.map (fun s => s.symbol) ++ r.keyword_tokens.map (fun t => t.symbol) ++
    issued_bracket_symbols pending r.brackets 0

/-- Symbol ids are unique in the rule being filled in: no two of the ids the
rule holds are equal, and each of them is smaller than `next_symbol`. -/
def context.symbols_unique (ctx : context) (pending : List Nat) : Prop :=
  (ctx.current_rule.held_symbols pending).Nodup ∧
  ∀ x ∈ ctx.current_rule.held_symbols pending, x < ctx.next_symbol

/-- What a run of the code issues between a rule `r1` with counter value `n1`
and the rule `r2` with counter value `n2` it leaves: slot, token and bracket
records are only appended, the counter does not decrease, and the ids of the
appended records are the values `n1`, ..., `n2 - 1` of the counter, each held by
exactly one of the records. -/
def rule.issues (r1 : rule) (n1 : Nat) (r2 : rule) (n2 : Nat) : Prop :=
  n1 ≤ n2 ∧
  ∃ (slots : List slot) (tokens : List token) (brackets : List bracket),
    r2.slots = r1.slots ++ slots ∧
    r2.keyword_tokens = r1.keyword_tokens ++ tokens ∧
    r2.brackets = r1.brackets ++ brackets ∧
    (slots.map (fun s => s.symbol) ++ tokens.map (fun t => t.symbol) ++
      brackets.map (fun b => b.symbol)).Perm (List.range' n1 (n2 - n1))

/-- The same relation between two contexts, on the rule they are filling in
and their `next_symbol` counters. -/
def context.issues (c1 c2 : context) : Prop :=
  c1.current_rule.issues c1.next_symbol c2.current_rule c2.next_symbol

/-- What a completed step does to the rule being filled in: it issues symbol ids
from the counter (`context.issues`) and appends `groups` bracket records. -/
def context.grows (c1 c2 : context) (groups : Nat) : Prop :=
  c1.issues c2 ∧
  c2.current_rule.brackets.length = c1.current_rule.brackets.length + groups

mutual
/-- The number of bracket records the compilation of an expression appends to
the rule: one per `PARSED_BRACKETED` node that is compiled.  Of the body of a
group only the first expression is compiled. -/
def parsed_expr.bracket_groups : parsed_expr → Nat
  | .PARSED_CHOICE operand => operand.bracket_groups
  | .PARSED_CONCATENATION operand => operand.bracket_groups
  | .PARSED_IDENT _ _ => 0
  | .PARSED_LITERAL _ => 0
  | .PARSED_PARENS expr => expr.bracket_groups
  | .PARSED_BRACKETED expr _ _ => 1 + expr.head_bracket_groups
  | .PARSED_ZERO_OR_MORE operand => operand.bracket_groups
  | .PARSED_ONE_OR_MORE operand => operand.bracket_groups
  | .PARSED_OPTIONAL operand => operand.bracket_groups
/-- The number of bracket records a chain of sibling expressions appends. -/
def parsed_expr_list.bracket_groups : parsed_expr_list → Nat
  | .empty => 0
  | .cons head next => head.bracket_groups + next.bracket_groups
/-- The number of bracket records the first expression of a chain appends (the
one a bracket builds), 0 for the empty chain. -/
def parsed_expr_list.head_bracket_groups : parsed_expr_list → Nat
  | .empty => 0
  | .cons head _ => head.bracket_groups
end

/-- The statement that a successful compilation of an expression issues symbol
ids from the counter and appends one bracket record per group. -/
def expression_issues (expr : parsed_expr) : Prop :=
  ∀ (cfg : build_config) (ctx : context) (a : automaton) (b : boundary_states)
    (c1 : context) (a1 : automaton),
    build_body_expression cfg ctx a expr b = .ok (c1, a1) →
    ctx.rule_index < ctx.grammar.rules.length →
    ctx.grows c1 expr.bracket_groups

/-- The same statement for the three loops over a chain of sibling
expressions. -/
def expression_list_issues (l : parsed_expr_list) : Prop :=
  (∀ (cfg : build_config) (ctx : context) (a : automaton) (b : boundary_states)
      (c1 : context) (a1 : automaton),
      build_body_expression_choice cfg ctx a l b = .ok (c1, a1) →
      ctx.rule_index < ctx.grammar.rules.length →
      ctx.grows c1 l.bracket_groups) ∧
  (∀ (cfg : build_config) (ctx : context) (a : automaton) (inner : boundary_states)
      (c1 : context) (a1 : automaton) (inner1 : boundary_states),
      build_body_expression_concatenation cfg ctx a l inner = .ok (c1, a1, inner1) →
      ctx.rule_index < ctx.grammar.rules.length →
      ctx.grows c1 l.bracket_groups) ∧
  (∀ (cfg : build_config) (ctx c1 : context) (a1 : automaton),
      build_body_expression_bracket cfg ctx l = .ok (c1, a1) →
      ctx.rule_index < ctx.grammar.rules.length →
      ctx.grows c1 l.head_bracket_groups)

/-- The bracketed group `[ '(' 'x' ')' ]`: the keyword `x` between the start
keyword `(` and the end keyword `)`. -/
def example_group_expr : parsed_expr :=
  .PARSED_BRACKETED (.cons (.PARSED_LITERAL (quoted ['x'])) .empty)
    (quoted ['(']) (quoted [')'])

/-- The grammar `group = [ '(' 'x' ')' ]`: one rule whose body is the group. -/
def example_group_tree : List parsed_rule :=
  [⟨"group".toList, .simple example_group_expr⟩]

/-- The context in which the build of `example_group_tree` compiles the body of
its rule: `build` has registered the rule and set `rule_index` and
`next_symbol`, and `build_body_automaton` has set `next_state` to 2. -/
def example_group_outer_context : context :=
  { registered_context ["group".toList] with
      rule_index := 0, next_symbol := 0, next_state := 2 }

/-- The context in which the build of `example_group_tree` compiles the body of
its group: the `PARSED_BRACKETED` case of `build_body_expression` has passed the
nesting guard and appended the zeroed bracket record. -/
def example_group_bracket_context : context :=
  example_group_outer_context.enter_expression.set_current_rule
    { example_group_outer_context.enter_expression.current_rule with
        brackets := example_group_outer_context.enter_expression.current_rule.brackets ++
          [bracket.zero] }

/-- The context in which the build of `example_group_tree` makes the nested
`build_body_automaton` call on the body of its group: `bracket_nesting` has been
raised. -/
def example_group_context : context :=
  { example_group_bracket_context with
      bracket_nesting := example_group_bracket_context.bracket_nesting + 1 }

/-- The automaton `build_body_automaton` starts from: start state 0 and accepting
state 1, without transitions. -/
def example_start_automaton : automaton :=
  automaton_mark_accepting_state (automaton_set_start_state automaton.zero 0) 1

/-- The grammar `build` makes of `example_group_tree` with the identity as
determinizer: the keyword `x` holds symbol 0, the group symbol 1, and the start
and end keywords symbols 2 and 3. -/
def example_group_grammar : grammar :=
  { rules :=
      [{ rule.fresh "group".toList with
           brackets :=
             [{ automaton :=
                  { start_state := 0, accepting_states := [1],
                    transitions := [⟨0, 1, .issued 0⟩] },
                symbol := 1, start_symbol := .issued 2, end_symbol := .issued 3 }],
           keyword_tokens :=
             [{ string := ['x'], type := .TOKEN_NORMAL, symbol := 0 },
              { string := ['('], type := .TOKEN_START, symbol := 2 },
              { string := [')'], type := .TOKEN_END, symbol := 3 }],
           automaton :=
             { start_state := 0, accepting_states := [1],
               transitions := [⟨0, 1, .issued 1⟩] } },
       { rule.fresh "identifier".toList with is_token := true },
       { rule.fresh "number".toList with is_token := true },
       { rule.fresh "string".toList with is_token := true }],
    root_rule := 0 }
/-! ## Slot resolver: properties -/

/-- The scan of `add_slot` stops at the first slot of the name or at the end. -/
theorem add_slot_scan_bounds (name : byte_string) (target : Nat) (slots : List slot)
    (start j : Nat) (h : add_slot_scan name target slots start = .ok j) :
    start ≤ j ∧ j ≤ start + slots.length := by
  induction slots generalizing start with
  | nil =>
    simp only [add_slot_scan, Except.ok.injEq] at h
    subst h; simp
  | cons s rest ih =>
    simp only [add_slot_scan] at h
    split at h
    · have := ih _ h; simp only [List.length_cons]; omega
    · split at h
      · have := ih _ h; simp only [List.length_cons]; omega
      · split at h
        · cases h
        · simp only [Except.ok.injEq] at h; subst h; simp

/-- A scan that stops inside the slot list stops the same way when more slots
follow, for the same requested target. -/
theorem add_slot_scan_append_found (name : byte_string) (target : Nat)
    (slots extra : List slot) (start j : Nat)
    (h : add_slot_scan name target slots start = .ok j) (hj : j < start + slots.length) :
    add_slot_scan name target (slots ++ extra) start = .ok j := by
  induction slots generalizing start with
  | nil =>
    simp only [add_slot_scan, Except.ok.injEq] at h
    simp only [List.length_nil] at hj
    omega
  | cons s rest ih =>
    simp only [add_slot_scan] at h
    simp only [List.cons_append, add_slot_scan]
    split at h
    · rename_i h1
      rw [if_pos h1]
      exact ih _ h (by simp only [List.length_cons] at hj; omega)
    · rename_i h1
      rw [if_neg h1]
      split at h
      · rename_i h2
        rw [if_pos h2]
        exact ih _ h (by simp only [List.length_cons] at hj; omega)
      · rename_i h2
        rw [if_neg h2]
        split at h
        · cases h
        · rename_i h3
          rw [if_neg h3]; exact h

/-- A scan that runs off the end of the slot list met no slot of the name, so it
stops at a slot of that name appended right behind. -/
theorem add_slot_scan_append_new (name : byte_string) (target : Nat)
    (slots : List slot) (start symbol : Nat)
    (h : add_slot_scan name target slots start = .ok (start + slots.length)) :
    add_slot_scan name target
      (slots ++ [{ name := name, symbol := symbol, rule_index := target }]) start
      = .ok (start + slots.length) := by
  induction slots generalizing start with
  | nil => simp [add_slot_scan]
  | cons s rest ih =>
    simp only [add_slot_scan] at h
    simp only [List.cons_append, add_slot_scan]
    split at h
    · rename_i h1
      rw [if_pos h1]
      have e : start + (s :: rest).length = (start + 1) + rest.length := by
        simp only [List.length_cons]; omega
      rw [e] at h ⊢
      exact ih _ h
    · rename_i h1
      rw [if_neg h1]
      split at h
      · rename_i h2
        rw [if_pos h2]
        have e : start + (s :: rest).length = (start + 1) + rest.length := by
          simp only [List.length_cons]; omega
        rw [e] at h ⊢
        exact ih _ h
      · split at h
        · cases h
        · simp only [Except.ok.injEq, List.length_cons] at h; omega

/-- Where the scan for one target stops inside the slot list, the scan for a
different target fails with the slot conflict. -/
theorem add_slot_scan_conflict (name : byte_string) (t1 t2 : Nat) (hne : t1 ≠ t2)
    (slots : List slot) (start j : Nat)
    (h : add_slot_scan name t1 slots start = .ok j) (hj : j < start + slots.length) :
    add_slot_scan name t2 slots start = .error .slot_conflict := by
  induction slots generalizing start with
  | nil =>
    simp only [add_slot_scan, Except.ok.injEq] at h
    simp only [List.length_nil] at hj
    omega
  | cons s rest ih =>
    simp only [add_slot_scan] at h ⊢
    split at h
    · rename_i h1
      rw [if_pos h1]
      exact ih _ h (by simp only [List.length_cons] at hj; omega)
    · rename_i h1
      rw [if_neg h1]
      split at h
      · rename_i h2
        rw [if_pos h2]
        exact ih _ h (by simp only [List.length_cons] at hj; omega)
      · rename_i h2
        rw [if_neg h2]
        split at h
        · cases h
        · rename_i h3
          have : s.rule_index ≠ t2 := by
            intro h4; apply hne; rw [← h4]; exact (not_not.mp h3).symm
          rw [if_pos this]

/-- What a successful `add_slot` leaves behind: a slot list on which the scan
for the same name and target stops at the returned index, inside the list. -/
theorem add_slot_ok_scan (cfg : build_config) (ctx ctx1 : context) (r r1 : rule)
    (name : byte_string) (target i : Nat)
    (h : add_slot cfg ctx r name target = .ok (ctx1, r1, i)) :
    add_slot_scan name target r1.slots 0 = .ok i ∧ i < r1.slots.length := by
  unfold add_slot at h
  split at h
  · cases h
  · rename_i j hscan
    have hb := add_slot_scan_bounds _ _ _ _ _ hscan
    split at h
    · rename_i hge
      have hj : j = 0 + r.slots.length := by omega
      split at h
      · cases h
      · simp only [Except.ok.injEq, Prod.mk.injEq] at h
        obtain ⟨_, hr, hi⟩ := h
        subst hr; subst hi
        subst hj
        constructor
        · exact add_slot_scan_append_new _ _ _ _ _ hscan
        · simp
    · rename_i hlt
      simp only [Except.ok.injEq, Prod.mk.injEq] at h
      obtain ⟨_, hr, hi⟩ := h
      subst hr; subst hi
      exact ⟨hscan, by omega⟩

/-- C3: `add_slot` is idempotent.  When `add_slot` succeeds for a name and a
target rule and returns slot index `i`, calling it again with the same name and
target on the resulting context and rule returns `i` again and hands back that
context and rule unchanged (so the slot list, entry by entry, and `next_symbol`
stay as they were); any number of repetitions returns `i` every time and ends
in that same state. -/
theorem C3_add_slot_idempotent (cfg : build_config) (ctx ctx1 : context) (r r1 : rule)
    (name : byte_string) (target i : Nat)
    (h : add_slot cfg ctx r name target = .ok (ctx1, r1, i)) :
    add_slot cfg ctx1 r1 name target = .ok (ctx1, r1, i) ∧
    ∀ n : Nat,
      add_slot_repeat cfg name target n ctx1 r1 = .ok (ctx1, r1, List.replicate n i) := by
  obtain ⟨hscan, hi⟩ := add_slot_ok_scan cfg ctx ctx1 r r1 name target i h
  have hfix : add_slot cfg ctx1 r1 name target = .ok (ctx1, r1, i) := by
    unfold add_slot
    rw [hscan]
    simp only [ge_iff_le]
    rw [if_neg (by omega)]
  refine ⟨hfix, ?_⟩
  intro n
  induction n with
  | zero => rfl
  | succ k ih => simp only [add_slot_repeat, hfix, ih, List.replicate_succ]

/-- The conflict half of `add_slot`: once a slot of the name is held for one
target, a request for another target fails, whatever slots follow it. -/
theorem add_slot_conflict_after (cfg cfg2 : build_config) (ctx ctx1 ctx2 : context)
    (r r1 r2 : rule) (name : byte_string) (t1 t2 i : Nat) (extra : List slot)
    (hne : t1 ≠ t2) (h : add_slot cfg ctx r name t1 = .ok (ctx1, r1, i))
    (hr2 : r2.slots = r1.slots ++ extra) :
    add_slot cfg2 ctx2 r2 name t2 = .error .slot_conflict := by
  obtain ⟨hscan, hi⟩ := add_slot_ok_scan cfg ctx ctx1 r r1 name t1 i h
  have h1 := add_slot_scan_append_found name t1 r1.slots extra 0 i hscan (by omega)
  have h2 := add_slot_scan_conflict name t1 t2 hne (r1.slots ++ extra) 0 i h1
    (by simp only [List.length_append]; omega)
  unfold add_slot
  rw [hr2, h2]

/-- C4: the same slot name with two different target rules is a slot conflict,
in either call order.  From any rule state, after `add_slot(name, t1)` has
succeeded the call `add_slot(name, t2)` with `t2 ≠ t1` fails with the
slot-conflict error, and after `add_slot(name, t2)` has succeeded the call
`add_slot(name, t1)` fails with it; the failure stands whatever slots the rule
held before and whatever slots were appended in between. -/
theorem C4_add_slot_conflict (cfg : build_config) (ctx : context) (r : rule)
    (name : byte_string) (t1 t2 : Nat) (hne : t1 ≠ t2) :
    (∀ (ctx1 ctx2 : context) (r1 r2 : rule) (i : Nat) (extra : List slot),
        add_slot cfg ctx r name t1 = .ok (ctx1, r1, i) →
        r2 = { r1 with slots := r1.slots ++ extra } →
        add_slot cfg ctx2 r2 name t2 = .error .slot_conflict) ∧
    (∀ (ctx1 ctx2 : context) (r1 r2 : rule) (i : Nat) (extra : List slot),
        add_slot cfg ctx r name t2 = .ok (ctx1, r1, i) →
        r2 = { r1 with slots := r1.slots ++ extra } →
        add_slot cfg ctx2 r2 name t1 = .error .slot_conflict) := by
  constructor
  · intro ctx1 ctx2 r1 r2 i extra h hr2
    exact add_slot_conflict_after cfg cfg ctx ctx1 ctx2 r r1 r2 name t1 t2 i extra hne h
      (by rw [hr2])
  · intro ctx1 ctx2 r1 r2 i extra h hr2
    exact add_slot_conflict_after cfg cfg ctx ctx1 ctx2 r r1 r2 name t2 t1 i extra
      (Ne.symm hne) h (by rw [hr2])

theorem C3_add_slot_idempotent_witness :
    add_slot example_config (context.initial grammar.zero) (rule.fresh ['a']) ['x'] 1
      = .ok ({ context.initial grammar.zero with next_symbol := 1 },
             { rule.fresh ['a'] with slots := [{ name := ['x'], symbol := 0, rule_index := 1 }] },
             0) ∧
    add_slot_repeat example_config ['x'] 1 3
        { context.initial grammar.zero with next_symbol := 1 }
        { rule.fresh ['a'] with slots := [{ name := ['x'], symbol := 0, rule_index := 1 }] }
      = .ok ({ context.initial grammar.zero with next_symbol := 1 },
             { rule.fresh ['a'] with slots := [{ name := ['x'], symbol := 0, rule_index := 1 }] },
             [0, 0, 0]) :=
  ⟨by decide,
   (C3_add_slot_idempotent example_config (context.initial grammar.zero) _ (rule.fresh ['a']) _
      ['x'] 1 0 (by decide)).2 3⟩

theorem C4_add_slot_conflict_witness :
    (1 : Nat) ≠ 2 ∧
    add_slot example_config (context.initial grammar.zero)
      { rule.fresh ['a'] with slots :=
          [{ name := ['x'], symbol := 0, rule_index := 1 },
           { name := ['y'], symbol := 1, rule_index := 3 }] } ['x'] 2
      = .error .slot_conflict :=
  ⟨by decide,
   (C4_add_slot_conflict example_config (context.initial grammar.zero) (rule.fresh ['a'])
      ['x'] 1 2 (by decide)).1
      { context.initial grammar.zero with next_symbol := 1 } (context.initial grammar.zero)
      { rule.fresh ['a'] with slots := [{ name := ['x'], symbol := 0, rule_index := 1 }] }
      _ 0 [{ name := ['y'], symbol := 1, rule_index := 3 }] (by decide) rfl⟩

/-! ## Rule registry: properties -/

/-- The two tests of the `find_rule` loop amount to equality of the names. -/
theorem find_rule_from_cons (name : byte_string) (r : rule) (rest : List rule) (i : Nat) :
    find_rule_from name (r :: rest) i =
      if r.name = name then some i else find_rule_from name rest (i + 1) := by
  simp only [find_rule_from]
  by_cases h : r.name = name
  · simp [h]
  · simp [h]

theorem find_rule_from_none_iff (name : byte_string) (rules : List rule) (i : Nat) :
    find_rule_from name rules i = none ↔ name ∉ rules.map (fun r => r.name) := by
  induction rules generalizing i with
  | nil => simp [find_rule_from]
  | cons r rest ih =>
    rw [find_rule_from_cons]
    by_cases h : r.name = name
    · simp [h]
    · rw [if_neg h, ih]
      simp only [List.map_cons, List.mem_cons, not_or]
      constructor
      · intro h2; exact ⟨fun e => h e.symm, h2⟩
      · intro h2; exact h2.2

theorem find_rule_from_some (name : byte_string) (rules : List rule) (i j : Nat)
    (h : find_rule_from name rules i = some j) :
    i ≤ j ∧ j < i + rules.length ∧ (rules.getD (j - i) (rule.fresh [])).name = name := by
  induction rules generalizing i with
  | nil => simp [find_rule_from] at h
  | cons r rest ih =>
    rw [find_rule_from_cons] at h
    by_cases hn : r.name = name
    · rw [if_pos hn] at h
      simp only [Option.some.injEq] at h
      subst h
      simp [hn]
    · rw [if_neg hn] at h
      obtain ⟨h1, h2, h3⟩ := ih _ h
      refine ⟨by omega, by simp only [List.length_cons]; omega, ?_⟩
      have e : j - i = (j - (i + 1)) + 1 := by omega
      rw [e]
      simpa using h3

theorem find_rule_from_append (name : byte_string) (l l2 : List rule) (i : Nat) :
    find_rule_from name (l ++ l2) i =
      match find_rule_from name l i with
      | some j => some j
      | none => find_rule_from name l2 (i + l.length) := by
  induction l generalizing i with
  | nil => simp [find_rule_from]
  | cons r rest ih =>
    simp only [List.cons_append]
    rw [find_rule_from_cons, find_rule_from_cons]
    by_cases hn : r.name = name
    · simp [hn]
    · rw [if_neg hn, if_neg hn, ih]
      have e : i + 1 + rest.length = i + (r :: rest).length := by
        simp only [List.length_cons]; omega
      rw [e]

/-- An index found by `find_rule` lies below the rule count, so the test of
`add_rule` separates "found" from "not found". -/
theorem index_below_find_rule (ctx : context) (name : byte_string) :
    index_below (find_rule ctx name) ctx.grammar.rules.length
      = decide (name ∈ ctx.grammar.rules.map (fun r => r.name)) := by
  unfold find_rule
  cases h : find_rule_from name ctx.grammar.rules 0 with
  | none =>
    have := (find_rule_from_none_iff name ctx.grammar.rules 0).mp h
    simp [index_below, this]
  | some j =>
    have hb := find_rule_from_some name ctx.grammar.rules 0 j h
    have hm : name ∈ ctx.grammar.rules.map (fun r => r.name) := by
      by_contra hc
      have := (find_rule_from_none_iff name ctx.grammar.rules 0).mpr hc
      rw [this] at h; cases h
    simp only [index_below, hm, decide_True, decide_eq_true_eq]
    omega

theorem add_rule_eq (ctx : context) (name : byte_string) :
    add_rule ctx name =
      if name ∈ ctx.grammar.rules.map (fun r => r.name) then (ctx, none)
      else (ctx.with_new_rule (rule.fresh name), some ctx.grammar.rules.length) := by
  unfold add_rule
  rw [index_below_find_rule]
  by_cases h : name ∈ ctx.grammar.rules.map (fun r => r.name)
  · simp [h]
  · simp [h, context.with_new_rule]

theorem add_token_rule_eq (ctx : context) (name : byte_string) :
    add_token_rule ctx name =
      if name ∈ ctx.grammar.rules.map (fun r => r.name) then ctx
      else ctx.with_new_rule { rule.fresh name with is_token := true } := by
  unfold add_token_rule
  rw [add_rule_eq]
  by_cases h : name ∈ ctx.grammar.rules.map (fun r => r.name)
  · simp [h]
  · simp only [h, if_false]
    simp [context.with_new_rule, grammar.set_rule, grammar.rule_at]

/-- A registry call keeps every registered rule in place and appends at most
one rule, whose name was not registered before. -/
theorem run_registry_call_rules (ctx : context) (call : registry_call) :
    ∃ extra : List rule,
      (run_registry_call ctx call).grammar.rules = ctx.grammar.rules ++ extra ∧
      (∀ r ∈ extra, r.name ∉ ctx.rule_names) ∧ extra.length ≤ 1 := by
  cases call with
  | add_rule name =>
    simp only [run_registry_call, add_rule_eq, context.rule_names]
    by_cases h : name ∈ ctx.grammar.rules.map (fun r => r.name)
    · exact ⟨[], by simp [h]⟩
    · refine ⟨[rule.fresh name], by simp [h, context.with_new_rule], ?_, by simp⟩
      intro r hr
      simp only [List.mem_singleton] at hr
      subst hr
      exact h
  | add_token_rule name =>
    simp only [run_registry_call, add_token_rule_eq, context.rule_names]
    by_cases h : name ∈ ctx.grammar.rules.map (fun r => r.name)
    · exact ⟨[], by simp [h]⟩
    · refine ⟨[{ rule.fresh name with is_token := true }],
        by simp [h, context.with_new_rule], ?_, by simp⟩
      intro r hr
      simp only [List.mem_singleton] at hr
      subst hr
      exact h

theorem run_registry_calls_rules (ctx : context) (calls : List registry_call) :
    ∃ extra : List rule,
      (run_registry_calls ctx calls).grammar.rules = ctx.grammar.rules ++ extra := by
  induction calls generalizing ctx with
  | nil => exact ⟨[], by simp [run_registry_calls]⟩
  | cons call rest ih =>
    obtain ⟨e1, h1, _⟩ := run_registry_call_rules ctx call
    obtain ⟨e2, h2⟩ := ih (run_registry_call ctx call)
    refine ⟨e1 ++ e2, ?_⟩
    simp only [run_registry_calls, List.foldl_cons] at h2 ⊢
    rw [h2, h1, List.append_assoc]

theorem run_registry_calls_nodup (ctx : context) (calls : List registry_call)
    (h : ctx.rule_names.Nodup) : (run_registry_calls ctx calls).rule_names.Nodup := by
  induction calls generalizing ctx with
  | nil => simpa [run_registry_calls] using h
  | cons call rest ih =>
    obtain ⟨e1, h1, h2, h3⟩ := run_registry_call_rules ctx call
    simp only [run_registry_calls, List.foldl_cons]
    apply ih
    simp only [context.rule_names, h1, List.map_append]
    match e1, h2, h3 with
    | [], _, _ => simpa [context.rule_names] using h
    | [x], h2, _ =>
      have hx := h2 x (by simp)
      simp only [List.map_cons, List.map_nil]
      rw [List.nodup_append]
      refine ⟨h, by simp, ?_⟩
      intro a ha hb
      simp only [List.mem_singleton] at hb
      subst hb
      exact hx ha
    | _ :: _ :: _, _, h3 => simp at h3

/-- A lookup that succeeds keeps its answer when rules are appended. -/
theorem find_rule_append_stable (ctx ctx2 : context) (name : byte_string) (j : Nat)
    (extra : List rule) (h2 : ctx2.grammar.rules = ctx.grammar.rules ++ extra)
    (h : find_rule ctx name = some j) : find_rule ctx2 name = some j := by
  unfold find_rule at h ⊢
  rw [h2, find_rule_from_append, h]

/-- C5: an index assigned by `add_rule` is the one `find_rule` returns, and it
is stable.  When `add_rule(name)` succeeds with index `i`, `find_rule(name)`
returns `i` right away, and after any sequence of further `add_rule` /
`add_token_rule` calls (failing ones included) it still returns `i`, every name
found before is still found at its index, and the rules registered before sit
unchanged at their indices (the rule list only grows at its end). -/
theorem C5_find_rule_stable (ctx ctx1 : context) (name : byte_string) (i : Nat)
    (h : add_rule ctx name = (ctx1, some i)) :
    find_rule ctx1 name = some i ∧
    ∀ calls : List registry_call,
      find_rule (run_registry_calls ctx1 calls) name = some i ∧
      (∀ (other : byte_string) (j : Nat), find_rule ctx1 other = some j →
          find_rule (run_registry_calls ctx1 calls) other = some j) ∧
      (∃ extra : List rule,
          (run_registry_calls ctx1 calls).grammar.rules
            = ctx.grammar.rules ++ [rule.fresh name] ++ extra) := by
  rw [add_rule_eq] at h
  by_cases hm : name ∈ ctx.grammar.rules.map (fun r => r.name)
  · simp [hm] at h
  · simp only [hm, if_false, Prod.mk.injEq, Option.some.injEq] at h
    obtain ⟨h1, h2⟩ := h
    have hfind : find_rule ctx1 name = some i := by
      subst h1
      unfold find_rule
      simp only [context.with_new_rule]
      rw [find_rule_from_append, (find_rule_from_none_iff name ctx.grammar.rules 0).mpr hm]
      simp [find_rule_from_cons, rule.fresh, h2]
    refine ⟨hfind, ?_⟩
    intro calls
    obtain ⟨extra, he⟩ := run_registry_calls_rules ctx1 calls
    refine ⟨find_rule_append_stable ctx1 _ name i extra he hfind, ?_, ?_⟩
    · intro other j hj
      exact find_rule_append_stable ctx1 _ other j extra he hj
    · refine ⟨extra, ?_⟩
      rw [he, ← h1]
      simp [context.with_new_rule]

theorem C5_find_rule_stable_witness :
    find_rule
      (run_registry_calls
        (((context.initial grammar.zero).with_new_rule (rule.fresh ['a'])).with_new_rule
          (rule.fresh ['b']))
        [.add_rule ['c'], .add_rule ['b'], .add_token_rule ['a'], .add_token_rule ['d']])
      ['b'] = some 1 :=
  ((C5_find_rule_stable ((context.initial grammar.zero).with_new_rule (rule.fresh ['a']))
      (((context.initial grammar.zero).with_new_rule (rule.fresh ['a'])).with_new_rule
        (rule.fresh ['b'])) ['b'] 1 (by decide)).2
    [.add_rule ['c'], .add_rule ['b'], .add_token_rule ['a'], .add_token_rule ['d']]).1

/-- C6: `add_rule` fails exactly on a duplicate name.  It returns the duplicate
marker if and only if some registered rule has the very same name, and then the
registry is left as it was; otherwise it appends one rule of that name and
returns the previous rule count as its index.  Consequently, whatever sequence
of registry calls is run from an empty registry, the registered names are
pairwise distinct. -/
theorem C6_add_rule_duplicate (ctx : context) (name : byte_string) :
    ((add_rule ctx name).2 = none ↔ ∃ r ∈ ctx.grammar.rules, r.name = name) ∧
    ((add_rule ctx name).2 = none → (add_rule ctx name).1 = ctx) ∧
    ((add_rule ctx name).2 ≠ none →
      add_rule ctx name
        = (ctx.with_new_rule (rule.fresh name), some ctx.grammar.rules.length)) ∧
    (∀ (start : context) (calls : List registry_call), start.grammar.rules = [] →
      (run_registry_calls start calls).rule_names.Nodup) := by
  refine ⟨?_, ?_, ?_, ?_⟩
  · rw [add_rule_eq]
    by_cases hm : name ∈ ctx.grammar.rules.map (fun r => r.name)
    · simp only [hm, if_true, true_iff]
      simpa using hm
    · simp only [hm, if_false]
      constructor
      · intro h; cases h
      · intro h; exact absurd (by simpa using h) hm
  · rw [add_rule_eq]
    by_cases hm : name ∈ ctx.grammar.rules.map (fun r => r.name)
    · simp [hm]
    · simp [hm]
  · rw [add_rule_eq]
    by_cases hm : name ∈ ctx.grammar.rules.map (fun r => r.name)
    · simp [hm]
    · simp [hm]
  · intro start calls h0
    apply run_registry_calls_nodup
    simp [context.rule_names, h0]

theorem C6_add_rule_duplicate_witness :
    (add_rule ((context.initial grammar.zero).with_new_rule (rule.fresh ['a'])) ['a']).1
      = (context.initial grammar.zero).with_new_rule (rule.fresh ['a']) :=
  (C6_add_rule_duplicate ((context.initial grammar.zero).with_new_rule (rule.fresh ['a']))
    ['a']).2.1 (by decide)

/-- The user-rule loop of the pre-pass on names that are new and pairwise
distinct: every rule is appended, in order. -/
theorem build_add_rules_eq (tree : List parsed_rule) (ctx : context)
    (h : (ctx.rule_names ++ tree.map (fun p => p.identifier)).Nodup) :
    build_add_rules tree ctx =
      .ok { ctx with grammar := { ctx.grammar with
              rules := ctx.grammar.rules ++ tree.map (fun p => rule.fresh p.identifier) } } := by
  induction tree generalizing ctx with
  | nil => simp [build_add_rules]
  | cons p rest ih =>
    have hm : p.identifier ∉ ctx.grammar.rules.map (fun r => r.name) := by
      intro hc
      rw [List.nodup_append] at h
      exact h.2.2 hc (by simp)
    simp only [build_add_rules, add_rule_eq, hm, if_false]
    rw [ih]
    · simp [context.with_new_rule]
    · simp only [context.rule_names, context.with_new_rule, List.map_append, List.map_cons,
        List.map_nil, List.append_assoc, List.singleton_append]
      simpa [context.rule_names, rule.fresh] using h

/-- Three `add_token_rule` calls with pairwise distinct names append, in call
order, the token rules of those names that were not registered. -/
theorem add_three_token_rules (ctx : context) (n1 n2 n3 : byte_string)
    (h12 : n2 ≠ n1) (h13 : n3 ≠ n1) (h23 : n3 ≠ n2) :
    add_token_rule (add_token_rule (add_token_rule ctx n1) n2) n3 =
      { ctx with grammar := { ctx.grammar with
          rules := ctx.grammar.rules ++
            ([n1, n2, n3].filter (fun n => decide (n ∉ ctx.rule_names))).map
              (fun n => { rule.fresh n with is_token := true }) } } := by
  simp only [add_token_rule_eq, context.rule_names]
  by_cases m1 : n1 ∈ ctx.grammar.rules.map (fun r => r.name) <;>
  by_cases m2 : n2 ∈ ctx.grammar.rules.map (fun r => r.name) <;>
  by_cases m3 : n3 ∈ ctx.grammar.rules.map (fun r => r.name) <;>
  simp [context.with_new_rule, rule.fresh, List.filter, m1, m2, m3, h12, h13, h23]

/-- The registration pre-pass on a non-empty list of declared rules with
pairwise distinct names, from the empty grammar: the context it ends in. -/
theorem build_register_rules_eq (tree : List parsed_rule) (hne : tree ≠ [])
    (hd : (tree.map (fun p => p.identifier)).Nodup) :
    build_register_rules tree (context.initial grammar.zero) =
      .ok { context.initial grammar.zero with
              grammar := { rules := registered_rules (tree.map (fun p => p.identifier)),
                           root_rule := 0 } } := by
  have hadd := build_add_rules_eq tree
    { context.initial grammar.zero with
        grammar := { (context.initial grammar.zero).grammar with root_rule := 0 } }
    (by simpa [context.rule_names, context.initial, grammar.zero] using hd)
  have h1 : "number".toList ≠ "identifier".toList := by decide
  have h2 : "string".toList ≠ "identifier".toList := by decide
  have h3 : "string".toList ≠ "number".toList := by decide
  have hlen : tree.length ≠ 0 := by
    intro h; exact hne (List.length_eq_zero.mp h)
  unfold build_register_rules
  simp only [hadd]
  rw [add_three_token_rules _ _ _ _ h1 h2 h3]
  simp only [context.initial, grammar.zero, List.nil_append, List.length_map, hlen, if_false]
  have e : (fun p : parsed_rule => (rule.fresh p.identifier).name) = fun p => p.identifier := by
    funext p; rfl
  simp only [context.rule_names, implicit_token_rule_names, registered_rules, List.map_map,
    Function.comp_def, e]

/-- C7: the registration pre-pass.  For a non-empty list of declared rules with
pairwise distinct names, the pre-pass succeeds and the rule list is exactly the
declared rules in declaration order (none flagged as a token rule), followed by
those of `identifier`, `number`, `string`, in that order, that no declared rule
is named, each flagged as a token rule; the root rule is index 0, which holds
the first declared rule. -/
theorem C7_register_rules (tree : List parsed_rule) (hne : tree ≠ [])
    (hd : (tree.map (fun p => p.identifier)).Nodup) :
    ∃ ctx : context,
      build_register_rules tree (context.initial grammar.zero) = .ok ctx ∧
      ctx.grammar.rules =
        tree.map (fun p => rule.fresh p.identifier) ++
        (implicit_token_rule_names.filter
            (fun n => decide (n ∉ tree.map (fun p => p.identifier)))).map
          (fun n => { rule.fresh n with is_token := true }) ∧
      ctx.grammar.root_rule = 0 ∧
      (ctx.grammar.rules.head?.map (fun r => (r.name, r.is_token))
        = tree.head?.map (fun p => (p.identifier, false))) := by
  refine ⟨_, build_register_rules_eq tree hne hd, ?_, rfl, ?_⟩
  · simp only [registered_rules, List.map_map, Function.comp_def]
  · cases tree with
    | nil => exact absurd rfl hne
    | cons p rest => simp [registered_rules, rule.fresh]

theorem C7_register_rules_witness :
    ∃ ctx : context,
      build_register_rules
        [⟨"expr".toList, .simple (.PARSED_LITERAL [])⟩,
         ⟨"number".toList, .simple (.PARSED_LITERAL [])⟩]
        (context.initial grammar.zero) = .ok ctx ∧
      ctx.grammar.rules =
        [rule.fresh "expr".toList, rule.fresh "number".toList,
         { rule.fresh "identifier".toList with is_token := true },
         { rule.fresh "string".toList with is_token := true }] := by
  obtain ⟨ctx, h1, h2, _⟩ := C7_register_rules
    [⟨"expr".toList, .simple (.PARSED_LITERAL [])⟩,
     ⟨"number".toList, .simple (.PARSED_LITERAL [])⟩] (by simp) (by decide)
  refine ⟨ctx, h1, ?_⟩
  rw [h2]
  decide

/-! ## Keyword token interner: properties -/

/-- The two tests of the `find_token` loop amount to equality of the texts. -/
theorem find_token_from_cons (text : byte_string) (type : token_type) (t : token)
    (rest : List token) (i : Nat) :
    find_token_from text type (t :: rest) i =
      if t.string = text then
        (if type ≠ .TOKEN_DONT_CARE ∧ t.type ≠ type then .error .token_role_conflict
         else .ok i)
      else find_token_from text type rest (i + 1) := by
  simp only [find_token_from]
  by_cases h : t.string = text
  · simp [h]
  · simp [h]

theorem find_token_from_bounds (text : byte_string) (type : token_type)
    (tokens : List token) (start j : Nat)
    (h : find_token_from text type tokens start = .ok j) :
    start ≤ j ∧ j ≤ start + tokens.length := by
  induction tokens generalizing start with
  | nil =>
    simp only [find_token_from, Except.ok.injEq] at h
    subst h; simp
  | cons t rest ih =>
    rw [find_token_from_cons] at h
    split at h
    · split at h
      · cases h
      · simp only [Except.ok.injEq] at h; subst h; simp
    · have := ih _ h; simp only [List.length_cons]; omega

/-- A lookup that runs off the end of the token list met no token of the text. -/
theorem find_token_from_end_iff (text : byte_string) (type : token_type)
    (tokens : List token) (start : Nat) :
    find_token_from text type tokens start = .ok (start + tokens.length) ↔
      text ∉ tokens.map (fun t => t.string) := by
  induction tokens generalizing start with
  | nil => simp [find_token_from]
  | cons t rest ih =>
    rw [find_token_from_cons]
    have e : start + (t :: rest).length = (start + 1) + rest.length := by
      simp only [List.length_cons]; omega
    by_cases hn : t.string = text
    · simp only [hn, if_true, List.map_cons, List.mem_cons, true_or, not_true_eq_false,
        iff_false]
      split
      · intro h; cases h
      · intro h
        simp only [Except.ok.injEq, List.length_cons] at h
        omega
    · rw [if_neg hn, e, ih]
      simp only [List.map_cons, List.mem_cons, not_or]
      constructor
      · intro h; exact ⟨fun e2 => hn e2.symm, h⟩
      · intro h; exact h.2

/-- A lookup that stops inside the token list stops at a token of the text and
stops there again when more tokens follow. -/
theorem find_token_from_append_found (text : byte_string) (type : token_type)
    (tokens extra : List token) (start j : Nat)
    (h : find_token_from text type tokens start = .ok j) (hj : j < start + tokens.length) :
    find_token_from text type (tokens ++ extra) start = .ok j := by
  induction tokens generalizing start with
  | nil =>
    simp only [find_token_from, Except.ok.injEq] at h
    simp only [List.length_nil] at hj
    omega
  | cons t rest ih =>
    rw [find_token_from_cons] at h
    rw [List.cons_append, find_token_from_cons]
    by_cases hn : t.string = text
    · rw [if_pos hn] at h ⊢
      exact h
    · rw [if_neg hn] at h ⊢
      exact ih _ h (by simp only [List.length_cons] at hj; omega)

/-- A lookup that finds no token of the text stops at a token of that text
appended right behind, when the role is the same. -/
theorem find_token_from_append_new (text : byte_string) (type : token_type)
    (tokens : List token) (start symbol : Nat)
    (h : text ∉ tokens.map (fun t => t.string)) :
    find_token_from text type
      (tokens ++ [{ string := text, type := type, symbol := symbol }]) start
      = .ok (start + tokens.length) := by
  induction tokens generalizing start with
  | nil => simp [find_token_from]
  | cons t rest ih =>
    rw [List.cons_append, find_token_from_cons]
    simp only [List.map_cons, List.mem_cons, not_or] at h
    rw [if_neg (fun e => h.1 e.symm), ih _ h.2]
    simp only [List.length_cons]
    congr 1; omega

/-- Where the lookup for one role stops inside the token list, the lookup of
the same text for another role fails with the role conflict. -/
theorem find_token_from_conflict (text : byte_string) (r1 r2 : token_type)
    (h1 : r1 ≠ .TOKEN_DONT_CARE) (h2 : r2 ≠ .TOKEN_DONT_CARE) (hne : r1 ≠ r2)
    (tokens : List token) (start j : Nat)
    (h : find_token_from text r1 tokens start = .ok j) (hj : j < start + tokens.length) :
    find_token_from text r2 tokens start = .error .token_role_conflict := by
  induction tokens generalizing start with
  | nil =>
    simp only [find_token_from, Except.ok.injEq] at h
    simp only [List.length_nil] at hj
    omega
  | cons t rest ih =>
    rw [find_token_from_cons] at h ⊢
    by_cases hn : t.string = text
    · rw [if_pos hn] at h ⊢
      split at h
      · cases h
      · rename_i hc
        have ht : t.type = r1 := by
          by_contra hx
          exact hc ⟨h1, hx⟩
        rw [if_pos ⟨h2, by rw [ht]; exact hne⟩]
    · rw [if_neg hn] at h ⊢
      exact ih _ h (by simp only [List.length_cons] at hj; omega)

theorem keyword_text_length (keyword : byte_string) :
    (keyword_text keyword).length = keyword.length - 2 := by
  simp only [keyword_text, List.length_take, List.length_drop]
  omega

/-- What a successful `add_keyword_token` of a non-empty keyword leaves behind:
a token list on which the lookup of the text with the same role stops at an
index inside the list, whose token carries the returned symbol. -/
theorem add_keyword_token_ok_find (ctx ctx1 : context) (r r1 : rule)
    (keyword : byte_string) (type : token_type) (s : symbol_id)
    (hlen : keyword.length > 2)
    (h : add_keyword_token ctx r keyword type = .ok (ctx1, r1, s)) :
    ∃ i : Nat, find_token_from (keyword_text keyword) type r1.keyword_tokens 0 = .ok i ∧
      i < r1.keyword_tokens.length ∧
      s = .issued ((r1.keyword_tokens.getD i token.zero).symbol) := by
  unfold add_keyword_token at h
  rw [if_neg (by omega)] at h
  unfold find_token at h
  split at h
  · cases h
  · rename_i j hfind
    have hb := find_token_from_bounds _ _ _ _ _ hfind
    split at h
    · rename_i hge
      have hj : j = 0 + r.keyword_tokens.length := by omega
      subst hj
      have hnew := (find_token_from_end_iff _ _ _ _).mp hfind
      simp only [Except.ok.injEq, Prod.mk.injEq] at h
      obtain ⟨_, hr, hs⟩ := h
      subst hr
      refine ⟨0 + r.keyword_tokens.length, ?_, by simp, hs.symm⟩
      exact find_token_from_append_new _ _ _ _ _ hnew
    · rename_i hlt
      simp only [Except.ok.injEq, Prod.mk.injEq] at h
      obtain ⟨_, hr, hs⟩ := h
      subst hr
      exact ⟨j, hfind, by omega, hs.symm⟩

/-- C8: a quoted literal with empty content yields epsilon.  For every context,
rule and role, `add_keyword_token` applied to a literal that consists of its two
quote delimiters only returns the epsilon symbol and hands the context and the
rule back unchanged: no token entry is created and `next_symbol` does not
advance. -/
theorem C8_empty_keyword_is_epsilon (ctx : context) (r : rule)
    (open_quote close_quote : Char) (type : token_type) :
    add_keyword_token ctx r [open_quote, close_quote] type
      = .ok (ctx, r, .SYMBOL_EPSILON) := by
  simp [add_keyword_token]

/-- A second `add_keyword_token` of a text that was interned before, with the
same role, returns the symbol of the first one and changes nothing. -/
theorem add_keyword_token_again (ctx ctx1 ctx2 : context) (r r1 r2 : rule)
    (keyword keyword2 : byte_string) (type : token_type) (s : symbol_id)
    (extra : List token) (hlen : keyword.length > 2)
    (h : add_keyword_token ctx r keyword type = .ok (ctx1, r1, s))
    (htext : keyword_text keyword2 = keyword_text keyword)
    (hr2 : r2.keyword_tokens = r1.keyword_tokens ++ extra) :
    add_keyword_token ctx2 r2 keyword2 type = .ok (ctx2, r2, s) := by
  obtain ⟨i, hfind, hi, hs⟩ := add_keyword_token_ok_find ctx ctx1 r r1 keyword type s hlen h
  have hlen2 : keyword2.length > 2 := by
    have e1 := keyword_text_length keyword
    have e2 := keyword_text_length keyword2
    rw [htext] at e2
    omega
  have hfind2 := find_token_from_append_found _ _ _ extra 0 i hfind (by omega)
  unfold add_keyword_token
  rw [if_neg (by omega)]
  unfold find_token
  rw [htext, hr2, hfind2]
  simp only [ge_iff_le, List.length_append]
  rw [if_neg (by omega)]
  rw [hs, List.getD_append _ _ _ _ hi]

/-- C9: keyword interning reuses or allocates.  For a keyword with non-empty
text and any role: once `add_keyword_token` has succeeded for it, a later call
with a literal of the same stripped text and the same role (on the resulting
rule, also after further tokens were appended) returns the same symbol and
hands context and rule back unchanged, so neither the token list grows nor
`next_symbol` advances; and when no token of the rule has the text, the call
appends one token whose symbol is the value of `next_symbol` at the call,
returns that symbol and advances `next_symbol` by one. -/
theorem C9_keyword_token_interning (ctx : context) (r : rule) (keyword : byte_string)
    (type : token_type) (hlen : keyword.length > 2) :
    (∀ (ctx1 ctx2 : context) (r1 r2 : rule) (s : symbol_id) (keyword2 : byte_string)
        (extra : List token),
        add_keyword_token ctx r keyword type = .ok (ctx1, r1, s) →
        keyword_text keyword2 = keyword_text keyword →
        r2 = { r1 with keyword_tokens := r1.keyword_tokens ++ extra } →
        add_keyword_token ctx2 r2 keyword2 type = .ok (ctx2, r2, s)) ∧
    (keyword_text keyword ∉ r.keyword_tokens.map (fun t => t.string) →
      add_keyword_token ctx r keyword type =
        .ok ({ ctx with next_symbol := ctx.next_symbol + 1 },
             { r with keyword_tokens := r.keyword_tokens ++
                 [{ string := keyword_text keyword, type := type,
                    symbol := ctx.next_symbol }] },
             .issued ctx.next_symbol)) := by
  constructor
  · intro ctx1 ctx2 r1 r2 s keyword2 extra h htext hr2
    exact add_keyword_token_again ctx ctx1 ctx2 r r1 r2 keyword keyword2 type s extra hlen h
      htext (by rw [hr2])
  · intro hnew
    have hfind := (find_token_from_end_iff (keyword_text keyword) type r.keyword_tokens 0).mpr hnew
    unfold add_keyword_token
    rw [if_neg (by omega)]
    unfold find_token
    rw [hfind]
    simp

theorem C9_keyword_token_interning_witness :
    add_keyword_token { context.initial grammar.zero with next_symbol := 8 }
      { rule.fresh ['a'] with keyword_tokens :=
          [{ string := ['i', 'f'], type := .TOKEN_NORMAL, symbol := 7 }] }
      ['q', 'i', 'f', 'q'] .TOKEN_NORMAL
      = .ok ({ context.initial grammar.zero with next_symbol := 8 },
             { rule.fresh ['a'] with keyword_tokens :=
                 [{ string := ['i', 'f'], type := .TOKEN_NORMAL, symbol := 7 }] },
             .issued 7) :=
  (C9_keyword_token_interning { context.initial grammar.zero with next_symbol := 7 }
      (rule.fresh ['a']) ['p', 'i', 'f', 'p'] .TOKEN_NORMAL (by decide)).1
    { context.initial grammar.zero with next_symbol := 8 }
    { context.initial grammar.zero with next_symbol := 8 }
    { rule.fresh ['a'] with keyword_tokens :=
        [{ string := ['i', 'f'], type := .TOKEN_NORMAL, symbol := 7 }] }
    _ (.issued 7) ['q', 'i', 'f', 'q'] [] (by decide) (by decide) rfl

/-- A role conflict: a text interned with one role and asked for with another. -/
theorem add_keyword_token_conflict (ctx ctx1 ctx2 : context) (r r1 r2 : rule)
    (keyword keyword2 : byte_string) (role1 role2 : token_type) (s : symbol_id)
    (extra : List token) (hlen : keyword.length > 2)
    (h1 : role1 ≠ .TOKEN_DONT_CARE) (h2 : role2 ≠ .TOKEN_DONT_CARE) (hne : role1 ≠ role2)
    (h : add_keyword_token ctx r keyword role1 = .ok (ctx1, r1, s))
    (htext : keyword_text keyword2 = keyword_text keyword)
    (hr2 : r2.keyword_tokens = r1.keyword_tokens ++ extra) :
    add_keyword_token ctx2 r2 keyword2 role2 = .error .token_role_conflict := by
  obtain ⟨i, hfind, hi, _⟩ := add_keyword_token_ok_find ctx ctx1 r r1 keyword role1 s hlen h
  have hlen2 : keyword2.length > 2 := by
    have e1 := keyword_text_length keyword
    have e2 := keyword_text_length keyword2
    rw [htext] at e2
    omega
  have hfind2 := find_token_from_append_found _ _ _ extra 0 i hfind (by omega)
  have hconf := find_token_from_conflict _ role1 role2 h1 h2 hne _ 0 i hfind2
    (by simp only [List.length_append]; omega)
  unfold add_keyword_token
  rw [if_neg (by omega)]
  unfold find_token
  rw [htext, hr2, hconf]

/-- A successful `add_keyword_token` keeps the texts of the token list pairwise
distinct. -/
theorem add_keyword_token_nodup (ctx ctx1 : context) (r r1 : rule)
    (keyword : byte_string) (type : token_type) (s : symbol_id)
    (hd : (r.keyword_tokens.map (fun t => t.string)).Nodup)
    (h : add_keyword_token ctx r keyword type = .ok (ctx1, r1, s)) :
    (r1.keyword_tokens.map (fun t => t.string)).Nodup := by
  unfold add_keyword_token at h
  split at h
  · simp only [Except.ok.injEq, Prod.mk.injEq] at h
    obtain ⟨_, hr, _⟩ := h
    subst hr; exact hd
  · unfold find_token at h
    split at h
    · cases h
    · rename_i j hfind
      have hb := find_token_from_bounds _ _ _ _ _ hfind
      split at h
      · rename_i hge
        have hj : j = 0 + r.keyword_tokens.length := by omega
        subst hj
        have hnew := (find_token_from_end_iff _ _ _ _).mp hfind
        simp only [Except.ok.injEq, Prod.mk.injEq] at h
        obtain ⟨_, hr, _⟩ := h
        subst hr
        simp only [List.map_append, List.map_cons, List.map_nil]
        rw [List.nodup_append]
        refine ⟨hd, by simp, ?_⟩
        intro a ha hb2
        simp only [List.mem_singleton] at hb2
        subst hb2
        exact hnew ha
      · simp only [Except.ok.injEq, Prod.mk.injEq] at h
        obtain ⟨_, hr, _⟩ := h
        subst hr; exact hd

theorem add_keyword_tokens_nodup (calls : List (byte_string × token_type))
    (ctx ctx1 : context) (r r1 : rule)
    (hd : (r.keyword_tokens.map (fun t => t.string)).Nodup)
    (h : add_keyword_tokens calls ctx r = .ok (ctx1, r1)) :
    (r1.keyword_tokens.map (fun t => t.string)).Nodup := by
  induction calls generalizing ctx r with
  | nil =>
    simp only [add_keyword_tokens, Except.ok.injEq, Prod.mk.injEq] at h
    obtain ⟨_, hr⟩ := h
    subst hr; exact hd
  | cons call rest ih =>
    obtain ⟨keyword, type⟩ := call
    simp only [add_keyword_tokens] at h
    split at h
    · cases h
    · rename_i c2 r2 s hadd
      exact ih c2 r2 (add_keyword_token_nodup ctx c2 r r2 keyword type s hd hadd) h

/-- C10: one keyword text with two different roles is a role conflict, in either
order.  For a keyword with non-empty text and two distinct roles among normal,
start and end: after `add_keyword_token` has succeeded with one of the roles, a
call with a literal of the same stripped text and the other role (on the
resulting rule, also after further tokens were appended) fails with the
token-role-conflict error, whichever of the two roles came first.  As a
consequence, whatever sequence of `add_keyword_token` calls succeeds on a rule
that starts without tokens, the texts of its token list are pairwise
distinct. -/
theorem C10_keyword_role_conflict (ctx : context) (r : rule) (keyword : byte_string)
    (role1 role2 : token_type) (hlen : keyword.length > 2)
    (h1 : role1 ≠ .TOKEN_DONT_CARE) (h2 : role2 ≠ .TOKEN_DONT_CARE) (hne : role1 ≠ role2) :
    (∀ (ctx1 ctx2 : context) (r1 r2 : rule) (s : symbol_id) (keyword2 : byte_string)
        (extra : List token),
        add_keyword_token ctx r keyword role1 = .ok (ctx1, r1, s) →
        keyword_text keyword2 = keyword_text keyword →
        r2 = { r1 with keyword_tokens := r1.keyword_tokens ++ extra } →
        add_keyword_token ctx2 r2 keyword2 role2 = .error .token_role_conflict) ∧
    (∀ (ctx1 ctx2 : context) (r1 r2 : rule) (s : symbol_id) (keyword2 : byte_string)
        (extra : List token),
        add_keyword_token ctx r keyword role2 = .ok (ctx1, r1, s) →
        keyword_text keyword2 = keyword_text keyword →
        r2 = { r1 with keyword_tokens := r1.keyword_tokens ++ extra } →
        add_keyword_token ctx2 r2 keyword2 role1 = .error .token_role_conflict) ∧
    (∀ (calls : List (byte_string × token_type)) (start_ctx end_ctx : context)
        (start_rule end_rule : rule),
        start_rule.keyword_tokens = [] →
        add_keyword_tokens calls start_ctx start_rule = .ok (end_ctx, end_rule) →
        (end_rule.keyword_tokens.map (fun t => t.string)).Nodup) := by
  refine ⟨?_, ?_, ?_⟩
  · intro ctx1 ctx2 r1 r2 s keyword2 extra h htext hr2
    exact add_keyword_token_conflict ctx ctx1 ctx2 r r1 r2 keyword keyword2 role1 role2 s
      extra hlen h1 h2 hne h htext (by rw [hr2])
  · intro ctx1 ctx2 r1 r2 s keyword2 extra h htext hr2
    exact add_keyword_token_conflict ctx ctx1 ctx2 r r1 r2 keyword keyword2 role2 role1 s
      extra hlen h2 h1 (Ne.symm hne) h htext (by rw [hr2])
  · intro calls start_ctx end_ctx start_rule end_rule h0 h
    exact add_keyword_tokens_nodup calls start_ctx end_ctx start_rule end_rule
      (by simp [h0]) h

theorem C10_keyword_role_conflict_witness :
    add_keyword_token { context.initial grammar.zero with next_symbol := 1 }
      { rule.fresh ['a'] with keyword_tokens :=
          [{ string := ['i', 'f'], type := .TOKEN_START, symbol := 0 }] }
      ['q', 'i', 'f', 'q'] .TOKEN_END
      = .error .token_role_conflict :=
  (C10_keyword_role_conflict (context.initial grammar.zero) (rule.fresh ['a'])
      ['p', 'i', 'f', 'p'] .TOKEN_START .TOKEN_END (by decide) (by decide) (by decide)
      (by decide)).1
    { context.initial grammar.zero with next_symbol := 1 }
    { context.initial grammar.zero with next_symbol := 1 }
    { rule.fresh ['a'] with keyword_tokens :=
        [{ string := ['i', 'f'], type := .TOKEN_START, symbol := 0 }] }
    _ (.issued 0) ['q', 'i', 'f', 'q'] [] (by decide) (by decide) rfl

/-! ## The equations of the builder, kind by kind -/

theorem build_body_expression_choice_eq (cfg : build_config) (ctx : context) (a : automaton)
    (operand : parsed_expr_list) (b : boundary_states) :
    build_body_expression cfg ctx a (.PARSED_CHOICE operand) b =
      if ctx.expression_nesting > MAX_EXPRESSION_NESTING then .error .nested_too_deeply
      else
        match build_body_expression_choice cfg ctx.enter_expression a operand b with
        | .error e => .error e
        | .ok (ctx, a) => .ok (ctx.leave_expression, a) := by
  rw [build_body_expression]

theorem build_body_expression_concatenation_eq (cfg : build_config) (ctx : context)
    (a : automaton) (operand : parsed_expr_list) (b : boundary_states) :
    build_body_expression cfg ctx a (.PARSED_CONCATENATION operand) b =
      if ctx.expression_nesting > MAX_EXPRESSION_NESTING then .error .nested_too_deeply
      else
        match build_body_expression_concatenation cfg
            { ctx.enter_expression with next_state := ctx.enter_expression.next_state + 1 }
            (automaton_add_transition a b.entry ctx.enter_expression.next_state
              .SYMBOL_EPSILON)
            operand { entry := ctx.enter_expression.next_state, exit := 0 } with
        | .error e => .error e
        | .ok (ctx, a, inner) =>
          .ok (ctx.leave_expression,
               automaton_add_transition a inner.exit b.exit .SYMBOL_EPSILON) := by
  rw [build_body_expression]

theorem build_body_expression_ident_eq (cfg : build_config) (ctx : context) (a : automaton)
    (identifier : byte_string) (rename : Option byte_string) (b : boundary_states) :
    build_body_expression cfg ctx a (.PARSED_IDENT identifier rename) b =
      if ctx.expression_nesting > MAX_EXPRESSION_NESTING then .error .nested_too_deeply
      else
        match find_rule ctx.enter_expression identifier with
        | none => .error .unknown_rule_or_token
        | some rule_index =>
          if ctx.enter_expression.bracket_nesting = 0 ∧
              rule_index ≤ ctx.enter_expression.rule_index then
            if rule_index = ctx.enter_expression.rule_index then .error .self_reference
            else .error .earlier_rule_reference
          else
            match add_slot cfg ctx.enter_expression ctx.enter_expression.current_rule
                (rename.getD identifier) rule_index with
            | .error e => .error e
            | .ok (ctx, r, slot_index) =>
              .ok ((ctx.set_current_rule r).leave_expression,
                   automaton_add_transition a b.entry b.exit
                     (.issued (r.slots.getD slot_index slot.zero).symbol)) := by
  rw [build_body_expression]
  cases rename <;> rfl

theorem build_body_expression_literal_eq (cfg : build_config) (ctx : context) (a : automaton)
    (string : byte_string) (b : boundary_states) :
    build_body_expression cfg ctx a (.PARSED_LITERAL string) b =
      if ctx.expression_nesting > MAX_EXPRESSION_NESTING then .error .nested_too_deeply
      else
        match add_keyword_token ctx.enter_expression ctx.enter_expression.current_rule
            string .TOKEN_NORMAL with
        | .error e => .error e
        | .ok (ctx, r, symbol) =>
          .ok ((ctx.set_current_rule r).leave_expression,
               automaton_add_transition a b.entry b.exit symbol) := by
  rw [build_body_expression]

theorem build_body_expression_parens_eq (cfg : build_config) (ctx : context) (a : automaton)
    (parens : parsed_expr) (b : boundary_states) :
    build_body_expression cfg ctx a (.PARSED_PARENS parens) b =
      if ctx.expression_nesting > MAX_EXPRESSION_NESTING then .error .nested_too_deeply
      else
        match build_body_expression cfg ctx.enter_expression a parens b with
        | .error e => .error e
        | .ok (ctx, a) => .ok (ctx.leave_expression, a) := by
  rw [build_body_expression]

theorem build_body_expression_bracketed_eq (cfg : build_config) (ctx : context)
    (a : automaton) (bracket_expr : parsed_expr_list) (begin_token end_token : byte_string)
    (b : boundary_states) :
    build_body_expression cfg ctx a (.PARSED_BRACKETED bracket_expr begin_token end_token) b =
      if ctx.expression_nesting > MAX_EXPRESSION_NESTING then .error .nested_too_deeply
      else
        match build_body_expression_bracket cfg
            (ctx.enter_expression.set_current_rule
              { ctx.enter_expression.current_rule with
                  brackets := ctx.enter_expression.current_rule.brackets ++ [bracket.zero] })
            bracket_expr with
        | .error e => .error e
        | .ok (c3, bracket_automaton) =>
          match add_keyword_token { c3 with next_symbol := c3.next_symbol + 1 }
              c3.current_rule begin_token .TOKEN_START with
          | .error e => .error e
          | .ok (c5, r5, start_symbol) =>
            match add_keyword_token (c5.set_current_rule r5)
                (c5.set_current_rule r5).current_rule end_token .TOKEN_END with
            | .error e => .error e
            | .ok (c7, r7, end_symbol) =>
              if start_symbol = .SYMBOL_EPSILON then .error .invalid_start_keyword
              else if end_symbol = .SYMBOL_EPSILON then .error .invalid_end_keyword
              else
                .ok ((c7.set_current_rule
                        { r7 with brackets := (r7.brackets.set
                            ctx.enter_expression.current_rule.brackets.length
                            { automaton := bracket_automaton, symbol := c3.next_symbol,
                              start_symbol := start_symbol,
                              end_symbol := end_symbol }) }).leave_expression,
                     automaton_add_transition a b.entry b.exit (.issued c3.next_symbol)) := by
  rw [build_body_expression]
  rfl

theorem build_body_expression_zero_or_more_eq (cfg : build_config) (ctx : context)
    (a : automaton) (operand : parsed_expr) (b : boundary_states) :
    build_body_expression cfg ctx a (.PARSED_ZERO_OR_MORE operand) b =
      if ctx.expression_nesting > MAX_EXPRESSION_NESTING then .error .nested_too_deeply
      else
        match connect_expression cfg ctx.enter_expression a operand b with
        | .error e => .error e
        | .ok (ctx, a, inner) =>
          .ok (ctx.leave_expression,
               automaton_add_transition
                 (automaton_add_transition a inner.exit inner.entry .SYMBOL_EPSILON)
                 b.entry b.exit .SYMBOL_EPSILON) := by
  rw [build_body_expression]
  rfl

theorem build_body_expression_one_or_more_eq (cfg : build_config) (ctx : context)
    (a : automaton) (operand : parsed_expr) (b : boundary_states) :
    build_body_expression cfg ctx a (.PARSED_ONE_OR_MORE operand) b =
      if ctx.expression_nesting > MAX_EXPRESSION_NESTING then .error .nested_too_deeply
      else
        match connect_expression cfg ctx.enter_expression a operand b with
        | .error e => .error e
        | .ok (ctx, a, inner) =>
          .ok (ctx.leave_expression,
               automaton_add_transition a inner.exit inner.entry .SYMBOL_EPSILON) := by
  rw [build_body_expression]
  rfl

theorem build_body_expression_optional_eq (cfg : build_config) (ctx : context)
    (a : automaton) (operand : parsed_expr) (b : boundary_states) :
    build_body_expression cfg ctx a (.PARSED_OPTIONAL operand) b =
      if ctx.expression_nesting > MAX_EXPRESSION_NESTING then .error .nested_too_deeply
      else
        match connect_expression cfg ctx.enter_expression a operand b with
        | .error e => .error e
        | .ok (ctx, a, _) =>
          .ok (ctx.leave_expression,
               automaton_add_transition a b.entry b.exit .SYMBOL_EPSILON) := by
  rw [build_body_expression]
  rfl

theorem build_body_expression_choice_empty_eq (cfg : build_config) (ctx : context)
    (a : automaton) (b : boundary_states) :
    build_body_expression_choice cfg ctx a .empty b = .ok (ctx, a) := by
  rw [build_body_expression_choice]

theorem build_body_expression_choice_cons_eq (cfg : build_config) (ctx : context)
    (a : automaton) (head : parsed_expr) (next : parsed_expr_list) (b : boundary_states) :
    build_body_expression_choice cfg ctx a (.cons head next) b =
      match connect_expression cfg ctx a head b with
      | .error e => .error e
      | .ok (ctx, a, _) => build_body_expression_choice cfg ctx a next b := by
  rw [build_body_expression_choice]
  rfl

theorem build_body_expression_concatenation_empty_eq (cfg : build_config) (ctx : context)
    (a : automaton) (inner : boundary_states) :
    build_body_expression_concatenation cfg ctx a .empty inner = .ok (ctx, a, inner) := by
  rw [build_body_expression_concatenation]

theorem build_body_expression_concatenation_cons_eq (cfg : build_config) (ctx : context)
    (a : automaton) (head : parsed_expr) (next : parsed_expr_list) (inner : boundary_states) :
    build_body_expression_concatenation cfg ctx a (.cons head next) inner =
      match build_body_expression cfg { ctx with next_state := ctx.next_state + 1 } a head
          { entry := inner.entry, exit := ctx.next_state } with
      | .error e => .error e
      | .ok (c2, a2) =>
        build_body_expression_concatenation cfg c2 a2 next
          { entry := ctx.next_state, exit := ctx.next_state } := by
  rw [build_body_expression_concatenation]

theorem build_body_expression_bracket_empty_eq (cfg : build_config) (ctx : context) :
    build_body_expression_bracket cfg ctx .empty =
      .ok (ctx, automaton_mark_accepting_state
             (automaton_set_start_state bracket.zero.automaton 0) 0) := by
  rw [build_body_expression_bracket]

theorem build_body_expression_bracket_cons_eq (cfg : build_config) (ctx : context)
    (inner_expr : parsed_expr) (next : parsed_expr_list) :
    build_body_expression_bracket cfg ctx (.cons inner_expr next) =
      match build_body_automaton cfg
          { ctx with bracket_nesting := ctx.bracket_nesting + 1 } inner_expr with
      | .error e => .error e
      | .ok (c2, bracket_automaton) =>
        .ok ({ c2 with bracket_nesting := c2.bracket_nesting - 1 }, bracket_automaton) := by
  rw [build_body_expression_bracket]
  rfl

/-! ## The frame of the fill-in pass -/

theorem context.frame_refl (c : context) : c.frame c :=
  ⟨rfl, rfl, rfl, fun _ _ => rfl⟩

theorem context.frame_trans (c1 c2 c3 : context) (h12 : c1.frame c2) (h23 : c2.frame c3) :
    c1.frame c3 := by
  obtain ⟨a1, a2, a3, a4⟩ := h12
  obtain ⟨b1, b2, b3, b4⟩ := h23
  refine ⟨by rw [b1, a1], by rw [b2, a2], by rw [b3, a3], ?_⟩
  intro j hj
  rw [b4 j (by rw [a1]; exact hj), a4 j hj]

/-- A step that keeps the grammar and the rule index is inside the frame. -/
theorem context.frame_same (c1 c2 : context) (hg : c2.grammar = c1.grammar)
    (hi : c2.rule_index = c1.rule_index) : c1.frame c2 :=
  ⟨hi, by rw [hg], by rw [hg], fun _ _ => by rw [hg]⟩

theorem map_name_set (rules : List rule) (i : Nat) (r : rule)
    (hn : r.name = (rules.getD i (rule.fresh [])).name) :
    (rules.set i r).map (fun r => r.name) = rules.map (fun r => r.name) := by
  induction rules generalizing i with
  | nil => simp
  | cons x rest ih =>
    cases i with
    | zero =>
      simp only [List.set_cons_zero, List.map_cons, List.cons.injEq, and_true]
      simpa using hn
    | succ k =>
      simp only [List.set_cons_succ, List.map_cons, List.cons.injEq, true_and]
      apply ih
      simpa using hn

theorem getD_set_ne (rules : List rule) (i j : Nat) (r d : rule) (h : j ≠ i) :
    (rules.set i r).getD j d = rules.getD j d := by
  induction rules generalizing i j with
  | nil => simp
  | cons x rest ih =>
    cases i with
    | zero =>
      cases j with
      | zero => exact absurd rfl h
      | succ m => simp
    | succ k =>
      cases j with
      | zero => simp
      | succ m =>
        simp only [List.set_cons_succ, List.getD_cons_succ]
        exact ih k m (by omega)

/-- Writing back a rule of the same name over the rule being filled in is inside
the frame. -/
theorem context.frame_set (c1 c2 : context) (r : rule)
    (hg : c2.grammar = c1.grammar.set_rule c1.rule_index r)
    (hi : c2.rule_index = c1.rule_index) (hn : r.name = c1.current_rule.name) :
    c1.frame c2 := by
  refine ⟨hi, by rw [hg]; rfl, ?_, ?_⟩
  · rw [hg]
    exact map_name_set _ _ _ hn
  · intro j hj
    rw [hg]
    exact getD_set_ne _ _ _ _ _ hj

/-- A successful `add_slot` changes `next_symbol` in the context and the slots in
the rule, and nothing else. -/
theorem add_slot_frame (cfg : build_config) (ctx ctx1 : context) (r r1 : rule)
    (name : byte_string) (target i : Nat)
    (h : add_slot cfg ctx r name target = .ok (ctx1, r1, i)) :
    ctx1 = { ctx with next_symbol := ctx1.next_symbol } ∧
    r1 = { r with slots := r1.slots } := by
  unfold add_slot at h
  split at h
  · cases h
  · split at h
    · split at h
      · cases h
      · simp only [Except.ok.injEq, Prod.mk.injEq] at h
        obtain ⟨hc, hr, _⟩ := h
        subst hc; subst hr
        exact ⟨rfl, rfl⟩
    · simp only [Except.ok.injEq, Prod.mk.injEq] at h
      obtain ⟨hc, hr, _⟩ := h
      subst hc; subst hr
      exact ⟨rfl, rfl⟩

/-- A successful `add_keyword_token` changes `next_symbol` in the context and the
keyword tokens in the rule, and nothing else. -/
theorem add_keyword_token_frame (ctx ctx1 : context) (r r1 : rule)
    (keyword : byte_string) (type : token_type) (s : symbol_id)
    (h : add_keyword_token ctx r keyword type = .ok (ctx1, r1, s)) :
    ctx1 = { ctx with next_symbol := ctx1.next_symbol } ∧
    r1 = { r with keyword_tokens := r1.keyword_tokens } := by
  unfold add_keyword_token at h
  split at h
  · simp only [Except.ok.injEq, Prod.mk.injEq] at h
    obtain ⟨hc, hr, _⟩ := h
    subst hc; subst hr
    exact ⟨rfl, rfl⟩
  · split at h
    · cases h
    · split at h
      · simp only [Except.ok.injEq, Prod.mk.injEq] at h
        obtain ⟨hc, hr, _⟩ := h
        subst hc; subst hr
        exact ⟨rfl, rfl⟩
      · simp only [Except.ok.injEq, Prod.mk.injEq] at h
        obtain ⟨hc, hr, _⟩ := h
        subst hc; subst hr
        exact ⟨rfl, rfl⟩

theorem context.preserved_refl (c : context) : c.preserved c :=
  ⟨c.frame_refl, rfl, rfl⟩

theorem context.preserved_trans (c1 c2 c3 : context) (h12 : c1.preserved c2)
    (h23 : c2.preserved c3) : c1.preserved c3 :=
  ⟨context.frame_trans c1 c2 c3 h12.1 h23.1, by rw [h23.2.1, h12.2.1],
   by rw [h23.2.2, h12.2.2]⟩

/-- A step that keeps the grammar, the rule index and the nesting counters. -/
theorem context.preserved_same (c1 c2 : context) (hg : c2.grammar = c1.grammar)
    (hi : c2.rule_index = c1.rule_index) (hb : c2.bracket_nesting = c1.bracket_nesting)
    (he : c2.expression_nesting = c1.expression_nesting) : c1.preserved c2 :=
  ⟨context.frame_same c1 c2 hg hi, hb, he⟩

/-- Writing back a rule of the same name, with the nesting counters kept. -/
theorem context.preserved_set (c1 c2 : context) (r : rule)
    (hg : c2.grammar = c1.grammar.set_rule c1.rule_index r)
    (hi : c2.rule_index = c1.rule_index) (hn : r.name = c1.current_rule.name)
    (hb : c2.bracket_nesting = c1.bracket_nesting)
    (he : c2.expression_nesting = c1.expression_nesting) : c1.preserved c2 :=
  ⟨context.frame_set c1 c2 r hg hi hn, hb, he⟩

/-- The builder passed to `connect_expression` preserving the frame, so does
`connect_expression`. -/
theorem connect_expression_with_preserved
    (build_expr : context → automaton → boundary_states →
      Except build_error (context × automaton))
    (hb : ∀ c a b c1 a1, build_expr c a b = .ok (c1, a1) → c.preserved c1)
    (ctx ctx1 : context) (a a1 : automaton) (outer inner : boundary_states)
    (h : connect_expression_with build_expr ctx a outer = .ok (ctx1, a1, inner)) :
    ctx.preserved ctx1 := by
  unfold connect_expression_with at h
  simp only at h
  split at h
  · cases h
  · rename_i c2 a2 hbuild
    simp only [Except.ok.injEq, Prod.mk.injEq] at h
    obtain ⟨hc, _, _⟩ := h
    subst hc
    have h2 := hb _ _ _ _ _ hbuild
    exact context.preserved_trans _ _ _ (context.preserved_same _ _ rfl rfl rfl rfl) h2

/-- The builder passed to `build_body_automaton` preserving the frame, so does
`build_body_automaton`. -/
theorem build_body_automaton_with_preserved (cfg : build_config)
    (build_expr : context → automaton → boundary_states →
      Except build_error (context × automaton))
    (hb : ∀ c a b c1 a1, build_expr c a b = .ok (c1, a1) → c.preserved c1)
    (ctx ctx1 : context) (a1 : automaton)
    (h : build_body_automaton_with cfg build_expr ctx = .ok (ctx1, a1)) :
    ctx.preserved ctx1 := by
  unfold build_body_automaton_with at h
  simp only at h
  split at h
  · cases h
  · rename_i c2 a2 hbuild
    simp only [Except.ok.injEq, Prod.mk.injEq] at h
    obtain ⟨hc, _⟩ := h
    subst hc
    have h2 := hb _ _ _ _ _ hbuild
    exact context.preserved_trans _ _ _
      (context.preserved_trans _ _ _ (context.preserved_same _ _ rfl rfl rfl rfl) h2)
      (context.preserved_same _ _ rfl rfl rfl rfl)

/-- Entering an expression raises `expression_nesting` and leaving it lowers it
again. -/
theorem context.preserved_enter_leave (ctx c2 : context)
    (h : ctx.enter_expression.preserved c2) :
    ctx.preserved c2.leave_expression := by
  obtain ⟨hf, hb, he⟩ := h
  refine ⟨?_, ?_, ?_⟩
  · exact context.frame_trans _ _ _
      (context.frame_trans _ _ _ (context.frame_same ctx _ rfl rfl) hf)
      (context.frame_same c2 _ rfl rfl)
  · simpa [context.leave_expression, context.enter_expression] using hb
  · simp only [context.enter_expression] at he
    simp only [context.leave_expression, he]
    omega

/-- The context and rule handed back by `add_slot`, field by field. -/
theorem add_slot_fields (cfg : build_config) (ctx ctx1 : context) (r r1 : rule)
    (name : byte_string) (target i : Nat)
    (h : add_slot cfg ctx r name target = .ok (ctx1, r1, i)) :
    ctx1.grammar = ctx.grammar ∧ ctx1.rule_index = ctx.rule_index ∧
    ctx1.bracket_nesting = ctx.bracket_nesting ∧
    ctx1.expression_nesting = ctx.expression_nesting ∧
    ctx1.next_state = ctx.next_state ∧ r1.name = r.name := by
  obtain ⟨hc, hr⟩ := add_slot_frame cfg ctx ctx1 r r1 name target i h
  refine ⟨?_, ?_, ?_, ?_, ?_, ?_⟩
  · rw [hc]
  · rw [hc]
  · rw [hc]
  · rw [hc]
  · rw [hc]
  · rw [hr]

/-- The context and rule handed back by `add_keyword_token`, field by field. -/
theorem add_keyword_token_fields (ctx ctx1 : context) (r r1 : rule)
    (keyword : byte_string) (type : token_type) (s : symbol_id)
    (h : add_keyword_token ctx r keyword type = .ok (ctx1, r1, s)) :
    ctx1.grammar = ctx.grammar ∧ ctx1.rule_index = ctx.rule_index ∧
    ctx1.bracket_nesting = ctx.bracket_nesting ∧
    ctx1.expression_nesting = ctx.expression_nesting ∧
    ctx1.next_state = ctx.next_state ∧ r1.name = r.name := by
  obtain ⟨hc, hr⟩ := add_keyword_token_frame ctx ctx1 r r1 keyword type s h
  refine ⟨?_, ?_, ?_, ?_, ?_, ?_⟩
  · rw [hc]
  · rw [hc]
  · rw [hc]
  · rw [hc]
  · rw [hc]
  · rw [hr]

/-- `add_slot` followed by writing the rule back is inside the frame. -/
theorem add_slot_preserved (cfg : build_config) (ctx ctx1 : context) (r1 : rule)
    (name : byte_string) (target i : Nat)
    (h : add_slot cfg ctx ctx.current_rule name target = .ok (ctx1, r1, i)) :
    ctx.preserved (ctx1.set_current_rule r1) := by
  obtain ⟨h1, h2, h3, h4, _, h6⟩ := add_slot_fields cfg ctx ctx1 _ r1 name target i h
  exact context.preserved_set ctx _ r1
    (by simp only [context.set_current_rule, h1, h2]) h2 h6 h3 h4

/-- `add_keyword_token` followed by writing the rule back is inside the frame. -/
theorem add_keyword_token_preserved (ctx ctx1 : context) (r1 : rule)
    (keyword : byte_string) (type : token_type) (s : symbol_id)
    (h : add_keyword_token ctx ctx.current_rule keyword type = .ok (ctx1, r1, s)) :
    ctx.preserved (ctx1.set_current_rule r1) := by
  obtain ⟨h1, h2, h3, h4, _, h6⟩ := add_keyword_token_fields ctx ctx1 _ r1 keyword type s h
  exact context.preserved_set ctx _ r1
    (by simp only [context.set_current_rule, h1, h2]) h2 h6 h3 h4

/-- An update of the rule being filled in that keeps its name. -/
theorem set_current_rule_preserved (ctx : context) (r : rule)
    (hn : r.name = ctx.current_rule.name) : ctx.preserved (ctx.set_current_rule r) :=
  context.preserved_set ctx _ r rfl rfl hn rfl rfl

theorem connect_expression_preserved (expr : parsed_expr) (ih : expression_preserved expr)
    (cfg : build_config) (ctx ctx1 : context) (a a1 : automaton)
    (outer inner : boundary_states)
    (h : connect_expression cfg ctx a expr outer = .ok (ctx1, a1, inner)) :
    ctx.preserved ctx1 :=
  connect_expression_with_preserved _ (fun c a b c1 a1 hx => ih cfg c a b c1 a1 hx)
    _ _ _ _ _ _ h

theorem build_body_automaton_preserved_of (expr : parsed_expr)
    (ih : expression_preserved expr) (cfg : build_config) (ctx ctx1 : context)
    (a1 : automaton) (h : build_body_automaton cfg ctx expr = .ok (ctx1, a1)) :
    ctx.preserved ctx1 :=
  build_body_automaton_with_preserved cfg _ (fun c a b c1 a1 hx => ih cfg c a b c1 a1 hx)
    _ _ _ h

theorem build_body_expression_ident_preserved (identifier : byte_string)
    (rename : Option byte_string) :
    expression_preserved (.PARSED_IDENT identifier rename) := by
  intro cfg ctx a b c1 a1 h
  rw [build_body_expression_ident_eq] at h
  split at h
  · cases h
  · split at h
    · cases h
    · split at h
      · split at h <;> cases h
      · split at h
        · cases h
        · rename_i c2 r2 i hadd
          simp only [Except.ok.injEq, Prod.mk.injEq] at h
          obtain ⟨hc, _⟩ := h
          subst hc
          exact context.preserved_enter_leave ctx _ (add_slot_preserved cfg _ c2 r2 _ _ i hadd)

theorem build_body_expression_literal_preserved (string : byte_string) :
    expression_preserved (.PARSED_LITERAL string) := by
  intro cfg ctx a b c1 a1 h
  rw [build_body_expression_literal_eq] at h
  split at h
  · cases h
  · split at h
    · cases h
    · rename_i c2 r2 s hadd
      simp only [Except.ok.injEq, Prod.mk.injEq] at h
      obtain ⟨hc, _⟩ := h
      subst hc
      exact context.preserved_enter_leave ctx _
        (add_keyword_token_preserved _ c2 r2 _ _ s hadd)

theorem build_body_expression_parens_preserved (expr : parsed_expr)
    (ih : expression_preserved expr) : expression_preserved (.PARSED_PARENS expr) := by
  intro cfg ctx a b c1 a1 h
  rw [build_body_expression_parens_eq] at h
  split at h
  · cases h
  · split at h
    · cases h
    · rename_i c2 a2 hsub
      simp only [Except.ok.injEq, Prod.mk.injEq] at h
      obtain ⟨hc, _⟩ := h
      subst hc
      exact context.preserved_enter_leave ctx _ (ih cfg _ _ _ _ _ hsub)

theorem build_body_expression_choice_case_preserved (operand : parsed_expr_list)
    (ih : expression_list_preserved operand) :
    expression_preserved (.PARSED_CHOICE operand) := by
  intro cfg ctx a b c1 a1 h
  rw [build_body_expression_choice_eq] at h
  split at h
  · cases h
  · split at h
    · cases h
    · rename_i c2 a2 hsub
      simp only [Except.ok.injEq, Prod.mk.injEq] at h
      obtain ⟨hc, _⟩ := h
      subst hc
      exact context.preserved_enter_leave ctx _ (ih.1 cfg _ _ _ _ _ hsub)

theorem build_body_expression_concatenation_case_preserved (operand : parsed_expr_list)
    (ih : expression_list_preserved operand) :
    expression_preserved (.PARSED_CONCATENATION operand) := by
  intro cfg ctx a b c1 a1 h
  rw [build_body_expression_concatenation_eq] at h
  split at h
  · cases h
  · split at h
    · cases h
    · rename_i c2 a2 inner2 hsub
      simp only [Except.ok.injEq, Prod.mk.injEq] at h
      obtain ⟨hc, _⟩ := h
      subst hc
      have h2 := ih.2.1 cfg _ _ _ _ _ _ hsub
      exact context.preserved_enter_leave ctx _
        (context.preserved_trans _ _ _ (context.preserved_same _ _ rfl rfl rfl rfl) h2)

theorem build_body_expression_zero_or_more_preserved (operand : parsed_expr)
    (ih : expression_preserved operand) :
    expression_preserved (.PARSED_ZERO_OR_MORE operand) := by
  intro cfg ctx a b c1 a1 h
  rw [build_body_expression_zero_or_more_eq] at h
  split at h
  · cases h
  · split at h
    · cases h
    · rename_i c2 a2 inner2 hsub
      simp only [Except.ok.injEq, Prod.mk.injEq] at h
      obtain ⟨hc, _⟩ := h
      subst hc
      exact context.preserved_enter_leave ctx _
        (connect_expression_preserved operand ih cfg _ _ _ _ _ _ hsub)

theorem build_body_expression_one_or_more_preserved (operand : parsed_expr)
    (ih : expression_preserved operand) :
    expression_preserved (.PARSED_ONE_OR_MORE operand) := by
  intro cfg ctx a b c1 a1 h
  rw [build_body_expression_one_or_more_eq] at h
  split at h
  · cases h
  · split at h
    · cases h
    · rename_i c2 a2 inner2 hsub
      simp only [Except.ok.injEq, Prod.mk.injEq] at h
      obtain ⟨hc, _⟩ := h
      subst hc
      exact context.preserved_enter_leave ctx _
        (connect_expression_preserved operand ih cfg _ _ _ _ _ _ hsub)

theorem build_body_expression_optional_preserved (operand : parsed_expr)
    (ih : expression_preserved operand) :
    expression_preserved (.PARSED_OPTIONAL operand) := by
  intro cfg ctx a b c1 a1 h
  rw [build_body_expression_optional_eq] at h
  split at h
  · cases h
  · split at h
    · cases h
    · rename_i c2 a2 inner2 hsub
      simp only [Except.ok.injEq, Prod.mk.injEq] at h
      obtain ⟨hc, _⟩ := h
      subst hc
      exact context.preserved_enter_leave ctx _
        (connect_expression_preserved operand ih cfg _ _ _ _ _ _ hsub)

theorem build_body_expression_bracketed_preserved (bracket_expr : parsed_expr_list)
    (begin_token end_token : byte_string) (ih : expression_list_preserved bracket_expr) :
    expression_preserved (.PARSED_BRACKETED bracket_expr begin_token end_token) := by
  intro cfg ctx a b c1 a1 h
  rw [build_body_expression_bracketed_eq] at h
  split at h
  · cases h
  · split at h
    · cases h
    · rename_i c3 bracket_automaton hbracket
      have h3 := ih.2.2 cfg _ _ _ hbracket
      split at h
      · cases h
      · rename_i c5 r5 s5 hstart
        have h5 : context.preserved { c3 with next_symbol := c3.next_symbol + 1 }
            (c5.set_current_rule r5) :=
          add_keyword_token_preserved _ c5 r5 _ _ s5 hstart
        split at h
        · cases h
        · rename_i c7 r7 s7 hend
          have h7 := add_keyword_token_fields _ c7 _ r7 _ _ s7 hend
          split at h
          · cases h
          · split at h
            · cases h
            · simp only [Except.ok.injEq, Prod.mk.injEq] at h
              obtain ⟨hc, _⟩ := h
              subst hc
              apply context.preserved_enter_leave
              have h1 : ctx.enter_expression.preserved
                  (ctx.enter_expression.set_current_rule
                    { ctx.enter_expression.current_rule with
                        brackets := ctx.enter_expression.current_rule.brackets ++
                          [bracket.zero] }) :=
                set_current_rule_preserved _ _ rfl
              have h4 : c3.preserved { c3 with next_symbol := c3.next_symbol + 1 } :=
                context.preserved_same _ _ rfl rfl rfl rfl
              obtain ⟨g1, g2, g3, g4, _, g6⟩ := h7
              have h8 : (c5.set_current_rule r5).preserved
                  (c7.set_current_rule
                    { r7 with brackets := (r7.brackets.set
                        ctx.enter_expression.current_rule.brackets.length
                        { automaton := bracket_automaton, symbol := c3.next_symbol,
                          start_symbol := s5, end_symbol := s7 }) }) :=
                context.preserved_set _ _
                  { r7 with brackets := (r7.brackets.set
                      ctx.enter_expression.current_rule.brackets.length
                      { automaton := bracket_automaton, symbol := c3.next_symbol,
                        start_symbol := s5, end_symbol := s7 }) }
                  (by simp only [context.set_current_rule, g1, g2]) g2 g6 g3 g4
              exact context.preserved_trans _ _ _ h1
                (context.preserved_trans _ _ _ h3
                  (context.preserved_trans _ _ _ h4
                    (context.preserved_trans _ _ _ h5 h8)))

theorem expression_list_empty_preserved : expression_list_preserved .empty := by
  refine ⟨?_, ?_, ?_⟩
  · intro cfg ctx a b c1 a1 h
    rw [build_body_expression_choice_empty_eq] at h
    simp only [Except.ok.injEq, Prod.mk.injEq] at h
    obtain ⟨hc, _⟩ := h
    subst hc
    exact context.preserved_refl _
  · intro cfg ctx a inner c1 a1 inner1 h
    rw [build_body_expression_concatenation_empty_eq] at h
    simp only [Except.ok.injEq, Prod.mk.injEq] at h
    obtain ⟨hc, _⟩ := h
    subst hc
    exact context.preserved_refl _
  · intro cfg ctx c1 a1 h
    rw [build_body_expression_bracket_empty_eq] at h
    simp only [Except.ok.injEq, Prod.mk.injEq] at h
    obtain ⟨hc, _⟩ := h
    subst hc
    exact context.preserved_refl _

theorem expression_list_cons_preserved (head : parsed_expr) (next : parsed_expr_list)
    (ihh : expression_preserved head) (ihn : expression_list_preserved next) :
    expression_list_preserved (.cons head next) := by
  refine ⟨?_, ?_, ?_⟩
  · intro cfg ctx a b c1 a1 h
    rw [build_body_expression_choice_cons_eq] at h
    split at h
    · cases h
    · rename_i c2 a2 inner2 hsub
      have h2 := connect_expression_preserved head ihh cfg _ _ _ _ _ _ hsub
      exact context.preserved_trans _ _ _ h2 (ihn.1 cfg _ _ _ _ _ h)
  · intro cfg ctx a inner c1 a1 inner1 h
    rw [build_body_expression_concatenation_cons_eq] at h
    split at h
    · cases h
    · rename_i c2 a2 hsub
      have h2 := ihh cfg _ _ _ _ _ hsub
      have h3 := ihn.2.1 cfg _ _ _ _ _ _ h
      exact context.preserved_trans _ _ _
        (context.preserved_trans _ _ _ (context.preserved_same _ _ rfl rfl rfl rfl) h2) h3
  · intro cfg ctx c1 a1 h
    rw [build_body_expression_bracket_cons_eq] at h
    split at h
    · cases h
    · rename_i c2 a2 hsub
      simp only [Except.ok.injEq, Prod.mk.injEq] at h
      obtain ⟨hc, _⟩ := h
      subst hc
      have h2 := build_body_automaton_preserved_of head ihh cfg _ _ _ hsub
      obtain ⟨hf, hb, he⟩ := h2
      refine ⟨?_, ?_, ?_⟩
      · exact context.frame_trans _ _ _
          (context.frame_trans _ _ _ (context.frame_same ctx _ rfl rfl) hf)
          (context.frame_same c2 _ rfl rfl)
      · simp only [hb]; omega
      · simpa using he

/-- Every successful `build_body_expression` is inside the frame and restores the
two nesting counters. -/
theorem build_body_expression_preserved (expr : parsed_expr) : expression_preserved expr :=
  parsed_expr.rec (motive_1 := expression_preserved) (motive_2 := expression_list_preserved)
    build_body_expression_choice_case_preserved
    build_body_expression_concatenation_case_preserved
    build_body_expression_ident_preserved
    build_body_expression_literal_preserved
    build_body_expression_parens_preserved
    build_body_expression_bracketed_preserved
    build_body_expression_zero_or_more_preserved
    build_body_expression_one_or_more_preserved
    build_body_expression_optional_preserved
    expression_list_empty_preserved
    expression_list_cons_preserved
    expr

/-- Every successful `build_body_automaton` is inside the frame and restores the
two nesting counters. -/
theorem build_body_automaton_preserved (cfg : build_config) (ctx ctx1 : context)
    (expr : parsed_expr) (a1 : automaton)
    (h : build_body_automaton cfg ctx expr = .ok (ctx1, a1)) : ctx.preserved ctx1 :=
  build_body_automaton_preserved_of expr (build_body_expression_preserved expr) cfg _ _ _ h
theorem build_choices_preserved (cfg : build_config) (clauses : List parsed_clause)
    (ctx ctx1 : context) (h : build_choices cfg clauses ctx = .ok ctx1) :
    ctx.preserved ctx1 := by
  induction clauses generalizing ctx with
  | nil =>
    simp only [build_choices, Except.ok.injEq] at h
    subst h
    exact context.preserved_refl _
  | cons clause rest ih =>
    simp only [build_choices] at h
    split at h
    · cases h
    · split at h
      · cases h
      · split at h
        · cases h
        · rename_i c2 built hsub
          have h1 := build_body_automaton_preserved cfg _ _ _ _ hsub
          have h0 : ctx.preserved (ctx.set_current_rule
              { ctx.current_rule with choices := ctx.current_rule.choices ++
                  [{ name := clause.identifier, automaton := automaton.zero }] }) :=
            set_current_rule_preserved _ _ rfl
          have h2 : c2.preserved (c2.set_current_rule
              { c2.current_rule with choices := (c2.current_rule.choices.set
                  ctx.current_rule.choices.length
                  { name := clause.identifier, automaton := built }) }) :=
            set_current_rule_preserved _ _ rfl
          exact context.preserved_trans _ _ _
            (context.preserved_trans _ _ _ (context.preserved_trans _ _ _ h0 h1) h2)
            (ih _ h)

theorem build_operators_section_preserved (cfg : build_config) (rule_fixity : fixity)
    (rule_associativity : Nat) (precedence : Int) (clauses : List parsed_clause)
    (ctx ctx1 : context)
    (h : build_operators_section cfg rule_fixity rule_associativity precedence clauses ctx
      = .ok ctx1) :
    ctx.preserved ctx1 := by
  induction clauses generalizing ctx with
  | nil =>
    simp only [build_operators_section, Except.ok.injEq] at h
    subst h
    exact context.preserved_refl _
  | cons op rest ih =>
    simp only [build_operators_section] at h
    split at h
    · cases h
    · split at h
      · cases h
      · split at h
        · cases h
        · split at h
          · cases h
          · rename_i c2 built hsub
            have h1 := build_body_automaton_preserved cfg _ _ _ _ hsub
            have h0 : ctx.preserved (ctx.set_current_rule
                { ctx.current_rule with operators := ctx.current_rule.operators ++
                    [{ name := op.identifier, fixity := rule_fixity,
                       associativity := rule_associativity, precedence := precedence,
                       automaton := automaton.zero }] }) :=
              set_current_rule_preserved _ _ rfl
            have h2 : c2.preserved (c2.set_current_rule
                { c2.current_rule with operators := (c2.current_rule.operators.set
                    ctx.current_rule.operators.length
                    { name := op.identifier, fixity := rule_fixity,
                      associativity := rule_associativity, precedence := precedence,
                      automaton := built }) }) :=
              set_current_rule_preserved _ _ rfl
            exact context.preserved_trans _ _ _
              (context.preserved_trans _ _ _ (context.preserved_trans _ _ _ h0 h1) h2)
              (ih _ h)

theorem build_operators_preserved (cfg : build_config) (sections : List parsed_operators)
    (precedence : Int) (ctx ctx1 : context)
    (h : build_operators cfg sections precedence ctx = .ok ctx1) : ctx.preserved ctx1 := by
  induction sections generalizing ctx precedence with
  | nil =>
    simp only [build_operators, Except.ok.injEq] at h
    subst h
    exact context.preserved_refl _
  | cons ops rest ih =>
    simp only [build_operators] at h
    split at h
    · cases h
    · rename_i c2 hsub
      exact context.preserved_trans _ _ _
        (build_operators_section_preserved cfg _ _ _ _ _ _ hsub) (ih _ _ h)

/-- `add_slot` followed by writing back the rule with one of its operand slot
indices set is inside the frame. -/
theorem add_slot_then_set_preserved (cfg : build_config) (ctx ctx1 : context) (r1 r2 : rule)
    (name : byte_string) (target i : Nat)
    (h : add_slot cfg ctx ctx.current_rule name target = .ok (ctx1, r1, i))
    (hn : r2.name = r1.name) :
    ctx.preserved (ctx1.set_current_rule r2) := by
  obtain ⟨h1, h2, h3, h4, _, h6⟩ := add_slot_fields cfg ctx ctx1 _ r1 name target i h
  exact context.preserved_set ctx _ r2
    (by simp only [context.set_current_rule, h1, h2]) h2 (by rw [hn, h6]) h3 h4

theorem build_operand_slots_preserved (cfg : build_config) (rule_index : Nat)
    (operators : List operator) (ctx ctx1 : context)
    (h : build_operand_slots cfg rule_index operators ctx = .ok ctx1) :
    ctx.preserved ctx1 := by
  induction operators generalizing ctx with
  | nil =>
    simp only [build_operand_slots, Except.ok.injEq] at h
    subst h
    exact context.preserved_refl _
  | cons op rest ih =>
    simp only [build_operand_slots] at h
    split at h
    · split at h
      · cases h
      · rename_i c2 r2 i2 hleft
        split at h
        · cases h
        · rename_i c3 r3 i3 hright
          have h1 := add_slot_then_set_preserved cfg ctx c2 r2
            { r2 with left_slot_index := some i2 } _ _ i2 hleft rfl
          have h2 := add_slot_then_set_preserved cfg _ c3 r3
            { r3 with right_slot_index := some i3 } _ _ i3 hright rfl
          exact context.preserved_trans _ _ _ (context.preserved_trans _ _ _ h1 h2) (ih _ h)
    · split at h
      · cases h
      · rename_i c2 r2 i2 hoperand
        have h1 := add_slot_then_set_preserved cfg ctx c2 r2
          { r2 with operand_slot_index := some i2 } _ _ i2 hoperand rfl
        exact context.preserved_trans _ _ _ h1 (ih _ h)

/-- A successful `build_fill_rule` looks the declared rule up, points the context
at it with `next_symbol` reset, and from there stays inside the frame. -/
theorem build_fill_rule_preserved (cfg : build_config) (parsed : parsed_rule)
    (ctx ctx1 : context) (h : build_fill_rule cfg parsed ctx = .ok ctx1) :
    ∃ rule_index : Nat, find_rule ctx parsed.identifier = some rule_index ∧
      context.preserved { ctx with rule_index := rule_index, next_symbol := 0 } ctx1 := by
  unfold build_fill_rule at h
  split at h
  · cases h
  · rename_i rule_index hfind
    refine ⟨rule_index, hfind, ?_⟩
    simp only at h
    split at h
    · split at h
      · cases h
      · rename_i c2 built hsub
        simp only [Except.ok.injEq] at h
        subst h
        exact context.preserved_trans _ _ _ (build_body_automaton_preserved cfg _ _ _ _ hsub)
          (set_current_rule_preserved _ _ rfl)
    · split at h
      · cases h
      · rename_i c2 hchoices
        split at h
        · cases h
        · rename_i c3 hops
          exact context.preserved_trans _ _ _
            (context.preserved_trans _ _ _ (build_choices_preserved cfg _ _ _ hchoices)
              (build_operators_preserved cfg _ _ _ _ hops))
            (build_operand_slots_preserved cfg _ _ _ _ h)

/-! ## Reference legality -/

theorem find_rule_from_congr (name : byte_string) (l1 l2 : List rule) (i : Nat)
    (h : l1.map (fun r => r.name) = l2.map (fun r => r.name)) :
    find_rule_from name l1 i = find_rule_from name l2 i := by
  induction l1 generalizing l2 i with
  | nil =>
    cases l2 with
    | nil => rfl
    | cons y l2 => simp at h
  | cons x l1 ih =>
    cases l2 with
    | nil => simp at h
    | cons y l2 =>
      simp only [List.map_cons, List.cons.injEq] at h
      rw [find_rule_from_cons, find_rule_from_cons, h.1, ih l2 (i + 1) h.2]

/-- `find_rule` reads the names of the rules only. -/
theorem find_rule_congr (c1 c2 : context) (name : byte_string)
    (h : c1.grammar.rules.map (fun r => r.name) = c2.grammar.rules.map (fun r => r.name)) :
    find_rule c1 name = find_rule c2 name :=
  find_rule_from_congr name _ _ 0 h

theorem find_rule_from_set (name : byte_string) (rules : List rule) (i k : Nat) (r : rule)
    (hn : r.name = (rules.getD i (rule.fresh [])).name) :
    find_rule_from name (rules.set i r) k = find_rule_from name rules k :=
  find_rule_from_congr name _ _ k (map_name_set rules i r hn)

theorem getD_set_self (rules : List rule) (i : Nat) (r d : rule) (h : i < rules.length) :
    (rules.set i r).getD i d = r := by
  induction rules generalizing i with
  | nil => simp at h
  | cons x rest ih =>
    cases i with
    | zero => simp
    | succ k =>
      simp only [List.set_cons_succ, List.getD_cons_succ]
      exact ih k (by simpa using h)

/-- An identifier reference inside a guard bracket, in a rule that has no slot
yet: the reference is legal and a slot is allocated for it. -/
theorem build_body_expression_ident_in_bracket (cfg : build_config) (ctx : context)
    (a : automaton) (identifier : byte_string) (rename : Option byte_string)
    (b : boundary_states) (t : Nat)
    (hnest : ctx.expression_nesting ≤ MAX_EXPRESSION_NESTING)
    (hfind : find_rule ctx identifier = some t)
    (hbn : ctx.bracket_nesting ≠ 0)
    (hslots : ctx.current_rule.slots = [])
    (hmax : 0 < cfg.MAX_NUMBER_OF_SLOTS) :
    build_body_expression cfg ctx a (.PARSED_IDENT identifier rename) b =
      .ok ({ ctx with
              next_symbol := ctx.next_symbol + 1,
              grammar := ctx.grammar.set_rule ctx.rule_index
                { ctx.current_rule with slots :=
                    [{ name := rename.getD identifier, symbol := ctx.next_symbol,
                       rule_index := t }] } },
           automaton_add_transition a b.entry b.exit (.issued ctx.next_symbol)) := by
  rw [build_body_expression_ident_eq]
  have h1 : find_rule ctx.enter_expression identifier = some t := hfind
  have h2 : ctx.enter_expression.current_rule = ctx.current_rule := rfl
  rw [if_neg (by omega), h1]
  simp only
  rw [if_neg (by simp [context.enter_expression, hbn]), h2]
  simp [add_slot, hslots, add_slot_scan, Nat.not_le.mpr hmax, context.enter_expression,
    context.leave_expression, context.set_current_rule]

/-- A keyword with non-empty text that no token of the rule has is appended with
the current `next_symbol`. -/
theorem add_keyword_token_new (ctx : context) (r : rule) (keyword : byte_string)
    (type : token_type) (hlen : keyword.length > 2)
    (hnew : keyword_text keyword ∉ r.keyword_tokens.map (fun t => t.string)) :
    add_keyword_token ctx r keyword type =
      .ok ({ ctx with next_symbol := ctx.next_symbol + 1 },
           { r with keyword_tokens := r.keyword_tokens ++
               [{ string := keyword_text keyword, type := type,
                  symbol := ctx.next_symbol }] },
           .issued ctx.next_symbol) := by
  have hfind := (find_token_from_end_iff (keyword_text keyword) type r.keyword_tokens 0).mpr hnew
  unfold add_keyword_token
  rw [if_neg (by omega)]
  unfold find_token
  rw [hfind]
  simp

theorem context.current_rule_set (ctx : context) (r : rule)
    (h : ctx.rule_index < ctx.grammar.rules.length) :
    (ctx.set_current_rule r).current_rule = r := by
  simp only [context.current_rule, context.set_current_rule, grammar.rule_at, grammar.set_rule]
  exact getD_set_self _ _ _ _ h

/-- The bracket body that is one identifier reference, in a rule that has no slot
yet: the nested build succeeds, allocates the slot of the reference and restores
`next_state` and `bracket_nesting`. -/
theorem build_body_expression_bracket_reference (cfg : build_config) (ctx : context)
    (identifier : byte_string) (rename : Option byte_string) (next : parsed_expr_list)
    (t : Nat) (hnest : ctx.expression_nesting ≤ MAX_EXPRESSION_NESTING)
    (hfind : find_rule ctx identifier = some t)
    (hslots : ctx.current_rule.slots = [])
    (hmax : 0 < cfg.MAX_NUMBER_OF_SLOTS) :
    build_body_expression_bracket cfg ctx (.cons (.PARSED_IDENT identifier rename) next) =
      .ok ({ ctx with
              next_symbol := ctx.next_symbol + 1,
              grammar := ctx.grammar.set_rule ctx.rule_index
                { ctx.current_rule with slots :=
                    [{ name := rename.getD identifier, symbol := ctx.next_symbol,
                       rule_index := t }] } },
           cfg.determinize_minimize
             (automaton_add_transition
               (automaton_mark_accepting_state (automaton_set_start_state automaton.zero 0) 1)
               0 1 (.issued ctx.next_symbol))) := by
  have hinner := build_body_expression_ident_in_bracket cfg
    { ctx with bracket_nesting := ctx.bracket_nesting + 1, next_state := 2 }
    (automaton_mark_accepting_state (automaton_set_start_state automaton.zero 0) 1)
    identifier rename { entry := 0, exit := 1 } t hnest hfind (by simp) hslots hmax
  rw [build_body_expression_bracket_cons_eq]
  simp only [build_body_automaton, build_body_automaton_with]
  rw [hinner]
  simp [context.current_rule]

/-- A guard bracket whose body builds, with non-empty start and end keywords of
different text, in a rule that holds no keyword token after the body is built:
the bracket builds. -/
theorem build_body_expression_bracketed_builds (cfg : build_config) (ctx c3 : context)
    (a bracket_automaton : automaton) (bracket_expr : parsed_expr_list)
    (begin_token end_token : byte_string) (b : boundary_states)
    (hnest : ctx.expression_nesting ≤ MAX_EXPRESSION_NESTING)
    (hbody : build_body_expression_bracket cfg
        (ctx.enter_expression.set_current_rule
          { ctx.enter_expression.current_rule with
              brackets := ctx.enter_expression.current_rule.brackets ++ [bracket.zero] })
        bracket_expr = .ok (c3, bracket_automaton))
    (hrange : c3.rule_index < c3.grammar.rules.length)
    (htokens : c3.current_rule.keyword_tokens = [])
    (hb : begin_token.length > 2) (he : end_token.length > 2)
    (hne : keyword_text begin_token ≠ keyword_text end_token) :
    ∃ (c1 : context) (a1 : automaton),
      build_body_expression cfg ctx a
        (.PARSED_BRACKETED bracket_expr begin_token end_token) b = .ok (c1, a1) := by
  rw [build_body_expression_bracketed_eq, if_neg (by omega), hbody]
  simp only
  rw [add_keyword_token_new _ _ begin_token .TOKEN_START hb (by simp [htokens])]
  simp only
  rw [context.current_rule_set { c3 with next_symbol := c3.next_symbol + 1 + 1 } _ hrange]
  rw [add_keyword_token_new _ _ end_token .TOKEN_END he
    (by simp [htokens]; exact fun h => hne h.symm)]
  simp

theorem grammar.set_rule_length (g : grammar) (i : Nat) (r : rule) :
    (g.set_rule i r).rules.length = g.rules.length := by
  simp [grammar.set_rule]

theorem grammar.rule_at_set_rule (g : grammar) (i : Nat) (r : rule)
    (h : i < g.rules.length) : (g.set_rule i r).rule_at i = r :=
  getD_set_self _ _ _ _ h

/-- Writing back a rule of the same name does not change what `find_rule`
finds. -/
theorem find_rule_set_current_rule (ctx : context) (r : rule) (name : byte_string)
    (hn : r.name = ctx.current_rule.name) :
    find_rule (ctx.set_current_rule r) name = find_rule ctx name :=
  find_rule_congr _ ctx name (map_name_set _ _ _ hn)

/-- A guard bracket around one identifier reference, with non-empty start and
end keywords of different text, compiled in a rule that has neither slots nor
keyword tokens yet: the build succeeds, whatever rule the reference resolves
to. -/
theorem build_body_expression_guarded_reference (cfg : build_config) (ctx : context)
    (a : automaton) (identifier : byte_string) (rename : Option byte_string)
    (next : parsed_expr_list) (begin_token end_token : byte_string) (b : boundary_states)
    (t : Nat) (hnest : ctx.expression_nesting < MAX_EXPRESSION_NESTING)
    (hfind : find_rule ctx identifier = some t)
    (hrange : ctx.rule_index < ctx.grammar.rules.length)
    (hslots : ctx.current_rule.slots = [])
    (htokens : ctx.current_rule.keyword_tokens = [])
    (hmax : 0 < cfg.MAX_NUMBER_OF_SLOTS)
    (hb : begin_token.length > 2) (he : end_token.length > 2)
    (hne : keyword_text begin_token ≠ keyword_text end_token) :
    ∃ (c1 : context) (a1 : automaton),
      build_body_expression cfg ctx a
        (.PARSED_BRACKETED (.cons (.PARSED_IDENT identifier rename) next)
          begin_token end_token) b = .ok (c1, a1) := by
  obtain ⟨rB, hrB⟩ : ∃ r : rule, r =
      { ctx.enter_expression.current_rule with
          brackets := ctx.enter_expression.current_rule.brackets ++ [bracket.zero] } :=
    ⟨_, rfl⟩
  have hname : rB.name = ctx.enter_expression.current_rule.name := by rw [hrB]
  have hslotsB : rB.slots = [] := by rw [hrB]; exact hslots
  have htokensB : rB.keyword_tokens = [] := by rw [hrB]; exact htokens
  have hcur : (ctx.enter_expression.set_current_rule rB).current_rule = rB :=
    context.current_rule_set ctx.enter_expression rB hrange
  have hlenB : ctx.rule_index < (ctx.grammar.set_rule ctx.rule_index rB).rules.length := by
    rw [grammar.set_rule_length]; exact hrange
  have hbody := build_body_expression_bracket_reference cfg
    (ctx.enter_expression.set_current_rule rB) identifier rename next t
    (by
      have : (ctx.enter_expression.set_current_rule rB).expression_nesting
          = ctx.expression_nesting + 1 := rfl
      omega)
    ((find_rule_set_current_rule ctx.enter_expression rB identifier hname).trans hfind)
    (by rw [hcur]; exact hslotsB)
    hmax
  rw [hcur] at hbody
  rw [hrB] at hbody
  refine build_body_expression_bracketed_builds cfg ctx _ a _ _ begin_token end_token b
    (by omega) hbody ?_ ?_ hb he hne
  · rw [← hrB]
    show ctx.rule_index < ((ctx.grammar.set_rule ctx.rule_index rB).set_rule ctx.rule_index
      _).rules.length
    rw [grammar.set_rule_length]
    exact hlenB
  · rw [← hrB]
    show (((ctx.grammar.set_rule ctx.rule_index rB).set_rule ctx.rule_index
      _).rule_at ctx.rule_index).keyword_tokens = []
    rw [grammar.rule_at_set_rule _ _ _ hlenB]
    exact htokensB

/-- The automaton wrapper succeeds when the expression builds between states 0
and 1. -/
theorem build_body_automaton_ok (cfg : build_config) (ctx : context) (expr : parsed_expr)
    (h : ∃ (c1 : context) (a1 : automaton),
      build_body_expression cfg { ctx with next_state := 2 }
        (automaton_mark_accepting_state (automaton_set_start_state automaton.zero 0) 1)
        expr { entry := 0, exit := 1 } = .ok (c1, a1)) :
    ∃ (c1 : context) (a1 : automaton), build_body_automaton cfg ctx expr = .ok (c1, a1) := by
  obtain ⟨c1, a1, h1⟩ := h
  simp only [build_body_automaton, build_body_automaton_with, h1]
  exact ⟨_, _, rfl⟩

/-- The automaton wrapper fails with the error of the expression. -/
theorem build_body_automaton_error (cfg : build_config) (ctx : context) (expr : parsed_expr)
    (e : build_error)
    (h : build_body_expression cfg { ctx with next_state := 2 }
        (automaton_mark_accepting_state (automaton_set_start_state automaton.zero 0) 1)
        expr { entry := 0, exit := 1 } = .error e) :
    build_body_automaton cfg ctx expr = .error e := by
  simp only [build_body_automaton, build_body_automaton_with, h]

/-- The illegal references: outside guard brackets, a reference that resolves to
the rule being filled in or to an earlier rule is fatal. -/
theorem build_body_expression_ident_illegal (cfg : build_config) (ctx : context)
    (a : automaton) (identifier : byte_string) (rename : Option byte_string)
    (b : boundary_states) (t : Nat)
    (hnest : ctx.expression_nesting ≤ MAX_EXPRESSION_NESTING)
    (hfind : find_rule ctx identifier = some t)
    (hbn : ctx.bracket_nesting = 0) (ht : t ≤ ctx.rule_index) :
    build_body_expression cfg ctx a (.PARSED_IDENT identifier rename) b =
      if t = ctx.rule_index then .error .self_reference
      else .error .earlier_rule_reference := by
  rw [build_body_expression_ident_eq]
  have h1 : find_rule ctx.enter_expression identifier = some t := hfind
  rw [if_neg (by omega), h1]
  simp only
  rw [if_pos ⟨hbn, ht⟩]
  rfl

/-- The legal references: inside a guard bracket, or to a later rule, the
reference goes on to `add_slot` and its outcome is that of `add_slot`. -/
theorem build_body_expression_ident_legal (cfg : build_config) (ctx : context)
    (a : automaton) (identifier : byte_string) (rename : Option byte_string)
    (b : boundary_states) (t : Nat)
    (hnest : ctx.expression_nesting ≤ MAX_EXPRESSION_NESTING)
    (hfind : find_rule ctx identifier = some t)
    (hlegal : ctx.bracket_nesting = 0 → ctx.rule_index < t) :
    build_body_expression cfg ctx a (.PARSED_IDENT identifier rename) b =
      match add_slot cfg ctx.enter_expression ctx.current_rule
          (rename.getD identifier) t with
      | .error e => .error e
      | .ok (c1, r, slot_index) =>
        .ok ((c1.set_current_rule r).leave_expression,
             automaton_add_transition a b.entry b.exit
               (.issued (r.slots.getD slot_index slot.zero).symbol)) := by
  rw [build_body_expression_ident_eq]
  have h1 : find_rule ctx.enter_expression identifier = some t := hfind
  rw [if_neg (by omega), h1]
  simp only
  rw [if_neg]
  · rfl
  · intro hc
    have hb : ctx.bracket_nesting = 0 := hc.1
    have hr : t ≤ ctx.rule_index := hc.2
    have := hlegal hb
    omega

/-- The errors of `add_slot` are the slot conflict and the slot limit. -/
theorem add_slot_error (cfg : build_config) (ctx : context) (r : rule)
    (name : byte_string) (target : Nat) (e : build_error)
    (h : add_slot cfg ctx r name target = .error e) :
    e = .slot_conflict ∨ e = .too_many_slots := by
  have hscan : ∀ (slots : List slot) (start : Nat) (e : build_error),
      add_slot_scan name target slots start = .error e → e = .slot_conflict := by
    intro slots
    induction slots with
    | nil => intro start e h; simp [add_slot_scan] at h
    | cons s rest ih =>
      intro start e h
      simp only [add_slot_scan] at h
      split at h
      · exact ih _ _ h
      · split at h
        · exact ih _ _ h
        · split at h
          · simp only [Except.error.injEq] at h; exact h.symm
          · cases h
  unfold add_slot at h
  split at h
  · rename_i e2 hs
    simp only [Except.error.injEq] at h
    subst h
    exact Or.inl (hscan _ _ _ hs)
  · split at h
    · split at h
      · simp only [Except.error.injEq] at h; exact Or.inr h.symm
      · cases h
    · cases h

/-! ## Reference legality, end to end -/

theorem build_register_rules_registered (tree : List parsed_rule) (hne : tree ≠ [])
    (hd : (tree.map (fun p => p.identifier)).Nodup) :
    build_register_rules tree (context.initial grammar.zero) =
      .ok (registered_context (tree.map (fun p => p.identifier))) :=
  build_register_rules_eq tree hne hd

theorem find_rule_registered_first (name : byte_string) (rest : List byte_string) :
    find_rule (registered_context (name :: rest)) name = some 0 := by
  simp [find_rule, registered_context, registered_rules, find_rule_from_cons, rule.fresh]

theorem find_rule_registered_second (a b : byte_string) (rest : List byte_string)
    (hab : a ≠ b) : find_rule (registered_context (a :: b :: rest)) b = some 1 := by
  simp [find_rule, registered_context, registered_rules, find_rule_from_cons, rule.fresh, hab]

theorem build_fill_rule_simple_eq (cfg : build_config) (name : byte_string)
    (expr : parsed_expr) (ctx : context) :
    build_fill_rule cfg ⟨name, .simple expr⟩ ctx =
      match find_rule ctx name with
      | none => .error .aborted
      | some rule_index =>
        match build_body_automaton cfg
            { ctx with rule_index := rule_index, next_symbol := 0 } expr with
        | .error e => .error e
        | .ok (c, built) =>
          .ok (c.set_current_rule { c.current_rule with automaton := built }) := rfl

/-- A one-rule grammar whose body is a bare reference to the rule itself fails
with the self-reference error. -/
theorem build_self_reference (cfg : build_config) (name : byte_string)
    (rename : Option byte_string) :
    build cfg grammar.zero [⟨name, .simple (.PARSED_IDENT name rename)⟩]
      = .error .self_reference := by
  have hreg := build_register_rules_registered
    [⟨name, .simple (.PARSED_IDENT name rename)⟩] (by simp) (by simp)
  have hfind := find_rule_registered_first name []
  have hexpr := build_body_expression_ident_illegal cfg
    { registered_context [name] with rule_index := 0, next_symbol := 0, next_state := 2 }
    (automaton_mark_accepting_state (automaton_set_start_state automaton.zero 0) 1)
    name rename { entry := 0, exit := 1 } 0
    (by simp [registered_context, context.initial, MAX_EXPRESSION_NESTING]) hfind rfl
    (Nat.le_refl 0)
  rw [if_pos rfl] at hexpr
  have hauto := build_body_automaton_error cfg
    { registered_context [name] with rule_index := 0, next_symbol := 0 }
    (.PARSED_IDENT name rename) .self_reference hexpr
  unfold build
  rw [hreg]
  simp only [List.map_cons, List.map_nil, build_fill_rules, build_fill_rule_simple_eq, hfind,
    hauto]

/-- A one-rule grammar whose body is a guard bracket around a reference to the
rule itself builds, when the bracket keywords are non-empty and differ. -/
theorem build_guarded_self_reference (cfg : build_config) (name : byte_string)
    (rename : Option byte_string) (begin_token end_token : byte_string)
    (hmax : 0 < cfg.MAX_NUMBER_OF_SLOTS)
    (hb : begin_token.length > 2) (he : end_token.length > 2)
    (hne : keyword_text begin_token ≠ keyword_text end_token) :
    ∃ g : grammar,
      build cfg grammar.zero
        [⟨name, .simple (.PARSED_BRACKETED (.cons (.PARSED_IDENT name rename) .empty)
            begin_token end_token)⟩] = .ok g := by
  have hreg := build_register_rules_registered
    [⟨name, .simple (.PARSED_BRACKETED (.cons (.PARSED_IDENT name rename) .empty)
        begin_token end_token)⟩] (by simp) (by simp)
  have hfind := find_rule_registered_first name []
  have hexpr := build_body_expression_guarded_reference cfg
    { registered_context [name] with rule_index := 0, next_symbol := 0, next_state := 2 }
    (automaton_mark_accepting_state (automaton_set_start_state automaton.zero 0) 1)
    name rename .empty begin_token end_token { entry := 0, exit := 1 } 0
    (by simp [registered_context, context.initial, MAX_EXPRESSION_NESTING]) hfind
    (by simp [registered_context, registered_rules]) rfl rfl hmax hb he hne
  obtain ⟨c1, a1, hauto⟩ := build_body_automaton_ok cfg
    { registered_context [name] with rule_index := 0, next_symbol := 0 } _ hexpr
  unfold build
  rw [hreg]
  simp only [List.map_cons, List.map_nil, build_fill_rules, build_fill_rule_simple_eq, hfind,
    hauto]
  exact ⟨_, rfl⟩

/-- C1 (as amended): reference legality.  Part 1, the check in the identifier
case: for a reference compiled in the rule with index `r` whose name resolves
to the rule with index `t`, with the nesting guard not tripped, when
`bracket_nesting = 0` the build fails with the self-reference error if `t = r`
and with the earlier-rule error if `t < r`; when `t > r` or `bracket_nesting > 0`
the check passes, the outcome being that of `add_slot`, which never is one of
the two illegal-reference errors.  Part 2: the one-rule grammar `a = a` fails
with the self-reference error.  Part 3: the one-rule grammar whose body is a
guard bracket around the reference to `a` builds, provided the start and end
keywords are non-empty and differ in text (and the slot limit is positive). -/
theorem C1_reference_legality (cfg : build_config) :
    (∀ (ctx : context) (a : automaton) (identifier : byte_string)
        (rename : Option byte_string) (b : boundary_states) (t : Nat),
        ctx.expression_nesting ≤ MAX_EXPRESSION_NESTING →
        find_rule ctx identifier = some t →
        (ctx.bracket_nesting = 0 → t = ctx.rule_index →
          build_body_expression cfg ctx a (.PARSED_IDENT identifier rename) b
            = .error .self_reference) ∧
        (ctx.bracket_nesting = 0 → t < ctx.rule_index →
          build_body_expression cfg ctx a (.PARSED_IDENT identifier rename) b
            = .error .earlier_rule_reference) ∧
        (ctx.rule_index < t ∨ 0 < ctx.bracket_nesting →
          build_body_expression cfg ctx a (.PARSED_IDENT identifier rename) b
            = (match add_slot cfg ctx.enter_expression ctx.current_rule
                  (rename.getD identifier) t with
               | .error e => .error e
               | .ok (c1, r, slot_index) =>
                 .ok ((c1.set_current_rule r).leave_expression,
                      automaton_add_transition a b.entry b.exit
                        (.issued (r.slots.getD slot_index slot.zero).symbol))) ∧
          build_body_expression cfg ctx a (.PARSED_IDENT identifier rename) b
            ≠ .error .self_reference ∧
          build_body_expression cfg ctx a (.PARSED_IDENT identifier rename) b
            ≠ .error .earlier_rule_reference)) ∧
    (∀ (name : byte_string) (rename : Option byte_string),
        build cfg grammar.zero [⟨name, .simple (.PARSED_IDENT name rename)⟩]
          = .error .self_reference) ∧
    (∀ (name : byte_string) (rename : Option byte_string)
        (begin_token end_token : byte_string),
        0 < cfg.MAX_NUMBER_OF_SLOTS →
        begin_token.length > 2 → end_token.length > 2 →
        keyword_text begin_token ≠ keyword_text end_token →
        ∃ g : grammar,
          build cfg grammar.zero
            [⟨name, .simple (.PARSED_BRACKETED (.cons (.PARSED_IDENT name rename) .empty)
                begin_token end_token)⟩] = .ok g) := by
  refine ⟨?_, build_self_reference cfg, ?_⟩
  · intro ctx a identifier rename b t hnest hfind
    refine ⟨?_, ?_, ?_⟩
    · intro hbn ht
      rw [build_body_expression_ident_illegal cfg ctx a identifier rename b t hnest hfind hbn
        (by omega), if_pos ht]
    · intro hbn ht
      rw [build_body_expression_ident_illegal cfg ctx a identifier rename b t hnest hfind hbn
        (by omega), if_neg (by omega)]
    · intro hlegal
      have heq := build_body_expression_ident_legal cfg ctx a identifier rename b t hnest hfind
        (by intro h0; cases hlegal with
          | inl h => exact h
          | inr h => omega)
      refine ⟨heq, ?_, ?_⟩
      · rw [heq]
        intro hc
        split at hc
        · rename_i e hadd
          simp only [Except.error.injEq] at hc
          subst hc
          cases add_slot_error cfg _ _ _ _ _ hadd with
          | inl h => cases h
          | inr h => cases h
        · cases hc
      · rw [heq]
        intro hc
        split at hc
        · rename_i e hadd
          simp only [Except.error.injEq] at hc
          subst hc
          cases add_slot_error cfg _ _ _ _ _ hadd with
          | inl h => cases h
          | inr h => cases h
        · cases hc
  · intro name rename begin_token end_token hmax hb he hne
    exact build_guarded_self_reference cfg name rename begin_token end_token hmax hb he hne

theorem C1_same_keywords_counterexample :
    (quoted ['x']).length > 2 ∧
    build example_config grammar.zero
      [⟨['a'], .simple (.PARSED_BRACKETED (.cons (.PARSED_IDENT ['a'] none) .empty)
          (quoted ['x']) (quoted ['x']))⟩]
      = .error .token_role_conflict := by
  decide

theorem C1_reference_legality_witness :
    ∃ g : grammar,
      build example_config grammar.zero
        [⟨['a'], .simple (.PARSED_BRACKETED (.cons (.PARSED_IDENT ['a'] none) .empty)
            (quoted ['(']) (quoted [')']))⟩] = .ok g :=
  (C1_reference_legality example_config).2.2 ['a'] none (quoted ['(']) (quoted [')'])
    (by decide) (by decide) (by decide) (by decide)

/-- What is known of the context once the first of two declared rules has been
filled in: the names and the nesting counters are those of the registered
context, and the second rule is untouched. -/
theorem build_fill_first_rule_facts (cfg : build_config) (a b : byte_string)
    (body_a : parsed_body) (ctx1 : context)
    (hfill : build_fill_rule cfg ⟨a, body_a⟩ (registered_context [a, b]) = .ok ctx1) :
    ctx1.grammar.rules.map (fun r => r.name)
      = (registered_context [a, b]).grammar.rules.map (fun r => r.name) ∧
    ctx1.grammar.rule_at 1 = rule.fresh b ∧
    ctx1.bracket_nesting = 0 ∧ ctx1.expression_nesting = 0 := by
  obtain ⟨idx, hfind, hpres⟩ := build_fill_rule_preserved cfg _ _ _ hfill
  have h0 : find_rule (registered_context [a, b]) a = some 0 := find_rule_registered_first a [b]
  have hidx : idx = 0 := by
    have : some idx = some 0 := by rw [← hfind, ← h0]
    simpa using this
  subst hidx
  obtain ⟨⟨_, _, hnames, hother⟩, hbn, hen⟩ := hpres
  refine ⟨hnames, ?_, hbn, hen⟩
  rw [hother 1 (by show (1 : Nat) ≠ 0; decide)]
  simp [grammar.rule_at, registered_context, registered_rules]

theorem build_two_rules_eq (cfg : build_config) (a b : byte_string) (hab : a ≠ b)
    (body_a body_b : parsed_body) :
    build cfg grammar.zero [⟨a, body_a⟩, ⟨b, body_b⟩] =
      match build_fill_rule cfg ⟨a, body_a⟩ (registered_context [a, b]) with
      | .error e => .error e
      | .ok ctx1 =>
        match build_fill_rule cfg ⟨b, body_b⟩ ctx1 with
        | .error e => .error e
        | .ok ctx2 => .ok ctx2.grammar := by
  have hreg := build_register_rules_registered [⟨a, body_a⟩, ⟨b, body_b⟩] (by simp)
    (by simp [hab])
  unfold build
  rw [hreg]
  simp only [List.map_cons, List.map_nil, build_fill_rules]
  cases build_fill_rule cfg ⟨a, body_a⟩ (registered_context [a, b]) with
  | error e => rfl
  | ok ctx1 =>
    simp only
    cases build_fill_rule cfg ⟨b, body_b⟩ ctx1 with
    | error e => rfl
    | ok ctx2 => rfl

/-- With rules declared in the order `a`, `b` and the body of `a` built, a body
of `b` that is a bare reference to `a` fails with the earlier-rule error. -/
theorem build_backward_reference (cfg : build_config) (a b : byte_string) (hab : a ≠ b)
    (rename : Option byte_string) (body_a : parsed_body) (ctx1 : context)
    (hfill : build_fill_rule cfg ⟨a, body_a⟩ (registered_context [a, b]) = .ok ctx1) :
    build cfg grammar.zero [⟨a, body_a⟩, ⟨b, .simple (.PARSED_IDENT a rename)⟩]
      = .error .earlier_rule_reference := by
  obtain ⟨hnames, _, hbn, hen⟩ := build_fill_first_rule_facts cfg a b body_a ctx1 hfill
  have hfb : find_rule ctx1 b = some 1 := by
    rw [find_rule_congr ctx1 _ b hnames]; exact find_rule_registered_second a b [] hab
  have hfa : find_rule
      { ctx1 with rule_index := 1, next_symbol := 0, next_state := 2 } a = some 0 :=
    (find_rule_congr _ (registered_context [a, b]) a hnames).trans
      (find_rule_registered_first a [b])
  have hexpr := build_body_expression_ident_illegal cfg
    { ctx1 with rule_index := 1, next_symbol := 0, next_state := 2 }
    (automaton_mark_accepting_state (automaton_set_start_state automaton.zero 0) 1)
    a rename { entry := 0, exit := 1 } 0
    (by
      show ctx1.expression_nesting ≤ MAX_EXPRESSION_NESTING
      rw [hen]; exact Nat.zero_le _)
    hfa hbn (Nat.zero_le 1)
  rw [if_neg (by show ¬ (0 : Nat) = 1; decide)] at hexpr
  have hauto := build_body_automaton_error cfg
    { ctx1 with rule_index := 1, next_symbol := 0 } (.PARSED_IDENT a rename)
    .earlier_rule_reference hexpr
  rw [build_two_rules_eq cfg a b hab, hfill]
  simp only [build_fill_rule_simple_eq, hfb, hauto]

/-- With rules declared in the order `a`, `b` and the body of `a` built, a body
of `b` that is a guard bracket around the reference to `a` builds. -/
theorem build_guarded_backward_reference (cfg : build_config) (a b : byte_string)
    (hab : a ≠ b) (rename : Option byte_string) (body_a : parsed_body) (ctx1 : context)
    (begin_token end_token : byte_string)
    (hfill : build_fill_rule cfg ⟨a, body_a⟩ (registered_context [a, b]) = .ok ctx1)
    (hmax : 0 < cfg.MAX_NUMBER_OF_SLOTS)
    (hb : begin_token.length > 2) (he : end_token.length > 2)
    (hne : keyword_text begin_token ≠ keyword_text end_token) :
    ∃ g : grammar,
      build cfg grammar.zero
        [⟨a, body_a⟩,
         ⟨b, .simple (.PARSED_BRACKETED (.cons (.PARSED_IDENT a rename) .empty)
            begin_token end_token)⟩] = .ok g := by
  obtain ⟨hnames, hrule, hbn, hen⟩ := build_fill_first_rule_facts cfg a b body_a ctx1 hfill
  have hfb : find_rule ctx1 b = some 1 := by
    rw [find_rule_congr ctx1 _ b hnames]; exact find_rule_registered_second a b [] hab
  have hfa : find_rule
      { ctx1 with rule_index := 1, next_symbol := 0, next_state := 2 } a = some 0 :=
    (find_rule_congr _ (registered_context [a, b]) a hnames).trans
      (find_rule_registered_first a [b])
  have hlen : 1 < ctx1.grammar.rules.length := by
    have := congrArg List.length hnames
    simp only [List.length_map] at this
    rw [this]
    simp [registered_context, registered_rules]
  have hexpr := build_body_expression_guarded_reference cfg
    { ctx1 with rule_index := 1, next_symbol := 0, next_state := 2 }
    (automaton_mark_accepting_state (automaton_set_start_state automaton.zero 0) 1)
    a rename .empty begin_token end_token { entry := 0, exit := 1 } 0
    (by
      show ctx1.expression_nesting < MAX_EXPRESSION_NESTING
      rw [hen]; decide)
    hfa hlen
    (by
      show (ctx1.grammar.rule_at 1).slots = []
      rw [hrule]; rfl)
    (by
      show (ctx1.grammar.rule_at 1).keyword_tokens = []
      rw [hrule]; rfl)
    hmax hb he hne
  obtain ⟨c2, a2, hauto⟩ := build_body_automaton_ok cfg
    { ctx1 with rule_index := 1, next_symbol := 0 } _ hexpr
  rw [build_two_rules_eq cfg a b hab, hfill]
  simp only [build_fill_rule_simple_eq, hfb, hauto]
  exact ⟨_, rfl⟩

/-- With rules declared in the order `a`, `b`, a body of `a` that is a bare
reference to `b` is a legal forward reference: the rule `a` is filled in. -/
theorem build_forward_reference (cfg : build_config) (a b : byte_string) (hab : a ≠ b)
    (rename : Option byte_string) (hmax : 0 < cfg.MAX_NUMBER_OF_SLOTS) :
    ∃ ctx1 : context,
      build_fill_rule cfg ⟨a, .simple (.PARSED_IDENT b rename)⟩ (registered_context [a, b])
        = .ok ctx1 := by
  have hfa := find_rule_registered_first a [b]
  have hfb : find_rule
      { registered_context [a, b] with rule_index := 0, next_symbol := 0, next_state := 2 } b
      = some 1 := find_rule_registered_second a b [] hab
  have hexpr := build_body_expression_ident_legal cfg
    { registered_context [a, b] with rule_index := 0, next_symbol := 0, next_state := 2 }
    (automaton_mark_accepting_state (automaton_set_start_state automaton.zero 0) 1)
    b rename { entry := 0, exit := 1 } 1
    (by simp [registered_context, context.initial, MAX_EXPRESSION_NESTING]) hfb
    (fun _ => by show (0 : Nat) < 1; decide)
  obtain ⟨c0, hc0⟩ : ∃ c0 : context, c0 =
      { registered_context [a, b] with rule_index := 0, next_symbol := 0, next_state := 2 } :=
    ⟨_, rfl⟩
  rw [← hc0] at hexpr
  have hslot : ∃ c r i, add_slot cfg c0.enter_expression c0.current_rule
      (rename.getD b) 1 = .ok (c, r, i) := by
    have hs : c0.current_rule.slots = [] := by
      rw [hc0]
      simp [context.current_rule, grammar.rule_at, registered_context, registered_rules,
        rule.fresh]
    simp only [add_slot, hs, add_slot_scan, List.length_nil, ge_iff_le, Nat.le_refl, if_true,
      Nat.not_le.mpr hmax, if_false]
    exact ⟨_, _, _, rfl⟩
  obtain ⟨c, r, i, hadd⟩ := hslot
  rw [hadd, hc0] at hexpr
  obtain ⟨c1, a1, hauto⟩ := build_body_automaton_ok cfg
    { registered_context [a, b] with rule_index := 0, next_symbol := 0 } _ ⟨_, _, hexpr⟩
  simp only [build_fill_rule_simple_eq, hfa, hauto]
  exact ⟨_, rfl⟩

/-- C2 (as amended): the backward-reference test.  For rules declared in the
order `a`, `b` (two different names) and any body of `a` that builds: a body of
`b` that is a reference to `a` outside guard brackets makes the build fail with
the earlier-rule (illegal-reference) error, and the same reference inside a
guard bracket whose start and end keywords are non-empty and differ in text
builds successfully.  In the other direction a body of `a` that references `b`
outside guard brackets is a legal forward reference: the rule `a` is filled in
and the outcome of the build is that of filling in `b`. -/
theorem C2_backward_reference (cfg : build_config) (a b : byte_string) (hab : a ≠ b)
    (rename : Option byte_string) :
    (∀ (body_a : parsed_body) (ctx1 : context),
        build_fill_rule cfg ⟨a, body_a⟩ (registered_context [a, b]) = .ok ctx1 →
        build cfg grammar.zero [⟨a, body_a⟩, ⟨b, .simple (.PARSED_IDENT a rename)⟩]
          = .error .earlier_rule_reference) ∧
    (∀ (body_a : parsed_body) (ctx1 : context) (begin_token end_token : byte_string),
        build_fill_rule cfg ⟨a, body_a⟩ (registered_context [a, b]) = .ok ctx1 →
        0 < cfg.MAX_NUMBER_OF_SLOTS →
        begin_token.length > 2 → end_token.length > 2 →
        keyword_text begin_token ≠ keyword_text end_token →
        ∃ g : grammar,
          build cfg grammar.zero
            [⟨a, body_a⟩,
             ⟨b, .simple (.PARSED_BRACKETED (.cons (.PARSED_IDENT a rename) .empty)
                begin_token end_token)⟩] = .ok g) ∧
    (∀ body_b : parsed_body, 0 < cfg.MAX_NUMBER_OF_SLOTS →
        ∃ ctx1 : context,
          build_fill_rule cfg ⟨a, .simple (.PARSED_IDENT b rename)⟩
            (registered_context [a, b]) = .ok ctx1 ∧
          build cfg grammar.zero [⟨a, .simple (.PARSED_IDENT b rename)⟩, ⟨b, body_b⟩] =
            (match build_fill_rule cfg ⟨b, body_b⟩ ctx1 with
             | .error e => .error e
             | .ok ctx2 => .ok ctx2.grammar)) := by
  refine ⟨?_, ?_, ?_⟩
  · intro body_a ctx1 hfill
    exact build_backward_reference cfg a b hab rename body_a ctx1 hfill
  · intro body_a ctx1 begin_token end_token hfill hmax hb he hne
    exact build_guarded_backward_reference cfg a b hab rename body_a ctx1 begin_token
      end_token hfill hmax hb he hne
  · intro body_b hmax
    obtain ⟨ctx1, hfill⟩ := build_forward_reference cfg a b hab rename hmax
    refine ⟨ctx1, hfill, ?_⟩
    rw [build_two_rules_eq cfg a b hab, hfill]

/-- The grammar `a = b`, `b = 'x'`: the forward reference from `a` to `b`
outside guard brackets builds. -/
theorem build_forward_reference_example :
    ∃ g : grammar,
      build example_config grammar.zero
        [⟨['a'], .simple (.PARSED_IDENT ['b'] none)⟩,
         ⟨['b'], .simple (.PARSED_LITERAL (quoted ['x']))⟩] = .ok g := by
  have hab : (['a'] : byte_string) ≠ ['b'] := by decide
  obtain ⟨ctx1, hfill⟩ := build_forward_reference example_config ['a'] ['b'] hab none
    (by decide)
  obtain ⟨hnames, hrule, hbn, hen⟩ :=
    build_fill_first_rule_facts example_config ['a'] ['b'] _ ctx1 hfill
  have hfb : find_rule ctx1 ['b'] = some 1 :=
    (find_rule_congr ctx1 _ ['b'] hnames).trans (find_rule_registered_second ['a'] ['b'] [] hab)
  have hexpr : ∃ (c1 : context) (a1 : automaton),
      build_body_expression example_config
        { ctx1 with rule_index := 1, next_symbol := 0, next_state := 2 }
        (automaton_mark_accepting_state (automaton_set_start_state automaton.zero 0) 1)
        (.PARSED_LITERAL (quoted ['x'])) { entry := 0, exit := 1 } = .ok (c1, a1) := by
    have hcur : (context.enter_expression
        { ctx1 with rule_index := 1, next_symbol := 0, next_state := 2 }).current_rule
        = rule.fresh ['b'] := hrule
    rw [build_body_expression_literal_eq, if_neg (by
      show ¬ ctx1.expression_nesting > MAX_EXPRESSION_NESTING
      rw [hen]; decide), hcur]
    rw [add_keyword_token_new _ _ _ _ (by decide) (by simp [rule.fresh])]
    exact ⟨_, _, rfl⟩
  obtain ⟨c2, a2, hauto⟩ := build_body_automaton_ok example_config
    { ctx1 with rule_index := 1, next_symbol := 0 } _ hexpr
  rw [build_two_rules_eq example_config ['a'] ['b'] hab, hfill]
  simp only [build_fill_rule_simple_eq, hfb, hauto]
  exact ⟨_, rfl⟩

theorem C2_forward_reference_counterexample :
    (∃ g : grammar,
      build example_config grammar.zero
        [⟨['a'], .simple (.PARSED_IDENT ['b'] none)⟩,
         ⟨['b'], .simple (.PARSED_LITERAL (quoted ['x']))⟩] = .ok g) ∧
    build example_config grammar.zero
        [⟨['a'], .simple (.PARSED_IDENT ['b'] none)⟩,
         ⟨['b'], .simple (.PARSED_LITERAL (quoted ['x']))⟩] ≠ .error .self_reference ∧
    build example_config grammar.zero
        [⟨['a'], .simple (.PARSED_IDENT ['b'] none)⟩,
         ⟨['b'], .simple (.PARSED_LITERAL (quoted ['x']))⟩] ≠ .error .earlier_rule_reference := by
  obtain ⟨g, hg⟩ := build_forward_reference_example
  refine ⟨⟨g, hg⟩, ?_, ?_⟩ <;>
  · rw [hg]
    intro h
    cases h

theorem C2_backward_reference_witness :
    (∃ ctx1 : context,
      build_fill_rule example_config ⟨['a'], .simple (.PARSED_IDENT ['b'] none)⟩
        (registered_context [['a'], ['b']]) = .ok ctx1) ∧
    build example_config grammar.zero
      [⟨['a'], .simple (.PARSED_IDENT ['b'] none)⟩,
       ⟨['b'], .simple (.PARSED_IDENT ['a'] none)⟩] = .error .earlier_rule_reference :=
  have hfill := build_forward_reference example_config ['a'] ['b'] (by decide) none (by decide)
  ⟨hfill, hfill.elim (fun ctx1 h =>
    (C2_backward_reference example_config ['a'] ['b'] (by decide) none).1
      (.simple (.PARSED_IDENT ['b'] none)) ctx1 h)⟩

/-! ## What a successful build of each expression kind consists of -/

theorem connect_expression_ok (cfg : build_config) (ctx c1 : context) (a a1 : automaton)
    (expr : parsed_expr) (outer inner : boundary_states)
    (h : connect_expression cfg ctx a expr outer = .ok (c1, a1, inner)) :
    inner = { entry := ctx.next_state, exit := ctx.next_state + 1 } ∧
    ∃ a2 : automaton,
      build_body_expression cfg { ctx with next_state := ctx.next_state + 1 + 1 } a expr
        { entry := ctx.next_state, exit := ctx.next_state + 1 } = .ok (c1, a2) ∧
      a1 = automaton_add_transition
        (automaton_add_transition a2 outer.entry ctx.next_state .SYMBOL_EPSILON)
        (ctx.next_state + 1) outer.exit .SYMBOL_EPSILON := by
  simp only [connect_expression, connect_expression_with] at h
  split at h
  · cases h
  · rename_i c2 a2 hbuild
    simp only [Except.ok.injEq, Prod.mk.injEq] at h
    obtain ⟨hc, ha, hi⟩ := h
    subst hc
    exact ⟨hi.symm, a2, hbuild, ha.symm⟩

theorem build_body_automaton_ok_inv (cfg : build_config) (ctx c1 : context)
    (expr : parsed_expr) (a1 : automaton)
    (h : build_body_automaton cfg ctx expr = .ok (c1, a1)) :
    ∃ (c2 : context) (nfa : automaton),
      build_body_expression cfg { ctx with next_state := 2 }
        (automaton_mark_accepting_state (automaton_set_start_state automaton.zero 0) 1)
        expr { entry := 0, exit := 1 } = .ok (c2, nfa) ∧
      c1 = { c2 with next_state := ctx.next_state } ∧
      a1 = cfg.determinize_minimize nfa := by
  simp only [build_body_automaton, build_body_automaton_with] at h
  split at h
  · cases h
  · rename_i c2 a2 hbuild
    simp only [Except.ok.injEq, Prod.mk.injEq] at h
    obtain ⟨hc, ha⟩ := h
    exact ⟨c2, a2, hbuild, hc.symm, ha.symm⟩

theorem build_body_expression_parens_ok (cfg : build_config) (ctx c1 : context)
    (a a1 : automaton) (parens : parsed_expr) (b : boundary_states)
    (h : build_body_expression cfg ctx a (.PARSED_PARENS parens) b = .ok (c1, a1)) :
    ctx.expression_nesting ≤ MAX_EXPRESSION_NESTING ∧
    ∃ c2 : context,
      build_body_expression cfg ctx.enter_expression a parens b = .ok (c2, a1) ∧
      c1 = c2.leave_expression := by
  rw [build_body_expression_parens_eq] at h
  split at h
  · cases h
  · rename_i hg
    split at h
    · cases h
    · rename_i c2 a2 hsub
      simp only [Except.ok.injEq, Prod.mk.injEq] at h
      obtain ⟨hc, ha⟩ := h
      subst ha
      exact ⟨by omega, c2, hsub, hc.symm⟩

theorem build_body_expression_choice_ok (cfg : build_config) (ctx c1 : context)
    (a a1 : automaton) (operand : parsed_expr_list) (b : boundary_states)
    (h : build_body_expression cfg ctx a (.PARSED_CHOICE operand) b = .ok (c1, a1)) :
    ctx.expression_nesting ≤ MAX_EXPRESSION_NESTING ∧
    ∃ c2 : context,
      build_body_expression_choice cfg ctx.enter_expression a operand b = .ok (c2, a1) ∧
      c1 = c2.leave_expression := by
  rw [build_body_expression_choice_eq] at h
  split at h
  · cases h
  · rename_i hg
    split at h
    · cases h
    · rename_i c2 a2 hsub
      simp only [Except.ok.injEq, Prod.mk.injEq] at h
      obtain ⟨hc, ha⟩ := h
      subst ha
      exact ⟨by omega, c2, hsub, hc.symm⟩

theorem build_body_expression_concatenation_ok (cfg : build_config) (ctx c1 : context)
    (a a1 : automaton) (operand : parsed_expr_list) (b : boundary_states)
    (h : build_body_expression cfg ctx a (.PARSED_CONCATENATION operand) b = .ok (c1, a1)) :
    ctx.expression_nesting ≤ MAX_EXPRESSION_NESTING ∧
    ∃ (c2 : context) (a2 : automaton) (inner : boundary_states),
      build_body_expression_concatenation cfg
        { ctx.enter_expression with next_state := ctx.next_state + 1 }
        (automaton_add_transition a b.entry ctx.next_state .SYMBOL_EPSILON)
        operand { entry := ctx.next_state, exit := 0 } = .ok (c2, a2, inner) ∧
      c1 = c2.leave_expression ∧
      a1 = automaton_add_transition a2 inner.exit b.exit .SYMBOL_EPSILON := by
  rw [build_body_expression_concatenation_eq] at h
  split at h
  · cases h
  · rename_i hg
    split at h
    · cases h
    · rename_i c2 a2 inner hsub
      simp only [Except.ok.injEq, Prod.mk.injEq] at h
      obtain ⟨hc, ha⟩ := h
      exact ⟨by omega, c2, a2, inner, hsub, hc.symm, ha.symm⟩

theorem build_body_expression_ident_ok (cfg : build_config) (ctx c1 : context)
    (a a1 : automaton) (identifier : byte_string) (rename : Option byte_string)
    (b : boundary_states)
    (h : build_body_expression cfg ctx a (.PARSED_IDENT identifier rename) b = .ok (c1, a1)) :
    ctx.expression_nesting ≤ MAX_EXPRESSION_NESTING ∧
    ∃ (t : Nat) (c2 : context) (r2 : rule) (i : Nat),
      find_rule ctx identifier = some t ∧
      ¬ (ctx.bracket_nesting = 0 ∧ t ≤ ctx.rule_index) ∧
      add_slot cfg ctx.enter_expression ctx.current_rule (rename.getD identifier) t
        = .ok (c2, r2, i) ∧
      c1 = (c2.set_current_rule r2).leave_expression ∧
      a1 = automaton_add_transition a b.entry b.exit
        (.issued (r2.slots.getD i slot.zero).symbol) := by
  rw [build_body_expression_ident_eq] at h
  split at h
  · cases h
  · rename_i hg
    split at h
    · cases h
    · rename_i t hfind
      split at h
      · split at h <;> cases h
      · rename_i hlegal
        split at h
        · cases h
        · rename_i c2 r2 i hadd
          simp only [Except.ok.injEq, Prod.mk.injEq] at h
          obtain ⟨hc, ha⟩ := h
          exact ⟨by omega, t, c2, r2, i, hfind, hlegal, hadd, hc.symm, ha.symm⟩

theorem build_body_expression_literal_ok (cfg : build_config) (ctx c1 : context)
    (a a1 : automaton) (string : byte_string) (b : boundary_states)
    (h : build_body_expression cfg ctx a (.PARSED_LITERAL string) b = .ok (c1, a1)) :
    ctx.expression_nesting ≤ MAX_EXPRESSION_NESTING ∧
    ∃ (c2 : context) (r2 : rule) (symbol : symbol_id),
      add_keyword_token ctx.enter_expression ctx.current_rule string .TOKEN_NORMAL
        = .ok (c2, r2, symbol) ∧
      c1 = (c2.set_current_rule r2).leave_expression ∧
      a1 = automaton_add_transition a b.entry b.exit symbol := by
  rw [build_body_expression_literal_eq] at h
  split at h
  · cases h
  · rename_i hg
    split at h
    · cases h
    · rename_i c2 r2 s hadd
      simp only [Except.ok.injEq, Prod.mk.injEq] at h
      obtain ⟨hc, ha⟩ := h
      exact ⟨by omega, c2, r2, s, hadd, hc.symm, ha.symm⟩

theorem build_body_expression_bracketed_ok (cfg : build_config) (ctx c1 : context)
    (a a1 : automaton) (bracket_expr : parsed_expr_list)
    (begin_token end_token : byte_string) (b : boundary_states)
    (h : build_body_expression cfg ctx a
      (.PARSED_BRACKETED bracket_expr begin_token end_token) b = .ok (c1, a1)) :
    ctx.expression_nesting ≤ MAX_EXPRESSION_NESTING ∧
    ∃ (c3 : context) (bracket_automaton : automaton) (c5 : context) (r5 : rule)
      (start_symbol : symbol_id) (c7 : context) (r7 : rule) (end_symbol : symbol_id),
      build_body_expression_bracket cfg
        (ctx.enter_expression.set_current_rule
          { ctx.current_rule with brackets := ctx.current_rule.brackets ++ [bracket.zero] })
        bracket_expr = .ok (c3, bracket_automaton) ∧
      add_keyword_token { c3 with next_symbol := c3.next_symbol + 1 } c3.current_rule
        begin_token .TOKEN_START = .ok (c5, r5, start_symbol) ∧
      add_keyword_token (c5.set_current_rule r5) (c5.set_current_rule r5).current_rule
        end_token .TOKEN_END = .ok (c7, r7, end_symbol) ∧
      start_symbol ≠ .SYMBOL_EPSILON ∧ end_symbol ≠ .SYMBOL_EPSILON ∧
      c1 = (c7.set_current_rule
              { r7 with brackets := (r7.brackets.set ctx.current_rule.brackets.length
                  { automaton := bracket_automaton, symbol := c3.next_symbol,
                    start_symbol := start_symbol,
                    end_symbol := end_symbol }) }).leave_expression ∧
      a1 = automaton_add_transition a b.entry b.exit (.issued c3.next_symbol) := by
  rw [build_body_expression_bracketed_eq] at h
  split at h
  · cases h
  · rename_i hg
    split at h
    · cases h
    · rename_i c3 ba hbracket
      split at h
      · cases h
      · rename_i c5 r5 s5 hstart
        split at h
        · cases h
        · rename_i c7 r7 s7 hend
          split at h
          · cases h
          · rename_i hs5
            split at h
            · cases h
            · rename_i hs7
              simp only [Except.ok.injEq, Prod.mk.injEq] at h
              obtain ⟨hc, ha⟩ := h
              exact ⟨by omega, c3, ba, c5, r5, s5, c7, r7, s7, hbracket, hstart, hend, hs5,
                hs7, hc.symm, ha.symm⟩

theorem build_body_expression_zero_or_more_ok (cfg : build_config) (ctx c1 : context)
    (a a1 : automaton) (operand : parsed_expr) (b : boundary_states)
    (h : build_body_expression cfg ctx a (.PARSED_ZERO_OR_MORE operand) b = .ok (c1, a1)) :
    ctx.expression_nesting ≤ MAX_EXPRESSION_NESTING ∧
    ∃ (c2 : context) (a2 : automaton) (inner : boundary_states),
      connect_expression cfg ctx.enter_expression a operand b = .ok (c2, a2, inner) ∧
      c1 = c2.leave_expression ∧
      a1 = automaton_add_transition
        (automaton_add_transition a2 inner.exit inner.entry .SYMBOL_EPSILON)
        b.entry b.exit .SYMBOL_EPSILON := by
  rw [build_body_expression_zero_or_more_eq] at h
  split at h
  · cases h
  · rename_i hg
    split at h
    · cases h
    · rename_i c2 a2 inner hsub
      simp only [Except.ok.injEq, Prod.mk.injEq] at h
      obtain ⟨hc, ha⟩ := h
      exact ⟨by omega, c2, a2, inner, hsub, hc.symm, ha.symm⟩

theorem build_body_expression_one_or_more_ok (cfg : build_config) (ctx c1 : context)
    (a a1 : automaton) (operand : parsed_expr) (b : boundary_states)
    (h : build_body_expression cfg ctx a (.PARSED_ONE_OR_MORE operand) b = .ok (c1, a1)) :
    ctx.expression_nesting ≤ MAX_EXPRESSION_NESTING ∧
    ∃ (c2 : context) (a2 : automaton) (inner : boundary_states),
      connect_expression cfg ctx.enter_expression a operand b = .ok (c2, a2, inner) ∧
      c1 = c2.leave_expression ∧
      a1 = automaton_add_transition a2 inner.exit inner.entry .SYMBOL_EPSILON := by
  rw [build_body_expression_one_or_more_eq] at h
  split at h
  · cases h
  · rename_i hg
    split at h
    · cases h
    · rename_i c2 a2 inner hsub
      simp only [Except.ok.injEq, Prod.mk.injEq] at h
      obtain ⟨hc, ha⟩ := h
      exact ⟨by omega, c2, a2, inner, hsub, hc.symm, ha.symm⟩

theorem build_body_expression_optional_ok (cfg : build_config) (ctx c1 : context)
    (a a1 : automaton) (operand : parsed_expr) (b : boundary_states)
    (h : build_body_expression cfg ctx a (.PARSED_OPTIONAL operand) b = .ok (c1, a1)) :
    ctx.expression_nesting ≤ MAX_EXPRESSION_NESTING ∧
    ∃ (c2 : context) (a2 : automaton) (inner : boundary_states),
      connect_expression cfg ctx.enter_expression a operand b = .ok (c2, a2, inner) ∧
      c1 = c2.leave_expression ∧
      a1 = automaton_add_transition a2 b.entry b.exit .SYMBOL_EPSILON := by
  rw [build_body_expression_optional_eq] at h
  split at h
  · cases h
  · rename_i hg
    split at h
    · cases h
    · rename_i c2 a2 inner hsub
      simp only [Except.ok.injEq, Prod.mk.injEq] at h
      obtain ⟨hc, ha⟩ := h
      exact ⟨by omega, c2, a2, inner, hsub, hc.symm, ha.symm⟩

theorem build_body_expression_choice_cons_ok (cfg : build_config) (ctx c1 : context)
    (a a1 : automaton) (head : parsed_expr) (next : parsed_expr_list) (b : boundary_states)
    (h : build_body_expression_choice cfg ctx a (.cons head next) b = .ok (c1, a1)) :
    ∃ (c2 : context) (a2 : automaton) (inner : boundary_states),
      connect_expression cfg ctx a head b = .ok (c2, a2, inner) ∧
      build_body_expression_choice cfg c2 a2 next b = .ok (c1, a1) := by
  rw [build_body_expression_choice_cons_eq] at h
  split at h
  · cases h
  · rename_i c2 a2 inner hsub
    exact ⟨c2, a2, inner, hsub, h⟩

theorem build_body_expression_concatenation_cons_ok (cfg : build_config) (ctx c1 : context)
    (a a1 : automaton) (head : parsed_expr) (next : parsed_expr_list)
    (inner inner1 : boundary_states)
    (h : build_body_expression_concatenation cfg ctx a (.cons head next) inner
      = .ok (c1, a1, inner1)) :
    ∃ (c2 : context) (a2 : automaton),
      build_body_expression cfg { ctx with next_state := ctx.next_state + 1 } a head
        { entry := inner.entry, exit := ctx.next_state } = .ok (c2, a2) ∧
      build_body_expression_concatenation cfg c2 a2 next
        { entry := ctx.next_state, exit := ctx.next_state } = .ok (c1, a1, inner1) := by
  rw [build_body_expression_concatenation_cons_eq] at h
  split at h
  · cases h
  · rename_i c2 a2 hsub
    exact ⟨c2, a2, hsub, h⟩

theorem build_body_expression_bracket_cons_ok (cfg : build_config) (ctx c1 : context)
    (inner_expr : parsed_expr) (next : parsed_expr_list) (a1 : automaton)
    (h : build_body_expression_bracket cfg ctx (.cons inner_expr next) = .ok (c1, a1)) :
    ∃ c2 : context,
      build_body_automaton cfg { ctx with bracket_nesting := ctx.bracket_nesting + 1 }
        inner_expr = .ok (c2, a1) ∧
      c1 = { c2 with bracket_nesting := c2.bracket_nesting - 1 } := by
  rw [build_body_expression_bracket_cons_eq] at h
  split at h
  · cases h
  · rename_i c2 a2 hsub
    simp only [Except.ok.injEq, Prod.mk.injEq] at h
    obtain ⟨hc, ha⟩ := h
    subst ha
    exact ⟨c2, hsub, hc.symm⟩

/-! ## Empty grammar, repetition edges -/

/-- C14: a parse tree with zero declared rules.  From the empty grammar, `build`
fails with the empty-grammar error for every configuration; the error is raised
by the registration pre-pass, whose user-rule loop makes no `add_rule` call
(it hands the context back unchanged, with no rule registered), so no
implicit token rule is added and no rule is filled in before the error. -/
theorem C14_empty_grammar (cfg : build_config) :
    build cfg grammar.zero [] = .error .empty_grammar ∧
    build_register_rules [] (context.initial grammar.zero) = .error .empty_grammar ∧
    (∀ ctx : context, build_add_rules [] ctx = .ok ctx) ∧
    (context.initial grammar.zero).grammar.rules = [] := by
  refine ⟨rfl, rfl, fun _ => rfl, rfl⟩

/-- C19: the edges a repetition adds.  Whenever the build of `e*`, `e+` or `e?`
between a boundary (entry, exit) succeeds, with `n` the value of `next_state`
at the call (so that `n` and `n + 1` are the fresh inner entry and inner exit
states): the automaton holds the epsilon edges entry → `n` and `n + 1` → exit;
for `e*` and `e+` it holds the epsilon back-edge `n + 1` → `n`; for `e*` and
`e?` it holds the direct epsilon edge entry → exit. -/
theorem C19_repetition_edges_present (cfg : build_config) (ctx c1 : context)
    (a a1 : automaton) (e : parsed_expr) (b : boundary_states) :
    (build_body_expression cfg ctx a (.PARSED_ZERO_OR_MORE e) b = .ok (c1, a1) →
      (⟨b.entry, b.exit, .SYMBOL_EPSILON⟩ : transition) ∈ a1.transitions ∧
      (⟨ctx.next_state + 1, ctx.next_state, .SYMBOL_EPSILON⟩ : transition) ∈ a1.transitions ∧
      (⟨b.entry, ctx.next_state, .SYMBOL_EPSILON⟩ : transition) ∈ a1.transitions ∧
      (⟨ctx.next_state + 1, b.exit, .SYMBOL_EPSILON⟩ : transition) ∈ a1.transitions) ∧
    (build_body_expression cfg ctx a (.PARSED_ONE_OR_MORE e) b = .ok (c1, a1) →
      (⟨ctx.next_state + 1, ctx.next_state, .SYMBOL_EPSILON⟩ : transition) ∈ a1.transitions ∧
      (⟨b.entry, ctx.next_state, .SYMBOL_EPSILON⟩ : transition) ∈ a1.transitions ∧
      (⟨ctx.next_state + 1, b.exit, .SYMBOL_EPSILON⟩ : transition) ∈ a1.transitions) ∧
    (build_body_expression cfg ctx a (.PARSED_OPTIONAL e) b = .ok (c1, a1) →
      (⟨b.entry, b.exit, .SYMBOL_EPSILON⟩ : transition) ∈ a1.transitions ∧
      (⟨b.entry, ctx.next_state, .SYMBOL_EPSILON⟩ : transition) ∈ a1.transitions ∧
      (⟨ctx.next_state + 1, b.exit, .SYMBOL_EPSILON⟩ : transition) ∈ a1.transitions) := by
  refine ⟨?_, ?_, ?_⟩
  · intro h
    obtain ⟨_, c2, a2, inner, hcon, _, ha⟩ :=
      build_body_expression_zero_or_more_ok cfg ctx c1 a a1 e b h
    obtain ⟨hi, a3, _, ha2⟩ := connect_expression_ok cfg _ c2 a a2 e b inner hcon
    subst ha; subst ha2; subst hi
    simp [automaton_add_transition, context.enter_expression]
  · intro h
    obtain ⟨_, c2, a2, inner, hcon, _, ha⟩ :=
      build_body_expression_one_or_more_ok cfg ctx c1 a a1 e b h
    obtain ⟨hi, a3, _, ha2⟩ := connect_expression_ok cfg _ c2 a a2 e b inner hcon
    subst ha; subst ha2; subst hi
    simp [automaton_add_transition, context.enter_expression]
  · intro h
    obtain ⟨_, c2, a2, inner, hcon, _, ha⟩ :=
      build_body_expression_optional_ok cfg ctx c1 a a1 e b h
    obtain ⟨hi, a3, _, ha2⟩ := connect_expression_ok cfg _ c2 a a2 e b inner hcon
    subst ha; subst ha2; subst hi
    simp [automaton_add_transition, context.enter_expression]

theorem C19_repetition_edges_present_witness :
    (⟨0, 1, .SYMBOL_EPSILON⟩ : transition) ∈
      [(⟨2, 3, .SYMBOL_EPSILON⟩ : transition), ⟨0, 2, .SYMBOL_EPSILON⟩,
        ⟨3, 1, .SYMBOL_EPSILON⟩, ⟨3, 2, .SYMBOL_EPSILON⟩, ⟨0, 1, .SYMBOL_EPSILON⟩] ∧
    (⟨3, 2, .SYMBOL_EPSILON⟩ : transition) ∈
      [(⟨2, 3, .SYMBOL_EPSILON⟩ : transition), ⟨0, 2, .SYMBOL_EPSILON⟩,
        ⟨3, 1, .SYMBOL_EPSILON⟩, ⟨3, 2, .SYMBOL_EPSILON⟩, ⟨0, 1, .SYMBOL_EPSILON⟩] ∧
    (⟨0, 2, .SYMBOL_EPSILON⟩ : transition) ∈
      [(⟨2, 3, .SYMBOL_EPSILON⟩ : transition), ⟨0, 2, .SYMBOL_EPSILON⟩,
        ⟨3, 1, .SYMBOL_EPSILON⟩, ⟨3, 2, .SYMBOL_EPSILON⟩, ⟨0, 1, .SYMBOL_EPSILON⟩] ∧
    (⟨3, 1, .SYMBOL_EPSILON⟩ : transition) ∈
      [(⟨2, 3, .SYMBOL_EPSILON⟩ : transition), ⟨0, 2, .SYMBOL_EPSILON⟩,
        ⟨3, 1, .SYMBOL_EPSILON⟩, ⟨3, 2, .SYMBOL_EPSILON⟩, ⟨0, 1, .SYMBOL_EPSILON⟩] :=
  (C19_repetition_edges_present example_config
    { registered_context [['a']] with next_state := 2 }
    { registered_context [['a']] with next_state := 4 }
    automaton.zero
    { start_state := 0, accepting_states := [],
      transitions := [⟨2, 3, .SYMBOL_EPSILON⟩, ⟨0, 2, .SYMBOL_EPSILON⟩,
        ⟨3, 1, .SYMBOL_EPSILON⟩, ⟨3, 2, .SYMBOL_EPSILON⟩, ⟨0, 1, .SYMBOL_EPSILON⟩] }
    (.PARSED_LITERAL []) { entry := 0, exit := 1 }).1 (by decide)

/-! ## The nesting guard -/

theorem add_keyword_token_error (ctx : context) (r : rule) (keyword : byte_string)
    (type : token_type) (e : build_error)
    (h : add_keyword_token ctx r keyword type = .error e) : e = .token_role_conflict := by
  have hfind : ∀ (tokens : List token) (start : Nat) (e : build_error),
      find_token_from (keyword_text keyword) type tokens start = .error e →
      e = .token_role_conflict := by
    intro tokens
    induction tokens with
    | nil => intro start e h; simp [find_token_from] at h
    | cons t rest ih =>
      intro start e h
      rw [find_token_from_cons] at h
      split at h
      · split at h
        · simp only [Except.error.injEq] at h; exact h.symm
        · cases h
      · exact ih _ _ h
  unfold add_keyword_token at h
  split at h
  · cases h
  · unfold find_token at h
    split at h
    · rename_i e2 hf
      simp only [Except.error.injEq] at h
      subst h
      exact hfind _ _ _ hf
    · split at h <;> cases h

theorem connect_expression_error (cfg : build_config) (ctx : context) (a : automaton)
    (expr : parsed_expr) (outer : boundary_states) (e : build_error)
    (h : connect_expression cfg ctx a expr outer = .error e) :
    build_body_expression cfg { ctx with next_state := ctx.next_state + 1 + 1 } a expr
      { entry := ctx.next_state, exit := ctx.next_state + 1 } = .error e := by
  simp only [connect_expression, connect_expression_with] at h
  split at h
  · rename_i e2 hsub
    simp only [Except.error.injEq] at h
    subst h
    exact hsub
  · cases h

theorem build_body_automaton_error_inv (cfg : build_config) (ctx : context)
    (expr : parsed_expr) (e : build_error)
    (h : build_body_automaton cfg ctx expr = .error e) :
    build_body_expression cfg { ctx with next_state := 2 }
      (automaton_mark_accepting_state (automaton_set_start_state automaton.zero 0) 1)
      expr { entry := 0, exit := 1 } = .error e := by
  simp only [build_body_automaton, build_body_automaton_with] at h
  split at h
  · rename_i e2 hsub
    simp only [Except.error.injEq] at h
    subst h
    exact hsub
  · cases h

/-- The guard itself: an activation that finds `expression_nesting` above the cap
fails with the nested-too-deeply error, whatever the expression. -/
theorem build_body_expression_guard (cfg : build_config) (ctx : context) (a : automaton)
    (expr : parsed_expr) (b : boundary_states)
    (h : ctx.expression_nesting > MAX_EXPRESSION_NESTING) :
    build_body_expression cfg ctx a expr b = .error .nested_too_deeply := by
  cases expr with
  | PARSED_CHOICE l => rw [build_body_expression_choice_eq, if_pos h]
  | PARSED_CONCATENATION l => rw [build_body_expression_concatenation_eq, if_pos h]
  | PARSED_IDENT i r => rw [build_body_expression_ident_eq, if_pos h]
  | PARSED_LITERAL s => rw [build_body_expression_literal_eq, if_pos h]
  | PARSED_PARENS e => rw [build_body_expression_parens_eq, if_pos h]
  | PARSED_BRACKETED l s t => rw [build_body_expression_bracketed_eq, if_pos h]
  | PARSED_ZERO_OR_MORE e => rw [build_body_expression_zero_or_more_eq, if_pos h]
  | PARSED_ONE_OR_MORE e => rw [build_body_expression_one_or_more_eq, if_pos h]
  | PARSED_OPTIONAL e => rw [build_body_expression_optional_eq, if_pos h]

theorem connect_expression_within_cap (expr : parsed_expr) (ih : expression_within_cap expr)
    (cfg : build_config) (ctx : context) (a : automaton) (outer : boundary_states)
    (h : ctx.expression_nesting + expr.nesting_depth ≤ MAX_EXPRESSION_NESTING + 1) :
    connect_expression cfg ctx a expr outer ≠ .error .nested_too_deeply := by
  intro hc
  exact ih cfg { ctx with next_state := ctx.next_state + 1 + 1 } a
    { entry := ctx.next_state, exit := ctx.next_state + 1 } h
    (connect_expression_error cfg ctx a expr outer _ hc)

theorem within_cap_ident (identifier : byte_string) (rename : Option byte_string) :
    expression_within_cap (.PARSED_IDENT identifier rename) := by
  intro cfg ctx a b h hc
  simp only [parsed_expr.nesting_depth] at h
  rw [build_body_expression_ident_eq, if_neg (by omega)] at hc
  split at hc
  · cases hc
  · split at hc
    · split at hc <;> cases hc
    · split at hc
      · rename_i e hadd
        simp only [Except.error.injEq] at hc
        subst hc
        cases add_slot_error cfg _ _ _ _ _ hadd with
        | inl h => cases h
        | inr h => cases h
      · cases hc

theorem within_cap_literal (string : byte_string) :
    expression_within_cap (.PARSED_LITERAL string) := by
  intro cfg ctx a b h hc
  simp only [parsed_expr.nesting_depth] at h
  rw [build_body_expression_literal_eq, if_neg (by omega)] at hc
  split at hc
  · rename_i e hadd
    simp only [Except.error.injEq] at hc
    subst hc
    cases add_keyword_token_error _ _ _ _ _ hadd
  · cases hc

theorem within_cap_parens (expr : parsed_expr) (ih : expression_within_cap expr) :
    expression_within_cap (.PARSED_PARENS expr) := by
  intro cfg ctx a b h hc
  simp only [parsed_expr.nesting_depth] at h
  rw [build_body_expression_parens_eq, if_neg (by omega)] at hc
  split at hc
  · rename_i e hsub
    simp only [Except.error.injEq] at hc
    subst hc
    exact ih cfg ctx.enter_expression a b
      (by simp only [context.enter_expression]; omega) hsub
  · cases hc

theorem within_cap_choice (operand : parsed_expr_list)
    (ih : expression_list_within_cap operand) :
    expression_within_cap (.PARSED_CHOICE operand) := by
  intro cfg ctx a b h hc
  simp only [parsed_expr.nesting_depth] at h
  rw [build_body_expression_choice_eq, if_neg (by omega)] at hc
  split at hc
  · rename_i e hsub
    simp only [Except.error.injEq] at hc
    subst hc
    exact ih.1 cfg ctx.enter_expression a b
      (by simp only [context.enter_expression]; omega) hsub
  · cases hc

theorem within_cap_concatenation (operand : parsed_expr_list)
    (ih : expression_list_within_cap operand) :
    expression_within_cap (.PARSED_CONCATENATION operand) := by
  intro cfg ctx a b h hc
  simp only [parsed_expr.nesting_depth] at h
  rw [build_body_expression_concatenation_eq, if_neg (by omega)] at hc
  split at hc
  · rename_i e hsub
    simp only [Except.error.injEq] at hc
    subst hc
    exact ih.2.1 cfg _ _ _ (by simp only [context.enter_expression]; omega) hsub
  · cases hc

theorem within_cap_bracketed (bracket_expr : parsed_expr_list)
    (begin_token end_token : byte_string) (ih : expression_list_within_cap bracket_expr) :
    expression_within_cap (.PARSED_BRACKETED bracket_expr begin_token end_token) := by
  intro cfg ctx a b h hc
  simp only [parsed_expr.nesting_depth] at h
  rw [build_body_expression_bracketed_eq, if_neg (by omega)] at hc
  split at hc
  · rename_i e hsub
    simp only [Except.error.injEq] at hc
    subst hc
    exact ih.2.2 cfg _
      (by simp only [context.enter_expression, context.set_current_rule]; omega) hsub
  · split at hc
    · rename_i e hadd
      simp only [Except.error.injEq] at hc
      subst hc
      cases add_keyword_token_error _ _ _ _ _ hadd
    · split at hc
      · rename_i e hadd
        simp only [Except.error.injEq] at hc
        subst hc
        cases add_keyword_token_error _ _ _ _ _ hadd
      · split at hc
        · cases hc
        · split at hc <;> cases hc

theorem within_cap_zero_or_more (operand : parsed_expr) (ih : expression_within_cap operand) :
    expression_within_cap (.PARSED_ZERO_OR_MORE operand) := by
  intro cfg ctx a b h hc
  simp only [parsed_expr.nesting_depth] at h
  rw [build_body_expression_zero_or_more_eq, if_neg (by omega)] at hc
  split at hc
  · rename_i e hsub
    simp only [Except.error.injEq] at hc
    subst hc
    exact connect_expression_within_cap operand ih cfg ctx.enter_expression a b
      (by simp only [context.enter_expression]; omega) hsub
  · cases hc

theorem within_cap_one_or_more (operand : parsed_expr) (ih : expression_within_cap operand) :
    expression_within_cap (.PARSED_ONE_OR_MORE operand) := by
  intro cfg ctx a b h hc
  simp only [parsed_expr.nesting_depth] at h
  rw [build_body_expression_one_or_more_eq, if_neg (by omega)] at hc
  split at hc
  · rename_i e hsub
    simp only [Except.error.injEq] at hc
    subst hc
    exact connect_expression_within_cap operand ih cfg ctx.enter_expression a b
      (by simp only [context.enter_expression]; omega) hsub
  · cases hc

theorem within_cap_optional (operand : parsed_expr) (ih : expression_within_cap operand) :
    expression_within_cap (.PARSED_OPTIONAL operand) := by
  intro cfg ctx a b h hc
  simp only [parsed_expr.nesting_depth] at h
  rw [build_body_expression_optional_eq, if_neg (by omega)] at hc
  split at hc
  · rename_i e hsub
    simp only [Except.error.injEq] at hc
    subst hc
    exact connect_expression_within_cap operand ih cfg ctx.enter_expression a b
      (by simp only [context.enter_expression]; omega) hsub
  · cases hc

theorem within_cap_empty : expression_list_within_cap .empty := by
  refine ⟨?_, ?_, ?_⟩
  · intro cfg ctx a b _ hc
    rw [build_body_expression_choice_empty_eq] at hc
    cases hc
  · intro cfg ctx a inner _ hc
    rw [build_body_expression_concatenation_empty_eq] at hc
    cases hc
  · intro cfg ctx _ hc
    rw [build_body_expression_bracket_empty_eq] at hc
    cases hc

theorem within_cap_cons (head : parsed_expr) (next : parsed_expr_list)
    (ihh : expression_within_cap head) (ihn : expression_list_within_cap next) :
    expression_list_within_cap (.cons head next) := by
  refine ⟨?_, ?_, ?_⟩
  · intro cfg ctx a b h hc
    simp only [parsed_expr_list.nesting_depth] at h
    rw [build_body_expression_choice_cons_eq] at hc
    split at hc
    · rename_i e hsub
      simp only [Except.error.injEq] at hc
      subst hc
      exact connect_expression_within_cap head ihh cfg ctx a b
        (by have := Nat.le_max_left head.nesting_depth next.nesting_depth; omega) hsub
    · rename_i c2 a2 inner hsub
      have hp := connect_expression_preserved head (build_body_expression_preserved head)
        cfg _ _ _ _ _ _ hsub
      exact ihn.1 cfg c2 a2 b
        (by
          have := Nat.le_max_right head.nesting_depth next.nesting_depth
          have := hp.2.2
          omega) hc
  · intro cfg ctx a inner h hc
    simp only [parsed_expr_list.nesting_depth] at h
    rw [build_body_expression_concatenation_cons_eq] at hc
    split at hc
    · rename_i e hsub
      simp only [Except.error.injEq] at hc
      subst hc
      exact ihh cfg _ a _
        (by
          have := Nat.le_max_left head.nesting_depth next.nesting_depth
          show ctx.expression_nesting + head.nesting_depth ≤ MAX_EXPRESSION_NESTING + 1
          omega) hsub
    · rename_i c2 a2 hsub
      have hp := build_body_expression_preserved head cfg _ _ _ _ _ hsub
      exact ihn.2.1 cfg c2 a2 _
        (by
          have := Nat.le_max_right head.nesting_depth next.nesting_depth
          have h2 : c2.expression_nesting = ctx.expression_nesting := hp.2.2
          omega) hc
  · intro cfg ctx h hc
    simp only [parsed_expr_list.head_nesting_depth] at h
    rw [build_body_expression_bracket_cons_eq] at hc
    split at hc
    · rename_i e hsub
      simp only [Except.error.injEq] at hc
      subst hc
      have hinner := build_body_automaton_error_inv cfg _ head _ hsub
      refine ihh cfg _ _ _ ?_ hinner
      exact h
    · cases hc

/-- An expression whose nesting depth, added to the nesting it is compiled at,
stays within `MAX_EXPRESSION_NESTING + 1` never fails with the
nested-too-deeply error. -/
theorem build_body_expression_within_cap (expr : parsed_expr) : expression_within_cap expr :=
  parsed_expr.rec (motive_1 := expression_within_cap)
    (motive_2 := expression_list_within_cap)
    within_cap_choice within_cap_concatenation within_cap_ident within_cap_literal
    within_cap_parens within_cap_bracketed within_cap_zero_or_more within_cap_one_or_more
    within_cap_optional within_cap_empty within_cap_cons expr

theorem connect_expression_built_within_cap (expr : parsed_expr)
    (ih : expression_built_within_cap expr)
    (cfg : build_config) (ctx c1 : context) (a a1 : automaton) (outer inner : boundary_states)
    (h : connect_expression cfg ctx a expr outer = .ok (c1, a1, inner)) :
    ctx.expression_nesting + expr.nesting_depth ≤ MAX_EXPRESSION_NESTING + 1 := by
  obtain ⟨_, a2, hsub, _⟩ := connect_expression_ok cfg ctx c1 a a1 expr outer inner h
  have := ih cfg _ _ _ _ _ hsub
  exact this

theorem built_within_cap_ident (identifier : byte_string) (rename : Option byte_string) :
    expression_built_within_cap (.PARSED_IDENT identifier rename) := by
  intro cfg ctx c1 a a1 b h
  have hg := (build_body_expression_ident_ok cfg ctx c1 a a1 identifier rename b h).1
  simp only [parsed_expr.nesting_depth]
  omega

theorem built_within_cap_literal (string : byte_string) :
    expression_built_within_cap (.PARSED_LITERAL string) := by
  intro cfg ctx c1 a a1 b h
  have hg := (build_body_expression_literal_ok cfg ctx c1 a a1 string b h).1
  simp only [parsed_expr.nesting_depth]
  omega

theorem built_within_cap_parens (expr : parsed_expr) (ih : expression_built_within_cap expr) :
    expression_built_within_cap (.PARSED_PARENS expr) := by
  intro cfg ctx c1 a a1 b h
  obtain ⟨hg, c2, hsub, _⟩ := build_body_expression_parens_ok cfg ctx c1 a a1 expr b h
  have := ih cfg _ _ _ _ _ hsub
  simp only [context.enter_expression] at this
  simp only [parsed_expr.nesting_depth]
  omega

theorem built_within_cap_choice (operand : parsed_expr_list)
    (ih : expression_list_built_within_cap operand) :
    expression_built_within_cap (.PARSED_CHOICE operand) := by
  intro cfg ctx c1 a a1 b h
  obtain ⟨hg, c2, hsub, _⟩ := build_body_expression_choice_ok cfg ctx c1 a a1 operand b h
  have := ih.1 cfg _ _ _ _ _ hsub
  simp only [context.enter_expression] at this
  simp only [parsed_expr.nesting_depth]
  omega

theorem built_within_cap_concatenation (operand : parsed_expr_list)
    (ih : expression_list_built_within_cap operand) :
    expression_built_within_cap (.PARSED_CONCATENATION operand) := by
  intro cfg ctx c1 a a1 b h
  obtain ⟨hg, c2, a2, inner, hsub, _⟩ :=
    build_body_expression_concatenation_ok cfg ctx c1 a a1 operand b h
  have := ih.2.1 cfg _ _ _ _ _ _ hsub
  simp only [context.enter_expression] at this
  simp only [parsed_expr.nesting_depth]
  omega

theorem built_within_cap_bracketed (bracket_expr : parsed_expr_list)
    (begin_token end_token : byte_string)
    (ih : expression_list_built_within_cap bracket_expr) :
    expression_built_within_cap (.PARSED_BRACKETED bracket_expr begin_token end_token) := by
  intro cfg ctx c1 a a1 b h
  obtain ⟨hg, c3, ba, _, _, _, _, _, _, hsub, _⟩ :=
    build_body_expression_bracketed_ok cfg ctx c1 a a1 bracket_expr begin_token end_token b h
  have := ih.2.2 cfg _ _ _ hsub
  simp only [context.enter_expression, context.set_current_rule] at this
  simp only [parsed_expr.nesting_depth]
  omega

theorem built_within_cap_zero_or_more (operand : parsed_expr)
    (ih : expression_built_within_cap operand) :
    expression_built_within_cap (.PARSED_ZERO_OR_MORE operand) := by
  intro cfg ctx c1 a a1 b h
  obtain ⟨hg, c2, a2, inner, hsub, _⟩ :=
    build_body_expression_zero_or_more_ok cfg ctx c1 a a1 operand b h
  have := connect_expression_built_within_cap operand ih cfg _ _ _ _ _ _ hsub
  simp only [context.enter_expression] at this
  simp only [parsed_expr.nesting_depth]
  omega

theorem built_within_cap_one_or_more (operand : parsed_expr)
    (ih : expression_built_within_cap operand) :
    expression_built_within_cap (.PARSED_ONE_OR_MORE operand) := by
  intro cfg ctx c1 a a1 b h
  obtain ⟨hg, c2, a2, inner, hsub, _⟩ :=
    build_body_expression_one_or_more_ok cfg ctx c1 a a1 operand b h
  have := connect_expression_built_within_cap operand ih cfg _ _ _ _ _ _ hsub
  simp only [context.enter_expression] at this
  simp only [parsed_expr.nesting_depth]
  omega

theorem built_within_cap_optional (operand : parsed_expr)
    (ih : expression_built_within_cap operand) :
    expression_built_within_cap (.PARSED_OPTIONAL operand) := by
  intro cfg ctx c1 a a1 b h
  obtain ⟨hg, c2, a2, inner, hsub, _⟩ :=
    build_body_expression_optional_ok cfg ctx c1 a a1 operand b h
  have := connect_expression_built_within_cap operand ih cfg _ _ _ _ _ _ hsub
  simp only [context.enter_expression] at this
  simp only [parsed_expr.nesting_depth]
  omega

theorem built_within_cap_empty : expression_list_built_within_cap .empty := by
  refine ⟨?_, ?_, ?_⟩
  · intro cfg ctx c1 a a1 b _
    exact Or.inl rfl
  · intro cfg ctx c1 a a1 inner inner1 _
    exact Or.inl rfl
  · intro cfg ctx c1 a1 _
    exact Or.inl rfl

theorem built_within_cap_cons (head : parsed_expr) (next : parsed_expr_list)
    (ihh : expression_built_within_cap head) (ihn : expression_list_built_within_cap next) :
    expression_list_built_within_cap (.cons head next) := by
  refine ⟨?_, ?_, ?_⟩
  · intro cfg ctx c1 a a1 b h
    obtain ⟨c2, a2, inner, hhead, hnext⟩ :=
      build_body_expression_choice_cons_ok cfg ctx c1 a a1 head next b h
    have h1 := connect_expression_built_within_cap head ihh cfg _ _ _ _ _ _ hhead
    have hp := connect_expression_preserved head (build_body_expression_preserved head)
      cfg _ _ _ _ _ _ hhead
    have h2 := ihn.1 cfg _ _ _ _ _ hnext
    have h3 : c2.expression_nesting = ctx.expression_nesting := hp.2.2
    right
    simp only [parsed_expr_list.nesting_depth]
    rcases h2 with h2 | h2
    · rw [h2, Nat.max_eq_left (Nat.zero_le _)]; exact h1
    · rw [h3] at h2
      rcases Nat.le_total head.nesting_depth next.nesting_depth with hle | hle
      · rw [Nat.max_eq_right hle]; exact h2
      · rw [Nat.max_eq_left hle]; exact h1
  · intro cfg ctx c1 a a1 inner inner1 h
    obtain ⟨c2, a2, hhead, hnext⟩ :=
      build_body_expression_concatenation_cons_ok cfg ctx c1 a a1 head next inner inner1 h
    have h1 := ihh cfg _ _ _ _ _ hhead
    have hp := build_body_expression_preserved head cfg _ _ _ _ _ hhead
    have h2 := ihn.2.1 cfg _ _ _ _ _ _ hnext
    have h3 : c2.expression_nesting = ctx.expression_nesting := hp.2.2
    have h1 : ctx.expression_nesting + head.nesting_depth ≤ MAX_EXPRESSION_NESTING + 1 := h1
    right
    simp only [parsed_expr_list.nesting_depth]
    rcases h2 with h2 | h2
    · rw [h2, Nat.max_eq_left (Nat.zero_le _)]; exact h1
    · rw [h3] at h2
      rcases Nat.le_total head.nesting_depth next.nesting_depth with hle | hle
      · rw [Nat.max_eq_right hle]; exact h2
      · rw [Nat.max_eq_left hle]; exact h1
  · intro cfg ctx c1 a1 h
    obtain ⟨c2, hsub, _⟩ := build_body_expression_bracket_cons_ok cfg ctx c1 head next a1 h
    obtain ⟨c3, nfa, hinner, _⟩ := build_body_automaton_ok_inv cfg _ _ _ _ hsub
    have h1 := ihh cfg _ _ _ _ _ hinner
    right
    exact h1

/-- An expression that builds has a nesting depth that, added to the nesting it
is compiled at, stays within `MAX_EXPRESSION_NESTING + 1`. -/
theorem build_body_expression_built_within_cap (expr : parsed_expr) :
    expression_built_within_cap expr :=
  parsed_expr.rec (motive_1 := expression_built_within_cap)
    (motive_2 := expression_list_built_within_cap)
    built_within_cap_choice built_within_cap_concatenation built_within_cap_ident
    built_within_cap_literal built_within_cap_parens built_within_cap_bracketed
    built_within_cap_zero_or_more built_within_cap_one_or_more built_within_cap_optional
    built_within_cap_empty built_within_cap_cons expr

theorem nest_parens_nesting_depth (n : Nat) (expr : parsed_expr) :
    (nest_parens n expr).nesting_depth = n + expr.nesting_depth := by
  induction n with
  | zero => simp [nest_parens]
  | succ n ih => simp only [nest_parens, parsed_expr.nesting_depth, ih]; omega

/-- A chain of `n` parentheses around the empty literal builds whenever the
innermost activation stays at or below the cap. -/
theorem nest_parens_builds (cfg : build_config) (n : Nat) (ctx : context) (a : automaton)
    (b : boundary_states)
    (h : ctx.expression_nesting + n ≤ MAX_EXPRESSION_NESTING) :
    build_body_expression cfg ctx a (nest_parens n (.PARSED_LITERAL [])) b =
      .ok (ctx.set_current_rule ctx.current_rule,
        automaton_add_transition a b.entry b.exit .SYMBOL_EPSILON) := by
  induction n generalizing ctx with
  | zero =>
    simp only [nest_parens]
    rw [build_body_expression_literal_eq, if_neg (by omega)]
    simp [add_keyword_token, context.enter_expression, context.leave_expression,
      context.set_current_rule, context.current_rule]
  | succ n ih =>
    simp only [nest_parens]
    rw [build_body_expression_parens_eq, if_neg (by omega),
      ih ctx.enter_expression (by simp only [context.enter_expression]; omega)]
    simp [context.enter_expression, context.leave_expression,
      context.set_current_rule, context.current_rule]

/-- A chain of parentheses around the empty literal whose innermost activation
is the first one above the cap fails with the nested-too-deeply error. -/
theorem nest_parens_rejected (cfg : build_config) (n : Nat) (ctx : context) (a : automaton)
    (b : boundary_states)
    (h : ctx.expression_nesting + n = MAX_EXPRESSION_NESTING + 1) :
    build_body_expression cfg ctx a (nest_parens n (.PARSED_LITERAL [])) b =
      .error .nested_too_deeply := by
  induction n generalizing ctx with
  | zero =>
    simp only [nest_parens]
    exact build_body_expression_guard cfg ctx a _ b (by omega)
  | succ n ih =>
    simp only [nest_parens]
    rw [build_body_expression_parens_eq, if_neg (by omega),
      ih ctx.enter_expression (by simp only [context.enter_expression]; omega)]

/-- The build of a grammar of one rule with a simple body is the registration of
the rule followed by the build of the automaton of its body. -/
theorem build_single_simple_rule (cfg : build_config) (name : byte_string)
    (expr : parsed_expr) :
    build cfg grammar.zero [⟨name, .simple expr⟩] =
      match build_body_automaton cfg
          { registered_context [name] with rule_index := 0, next_symbol := 0 } expr with
      | .error e => .error e
      | .ok (c, built) =>
        .ok (c.set_current_rule { c.current_rule with automaton := built }).grammar := by
  have hreg := build_register_rules_registered [⟨name, .simple expr⟩] (by simp) (by simp)
  have hfind := find_rule_registered_first name []
  unfold build
  rw [hreg]
  simp only [List.map_cons, List.map_nil, build_fill_rules, build_fill_rule_simple_eq, hfind]
  cases build_body_automaton cfg
      { registered_context [name] with rule_index := 0, next_symbol := 0 } expr with
  | error e => rfl
  | ok p => rfl

/-- Claim C17, as the code has it: the guard compares the nesting before the
activation with the cap of 3000 by a strict inequality, so starting from nesting 0
an expression of nesting depth at most 3001 never fails with the
nested-too-deeply error, an expression of nesting depth above 3001 does not
build, an activation that starts above the cap fails with that error, the chain
of 3001 parentheses around the empty literal (depth 3002) is rejected with that
error, and every shorter chain builds. -/
theorem C17_nesting_guard (cfg : build_config) (ctx : context) (a : automaton)
    (expr : parsed_expr) (b : boundary_states) (h0 : ctx.expression_nesting = 0) :
    MAX_EXPRESSION_NESTING = 3000 ∧
    (expr.nesting_depth ≤ 3001 →
      build_body_expression cfg ctx a expr b ≠ .error .nested_too_deeply) ∧
    (3001 < expr.nesting_depth →
      ∃ e : build_error, build_body_expression cfg ctx a expr b = .error e) ∧
    (∀ (deep : context), deep.expression_nesting > 3000 →
      build_body_expression cfg deep a expr b = .error .nested_too_deeply) ∧
    (∀ n : Nat, n ≤ 3000 →
      (nest_parens n (.PARSED_LITERAL [])).nesting_depth = n + 1 ∧
      build_body_expression cfg ctx a (nest_parens n (.PARSED_LITERAL [])) b =
        .ok (ctx.set_current_rule ctx.current_rule,
          automaton_add_transition a b.entry b.exit .SYMBOL_EPSILON)) ∧
    (nest_parens 3001 (.PARSED_LITERAL [])).nesting_depth = 3002 ∧
    build_body_expression cfg ctx a (nest_parens 3001 (.PARSED_LITERAL [])) b =
      .error .nested_too_deeply := by
  have hmax : MAX_EXPRESSION_NESTING = 3000 := rfl
  refine ⟨hmax, ?_, ?_, ?_, ?_, ?_, ?_⟩
  · intro hd
    exact build_body_expression_within_cap expr cfg ctx a b (by rw [h0, hmax]; omega)
  · intro hd
    cases hres : build_body_expression cfg ctx a expr b with
    | error e => exact ⟨e, rfl⟩
    | ok p =>
      have := build_body_expression_built_within_cap expr cfg ctx p.1 a p.2 b hres
      rw [h0, hmax] at this
      omega
  · intro deep hdeep
    exact build_body_expression_guard cfg deep a expr b (by rw [hmax]; exact hdeep)
  · intro n hn
    refine ⟨?_, nest_parens_builds cfg n ctx a b (by rw [h0, hmax]; omega)⟩
    rw [nest_parens_nesting_depth]
    rfl
  · rw [nest_parens_nesting_depth]
    rfl
  · exact nest_parens_rejected cfg 3001 ctx a b (by rw [h0, hmax])

theorem C17_nesting_guard_witness :
    (context.initial grammar.zero).expression_nesting = 0 ∧
    MAX_EXPRESSION_NESTING = 3000 ∧
    ((parsed_expr.PARSED_LITERAL []).nesting_depth ≤ 3001 →
      build_body_expression example_config (context.initial grammar.zero) automaton.zero
        (.PARSED_LITERAL []) ⟨0, 1⟩ ≠ .error .nested_too_deeply) ∧
    (3001 < (parsed_expr.PARSED_LITERAL []).nesting_depth →
      ∃ e : build_error, build_body_expression example_config (context.initial grammar.zero)
        automaton.zero (.PARSED_LITERAL []) ⟨0, 1⟩ = .error e) ∧
    (∀ (deep : context), deep.expression_nesting > 3000 →
      build_body_expression example_config deep automaton.zero (.PARSED_LITERAL []) ⟨0, 1⟩
        = .error .nested_too_deeply) ∧
    (∀ n : Nat, n ≤ 3000 →
      (nest_parens n (.PARSED_LITERAL [])).nesting_depth = n + 1 ∧
      build_body_expression example_config (context.initial grammar.zero) automaton.zero
          (nest_parens n (.PARSED_LITERAL [])) ⟨0, 1⟩ =
        .ok ((context.initial grammar.zero).set_current_rule
            (context.initial grammar.zero).current_rule,
          automaton_add_transition automaton.zero 0 1 .SYMBOL_EPSILON)) ∧
    (nest_parens 3001 (.PARSED_LITERAL [])).nesting_depth = 3002 ∧
    build_body_expression example_config (context.initial grammar.zero) automaton.zero
      (nest_parens 3001 (.PARSED_LITERAL [])) ⟨0, 1⟩ = .error .nested_too_deeply :=
  ⟨rfl, C17_nesting_guard example_config (context.initial grammar.zero) automaton.zero
    (.PARSED_LITERAL []) ⟨0, 1⟩ rfl⟩

/-- Claim C17, counterexample to the stated bound: the chain of 3000 parentheses
around the empty literal has nesting depth 3001, exceeding 3000, and yet its
automaton is built, and the one-rule grammar with that body compiles. -/
theorem C17_depth_3001_counterexample :
    (nest_parens 3000 (.PARSED_LITERAL [])).nesting_depth = 3001 ∧
    (∃ (c1 : context) (a1 : automaton),
      build_body_expression example_config (context.initial grammar.zero)
        automaton.zero (nest_parens 3000 (.PARSED_LITERAL [])) ⟨0, 1⟩ = .ok (c1, a1)) ∧
    (∃ g : grammar,
      build example_config grammar.zero
        [⟨['r'], .simple (nest_parens 3000 (.PARSED_LITERAL []))⟩] = .ok g) := by
  refine ⟨?_, ?_, ?_⟩
  · rw [nest_parens_nesting_depth]
    rfl
  · exact ⟨_, _, nest_parens_builds example_config 3000 _ _ _ (Nat.le_refl _)⟩
  · rw [build_single_simple_rule]
    obtain ⟨c1, a1, h⟩ := build_body_automaton_ok example_config
      { registered_context [['r']] with rule_index := 0, next_symbol := 0 }
      (nest_parens 3000 (.PARSED_LITERAL []))
      ⟨_, _, nest_parens_builds example_config 3000 _ _ _ (Nat.le_refl _)⟩
    rw [h]
    exact ⟨_, rfl⟩
/-! ## Unknown references and the nesting guard -/

/-- A reference to a name that no registered rule has, under `n` pairs of
parentheses.  Every activation of `build_body_expression` checks the nesting
guard before it looks at the expression, so the compilation fails with the
nested-too-deeply error when the reference lies under more than 3000
activations, and with the unknown-rule-or-token error otherwise. -/
theorem nest_parens_unknown_reference (cfg : build_config) (n : Nat) (ctx : context)
    (a : automaton) (identifier : byte_string) (rename : Option byte_string)
    (b : boundary_states)
    (hunknown : identifier ∉ ctx.grammar.rules.map (fun r => r.name)) :
    build_body_expression cfg ctx a (nest_parens n (.PARSED_IDENT identifier rename)) b =
      if ctx.expression_nesting + n > MAX_EXPRESSION_NESTING then .error .nested_too_deeply
      else .error .unknown_rule_or_token := by
  induction n generalizing ctx with
  | zero =>
    simp only [nest_parens, Nat.add_zero]
    rw [build_body_expression_ident_eq]
    have hfind : find_rule ctx.enter_expression identifier = none :=
      (find_rule_from_none_iff identifier ctx.grammar.rules 0).mpr hunknown
    rw [hfind]
  | succ n ih =>
    simp only [nest_parens]
    rw [build_body_expression_parens_eq]
    by_cases hg : ctx.expression_nesting > MAX_EXPRESSION_NESTING
    · rw [if_pos hg, if_pos (by omega)]
    · rw [if_neg hg, ih ctx.enter_expression hunknown]
      have he : ctx.enter_expression.expression_nesting = ctx.expression_nesting + 1 := rfl
      rw [he]
      by_cases hd : ctx.expression_nesting + 1 + n > MAX_EXPRESSION_NESTING
      · rw [if_pos hd, if_pos (by omega)]
      · rw [if_neg hd, if_neg (by omega)]

/-- The build of a grammar whose one rule is a reference to an unknown name
under `n` pairs of parentheses. -/
theorem build_nested_unknown_reference (cfg : build_config) (name : byte_string) (n : Nat)
    (identifier : byte_string) (rename : Option byte_string)
    (hunknown : identifier ∉
      (registered_context [name]).grammar.rules.map (fun r => r.name)) :
    build cfg grammar.zero
        [⟨name, .simple (nest_parens n (.PARSED_IDENT identifier rename))⟩] =
      if n > MAX_EXPRESSION_NESTING then .error .nested_too_deeply
      else .error .unknown_rule_or_token := by
  rw [build_single_simple_rule]
  have h := nest_parens_unknown_reference cfg n
    { registered_context [name] with rule_index := 0, next_symbol := 0, next_state := 2 }
    (automaton_mark_accepting_state (automaton_set_start_state automaton.zero 0) 1)
    identifier rename { entry := 0, exit := 1 } hunknown
  have h0 : ({ registered_context [name] with
      rule_index := 0, next_symbol := 0, next_state := 2 } : context).expression_nesting
      = 0 := rfl
  rw [h0, Nat.zero_add] at h
  by_cases hn : n > MAX_EXPRESSION_NESTING
  · rw [if_pos hn] at h ⊢
    rw [build_body_automaton_error cfg
      { registered_context [name] with rule_index := 0, next_symbol := 0 } _ _ h]
  · rw [if_neg hn] at h ⊢
    rw [build_body_automaton_error cfg
      { registered_context [name] with rule_index := 0, next_symbol := 0 } _ _ h]

/-- Claim C15, as the code has it: a reference to a name that no registered rule
has never compiles.  `find_rule` finds no rule of the name; compiling the
reference fails with the unknown-rule-or-token error whenever the nesting guard,
which every activation checks first, lets the identifier case run, whatever
`bracket_nesting` is and whether or not a rename is attached, and with the
nested-too-deeply error when the guard is tripped; the same holds for the
reference under `n` pairs of parentheses, in an expression and in the build of a
grammar whose one rule it is.  A failure returns no context and no automaton,
so no slot is added and no transition is emitted. -/
theorem C15_unknown_reference (cfg : build_config) (ctx : context) (a : automaton)
    (identifier : byte_string) (rename : Option byte_string) (b : boundary_states)
    (hunknown : identifier ∉ ctx.grammar.rules.map (fun r => r.name)) :
    find_rule ctx identifier = none ∧
    build_body_expression cfg ctx a (.PARSED_IDENT identifier rename) b =
      (if ctx.expression_nesting > MAX_EXPRESSION_NESTING then .error .nested_too_deeply
       else .error .unknown_rule_or_token) ∧
    (∀ n : Nat,
      build_body_expression cfg ctx a (nest_parens n (.PARSED_IDENT identifier rename)) b =
        if ctx.expression_nesting + n > MAX_EXPRESSION_NESTING then .error .nested_too_deeply
        else .error .unknown_rule_or_token) ∧
    (∀ (name : byte_string) (n : Nat),
      identifier ∉ (registered_context [name]).grammar.rules.map (fun r => r.name) →
      build cfg grammar.zero
          [⟨name, .simple (nest_parens n (.PARSED_IDENT identifier rename))⟩] =
        if n > MAX_EXPRESSION_NESTING then .error .nested_too_deeply
        else .error .unknown_rule_or_token) := by
  have hfind : find_rule ctx identifier = none :=
    (find_rule_from_none_iff identifier ctx.grammar.rules 0).mpr hunknown
  refine ⟨hfind, ?_, ?_, ?_⟩
  · rw [build_body_expression_ident_eq]
    have h1 : find_rule ctx.enter_expression identifier = none := hfind
    rw [h1]
  · intro n
    exact nest_parens_unknown_reference cfg n ctx a identifier rename b hunknown
  · intro name n hname
    exact build_nested_unknown_reference cfg name n identifier rename hname

theorem C15_unknown_reference_witness :
    ['z'] ∉ ({ registered_context [['a']] with bracket_nesting := 2 } :
      context).grammar.rules.map (fun r => r.name) ∧
    build_body_expression example_config
      { registered_context [['a']] with bracket_nesting := 2 } automaton.zero
      (.PARSED_IDENT ['z'] (some ['y'])) { entry := 0, exit := 1 }
      = .error .unknown_rule_or_token := by
  have h := (C15_unknown_reference example_config
    { registered_context [['a']] with bracket_nesting := 2 } automaton.zero ['z']
    (some ['y']) { entry := 0, exit := 1 } (by decide)).2.1
  rw [if_neg (by decide)] at h
  exact ⟨by decide, h⟩

/-- Claim C15, counterexample to the unconditional error: in the grammar whose
rule `r` is the name `z` under 3001 pairs of parentheses, `z` matches no
registered rule, yet the build fails with the nested-too-deeply error and not
with the unknown-rule-or-token error, which it gives under 3000 pairs; and the
identifier case itself, entered with 3001 activations live, fails with the
nested-too-deeply error. -/
theorem C15_nested_reference_counterexample :
    ['z'] ∉ (registered_context [['r']]).grammar.rules.map (fun r => r.name) ∧
    build example_config grammar.zero
        [⟨['r'], .simple (nest_parens 3001 (.PARSED_IDENT ['z'] none))⟩] =
      .error .nested_too_deeply ∧
    build example_config grammar.zero
        [⟨['r'], .simple (nest_parens 3000 (.PARSED_IDENT ['z'] none))⟩] =
      .error .unknown_rule_or_token ∧
    build_body_expression example_config
        { registered_context [['r']] with expression_nesting := 3001 } automaton.zero
        (.PARSED_IDENT ['z'] none) { entry := 0, exit := 1 } =
      .error .nested_too_deeply := by
  have hz : ['z'] ∉ (registered_context [['r']]).grammar.rules.map (fun r => r.name) := by
    decide
  refine ⟨hz, ?_, ?_, ?_⟩
  · rw [build_nested_unknown_reference example_config ['r'] 3001 ['z'] none hz,
      if_pos (by decide)]
  · rw [build_nested_unknown_reference example_config ['r'] 3000 ['z'] none hz,
      if_neg (by decide)]
  · exact build_body_expression_guard example_config _ automaton.zero _ _ (by decide)
/-! ## The clauses of the rule being filled in -/

theorem rule.clauses_kept_same (r : rule) : r.clauses_kept r :=
  ⟨rfl, rfl, rfl, rfl, rfl, rfl, rfl, rfl, [], by simp⟩

theorem rule.clauses_kept_then (r1 r2 r3 : rule) (h12 : r1.clauses_kept r2)
    (h23 : r2.clauses_kept r3) : r1.clauses_kept r3 := by
  obtain ⟨a1, a2, a3, a4, a5, a6, a7, a8, e1, a9⟩ := h12
  obtain ⟨b1, b2, b3, b4, b5, b6, b7, b8, e2, b9⟩ := h23
  refine ⟨b1.trans a1, b2.trans a2, b3.trans a3, b4.trans a4, b5.trans a5, b6.trans a6,
    b7.trans a7, b8.trans a8, e1 ++ e2, ?_⟩
  rw [b9, a9, List.append_assoc]

theorem context.clauses_kept_refl (c : context) : c.clauses_kept c :=
  rule.clauses_kept_same _

theorem context.clauses_kept_trans (c1 c2 c3 : context) (h12 : c1.clauses_kept c2)
    (h23 : c2.clauses_kept c3) : c1.clauses_kept c3 :=
  rule.clauses_kept_then _ _ _ h12 h23

theorem context.current_rule_set_cases (c : context) (r : rule) :
    (c.set_current_rule r).current_rule = r ∨
    (c.set_current_rule r).current_rule = c.current_rule := by
  by_cases h : c.rule_index < c.grammar.rules.length
  · exact Or.inl (context.current_rule_set c r h)
  · right
    simp only [context.current_rule, context.set_current_rule, grammar.rule_at,
      grammar.set_rule]
    rw [List.set_eq_of_length_le (by omega)]

theorem context.current_rule_congr (c1 c2 : context) (hg : c2.grammar = c1.grammar)
    (hi : c2.rule_index = c1.rule_index) : c2.current_rule = c1.current_rule := by
  simp only [context.current_rule, hg, hi]

/-- Writing back a rule that keeps the clauses of the rule being filled in keeps
them. -/
theorem context.clauses_kept_step (c c2 : context) (r2 : rule)
    (hg : c2.grammar = c.grammar) (hi : c2.rule_index = c.rule_index)
    (hr : c.current_rule.clauses_kept r2) : c.clauses_kept (c2.set_current_rule r2) := by
  unfold context.clauses_kept
  rcases context.current_rule_set_cases c2 r2 with h | h
  · rw [h]; exact hr
  · rw [h, context.current_rule_congr c c2 hg hi]; exact rule.clauses_kept_same _

theorem add_slot_clauses_kept (cfg : build_config) (ctx ctx1 : context) (r r1 : rule)
    (name : byte_string) (target i : Nat)
    (h : add_slot cfg ctx r name target = .ok (ctx1, r1, i)) : r.clauses_kept r1 := by
  unfold add_slot at h
  split at h
  · cases h
  · split at h
    · split at h
      · cases h
      · simp only [Except.ok.injEq, Prod.mk.injEq] at h
        obtain ⟨_, hr, _⟩ := h
        subst hr
        exact ⟨rfl, rfl, rfl, rfl, rfl, rfl, rfl, rfl, _, rfl⟩
    · simp only [Except.ok.injEq, Prod.mk.injEq] at h
      obtain ⟨_, hr, _⟩ := h
      subst hr
      exact rule.clauses_kept_same _

theorem add_keyword_token_clauses_kept (ctx ctx1 : context) (r r1 : rule)
    (keyword : byte_string) (type : token_type) (s : symbol_id)
    (h : add_keyword_token ctx r keyword type = .ok (ctx1, r1, s)) : r.clauses_kept r1 := by
  have hf := (add_keyword_token_frame ctx ctx1 r r1 keyword type s h).2
  rw [hf]
  exact ⟨rfl, rfl, rfl, rfl, rfl, rfl, rfl, rfl, [], by simp⟩

theorem connect_expression_clauses_kept (expr : parsed_expr)
    (ih : expression_clauses_kept expr) (cfg : build_config) (ctx c1 : context)
    (a a1 : automaton) (outer inner : boundary_states)
    (h : connect_expression cfg ctx a expr outer = .ok (c1, a1, inner)) :
    ctx.clauses_kept c1 := by
  obtain ⟨_, a2, hsub, _⟩ := connect_expression_ok cfg ctx c1 a a1 expr outer inner h
  have := ih cfg _ _ _ _ _ hsub
  exact this

theorem build_body_automaton_clauses_kept_of (expr : parsed_expr)
    (ih : expression_clauses_kept expr) (cfg : build_config) (ctx c1 : context)
    (a1 : automaton) (h : build_body_automaton cfg ctx expr = .ok (c1, a1)) :
    ctx.clauses_kept c1 := by
  obtain ⟨c2, nfa, hsub, hc, _⟩ := build_body_automaton_ok_inv cfg ctx c1 expr a1 h
  have := ih cfg _ _ _ _ _ hsub
  subst hc
  exact this

theorem clauses_kept_ident (identifier : byte_string) (rename : Option byte_string) :
    expression_clauses_kept (.PARSED_IDENT identifier rename) := by
  intro cfg ctx a b c1 a1 h
  obtain ⟨_, t, c2, r2, i, _, _, hadd, hc, _⟩ :=
    build_body_expression_ident_ok cfg ctx c1 a a1 identifier rename b h
  subst hc
  have hf := add_slot_fields cfg _ _ _ _ _ _ _ hadd
  exact context.clauses_kept_step ctx c2 r2 hf.1 hf.2.1
    (add_slot_clauses_kept cfg _ _ _ _ _ _ _ hadd)

theorem clauses_kept_literal (string : byte_string) :
    expression_clauses_kept (.PARSED_LITERAL string) := by
  intro cfg ctx a b c1 a1 h
  obtain ⟨_, c2, r2, s, hadd, hc, _⟩ :=
    build_body_expression_literal_ok cfg ctx c1 a a1 string b h
  subst hc
  have hf := add_keyword_token_fields _ _ _ _ _ _ _ hadd
  exact context.clauses_kept_step ctx c2 r2 hf.1 hf.2.1
    (add_keyword_token_clauses_kept _ _ _ _ _ _ _ hadd)

theorem clauses_kept_parens (expr : parsed_expr) (ih : expression_clauses_kept expr) :
    expression_clauses_kept (.PARSED_PARENS expr) := by
  intro cfg ctx a b c1 a1 h
  obtain ⟨_, c2, hsub, hc⟩ := build_body_expression_parens_ok cfg ctx c1 a a1 expr b h
  subst hc
  have := ih cfg _ _ _ _ _ hsub
  exact this

theorem clauses_kept_choice (operand : parsed_expr_list)
    (ih : expression_list_clauses_kept operand) :
    expression_clauses_kept (.PARSED_CHOICE operand) := by
  intro cfg ctx a b c1 a1 h
  obtain ⟨_, c2, hsub, hc⟩ := build_body_expression_choice_ok cfg ctx c1 a a1 operand b h
  subst hc
  have := ih.1 cfg _ _ _ _ _ hsub
  exact this

theorem clauses_kept_concatenation (operand : parsed_expr_list)
    (ih : expression_list_clauses_kept operand) :
    expression_clauses_kept (.PARSED_CONCATENATION operand) := by
  intro cfg ctx a b c1 a1 h
  obtain ⟨_, c2, a2, inner, hsub, hc, _⟩ :=
    build_body_expression_concatenation_ok cfg ctx c1 a a1 operand b h
  subst hc
  have := ih.2.1 cfg _ _ _ _ _ _ hsub
  exact this

theorem clauses_kept_zero_or_more (operand : parsed_expr)
    (ih : expression_clauses_kept operand) :
    expression_clauses_kept (.PARSED_ZERO_OR_MORE operand) := by
  intro cfg ctx a b c1 a1 h
  obtain ⟨_, c2, a2, inner, hsub, hc, _⟩ :=
    build_body_expression_zero_or_more_ok cfg ctx c1 a a1 operand b h
  subst hc
  have := connect_expression_clauses_kept operand ih cfg _ _ _ _ _ _ hsub
  exact this

theorem clauses_kept_one_or_more (operand : parsed_expr)
    (ih : expression_clauses_kept operand) :
    expression_clauses_kept (.PARSED_ONE_OR_MORE operand) := by
  intro cfg ctx a b c1 a1 h
  obtain ⟨_, c2, a2, inner, hsub, hc, _⟩ :=
    build_body_expression_one_or_more_ok cfg ctx c1 a a1 operand b h
  subst hc
  have := connect_expression_clauses_kept operand ih cfg _ _ _ _ _ _ hsub
  exact this

theorem clauses_kept_optional (operand : parsed_expr)
    (ih : expression_clauses_kept operand) :
    expression_clauses_kept (.PARSED_OPTIONAL operand) := by
  intro cfg ctx a b c1 a1 h
  obtain ⟨_, c2, a2, inner, hsub, hc, _⟩ :=
    build_body_expression_optional_ok cfg ctx c1 a a1 operand b h
  subst hc
  have := connect_expression_clauses_kept operand ih cfg _ _ _ _ _ _ hsub
  exact this

theorem clauses_kept_bracketed (bracket_expr : parsed_expr_list)
    (begin_token end_token : byte_string) (ih : expression_list_clauses_kept bracket_expr) :
    expression_clauses_kept (.PARSED_BRACKETED bracket_expr begin_token end_token) := by
  intro cfg ctx a b c1 a1 h
  obtain ⟨_, c3, ba, c5, r5, s5, c7, r7, s7, hsub, hstart, hend, _, _, hc, _⟩ :=
    build_body_expression_bracketed_ok cfg ctx c1 a a1 bracket_expr begin_token end_token b h
  subst hc
  have h0 : ctx.clauses_kept (ctx.enter_expression.set_current_rule
      { ctx.current_rule with brackets := ctx.current_rule.brackets ++ [bracket.zero] }) :=
    context.clauses_kept_step ctx ctx.enter_expression _ rfl rfl
      ⟨rfl, rfl, rfl, rfl, rfl, rfl, rfl, rfl, [], by simp⟩
  have h3 := ih.2.2 cfg _ _ _ hsub
  have hf5 := add_keyword_token_fields _ _ _ _ _ _ _ hstart
  have h5 : c3.clauses_kept (c5.set_current_rule r5) :=
    context.clauses_kept_step c3 c5 r5 hf5.1 hf5.2.1
      (add_keyword_token_clauses_kept _ _ _ _ _ _ _ hstart)
  have hf7 := add_keyword_token_fields _ _ _ _ _ _ _ hend
  have hk7 := add_keyword_token_clauses_kept _ _ _ _ _ _ _ hend
  have h7 : (c5.set_current_rule r5).clauses_kept
      (c7.set_current_rule
        { r7 with brackets := (r7.brackets.set ctx.current_rule.brackets.length
            { automaton := ba, symbol := c3.next_symbol, start_symbol := s5,
              end_symbol := s7 }) }) :=
    context.clauses_kept_step (c5.set_current_rule r5) c7 _ hf7.1 hf7.2.1
      (rule.clauses_kept_then _ _ _ hk7 ⟨rfl, rfl, rfl, rfl, rfl, rfl, rfl, rfl, [], by simp⟩)
  exact context.clauses_kept_trans _ _ _ h0
    (context.clauses_kept_trans _ _ _ h3 (context.clauses_kept_trans _ _ _ h5 h7))

theorem clauses_kept_empty : expression_list_clauses_kept .empty := by
  refine ⟨?_, ?_, ?_⟩
  · intro cfg ctx a b c1 a1 h
    rw [build_body_expression_choice_empty_eq] at h
    simp only [Except.ok.injEq, Prod.mk.injEq] at h
    rw [← h.1]
    exact context.clauses_kept_refl _
  · intro cfg ctx a inner c1 a1 inner1 h
    rw [build_body_expression_concatenation_empty_eq] at h
    simp only [Except.ok.injEq, Prod.mk.injEq] at h
    rw [← h.1]
    exact context.clauses_kept_refl _
  · intro cfg ctx c1 a1 h
    rw [build_body_expression_bracket_empty_eq] at h
    simp only [Except.ok.injEq, Prod.mk.injEq] at h
    rw [← h.1]
    exact context.clauses_kept_refl _

theorem clauses_kept_cons (head : parsed_expr) (next : parsed_expr_list)
    (ihh : expression_clauses_kept head) (ihn : expression_list_clauses_kept next) :
    expression_list_clauses_kept (.cons head next) := by
  refine ⟨?_, ?_, ?_⟩
  · intro cfg ctx a b c1 a1 h
    obtain ⟨c2, a2, inner, hhead, hnext⟩ :=
      build_body_expression_choice_cons_ok cfg ctx c1 a a1 head next b h
    exact context.clauses_kept_trans _ _ _
      (connect_expression_clauses_kept head ihh cfg _ _ _ _ _ _ hhead)
      (ihn.1 cfg _ _ _ _ _ hnext)
  · intro cfg ctx a inner c1 a1 inner1 h
    obtain ⟨c2, a2, hhead, hnext⟩ :=
      build_body_expression_concatenation_cons_ok cfg ctx c1 a a1 head next inner inner1 h
    have h1' := ihh cfg _ _ _ _ _ hhead
    have h1 : ctx.clauses_kept c2 := h1'
    exact context.clauses_kept_trans _ _ _ h1 (ihn.2.1 cfg _ _ _ _ _ _ hnext)
  · intro cfg ctx c1 a1 h
    obtain ⟨c2, hsub, hc⟩ := build_body_expression_bracket_cons_ok cfg ctx c1 head next a1 h
    subst hc
    have := build_body_automaton_clauses_kept_of head ihh cfg _ _ _ hsub
    exact this

/-- Compiling an expression keeps the clauses of the rule being filled in. -/
theorem build_body_expression_clauses_kept (expr : parsed_expr) :
    expression_clauses_kept expr :=
  parsed_expr.rec (motive_1 := expression_clauses_kept)
    (motive_2 := expression_list_clauses_kept)
    clauses_kept_choice clauses_kept_concatenation clauses_kept_ident clauses_kept_literal
    clauses_kept_parens clauses_kept_bracketed clauses_kept_zero_or_more
    clauses_kept_one_or_more clauses_kept_optional clauses_kept_empty clauses_kept_cons expr

/-- Building the automaton of a body keeps the clauses of the rule being filled
in. -/
theorem build_body_automaton_clauses_kept (cfg : build_config) (ctx c1 : context)
    (expr : parsed_expr) (a1 : automaton)
    (h : build_body_automaton cfg ctx expr = .ok (c1, a1)) : ctx.clauses_kept c1 :=
  build_body_automaton_clauses_kept_of expr (build_body_expression_clauses_kept expr)
    cfg ctx c1 a1 h
/-! ## The clause loops of `build` -/

theorem same_clause_name_iff (existing elem : byte_string) :
    same_clause_name existing elem = true ↔ existing = elem := by
  unfold same_clause_name
  by_cases h : existing = elem
  · subst h; simp
  · simp [h]

theorem any_same_choice_name (choices : List choice) (name : byte_string) :
    choices.any (fun c => same_clause_name c.name name) = true ↔
      name ∈ choices.map (fun c => c.name) := by
  simp only [List.any_eq_true, same_clause_name_iff, List.mem_map]

theorem any_same_operator_name (operators : List operator) (name : byte_string) :
    operators.any (fun o => same_clause_name o.name name) = true ↔
      name ∈ operators.map (fun o => o.name) := by
  simp only [List.any_eq_true, same_clause_name_iff, List.mem_map]

theorem context.preserved_in_range (c c1 : context) (h : c.preserved c1)
    (hr : c.rule_index < c.grammar.rules.length) :
    c1.rule_index < c1.grammar.rules.length := by
  have h1 := h.1.1
  have h2 := congrArg List.length h.1.2.2.1
  simp only [List.length_map] at h2
  omega

/-- One round of the choice loop that succeeds: the cap and the duplicate check
pass, the body builds with the new choice appended, and the loop goes on with
the built automaton stored in it. -/
theorem build_choices_cons_ok (cfg : build_config) (clause : parsed_clause)
    (rest : List parsed_clause) (ctx ctx1 : context)
    (h : build_choices cfg (clause :: rest) ctx = .ok ctx1) :
    ctx.current_rule.choices.length < cfg.MAX_NUMBER_OF_CHOICES ∧
    clause.identifier ∉ ctx.current_rule.choices.map (fun c => c.name) ∧
    ∃ (c2 : context) (built : automaton),
      build_body_automaton cfg
        (ctx.set_current_rule
          { ctx.current_rule with choices := (ctx.current_rule.choices ++
              [{ name := clause.identifier, automaton := automaton.zero }]) })
        clause.expr = .ok (c2, built) ∧
      build_choices cfg rest
        (c2.set_current_rule
          { c2.current_rule with choices :=
              (c2.current_rule.choices.set ctx.current_rule.choices.length
                { name := clause.identifier, automaton := built }) }) = .ok ctx1 := by
  unfold build_choices at h
  simp only at h
  split at h
  · cases h
  · rename_i hcap
    split at h
    · cases h
    · rename_i hdup
      split at h
      · cases h
      · rename_i c2 built hb
        refine ⟨by omega, ?_, c2, built, hb, h⟩
        rw [← any_same_choice_name]
        exact hdup

/-- One round of the operator loop that succeeds. -/
theorem build_operators_section_cons_ok (cfg : build_config) (rule_fixity : fixity)
    (rule_associativity : Nat) (precedence : Int) (op : parsed_clause)
    (rest : List parsed_clause) (ctx ctx1 : context)
    (h : build_operators_section cfg rule_fixity rule_associativity precedence (op :: rest) ctx
      = .ok ctx1) :
    ctx.current_rule.operators.length + ctx.current_rule.choices.length
      < cfg.MAX_NUMBER_OF_CHOICES ∧
    op.identifier ∉ ctx.current_rule.choices.map (fun c => c.name) ∧
    op.identifier ∉ ctx.current_rule.operators.map (fun o => o.name) ∧
    ∃ (c2 : context) (built : automaton),
      build_body_automaton cfg
        (ctx.set_current_rule
          { ctx.current_rule with operators := (ctx.current_rule.operators ++
              [{ name := op.identifier, fixity := rule_fixity,
                 associativity := rule_associativity, precedence := precedence,
                 automaton := automaton.zero }]) })
        op.expr = .ok (c2, built) ∧
      build_operators_section cfg rule_fixity rule_associativity precedence rest
        (c2.set_current_rule
          { c2.current_rule with operators :=
              (c2.current_rule.operators.set ctx.current_rule.operators.length
                { name := op.identifier, fixity := rule_fixity,
                  associativity := rule_associativity, precedence := precedence,
                  automaton := built }) }) = .ok ctx1 := by
  unfold build_operators_section at h
  simp only at h
  split at h
  · cases h
  · rename_i hcap
    split at h
    · cases h
    · rename_i hdup
      split at h
      · cases h
      · rename_i hdup2
        split at h
        · cases h
        · rename_i c2 built hb
          refine ⟨by omega, ?_, ?_, c2, built, hb, h⟩
          · rw [← any_same_choice_name]; exact hdup
          · rw [← any_same_operator_name]; exact hdup2

theorem rule.indices_kept_refl (r : rule) : r.indices_kept r :=
  ⟨rfl, rfl, rfl, rfl, [], by simp⟩

theorem rule.indices_kept_trans (r1 r2 r3 : rule) (h12 : r1.indices_kept r2)
    (h23 : r2.indices_kept r3) : r1.indices_kept r3 := by
  obtain ⟨a1, a2, a3, a4, e1, a5⟩ := h12
  obtain ⟨b1, b2, b3, b4, e2, b5⟩ := h23
  refine ⟨b1.trans a1, b2.trans a2, b3.trans a3, b4.trans a4, e1 ++ e2, ?_⟩
  rw [b5, a5, List.append_assoc]

theorem rule.clauses_kept_indices (r1 r2 : rule) (h : r1.clauses_kept r2) :
    r1.indices_kept r2 :=
  ⟨h.1, h.2.2.2.2.1, h.2.2.2.2.2.1, h.2.2.2.2.2.2.1, h.2.2.2.2.2.2.2.2⟩

theorem map_name_set_choice (choices : List choice) (name : byte_string)
    (a1 a2 : automaton) :
    ((choices ++ [({ name := name, automaton := a1 } : choice)]).set choices.length
        { name := name, automaton := a2 }).map (fun c => c.name) =
      choices.map (fun c => c.name) ++ [name] := by
  induction choices with
  | nil => rfl
  | cons c rest ih => simp only [List.cons_append, List.length_cons, List.set_cons_succ,
      List.map_cons, ih]

theorem map_declared_set_operator (operators : List operator) (o1 o2 : operator)
    (h : o2.declared = o1.declared) :
    ((operators ++ [o1]).set operators.length o2).map operator.declared =
      operators.map operator.declared ++ [o1.declared] := by
  induction operators with
  | nil => simp only [List.nil_append, List.length_nil, List.set_cons_zero, List.map_cons,
      List.map_nil, h]
  | cons c rest ih => simp only [List.cons_append, List.length_cons, List.set_cons_succ,
      List.map_cons, ih]

/-- The choice loop appends one choice per clause, named after it, and changes
neither the operators nor the operand slot indices of the rule. -/
theorem build_choices_result (cfg : build_config) (clauses : List parsed_clause)
    (ctx ctx1 : context) (hr : ctx.rule_index < ctx.grammar.rules.length)
    (h : build_choices cfg clauses ctx = .ok ctx1) :
    ctx1.current_rule.choices.map (fun c => c.name) =
      ctx.current_rule.choices.map (fun c => c.name) ++
        clauses.map (fun c => c.identifier) ∧
    ((ctx.current_rule.choices.map (fun c => c.name)).Nodup →
      (ctx1.current_rule.choices.map (fun c => c.name)).Nodup) ∧
    ctx1.current_rule.operators = ctx.current_rule.operators ∧
    ctx.current_rule.indices_kept ctx1.current_rule := by
  induction clauses generalizing ctx with
  | nil =>
    simp only [build_choices, Except.ok.injEq] at h
    subst h
    exact ⟨by simp, fun hn => hn, rfl, rule.indices_kept_refl _⟩
  | cons clause rest ih =>
    obtain ⟨_, hnew, c2, built, hb, hrest⟩ := build_choices_cons_ok cfg clause rest ctx ctx1 h
    obtain ⟨r0, hr0⟩ : ∃ r, r = ctx.current_rule := ⟨_, rfl⟩
    rw [← hr0] at hb hrest hnew ⊢
    have hk := build_body_automaton_clauses_kept cfg _ _ _ _ hb
    have hp := build_body_automaton_preserved cfg _ _ _ _ hb
    have hr1 : (ctx.set_current_rule
        { r0 with choices := (r0.choices ++
          [{ name := clause.identifier, automaton := automaton.zero }]) }).rule_index <
        (ctx.set_current_rule
        { r0 with choices := (r0.choices ++
          [{ name := clause.identifier, automaton := automaton.zero }]) }).grammar.rules.length := by
      simp only [context.set_current_rule, grammar.set_rule_length]
      exact hr
    have hr2 := context.preserved_in_range _ _ hp hr1
    unfold context.clauses_kept at hk
    rw [context.current_rule_set ctx _ hr] at hk
    obtain ⟨r2, hr2e⟩ : ∃ r, r = c2.current_rule := ⟨_, rfl⟩
    rw [← hr2e] at hk hrest
    have hr3 : (c2.set_current_rule
        { r2 with choices := (r2.choices.set r0.choices.length
          { name := clause.identifier, automaton := built }) }).rule_index <
        (c2.set_current_rule
        { r2 with choices := (r2.choices.set r0.choices.length
          { name := clause.identifier, automaton := built }) }).grammar.rules.length := by
      simp only [context.set_current_rule, grammar.set_rule_length]
      exact hr2
    obtain ⟨i1, i2, i3, i4⟩ := ih _ hr3 hrest
    rw [context.current_rule_set c2 _ hr2] at i1 i2 i3 i4
    have hch : r2.choices = r0.choices ++
        [{ name := clause.identifier, automaton := automaton.zero }] := hk.2.2.1
    have hnames : (r2.choices.set r0.choices.length
        { name := clause.identifier, automaton := built }).map (fun c => c.name) =
        r0.choices.map (fun c => c.name) ++ [clause.identifier] := by
      rw [hch]; exact map_name_set_choice _ _ _ _
    simp only at i1 i2 i3 i4
    rw [hnames] at i1 i2
    refine ⟨?_, ?_, ?_, ?_⟩
    · rw [i1]; simp
    · intro hn
      apply i2
      rw [List.nodup_append]
      refine ⟨hn, by simp, ?_⟩
      intro a ha hb2
      simp only [List.mem_singleton] at hb2
      subst hb2
      exact hnew ha
    · rw [i3]; exact hk.2.2.2.1
    · refine rule.indices_kept_trans _ _ _ ?_ i4
      have := rule.clauses_kept_indices _ _ hk
      exact ⟨this.1, this.2.1, this.2.2.1, this.2.2.2.1, this.2.2.2.2⟩

theorem map_operator_name_declared (operators : List operator) :
    operators.map (fun o => o.name) = (operators.map operator.declared).map Prod.fst := by
  simp [operator.declared]

/-- The operator loop of one section appends one operator per clause, with the
name of the clause and the fixity, associativity and precedence of the section,
and changes neither the choices nor the operand slot indices of the rule. -/
theorem build_operators_section_result (cfg : build_config) (rule_fixity : fixity)
    (rule_associativity : Nat) (precedence : Int) (clauses : List parsed_clause)
    (ctx ctx1 : context) (hr : ctx.rule_index < ctx.grammar.rules.length)
    (h : build_operators_section cfg rule_fixity rule_associativity precedence clauses ctx
      = .ok ctx1) :
    ctx1.current_rule.operators.map operator.declared =
      ctx.current_rule.operators.map operator.declared ++
        clauses.map (fun op => (op.identifier, rule_fixity, rule_associativity, precedence)) ∧
    (ctx.current_rule.clause_names.Nodup → ctx1.current_rule.clause_names.Nodup) ∧
    ctx1.current_rule.choices = ctx.current_rule.choices ∧
    ctx.current_rule.indices_kept ctx1.current_rule := by
  induction clauses generalizing ctx with
  | nil =>
    simp only [build_operators_section, Except.ok.injEq] at h
    subst h
    exact ⟨by simp, fun hn => hn, rfl, rule.indices_kept_refl _⟩
  | cons op rest ih =>
    obtain ⟨_, hnew1, hnew2, c2, built, hb, hrest⟩ :=
      build_operators_section_cons_ok cfg rule_fixity rule_associativity precedence op rest
        ctx ctx1 h
    obtain ⟨r0, hr0⟩ : ∃ r, r = ctx.current_rule := ⟨_, rfl⟩
    rw [← hr0] at hb hrest hnew1 hnew2 ⊢
    have hk := build_body_automaton_clauses_kept cfg _ _ _ _ hb
    have hp := build_body_automaton_preserved cfg _ _ _ _ hb
    have hr1 : (ctx.set_current_rule
        { r0 with operators := (r0.operators ++
          [{ name := op.identifier, fixity := rule_fixity,
             associativity := rule_associativity, precedence := precedence,
             automaton := automaton.zero }]) }).rule_index <
        (ctx.set_current_rule
        { r0 with operators := (r0.operators ++
          [{ name := op.identifier, fixity := rule_fixity,
             associativity := rule_associativity, precedence := precedence,
             automaton := automaton.zero }]) }).grammar.rules.length := by
      simp only [context.set_current_rule, grammar.set_rule_length]
      exact hr
    have hr2 := context.preserved_in_range _ _ hp hr1
    unfold context.clauses_kept at hk
    rw [context.current_rule_set ctx _ hr] at hk
    obtain ⟨r2, hr2e⟩ : ∃ r, r = c2.current_rule := ⟨_, rfl⟩
    rw [← hr2e] at hk hrest
    have hr3 : (c2.set_current_rule
        { r2 with operators := (r2.operators.set r0.operators.length
          { name := op.identifier, fixity := rule_fixity,
            associativity := rule_associativity, precedence := precedence,
            automaton := built }) }).rule_index <
        (c2.set_current_rule
        { r2 with operators := (r2.operators.set r0.operators.length
          { name := op.identifier, fixity := rule_fixity,
            associativity := rule_associativity, precedence := precedence,
            automaton := built }) }).grammar.rules.length := by
      simp only [context.set_current_rule, grammar.set_rule_length]
      exact hr2
    obtain ⟨i1, i2, i3, i4⟩ := ih _ hr3 hrest
    rw [context.current_rule_set c2 _ hr2] at i1 i2 i3 i4
    have hops : r2.operators = r0.operators ++
        [{ name := op.identifier, fixity := rule_fixity,
           associativity := rule_associativity, precedence := precedence,
           automaton := automaton.zero }] := hk.2.2.2.1
    have hch : r2.choices = r0.choices := hk.2.2.1
    have hdecl : (r2.operators.set r0.operators.length
        { name := op.identifier, fixity := rule_fixity,
          associativity := rule_associativity, precedence := precedence,
          automaton := built }).map operator.declared =
        r0.operators.map operator.declared ++
          [(op.identifier, rule_fixity, rule_associativity, precedence)] := by
      rw [hops]
      exact map_declared_set_operator _ _ _ rfl
    simp only at i1 i2 i3 i4
    rw [hdecl] at i1
    refine ⟨?_, ?_, ?_, ?_⟩
    · rw [i1]; simp
    · intro hn
      apply i2
      simp only [rule.clause_names] at hn ⊢
      rw [map_operator_name_declared, hdecl, hch]
      simp only [List.map_append, List.map_cons, List.map_nil]
      rw [← map_operator_name_declared, ← List.append_assoc, List.nodup_append]
      refine ⟨hn, by simp, ?_⟩
      intro a ha hb2
      simp only [List.mem_singleton] at hb2
      subst hb2
      rcases List.mem_append.1 ha with ha | ha
      · exact hnew1 ha
      · exact hnew2 ha
    · rw [i3]; exact hch
    · refine rule.indices_kept_trans _ _ _ ?_ i4
      have := rule.clauses_kept_indices _ _ hk
      exact ⟨this.1, this.2.1, this.2.2.1, this.2.2.2.1, this.2.2.2.2⟩

/-- The loop over the `operators` sections appends the operators the sections
declare, each section one precedence below the section before it. -/
theorem build_operators_result (cfg : build_config) (sections : List parsed_operators)
    (precedence : Int) (ctx ctx1 : context) (hr : ctx.rule_index < ctx.grammar.rules.length)
    (h : build_operators cfg sections precedence ctx = .ok ctx1) :
    ctx1.current_rule.operators.map operator.declared =
      ctx.current_rule.operators.map operator.declared ++
        declared_operators cfg sections precedence ∧
    (ctx.current_rule.clause_names.Nodup → ctx1.current_rule.clause_names.Nodup) ∧
    ctx1.current_rule.choices = ctx.current_rule.choices ∧
    ctx.current_rule.indices_kept ctx1.current_rule := by
  induction sections generalizing ctx precedence with
  | nil =>
    simp only [build_operators, Except.ok.injEq] at h
    subst h
    exact ⟨by simp [declared_operators], fun hn => hn, rfl, rule.indices_kept_refl _⟩
  | cons ops rest ih =>
    unfold build_operators at h
    simp only at h
    split at h
    · cases h
    · rename_i c2 hsec
      have hsec2 : build_operators_section cfg ops.rule_fixity (ops.rule_associativity cfg)
          precedence ops.operators ctx = .ok c2 := hsec
      obtain ⟨s1, s2, s3, s4⟩ := build_operators_section_result cfg _ _ _ _ _ _ hr hsec2
      have hp := build_operators_section_preserved cfg _ _ _ _ _ _ hsec2
      have hr2 := context.preserved_in_range _ _ hp hr
      obtain ⟨i1, i2, i3, i4⟩ := ih _ _ hr2 h
      refine ⟨?_, fun hn => i2 (s2 hn), i3.trans s3, rule.indices_kept_trans _ _ _ s4 i4⟩
      rw [i1, s1, declared_operators, List.append_assoc]
/-! ## The operand slot loop of `build` -/

theorem add_slot_scan_found (name : byte_string) (target : Nat) (slots : List slot)
    (start j : Nat) (h : add_slot_scan name target slots start = .ok j)
    (hj : j < start + slots.length) :
    (slots.getD (j - start) slot.zero).name = name ∧
    (slots.getD (j - start) slot.zero).rule_index = target := by
  induction slots generalizing start with
  | nil =>
    have hb := add_slot_scan_bounds name target [] start j h
    simp only [List.length_nil] at hj
    omega
  | cons s rest ih =>
    have hb := add_slot_scan_bounds name target (s :: rest) start j h
    unfold add_slot_scan at h
    by_cases hn : s.name = name
    · have hl : ¬ s.name.length ≠ name.length := by rw [hn]; simp
      rw [if_neg hl, if_neg (by simpa using hn)] at h
      split at h
      · cases h
      · rename_i ht
        simp only [Except.ok.injEq] at h
        subst h
        simp only [Nat.sub_self, List.getD_cons_zero]
        exact ⟨hn, by simpa using ht⟩
    · have h2 : add_slot_scan name target rest (start + 1) = .ok j := by
        split at h
        · exact h
        · exact h
      have hb2 := add_slot_scan_bounds name target rest (start + 1) j h2
      have := ih (start + 1) h2 (by simp only [List.length_cons] at hj; omega)
      have he : j - start = (j - (start + 1)) + 1 := by omega
      rw [he, List.getD_cons_succ]
      exact this

/-- A successful `add_slot` returns the index of a slot of the requested name
that refers to the requested rule. -/
theorem add_slot_slot_is (cfg : build_config) (ctx ctx1 : context) (r r1 : rule)
    (name : byte_string) (target i : Nat)
    (h : add_slot cfg ctx r name target = .ok (ctx1, r1, i)) :
    r1.slot_is (some i) name target := by
  obtain ⟨hscan, hlt⟩ := add_slot_ok_scan cfg ctx ctx1 r r1 name target i h
  have := add_slot_scan_found name target r1.slots 0 i hscan (by omega)
  exact ⟨i, rfl, hlt, this.1, this.2⟩

theorem rule.slot_is_extend (r r1 : rule) (index : Option Nat) (name : byte_string)
    (target : Nat) (extra : List slot) (hs : r1.slots = r.slots ++ extra)
    (h : r.slot_is index name target) : r1.slot_is index name target := by
  obtain ⟨i, hi, hlt, hn, ht⟩ := h
  have hget : (r1.slots.getD i slot.zero) = (r.slots.getD i slot.zero) := by
    rw [hs, List.getD_append _ _ _ _ hlt]
  refine ⟨i, hi, ?_, ?_, ?_⟩
  · rw [hs, List.length_append]; omega
  · rw [hget]; exact hn
  · rw [hget]; exact ht

/-- One `add_slot` on the rule being filled in, followed by the write of the
returned index into a field of the rule. -/
theorem add_slot_current_rule (cfg : build_config) (ctx c1 : context) (r1 r2 : rule)
    (name : byte_string) (target i : Nat)
    (hr : ctx.rule_index < ctx.grammar.rules.length)
    (h : add_slot cfg ctx ctx.current_rule name target = .ok (c1, r1, i)) :
    (c1.set_current_rule r2).current_rule = r2 ∧
    (c1.set_current_rule r2).rule_index < (c1.set_current_rule r2).grammar.rules.length ∧
    ctx.current_rule.clauses_kept r1 ∧ r1.slot_is (some i) name target := by
  have hf := add_slot_fields cfg _ _ _ _ _ _ _ h
  have hr1 : c1.rule_index < c1.grammar.rules.length := by rw [hf.1, hf.2.1]; exact hr
  refine ⟨context.current_rule_set c1 r2 hr1, ?_, add_slot_clauses_kept cfg _ _ _ _ _ _ _ h,
    add_slot_slot_is cfg _ _ _ _ _ _ _ h⟩
  simp only [context.set_current_rule, grammar.set_rule_length]
  exact hr1

/-- The operand slot loop: the choices and operators of the rule stay as they
are; when some operator of the list is infix and not flat, the left and the
right slot index end up set, to slots named `left` and `right` that refer to
the rule, and otherwise they stay as they were; when some operator of the list
is not such an operator, the operand slot index ends up set, to a slot named
`operand` that refers to the rule, and otherwise it stays as it was. -/
theorem build_operand_slots_result (cfg : build_config) (rule_index : Nat)
    (ops : List operator) (ctx ctx1 : context)
    (hr : ctx.rule_index < ctx.grammar.rules.length)
    (h : build_operand_slots cfg rule_index ops ctx = .ok ctx1) :
    ctx1.current_rule.choices = ctx.current_rule.choices ∧
    ctx1.current_rule.operators = ctx.current_rule.operators ∧
    (∃ extra : List slot, ctx1.current_rule.slots = ctx.current_rule.slots ++ extra) ∧
    (ops.any (fun o => o.two_sided cfg) = true →
      ctx1.current_rule.slot_is ctx1.current_rule.left_slot_index "left".toList rule_index ∧
      ctx1.current_rule.slot_is ctx1.current_rule.right_slot_index "right".toList
        rule_index) ∧
    (ops.any (fun o => o.two_sided cfg) = false →
      ctx1.current_rule.left_slot_index = ctx.current_rule.left_slot_index ∧
      ctx1.current_rule.right_slot_index = ctx.current_rule.right_slot_index) ∧
    (ops.any (fun o => ! o.two_sided cfg) = true →
      ctx1.current_rule.slot_is ctx1.current_rule.operand_slot_index "operand".toList
        rule_index) ∧
    (ops.any (fun o => ! o.two_sided cfg) = false →
      ctx1.current_rule.operand_slot_index = ctx.current_rule.operand_slot_index) := by
  induction ops generalizing ctx with
  | nil =>
    simp only [build_operand_slots, Except.ok.injEq] at h
    subst h
    exact ⟨rfl, rfl, ⟨[], by simp⟩, by simp, by simp, by simp, by simp⟩
  | cons op rest ih =>
    unfold build_operand_slots at h
    by_cases hop : op.fixity = .INFIX ∧ op.associativity ≠ cfg.FLAT
    · rw [if_pos hop] at h
      have hts : op.two_sided cfg = true := by simp [operator.two_sided, hop]
      split at h
      · cases h
      · rename_i cA rA li hA
        simp only at h
        split at h
        · cases h
        · rename_i cB rB ri hB
          obtain ⟨a1, a2, a3, a4⟩ :=
            add_slot_current_rule cfg ctx cA rA { rA with left_slot_index := some li }
              "left".toList rule_index li hr hA
          obtain ⟨b1, b2, b3, b4⟩ :=
            add_slot_current_rule cfg _ cB rB { rB with right_slot_index := some ri }
              "right".toList rule_index ri a2 hB
          rw [a1] at b3
          obtain ⟨i1, i2, ⟨e3, i3⟩, i4, i5, i6, i7⟩ := ih _ b2 h
          rw [b1] at i1 i2 i3 i5 i7
          simp only at i1 i2 i3 i5 i7
          obtain ⟨eA, hsA⟩ := a3.2.2.2.2.2.2.2.2
          obtain ⟨eB, hsB⟩ := b3.2.2.2.2.2.2.2.2
          simp only at hsB
          have hleftB : rB.slot_is (some li) "left".toList rule_index :=
            rule.slot_is_extend rA rB _ _ _ eB hsB a4
          refine ⟨?_, ?_, ⟨eA ++ (eB ++ e3), ?_⟩, ?_, ?_, ?_, ?_⟩
          · rw [i1, b3.2.2.1]; exact a3.2.2.1
          · rw [i2, b3.2.2.2.1]; exact a3.2.2.2.1
          · rw [i3, hsB, hsA]; simp
          · intro _
            by_cases hrest : rest.any (fun o => o.two_sided cfg) = true
            · exact i4 hrest
            · have hrest2 : rest.any (fun o => o.two_sided cfg) = false := by
                simpa using hrest
              obtain ⟨l1, l2⟩ := i5 hrest2
              rw [l1, l2]
              have hl : rB.left_slot_index = some li := b3.2.2.2.2.2.1
              rw [hl]
              exact ⟨rule.slot_is_extend rB _ _ _ _ e3 i3 hleftB,
                rule.slot_is_extend rB _ _ _ _ e3 i3 b4⟩
          · intro hany
            simp [hts] at hany
          · intro hany
            have hrest : rest.any (fun o => ! o.two_sided cfg) = true := by
              simpa [hts] using hany
            exact i6 hrest
          · intro hany
            have hrest : rest.any (fun o => ! o.two_sided cfg) = false := by
              simpa [hts] using hany
            rw [i7 hrest, b3.2.2.2.2.1]
            exact a3.2.2.2.2.1
    · rw [if_neg hop] at h
      have hts : op.two_sided cfg = false := by simp [operator.two_sided, hop]
      split at h
      · cases h
      · rename_i cA rA oi hA
        simp only at h
        obtain ⟨a1, a2, a3, a4⟩ :=
          add_slot_current_rule cfg ctx cA rA { rA with operand_slot_index := some oi }
            "operand".toList rule_index oi hr hA
        obtain ⟨i1, i2, ⟨e3, i3⟩, i4, i5, i6, i7⟩ := ih _ a2 h
        rw [a1] at i1 i2 i3 i5 i7
        simp only at i1 i2 i3 i5 i7
        obtain ⟨eA, hsA⟩ := a3.2.2.2.2.2.2.2.2
        refine ⟨?_, ?_, ⟨eA ++ e3, ?_⟩, ?_, ?_, ?_, ?_⟩
        · rw [i1]; exact a3.2.2.1
        · rw [i2]; exact a3.2.2.2.1
        · rw [i3, hsA]; simp
        · intro hany
          have hrest : rest.any (fun o => o.two_sided cfg) = true := by
            simpa [hts] using hany
          exact i4 hrest
        · intro hany
          have hrest : rest.any (fun o => o.two_sided cfg) = false := by
            simpa [hts] using hany
          obtain ⟨l1, l2⟩ := i5 hrest
          rw [l1, l2]
          exact ⟨a3.2.2.2.2.2.1, a3.2.2.2.2.2.2.1⟩
        · intro _
          by_cases hrest : rest.any (fun o => ! o.two_sided cfg) = true
          · exact i6 hrest
          · have hrest2 : rest.any (fun o => ! o.two_sided cfg) = false := by
              simpa using hrest
            rw [i7 hrest2]
            exact rule.slot_is_extend { rA with operand_slot_index := some oi } _ _ _ _ e3 i3
              ⟨a4.choose, a4.choose_spec.1, a4.choose_spec.2.1, a4.choose_spec.2.2.1,
                a4.choose_spec.2.2.2⟩
        · intro hany
          simp [hts] at hany
/-! ## One round of the main loop of `build` -/

theorem find_rule_in_range (ctx : context) (name : byte_string) (i : Nat)
    (h : find_rule ctx name = some i) :
    i < ctx.grammar.rules.length ∧ (ctx.grammar.rule_at i).name = name := by
  have := find_rule_from_some name ctx.grammar.rules 0 i h
  simp only [Nat.zero_add, Nat.sub_zero] at this
  exact ⟨this.2.1, this.2.2⟩

/-- A rule with named clauses, filled in from the state `add_rule` left it in:
its choices are named after the choice clauses, its operators are the ones the
sections declare, from precedence -1 down, no two clauses share a name, and the
operand slot loop has set the left and right slot indices when some operator is
infix and not flat, and the operand slot index when some operator is not. -/
theorem build_fill_rule_clauses_result (cfg : build_config) (name : byte_string)
    (choices : List parsed_clause) (sections : List parsed_operators)
    (ctx ctx1 : context) (i : Nat)
    (hfind : find_rule ctx name = some i)
    (hfresh : ctx.grammar.rule_at i = rule.fresh name)
    (h : build_fill_rule cfg ⟨name, .clauses choices sections⟩ ctx = .ok ctx1) :
    (ctx1.grammar.rule_at i).name = name ∧
    (ctx1.grammar.rule_at i).choices.map (fun c => c.name) =
      choices.map (fun c => c.identifier) ∧
    (ctx1.grammar.rule_at i).operators.map operator.declared =
      declared_operators cfg sections (-1) ∧
    (ctx1.grammar.rule_at i).clause_names.Nodup ∧
    ((ctx1.grammar.rule_at i).operators.any (fun o => o.two_sided cfg) = true →
      (ctx1.grammar.rule_at i).slot_is (ctx1.grammar.rule_at i).left_slot_index
        "left".toList i ∧
      (ctx1.grammar.rule_at i).slot_is (ctx1.grammar.rule_at i).right_slot_index
        "right".toList i) ∧
    ((ctx1.grammar.rule_at i).operators.any (fun o => o.two_sided cfg) = false →
      (ctx1.grammar.rule_at i).left_slot_index = none ∧
      (ctx1.grammar.rule_at i).right_slot_index = none) ∧
    ((ctx1.grammar.rule_at i).operators.any (fun o => ! o.two_sided cfg) = true →
      (ctx1.grammar.rule_at i).slot_is (ctx1.grammar.rule_at i).operand_slot_index
        "operand".toList i) ∧
    ((ctx1.grammar.rule_at i).operators.any (fun o => ! o.two_sided cfg) = false →
      (ctx1.grammar.rule_at i).operand_slot_index = none) := by
  have hin := (find_rule_in_range ctx name i hfind).1
  unfold build_fill_rule at h
  simp only [hfind] at h
  split at h
  · cases h
  · rename_i cA hA
    split at h
    · cases h
    · rename_i cB hB
      have hr0 : (({ ctx with rule_index := i, next_symbol := 0 } : context)).rule_index <
          (({ ctx with rule_index := i, next_symbol := 0 } : context)).grammar.rules.length :=
        hin
      have hcur0 : (({ ctx with rule_index := i, next_symbol := 0 } : context)).current_rule
          = rule.fresh name := hfresh
      obtain ⟨a1, a2, a3, a4⟩ := build_choices_result cfg choices _ cA hr0 hA
      have hpA := build_choices_preserved cfg choices _ cA hA
      have hrA := context.preserved_in_range _ _ hpA hr0
      obtain ⟨b1, b2, b3, b4⟩ := build_operators_result cfg sections (-1) cA cB hrA hB
      have hpB := build_operators_preserved cfg sections (-1) cA cB hB
      have hrB := context.preserved_in_range _ _ hpB hrA
      obtain ⟨c1, c2, ⟨e3, c3⟩, c4, c5, c6, c7⟩ :=
        build_operand_slots_result cfg i cB.current_rule.operators cB ctx1 hrB h
      have hpC := build_operand_slots_preserved cfg i _ cB ctx1 h
      have hidx : ctx1.rule_index = i := by
        rw [hpC.1.1, hpB.1.1, hpA.1.1]
      have hcur1 : ctx1.grammar.rule_at i = ctx1.current_rule := by
        rw [context.current_rule, hidx]
      rw [hcur1]
      rw [hcur0] at a1 a2 a3 a4
      have hname : ctx1.current_rule.name = name := by
        have n1 := hpC.1.2.2.1
        have n2 := hpB.1.2.2.1
        have n3 := hpA.1.2.2.1
        have hn : ctx1.grammar.rules.map (fun r => r.name) =
            ctx.grammar.rules.map (fun r => r.name) := by rw [n1, n2, n3]
        have hf : find_rule ctx1 name = some i := by
          rw [find_rule_congr ctx1 ctx name hn]; exact hfind
        rw [← hcur1]
        exact (find_rule_in_range ctx1 name i hf).2
      have hchoices : cB.current_rule.choices.map (fun c => c.name) =
          choices.map (fun c => c.identifier) := by
        rw [b3, a1]; simp [rule.fresh]
      have hops : cB.current_rule.operators.map operator.declared =
          declared_operators cfg sections (-1) := by
        rw [b1, a3]; simp [rule.fresh]
      have hnodup : cB.current_rule.clause_names.Nodup := by
        apply b2
        simp only [rule.clause_names, a3]
        have := a2 (by simp [rule.fresh])
        simpa [rule.fresh] using this
      have hleft : cB.current_rule.left_slot_index = none := by
        rw [b4.2.2.1, a4.2.2.1]; rfl
      have hright : cB.current_rule.right_slot_index = none := by
        rw [b4.2.2.2.1, a4.2.2.2.1]; rfl
      have hoperand : cB.current_rule.operand_slot_index = none := by
        rw [b4.2.1, a4.2.1]; rfl
      refine ⟨hname, ?_, ?_, ?_, ?_, ?_, ?_, ?_⟩
      · rw [c1]; exact hchoices
      · rw [c2]; exact hops
      · simp only [rule.clause_names, c1, c2]; exact hnodup
      · rw [c2]; exact c4
      · rw [c2]; intro hany
        obtain ⟨l1, l2⟩ := c5 hany
        rw [l1, l2]; exact ⟨hleft, hright⟩
      · rw [c2]; exact c6
      · rw [c2]; intro hany
        rw [c7 hany]; exact hoperand

/-- A rule with a simple body, filled in from the state `add_rule` left it in,
has no choice, no operator and no operand slot index. -/
theorem build_fill_rule_simple_result (cfg : build_config) (name : byte_string)
    (expr : parsed_expr) (ctx ctx1 : context) (i : Nat)
    (hfind : find_rule ctx name = some i)
    (hfresh : ctx.grammar.rule_at i = rule.fresh name)
    (h : build_fill_rule cfg ⟨name, .simple expr⟩ ctx = .ok ctx1) :
    (ctx1.grammar.rule_at i).name = name ∧
    (ctx1.grammar.rule_at i).choices = [] ∧
    (ctx1.grammar.rule_at i).operators = [] ∧
    (ctx1.grammar.rule_at i).left_slot_index = none ∧
    (ctx1.grammar.rule_at i).right_slot_index = none ∧
    (ctx1.grammar.rule_at i).operand_slot_index = none := by
  have hin := (find_rule_in_range ctx name i hfind).1
  rw [build_fill_rule_simple_eq] at h
  simp only [hfind] at h
  split at h
  · cases h
  · rename_i cA built hA
    simp only [Except.ok.injEq] at h
    subst h
    have hr0 : (({ ctx with rule_index := i, next_symbol := 0 } : context)).rule_index <
        (({ ctx with rule_index := i, next_symbol := 0 } : context)).grammar.rules.length :=
      hin
    have hcur0 : (({ ctx with rule_index := i, next_symbol := 0 } : context)).current_rule
        = rule.fresh name := hfresh
    have hk := build_body_automaton_clauses_kept cfg _ _ _ _ hA
    have hp := build_body_automaton_preserved cfg _ _ _ _ hA
    have hrA := context.preserved_in_range _ _ hp hr0
    have hidx : cA.rule_index = i := hp.1.1
    unfold context.clauses_kept at hk
    rw [hcur0] at hk
    have hcur1 : (cA.set_current_rule { cA.current_rule with automaton := built }).grammar.rule_at
        i = { cA.current_rule with automaton := built } := by
      have := context.current_rule_set cA { cA.current_rule with automaton := built } hrA
      rw [← hidx]
      exact this
    rw [hcur1]
    exact ⟨hk.1, hk.2.2.1, hk.2.2.2.1, hk.2.2.2.2.2.1, hk.2.2.2.2.2.2.1, hk.2.2.2.2.1⟩
/-! ## Every declared rule is filled in once, from the state `add_rule` left it in -/

theorem build_add_rules_ok_nodup (tree : List parsed_rule) (ctx c1 : context)
    (hn : ctx.rule_names.Nodup) (h : build_add_rules tree ctx = .ok c1) :
    (ctx.rule_names ++ tree.map (fun p => p.identifier)).Nodup := by
  induction tree generalizing ctx with
  | nil => simpa using hn
  | cons p rest ih =>
    unfold build_add_rules at h
    rw [add_rule_eq] at h
    by_cases hmem : p.identifier ∈ ctx.grammar.rules.map (fun r => r.name)
    · rw [if_pos hmem] at h
      cases h
    · rw [if_neg hmem] at h
      simp only at h
      have hn2 : (ctx.with_new_rule (rule.fresh p.identifier)).rule_names.Nodup := by
        simp only [context.rule_names, context.with_new_rule, List.map_append, List.map_cons,
          List.map_nil, rule.fresh]
        rw [List.nodup_append]
        refine ⟨hn, by simp, ?_⟩
        intro a ha hb
        simp only [List.mem_singleton] at hb
        subst hb
        exact hmem ha
      have := ih _ hn2 h
      simp only [context.rule_names, context.with_new_rule, List.map_append, List.map_cons,
        List.map_nil, rule.fresh, List.append_assoc, List.singleton_append] at this
      simpa [context.rule_names] using this

/-- A build that succeeds has registered a non-empty list of rules of distinct
names, and has then run the main loop from the registered context. -/
theorem build_ok_registered (cfg : build_config) (tree : List parsed_rule) (g : grammar)
    (h : build cfg grammar.zero tree = .ok g) :
    tree ≠ [] ∧ (tree.map (fun p => p.identifier)).Nodup ∧
    ∃ ctx1 : context,
      build_fill_rules cfg tree (registered_context (tree.map (fun p => p.identifier)))
        = .ok ctx1 ∧ g = ctx1.grammar := by
  unfold build at h
  split at h
  · cases h
  · rename_i ctxR hreg
    have hnd : (tree.map (fun p => p.identifier)).Nodup := by
      unfold build_register_rules at hreg
      simp only at hreg
      split at hreg
      · cases hreg
      · rename_i cX hadd
        have := build_add_rules_ok_nodup tree _ cX (by simp [context.rule_names,
          context.initial, grammar.zero]) hadd
        simpa [context.rule_names, context.initial, grammar.zero] using this
    have hne : tree ≠ [] := by
      intro he
      subst he
      simp [build_register_rules, build_add_rules, context.initial, grammar.zero] at hreg
    rw [build_register_rules_registered tree hne hnd] at hreg
    simp only [Except.ok.injEq] at hreg
    subst hreg
    split at h
    · cases h
    · rename_i c1 hfill
      simp only [Except.ok.injEq] at h
      exact ⟨hne, hnd, c1, hfill, h.symm⟩

/-- The main loop fills in each rule of its list once: the names of the rules
stay, a rule that no rule of the list is registered at stays as it was, and
each rule of the list is filled in by a round that finds it as the loop started
with it and leaves it as the loop ends with it. -/
theorem build_fill_rules_rule (cfg : build_config) (rest : List parsed_rule)
    (ctx ctx1 : context) (h : build_fill_rules cfg rest ctx = .ok ctx1)
    (hnd : (rest.map (fun p => p.identifier)).Nodup) :
    ctx1.grammar.rules.map (fun r => r.name) = ctx.grammar.rules.map (fun r => r.name) ∧
    (∀ j : Nat, (∀ p ∈ rest, find_rule ctx p.identifier ≠ some j) →
      ctx1.grammar.rule_at j = ctx.grammar.rule_at j) ∧
    (∀ p ∈ rest, ∃ (c c1 : context) (i : Nat),
      find_rule ctx p.identifier = some i ∧ find_rule c p.identifier = some i ∧
      c.grammar.rule_at i = ctx.grammar.rule_at i ∧
      build_fill_rule cfg p c = .ok c1 ∧
      ctx1.grammar.rule_at i = c1.grammar.rule_at i) := by
  induction rest generalizing ctx with
  | nil =>
    simp only [build_fill_rules, Except.ok.injEq] at h
    subst h
    exact ⟨rfl, fun _ _ => rfl, by simp⟩
  | cons p rest ih =>
    unfold build_fill_rules at h
    split at h
    · cases h
    · rename_i cA hA
      obtain ⟨i, hfind, hpres⟩ := build_fill_rule_preserved cfg p ctx cA hA
      have hnames : cA.grammar.rules.map (fun r => r.name) =
          ctx.grammar.rules.map (fun r => r.name) := hpres.1.2.2.1
      have hother : ∀ j : Nat, j ≠ i → cA.grammar.rule_at j = ctx.grammar.rule_at j :=
        hpres.1.2.2.2
      have hnd2 : (rest.map (fun p => p.identifier)).Nodup := (List.nodup_cons.1 hnd).2
      have hnotin : p.identifier ∉ rest.map (fun p => p.identifier) :=
        (List.nodup_cons.1 hnd).1
      obtain ⟨i1, i2, i3⟩ := ih cA h hnd2
      have hfc : ∀ name : byte_string, find_rule cA name = find_rule ctx name :=
        fun name => find_rule_congr cA ctx name hnames
      have hdiff : ∀ q ∈ rest, find_rule ctx q.identifier ≠ some i := by
        intro q hq hc
        have h1 := (find_rule_in_range ctx _ i hc).2
        have h2 := (find_rule_in_range ctx _ i hfind).2
        apply hnotin
        rw [← h2, h1]
        exact List.mem_map_of_mem _ hq
      refine ⟨i1.trans hnames, ?_, ?_⟩
      · intro j hj
        have hji : j ≠ i := by
          intro he
          subst he
          exact hj p (List.mem_cons_self _ _) hfind
        rw [i2 j (fun q hq => by rw [hfc]; exact hj q (List.mem_cons_of_mem _ hq)),
          hother j hji]
      · intro q hq
        rcases List.mem_cons.1 hq with he | hq
        · subst he
          refine ⟨ctx, cA, i, hfind, hfind, rfl, hA, ?_⟩
          exact i2 i (fun q hq => by rw [hfc]; exact hdiff q hq)
        · obtain ⟨c, c1, k, f1, f2, f3, f4, f5⟩ := i3 q hq
          rw [hfc] at f1
          have hki : k ≠ i := by
            intro he
            subst he
            exact hdiff q hq f1
          exact ⟨c, c1, k, f1, f2, f3.trans (hother k hki), f4, f5⟩

theorem registered_rule_fresh (names : List byte_string) (name : byte_string) (i : Nat)
    (hmem : name ∈ names) (h : find_rule (registered_context names) name = some i) :
    (registered_context names).grammar.rule_at i = rule.fresh name := by
  simp only [find_rule, registered_context, registered_rules] at h
  rw [find_rule_from_append] at h
  have hnn : find_rule_from name (names.map rule.fresh) 0 ≠ none := by
    rw [Ne, find_rule_from_none_iff]
    simp only [List.map_map, not_not]
    exact List.mem_map.2 ⟨name, hmem, rfl⟩
  cases hf : find_rule_from name (names.map rule.fresh) 0 with
  | none => exact absurd hf hnn
  | some j =>
    rw [hf] at h
    simp only [Option.some.injEq] at h
    subst h
    have hs := find_rule_from_some name _ 0 j hf
    simp only [Nat.zero_add, Nat.sub_zero, List.length_map] at hs
    simp only [registered_context, registered_rules, grammar.rule_at]
    rw [List.getD_append _ _ _ _ (by simpa using hs.2.1)]
    have hj : j < names.length := hs.2.1
    have hget : (names.map rule.fresh).getD j (rule.fresh []) = rule.fresh (names.get ⟨j, hj⟩) := by
      rw [List.getD_eq_getElem _ _ (by simpa using hj)]
      simp
    rw [hget] at hs ⊢
    have : (names.get ⟨j, hj⟩) = name := hs.2.2
    rw [this]

/-- Every declared rule of a grammar that builds has been filled in by one round
of the main loop, from the state `add_rule` left it in, and the built grammar
holds it as that round left it. -/
theorem build_rule_filled (cfg : build_config) (tree : List parsed_rule) (g : grammar)
    (h : build cfg grammar.zero tree = .ok g) (p : parsed_rule) (hp : p ∈ tree) :
    ∃ (c c1 : context) (i : Nat),
      find_rule (registered_context (tree.map (fun p => p.identifier))) p.identifier
        = some i ∧
      find_rule c p.identifier = some i ∧
      c.grammar.rule_at i = rule.fresh p.identifier ∧
      build_fill_rule cfg p c = .ok c1 ∧
      g.rule_at i = c1.grammar.rule_at i := by
  obtain ⟨_, hnd, ctx1, hfill, hg⟩ := build_ok_registered cfg tree g h
  obtain ⟨_, _, h3⟩ := build_fill_rules_rule cfg tree _ ctx1 hfill hnd
  obtain ⟨c, c1, i, f1, f2, f3, f4, f5⟩ := h3 p hp
  refine ⟨c, c1, i, f1, f2, ?_, f4, ?_⟩
  · rw [f3]
    exact registered_rule_fresh _ _ i (List.mem_map_of_mem _ hp) f1
  · rw [hg]; exact f5
/-! ## Worked example: a rule with operators -/

theorem set_getD_self (rules : List rule) (i : Nat) (d : rule) :
    rules.set i (rules.getD i d) = rules := by
  induction rules generalizing i with
  | nil => rfl
  | cons r rest ih =>
    cases i with
    | zero => rfl
    | succ k => simp only [List.getD_cons_succ, List.set_cons_succ, ih]

theorem context.set_current_rule_self (ctx : context) :
    ctx.set_current_rule ctx.current_rule = ctx := by
  cases ctx with
  | mk g i s n b e =>
    simp only [context.set_current_rule, context.current_rule, grammar.set_rule,
      grammar.rule_at]
    congr
    cases g with
    | mk rules root =>
      simp only
      exact set_getD_self rules i _

/-- The build of a one-rule grammar is the registration of the rule followed by
one round of the main loop. -/
theorem build_single_rule (cfg : build_config) (parsed : parsed_rule) :
    build cfg grammar.zero [parsed] =
      match build_fill_rule cfg parsed (registered_context [parsed.identifier]) with
      | .error e => .error e
      | .ok c => .ok c.grammar := by
  have hreg := build_register_rules_registered [parsed] (by simp) (by simp)
  unfold build
  rw [hreg]
  simp only [List.map_cons, List.map_nil, build_fill_rules]
  cases build_fill_rule cfg parsed (registered_context [parsed.identifier]) with
  | error e => rfl
  | ok p => rfl

/-- The example expression grammar builds. -/
theorem example_expression_tree_builds :
    ∃ g : grammar, build example_config grammar.zero example_expression_tree = .ok g := by
  unfold example_expression_tree
  rw [build_single_rule]
  simp [build_fill_rule, find_rule, find_rule_from, build_choices, build_operators,
    build_operators_section, build_operand_slots, build_body_automaton,
    build_body_automaton_with, build_body_expression_literal_eq,
    build_body_expression_ident_eq, MAX_EXPRESSION_NESTING, registered_context,
    context.initial, registered_rules, grammar.zero, context.current_rule,
    context.set_current_rule, grammar.rule_at, grammar.set_rule, rule.fresh, example_config,
    same_clause_name, add_slot, add_slot_scan, implicit_token_rule_names, add_keyword_token,
    find_token, find_token_from, keyword_text, quoted, context.enter_expression,
    context.leave_expression]

theorem mem_declared_operators (cfg : build_config) (sections : List parsed_operators)
    (precedence : Int) (x : byte_string × fixity × Nat × Int) :
    x ∈ declared_operators cfg sections precedence ↔
      ∃ (k : Nat) (s : parsed_operators) (op : parsed_clause),
        sections[k]? = some s ∧ op ∈ s.operators ∧
        x = (op.identifier, s.rule_fixity, s.rule_associativity cfg, precedence - (k : Int)) := by
  induction sections generalizing precedence with
  | nil => simp [declared_operators]
  | cons s rest ih =>
    simp only [declared_operators, List.mem_append, List.mem_map, ih]
    constructor
    · rintro (⟨op, hop, rfl⟩ | ⟨k, s2, op, hk, hop, rfl⟩)
      · exact ⟨0, s, op, by simp, hop, by simp⟩
      · refine ⟨k + 1, s2, op, by simpa using hk, hop, ?_⟩
        simp only [Prod.mk.injEq, true_and]
        push_cast
        omega
    · rintro ⟨k, s2, op, hk, hop, rfl⟩
      cases k with
      | zero =>
        simp only [List.getElem?_cons_zero, Option.some.injEq] at hk
        subst hk
        exact Or.inl ⟨op, hop, by simp⟩
      | succ k =>
        simp only [List.getElem?_cons_succ] at hk
        refine Or.inr ⟨k, s2, op, hk, hop, ?_⟩
        simp only [Prod.mk.injEq, true_and]
        push_cast
        omega
/-! ## The clauses of every rule of a built grammar -/

/-- A declared rule with named clauses, in a grammar that builds. -/
theorem build_rule_clauses (cfg : build_config) (tree : List parsed_rule) (g : grammar)
    (name : byte_string) (choices : List parsed_clause) (sections : List parsed_operators)
    (h : build cfg grammar.zero tree = .ok g)
    (hp : (⟨name, .clauses choices sections⟩ : parsed_rule) ∈ tree) :
    ∃ i : Nat,
      find_rule (registered_context (tree.map (fun p => p.identifier))) name = some i ∧
      (g.rule_at i).name = name ∧
      (g.rule_at i).choices.map (fun c => c.name) = choices.map (fun c => c.identifier) ∧
      (g.rule_at i).operators.map operator.declared = declared_operators cfg sections (-1) ∧
      (g.rule_at i).clause_names.Nodup ∧
      ((g.rule_at i).operators.any (fun o => o.two_sided cfg) = true →
        (g.rule_at i).slot_is (g.rule_at i).left_slot_index "left".toList i ∧
        (g.rule_at i).slot_is (g.rule_at i).right_slot_index "right".toList i) ∧
      ((g.rule_at i).operators.any (fun o => o.two_sided cfg) = false →
        (g.rule_at i).left_slot_index = none ∧ (g.rule_at i).right_slot_index = none) ∧
      ((g.rule_at i).operators.any (fun o => ! o.two_sided cfg) = true →
        (g.rule_at i).slot_is (g.rule_at i).operand_slot_index "operand".toList i) ∧
      ((g.rule_at i).operators.any (fun o => ! o.two_sided cfg) = false →
        (g.rule_at i).operand_slot_index = none) := by
  obtain ⟨c, c1, i, f1, f2, f3, f4, f5⟩ := build_rule_filled cfg tree g h _ hp
  have := build_fill_rule_clauses_result cfg name choices sections c c1 i f2 f3 f4
  rw [← f5] at this
  exact ⟨i, f1, this⟩

/-- A declared rule with a simple body, in a grammar that builds. -/
theorem build_rule_simple (cfg : build_config) (tree : List parsed_rule) (g : grammar)
    (name : byte_string) (expr : parsed_expr)
    (h : build cfg grammar.zero tree = .ok g)
    (hp : (⟨name, .simple expr⟩ : parsed_rule) ∈ tree) :
    ∃ i : Nat,
      find_rule (registered_context (tree.map (fun p => p.identifier))) name = some i ∧
      (g.rule_at i).name = name ∧
      (g.rule_at i).choices = [] ∧ (g.rule_at i).operators = [] ∧
      (g.rule_at i).left_slot_index = none ∧ (g.rule_at i).right_slot_index = none ∧
      (g.rule_at i).operand_slot_index = none := by
  obtain ⟨c, c1, i, f1, f2, f3, f4, f5⟩ := build_rule_filled cfg tree g h _ hp
  have := build_fill_rule_simple_result cfg name expr c c1 i f2 f3 f4
  rw [← f5] at this
  exact ⟨i, f1, this⟩

/-- The operators of a rule that records what the sections declare, under
distinct names: an operator named after a clause of the section at index `k`
has precedence `-(k + 1)`, and the fixity and associativity of that section. -/
theorem operators_of_declared (cfg : build_config) (ops : List operator)
    (sections : List parsed_operators)
    (hd : ops.map operator.declared = declared_operators cfg sections (-1))
    (hn : (ops.map (fun o => o.name)).Nodup) :
    (∀ (k : Nat) (s : parsed_operators) (op : parsed_clause),
      sections[k]? = some s → op ∈ s.operators →
      (∃ o ∈ ops, o.name = op.identifier) ∧
      ∀ o ∈ ops, o.name = op.identifier →
        o.precedence = -((k : Int) + 1) ∧ o.fixity = s.rule_fixity ∧
        o.associativity = s.rule_associativity cfg) ∧
    (∀ o ∈ ops, ∃ (k : Nat) (s : parsed_operators) (op : parsed_clause),
      sections[k]? = some s ∧ op ∈ s.operators ∧ o.name = op.identifier ∧
      o.precedence = -((k : Int) + 1)) := by
  have hmem : ∀ x, x ∈ ops.map operator.declared ↔
      ∃ (k : Nat) (s : parsed_operators) (op : parsed_clause),
        sections[k]? = some s ∧ op ∈ s.operators ∧
        x = (op.identifier, s.rule_fixity, s.rule_associativity cfg, (-1 : Int) - (k : Int)) := by
    intro x
    rw [hd]
    exact mem_declared_operators cfg sections (-1) x
  constructor
  · intro k s op hk hop
    have hx := (hmem _).2 ⟨k, s, op, hk, hop, rfl⟩
    obtain ⟨o1, ho1, hdecl⟩ := List.mem_map.1 hx
    simp only [operator.declared, Prod.mk.injEq] at hdecl
    refine ⟨⟨o1, ho1, hdecl.1⟩, ?_⟩
    intro o ho hname
    have heq : o = o1 :=
      List.inj_on_of_nodup_map hn ho ho1 (by rw [hname, hdecl.1])
    subst heq
    exact ⟨by rw [hdecl.2.2.2]; omega, hdecl.2.1, hdecl.2.2.1⟩
  · intro o ho
    obtain ⟨k, s, op, hk, hop, hx⟩ := (hmem _).1 (List.mem_map_of_mem operator.declared ho)
    simp only [operator.declared, Prod.mk.injEq] at hx
    exact ⟨k, s, op, hk, hop, hx.1, by rw [hx.2.2.2]; omega⟩

theorem rule.operator_names_nodup (r : rule) (h : r.clause_names.Nodup) :
    (r.operators.map (fun o => o.name)).Nodup :=
  (List.nodup_append.1 h).2.1

/-- Claim C12: in a grammar that builds, the operators of a rule with operators
sections are the ones the sections declare, in order; an operator named after a
clause of the k-th section (counted from 1) has precedence exactly -k, so all
operators of one section share one precedence, and every operator of an earlier
section has a strictly greater precedence than every operator of a later
section. -/
theorem C12_operator_precedence (cfg : build_config) (tree : List parsed_rule) (g : grammar)
    (name : byte_string) (choices : List parsed_clause) (sections : List parsed_operators)
    (h : build cfg grammar.zero tree = .ok g)
    (hp : (⟨name, .clauses choices sections⟩ : parsed_rule) ∈ tree) :
    ∃ i : Nat,
      find_rule (registered_context (tree.map (fun p => p.identifier))) name = some i ∧
      (g.rule_at i).name = name ∧
      (g.rule_at i).operators.map operator.declared = declared_operators cfg sections (-1) ∧
      (∀ (k : Nat) (s : parsed_operators) (op : parsed_clause),
        sections[k]? = some s → op ∈ s.operators →
        (∃ o ∈ (g.rule_at i).operators, o.name = op.identifier) ∧
        ∀ o ∈ (g.rule_at i).operators, o.name = op.identifier →
          o.precedence = -((k : Int) + 1)) ∧
      (∀ o ∈ (g.rule_at i).operators,
        ∃ (k : Nat) (s : parsed_operators) (op : parsed_clause),
          sections[k]? = some s ∧ op ∈ s.operators ∧ o.name = op.identifier ∧
          o.precedence = -((k : Int) + 1)) ∧
      (∀ (j k : Nat) (s1 s2 : parsed_operators) (op1 op2 : parsed_clause),
        j < k → sections[j]? = some s1 → sections[k]? = some s2 →
        op1 ∈ s1.operators → op2 ∈ s2.operators →
        ∀ o1 ∈ (g.rule_at i).operators, ∀ o2 ∈ (g.rule_at i).operators,
          o1.name = op1.identifier → o2.name = op2.identifier →
          o2.precedence < o1.precedence) := by
  obtain ⟨i, f1, f2, _, f4, f5, _⟩ := build_rule_clauses cfg tree g name choices sections h hp
  obtain ⟨hA, hB⟩ := operators_of_declared cfg (g.rule_at i).operators sections f4
    (rule.operator_names_nodup _ f5)
  refine ⟨i, f1, f2, f4, ?_, hB, ?_⟩
  · intro k s op hk hop
    obtain ⟨e1, e2⟩ := hA k s op hk hop
    exact ⟨e1, fun o ho hn => (e2 o ho hn).1⟩
  · intro j k s1 s2 op1 op2 hjk hj hk hop1 hop2 o1 ho1 o2 ho2 hn1 hn2
    have p1 := ((hA j s1 op1 hj hop1).2 o1 ho1 hn1).1
    have p2 := ((hA k s2 op2 hk hop2).2 o2 ho2 hn2).1
    rw [p1, p2]
    omega

theorem C12_operator_precedence_witness :
    ∃ g : grammar,
      build example_config grammar.zero example_expression_tree = .ok g ∧
      ∃ i : Nat,
        find_rule (registered_context (example_expression_tree.map (fun p => p.identifier)))
          "expr".toList = some i ∧
        (g.rule_at i).name = "expr".toList ∧
        (g.rule_at i).operators.map operator.declared =
          [("add".toList, .INFIX, 1, -1), ("neg".toList, .PREFIX, 0, -2)] := by
  obtain ⟨g, hg⟩ := example_expression_tree_builds
  obtain ⟨i, h1, h2, h3, _⟩ := C12_operator_precedence example_config example_expression_tree g
    "expr".toList [⟨"num".toList, .PARSED_IDENT "number".toList none⟩]
    [⟨.PARSED_INFIX_OP, some .PARSED_LEFT_OP, [⟨"add".toList, .PARSED_LITERAL (quoted ['+'])⟩]⟩,
     ⟨.PARSED_PREFIX_OP, none, [⟨"neg".toList, .PARSED_LITERAL (quoted ['-'])⟩]⟩] hg
    (List.mem_singleton.2 rfl)
  exact ⟨g, hg, i, h1, h2, h3.trans (by decide)⟩

theorem any_two_sided_iff (cfg : build_config) (ops : List operator) :
    ops.any (fun o => o.two_sided cfg) = true ↔
      ∃ o ∈ ops, o.fixity = .INFIX ∧ o.associativity ≠ cfg.FLAT := by
  simp [operator.two_sided]

theorem any_not_two_sided_iff (cfg : build_config) (ops : List operator) :
    ops.any (fun o => ! o.two_sided cfg) = true ↔
      ∃ o ∈ ops, ¬ (o.fixity = .INFIX ∧ o.associativity ≠ cfg.FLAT) := by
  simp only [List.any_eq_true, operator.two_sided, Bool.not_eq_true', decide_eq_false_iff_not]

/-- Claim C13, as the code has it: the operand slot loop runs once per operator,
so in a grammar that builds, the left and right slot indices of a rule are set,
to slots named `left` and `right` that refer to the rule itself, when some
operator of the rule is infix with an associativity other than flat, and stay
unset otherwise; the operand slot index is set, to a slot named `operand` that
refers to the rule itself, when some operator of the rule is not such an
operator, and stays unset otherwise. -/
theorem C13_operand_slots (cfg : build_config) (tree : List parsed_rule) (g : grammar)
    (p : parsed_rule) (h : build cfg grammar.zero tree = .ok g) (hp : p ∈ tree) :
    ∃ i : Nat,
      find_rule (registered_context (tree.map (fun p => p.identifier))) p.identifier
        = some i ∧
      (g.rule_at i).name = p.identifier ∧
      ((∃ o ∈ (g.rule_at i).operators, o.fixity = .INFIX ∧ o.associativity ≠ cfg.FLAT) →
        (g.rule_at i).slot_is (g.rule_at i).left_slot_index "left".toList i ∧
        (g.rule_at i).slot_is (g.rule_at i).right_slot_index "right".toList i) ∧
      ((∀ o ∈ (g.rule_at i).operators, ¬ (o.fixity = .INFIX ∧ o.associativity ≠ cfg.FLAT)) →
        (g.rule_at i).left_slot_index = none ∧ (g.rule_at i).right_slot_index = none) ∧
      ((∃ o ∈ (g.rule_at i).operators, ¬ (o.fixity = .INFIX ∧ o.associativity ≠ cfg.FLAT)) →
        (g.rule_at i).slot_is (g.rule_at i).operand_slot_index "operand".toList i) ∧
      ((∀ o ∈ (g.rule_at i).operators, o.fixity = .INFIX ∧ o.associativity ≠ cfg.FLAT) →
        (g.rule_at i).operand_slot_index = none) := by
  obtain ⟨name, body⟩ := p
  cases body with
  | simple expr =>
    obtain ⟨i, f1, f2, _, f4, f5, f6, f7⟩ := build_rule_simple cfg tree g name expr h hp
    refine ⟨i, f1, f2, ?_, fun _ => ⟨f5, f6⟩, ?_, fun _ => f7⟩
    · rw [f4]; rintro ⟨o, ho, _⟩; simp at ho
    · rw [f4]; rintro ⟨o, ho, _⟩; simp at ho
  | clauses choices sections =>
    obtain ⟨i, f1, f2, _, _, _, s1, s2, s3, s4⟩ :=
      build_rule_clauses cfg tree g name choices sections h hp
    refine ⟨i, f1, f2, ?_, ?_, ?_, ?_⟩
    · intro hex
      exact s1 ((any_two_sided_iff cfg _).2 hex)
    · intro hall
      apply s2
      rw [Bool.eq_false_iff, Ne, any_two_sided_iff]
      rintro ⟨o, ho, hc⟩
      exact hall o ho hc
    · intro hex
      exact s3 ((any_not_two_sided_iff cfg _).2 hex)
    · intro hall
      apply s4
      rw [Bool.eq_false_iff, Ne, any_not_two_sided_iff]
      rintro ⟨o, ho, hc⟩
      exact hc (hall o ho)

/-- The example expression grammar, built: rule 0 holds the infix
left-associative operator `add` and the prefix operator `neg`. -/
theorem example_expression_tree_operators (g : grammar)
    (h : build example_config grammar.zero example_expression_tree = .ok g) :
    (g.rule_at 0).operators.map operator.declared =
      [("add".toList, .INFIX, 1, -1), ("neg".toList, .PREFIX, 0, -2)] := by
  obtain ⟨i, f1, _, _, f4, _⟩ := build_rule_clauses example_config example_expression_tree g
    "expr".toList [⟨"num".toList, .PARSED_IDENT "number".toList none⟩]
    [⟨.PARSED_INFIX_OP, some .PARSED_LEFT_OP, [⟨"add".toList, .PARSED_LITERAL (quoted ['+'])⟩]⟩,
     ⟨.PARSED_PREFIX_OP, none, [⟨"neg".toList, .PARSED_LITERAL (quoted ['-'])⟩]⟩] h
    (List.mem_singleton.2 rfl)
  have h0 : find_rule (registered_context
      (example_expression_tree.map (fun p => p.identifier))) "expr".toList = some 0 :=
    find_rule_registered_first _ []
  rw [h0] at f1
  simp only [Option.some.injEq] at f1
  subst f1
  exact f4.trans (by decide)

theorem C13_operand_slots_witness :
    ∃ g : grammar,
      build example_config grammar.zero example_expression_tree = .ok g ∧
      ∃ i : Nat,
        find_rule (registered_context (example_expression_tree.map (fun p => p.identifier)))
          "expr".toList = some i ∧
        (g.rule_at i).name = "expr".toList ∧
        ((∃ o ∈ (g.rule_at i).operators,
            o.fixity = .INFIX ∧ o.associativity ≠ example_config.FLAT) →
          (g.rule_at i).slot_is (g.rule_at i).left_slot_index "left".toList i ∧
          (g.rule_at i).slot_is (g.rule_at i).right_slot_index "right".toList i) := by
  obtain ⟨g, hg⟩ := example_expression_tree_builds
  obtain ⟨i, h1, h2, h3, _⟩ := C13_operand_slots example_config example_expression_tree g
    ⟨"expr".toList, .clauses [⟨"num".toList, .PARSED_IDENT "number".toList none⟩]
      [⟨.PARSED_INFIX_OP, some .PARSED_LEFT_OP, [⟨"add".toList, .PARSED_LITERAL (quoted ['+'])⟩]⟩,
       ⟨.PARSED_PREFIX_OP, none, [⟨"neg".toList, .PARSED_LITERAL (quoted ['-'])⟩]⟩]⟩ hg
    (List.mem_singleton.2 rfl)
  exact ⟨g, hg, i, h1, h2, h3⟩

/-- Claim C13, counterexample to the exclusive shapes: the example expression
grammar builds, its rule has an infix operator whose associativity is not flat,
and yet, beside the left and the right slot index, its operand slot index is
set too, because of its prefix operator. -/
theorem C13_both_shapes_counterexample :
    ∃ g : grammar,
      build example_config grammar.zero example_expression_tree = .ok g ∧
      (∃ o ∈ (g.rule_at 0).operators,
        o.fixity = .INFIX ∧ o.associativity ≠ example_config.FLAT) ∧
      (g.rule_at 0).left_slot_index ≠ none ∧
      (g.rule_at 0).right_slot_index ≠ none ∧
      (g.rule_at 0).operand_slot_index ≠ none := by
  obtain ⟨g, hg⟩ := example_expression_tree_builds
  have hops := example_expression_tree_operators g hg
  obtain ⟨i, f1, _, _, _, _, s1, _, s3, _⟩ :=
    build_rule_clauses example_config example_expression_tree g
      "expr".toList [⟨"num".toList, .PARSED_IDENT "number".toList none⟩]
      [⟨.PARSED_INFIX_OP, some .PARSED_LEFT_OP, [⟨"add".toList, .PARSED_LITERAL (quoted ['+'])⟩]⟩,
       ⟨.PARSED_PREFIX_OP, none, [⟨"neg".toList, .PARSED_LITERAL (quoted ['-'])⟩]⟩] hg
      (List.mem_singleton.2 rfl)
  have h0 : find_rule (registered_context
      (example_expression_tree.map (fun p => p.identifier))) "expr".toList = some 0 :=
    find_rule_registered_first _ []
  rw [h0] at f1
  simp only [Option.some.injEq] at f1
  subst f1
  have hadd : ("add".toList, fixity.INFIX, 1, (-1 : Int)) ∈
      (g.rule_at 0).operators.map operator.declared := by rw [hops]; simp
  have hneg : ("neg".toList, fixity.PREFIX, 0, (-2 : Int)) ∈
      (g.rule_at 0).operators.map operator.declared := by rw [hops]; simp
  obtain ⟨o1, ho1, hd1⟩ := List.mem_map.1 hadd
  obtain ⟨o2, ho2, hd2⟩ := List.mem_map.1 hneg
  simp only [operator.declared, Prod.mk.injEq] at hd1 hd2
  have hinfix : ∃ o ∈ (g.rule_at 0).operators,
      o.fixity = .INFIX ∧ o.associativity ≠ example_config.FLAT :=
    ⟨o1, ho1, hd1.2.1, by rw [hd1.2.2.1]; decide⟩
  have hprefix : ∃ o ∈ (g.rule_at 0).operators,
      ¬ (o.fixity = .INFIX ∧ o.associativity ≠ example_config.FLAT) :=
    ⟨o2, ho2, by rw [hd2.2.1]; simp⟩
  obtain ⟨⟨l, hl, _⟩, ⟨r, hr, _⟩⟩ := s1 ((any_two_sided_iff _ _).2 hinfix)
  obtain ⟨o, ho, _⟩ := s3 ((any_not_two_sided_iff _ _).2 hprefix)
  refine ⟨g, hg, hinfix, ?_, ?_, ?_⟩
  · rw [hl]; simp
  · rw [hr]; simp
  · rw [ho]; simp
/-! ## Duplicate clause names -/

/-- A choice clause named like an existing choice of the rule stops the choice
loop: with the cap error when the rule is full, with the duplicate error
otherwise. -/
theorem build_choices_duplicate (cfg : build_config) (clause : parsed_clause)
    (rest : List parsed_clause) (ctx : context)
    (h : clause.identifier ∈ ctx.current_rule.choices.map (fun c => c.name)) :
    build_choices cfg (clause :: rest) ctx =
      if ctx.current_rule.choices.length ≥ cfg.MAX_NUMBER_OF_CHOICES then
        .error .too_many_choices
      else .error .duplicate_choice := by
  unfold build_choices
  simp only
  split
  · rfl
  · rw [if_pos ((any_same_choice_name _ _).2 h)]

/-- An operator clause named like an existing choice or operator of the rule
stops the operator loop: with the cap error when the rule is full, with one of
the two duplicate errors otherwise. -/
theorem build_operators_section_duplicate (cfg : build_config) (rule_fixity : fixity)
    (rule_associativity : Nat) (precedence : Int) (op : parsed_clause)
    (rest : List parsed_clause) (ctx : context)
    (h : op.identifier ∈ ctx.current_rule.clause_names) :
    build_operators_section cfg rule_fixity rule_associativity precedence (op :: rest) ctx =
      if ctx.current_rule.operators.length + ctx.current_rule.choices.length
          ≥ cfg.MAX_NUMBER_OF_CHOICES then .error .too_many_clauses
      else if op.identifier ∈ ctx.current_rule.choices.map (fun c => c.name) then
        .error .duplicate_choice
      else .error .duplicate_operator := by
  unfold build_operators_section
  simp only
  split
  · rfl
  · by_cases hc : op.identifier ∈ ctx.current_rule.choices.map (fun c => c.name)
    · rw [if_pos ((any_same_choice_name _ _).2 hc), if_pos hc]
    · have ho : op.identifier ∈ ctx.current_rule.operators.map (fun o => o.name) := by
        rcases List.mem_append.1 h with h1 | h1
        · exact absurd h1 hc
        · exact h1
      have hc2 : ¬ (ctx.current_rule.choices.any
          (fun c => same_clause_name c.name op.identifier) = true) := by
        rw [any_same_choice_name]; exact hc
      rw [if_neg hc2, if_pos ((any_same_operator_name _ _).2 ho), if_neg hc]

/-- The names of the clauses of a declared rule of a grammar that builds are
pairwise distinct, and are the names of the declared clauses. -/
theorem build_rule_clause_names (cfg : build_config) (tree : List parsed_rule) (g : grammar)
    (p : parsed_rule) (h : build cfg grammar.zero tree = .ok g) (hp : p ∈ tree) :
    ∃ i : Nat,
      find_rule (registered_context (tree.map (fun p => p.identifier))) p.identifier
        = some i ∧
      (g.rule_at i).name = p.identifier ∧
      (g.rule_at i).clause_names.Nodup ∧
      ∀ (choices : List parsed_clause) (sections : List parsed_operators),
        p.body = .clauses choices sections →
        (g.rule_at i).clause_names =
          choices.map (fun c => c.identifier) ++
            (declared_operators cfg sections (-1)).map Prod.fst := by
  obtain ⟨name, body⟩ := p
  cases body with
  | simple expr =>
    obtain ⟨i, f1, f2, f3, f4, _⟩ := build_rule_simple cfg tree g name expr h hp
    refine ⟨i, f1, f2, ?_, ?_⟩
    · simp [rule.clause_names, f3, f4]
    · intro choices sections hb
      cases hb
  | clauses choices sections =>
    obtain ⟨i, f1, f2, f3, f4, f5, _⟩ :=
      build_rule_clauses cfg tree g name choices sections h hp
    refine ⟨i, f1, f2, f5, ?_⟩
    intro choices2 sections2 hb
    simp only [parsed_body.clauses.injEq] at hb
    obtain ⟨hb1, hb2⟩ := hb
    subst hb1
    subst hb2
    simp only [rule.clause_names]
    rw [f3, map_operator_name_declared, f4]

/-- Claim C16: the names of the clauses of a rule are unique.  In a grammar that
builds, the names of the choices and operators of every declared rule are
pairwise distinct, and are the names of its declared clauses; hence a rule whose
declared clause names are not pairwise distinct makes the build fail.  In the
loops, a choice clause named like an earlier choice of the rule, and an operator
clause named like a choice or an earlier operator of the rule, stop the build
at once, with the duplicate error unless the clause cap is hit first. -/
theorem C16_clause_names_unique (cfg : build_config) (tree : List parsed_rule)
    (p : parsed_rule) (hp : p ∈ tree) :
    (∀ g : grammar, build cfg grammar.zero tree = .ok g →
      ∃ i : Nat,
        find_rule (registered_context (tree.map (fun p => p.identifier))) p.identifier
          = some i ∧
        (g.rule_at i).name = p.identifier ∧
        (g.rule_at i).clause_names.Nodup ∧
        ∀ (choices : List parsed_clause) (sections : List parsed_operators),
          p.body = .clauses choices sections →
          (g.rule_at i).clause_names =
            choices.map (fun c => c.identifier) ++
              (declared_operators cfg sections (-1)).map Prod.fst) ∧
    (∀ (choices : List parsed_clause) (sections : List parsed_operators),
      p.body = .clauses choices sections →
      ¬ (choices.map (fun c => c.identifier) ++
          (declared_operators cfg sections (-1)).map Prod.fst).Nodup →
      ∃ e : build_error, build cfg grammar.zero tree = .error e) ∧
    (∀ (ctx : context) (clause : parsed_clause) (rest : List parsed_clause),
      clause.identifier ∈ ctx.current_rule.choices.map (fun c => c.name) →
      build_choices cfg (clause :: rest) ctx =
        if ctx.current_rule.choices.length ≥ cfg.MAX_NUMBER_OF_CHOICES then
          .error .too_many_choices
        else .error .duplicate_choice) ∧
    (∀ (rule_fixity : fixity) (rule_associativity : Nat) (precedence : Int) (ctx : context)
      (op : parsed_clause) (rest : List parsed_clause),
      op.identifier ∈ ctx.current_rule.clause_names →
      build_operators_section cfg rule_fixity rule_associativity precedence (op :: rest) ctx =
        if ctx.current_rule.operators.length + ctx.current_rule.choices.length
            ≥ cfg.MAX_NUMBER_OF_CHOICES then .error .too_many_clauses
        else if op.identifier ∈ ctx.current_rule.choices.map (fun c => c.name) then
          .error .duplicate_choice
        else .error .duplicate_operator) := by
  refine ⟨fun g h => build_rule_clause_names cfg tree g p h hp, ?_, ?_, ?_⟩
  · intro choices sections hb hdup
    cases hres : build cfg grammar.zero tree with
    | error e => exact ⟨e, rfl⟩
    | ok g =>
      obtain ⟨i, _, _, hn, hnames⟩ := build_rule_clause_names cfg tree g p hres hp
      rw [hnames choices sections hb] at hn
      exact absurd hn hdup
  · intro ctx clause rest h
    exact build_choices_duplicate cfg clause rest ctx h
  · intro f a pr ctx op rest h
    exact build_operators_section_duplicate cfg f a pr op rest ctx h

theorem C16_clause_names_unique_witness :
    ∃ g : grammar,
      build example_config grammar.zero example_expression_tree = .ok g ∧
      ∃ i : Nat,
        find_rule (registered_context (example_expression_tree.map (fun p => p.identifier)))
          "expr".toList = some i ∧
        (g.rule_at i).name = "expr".toList ∧
        (g.rule_at i).clause_names.Nodup ∧
        (g.rule_at i).clause_names = ["num".toList, "add".toList, "neg".toList] := by
  obtain ⟨g, hg⟩ := example_expression_tree_builds
  obtain ⟨i, h1, h2, h3, h4⟩ := (C16_clause_names_unique example_config
    example_expression_tree
    ⟨"expr".toList, .clauses [⟨"num".toList, .PARSED_IDENT "number".toList none⟩]
      [⟨.PARSED_INFIX_OP, some .PARSED_LEFT_OP, [⟨"add".toList, .PARSED_LITERAL (quoted ['+'])⟩]⟩,
       ⟨.PARSED_PREFIX_OP, none, [⟨"neg".toList, .PARSED_LITERAL (quoted ['-'])⟩]⟩]⟩
    (List.mem_singleton.2 rfl)).1 g hg
  exact ⟨g, hg, i, h1, h2, h3, (h4 _ _ rfl).trans (by decide)⟩
/-! ## The transitions a fragment build adds -/

theorem parsed_expr.has_terms_concatenation (l : parsed_expr_list)
    (h : (parsed_expr.PARSED_CONCATENATION l).has_terms = true) :
    l ≠ .empty ∧ l.has_terms = true := by
  cases l with
  | empty => simp [parsed_expr.has_terms] at h
  | cons head next =>
    simp only [parsed_expr.has_terms] at h
    exact ⟨by simp, by simp only [parsed_expr_list.has_terms]; exact h⟩

theorem fragment_edges_congr (t : Bool) (ctx ctx2 : context) (a : automaton)
    (b : boundary_states) (c1 c2 : context) (a1 : automaton)
    (h : fragment_edges t ctx a b c1 a1) (hN : ctx2.next_state = ctx.next_state)
    (hN1 : c2.next_state = c1.next_state) : fragment_edges t ctx2 a b c2 a1 := by
  unfold fragment_edges at h ⊢
  rw [hN, hN1]
  exact h

/-- One more transition between states of the fragment. -/
theorem fragment_edges_add (t : Bool) (ctx : context) (a : automaton) (b : boundary_states)
    (c1 : context) (a1 : automaton) (source target : Nat) (symbol : symbol_id)
    (h : fragment_edges t ctx a b c1 a1)
    (ht : target = b.exit ∨ (ctx.next_state ≤ target ∧ target < c1.next_state))
    (hs : t = true →
      (source = b.entry ∨ (ctx.next_state ≤ source ∧ source < c1.next_state))) :
    fragment_edges t ctx a b c1 (automaton_add_transition a1 source target symbol) := by
  obtain ⟨h1, h2, h3, added, h4, h5⟩ := h
  refine ⟨h1, h2, h3, added ++ [⟨source, target, symbol⟩], ?_, ?_⟩
  · simp only [automaton_add_transition, h4, List.append_assoc]
  · intro x hx
    rcases List.mem_append.1 hx with hx | hx
    · exact h5 x hx
    · simp only [List.mem_singleton] at hx
      subst hx
      exact ⟨ht, hs⟩

/-- A fragment that starts from an automaton with nothing added yet. -/
theorem fragment_edges_start (t : Bool) (ctx : context) (a : automaton)
    (b : boundary_states) (c1 : context) (h : ctx.next_state ≤ c1.next_state) :
    fragment_edges t ctx a b c1 a :=
  ⟨rfl, rfl, h, [], by simp, by simp⟩

/-- A fragment built between two states allocated for it is part of the
fragment around it. -/
theorem fragment_edges_widen (t : Bool) (ctx ctx2 : context) (a : automaton)
    (b inner : boundary_states) (c1 : context) (a1 : automaton)
    (h : fragment_edges t ctx2 a inner c1 a1)
    (hentry : ctx.next_state ≤ inner.entry ∧ inner.entry < ctx2.next_state)
    (hexit : ctx.next_state ≤ inner.exit ∧ inner.exit < ctx2.next_state) :
    fragment_edges t ctx a b c1 a1 := by
  obtain ⟨h1, h2, h3, added, h4, h5⟩ := h
  refine ⟨h1, h2, by omega, added, h4, ?_⟩
  intro x hx
  obtain ⟨k1, k2⟩ := h5 x hx
  refine ⟨?_, ?_⟩
  · right
    rcases k1 with k1 | k1
    · rw [k1]; omega
    · omega
  · intro ht
    right
    rcases k2 ht with k2 | k2
    · rw [k2]; omega
    · omega

/-- Two fragments on the same boundary, one built after the other. -/
theorem fragment_edges_then (t1 t2 : Bool) (ctx c2 c1 : context) (a a2 a1 : automaton)
    (b : boundary_states)
    (h1 : fragment_edges t1 ctx a b c2 a2) (h2 : fragment_edges t2 c2 a2 b c1 a1) :
    fragment_edges (t1 && t2) ctx a b c1 a1 := by
  obtain ⟨p1, p2, p3, add1, p4, p5⟩ := h1
  obtain ⟨q1, q2, q3, add2, q4, q5⟩ := h2
  refine ⟨q1.trans p1, q2.trans p2, by omega, add1 ++ add2, ?_, ?_⟩
  · rw [q4, p4, List.append_assoc]
  · intro x hx
    rcases List.mem_append.1 hx with hx | hx
    · obtain ⟨k1, k2⟩ := p5 x hx
      refine ⟨?_, ?_⟩
      · rcases k1 with k1 | k1
        · exact Or.inl k1
        · right; omega
      · intro ht
        simp only [Bool.and_eq_true] at ht
        rcases k2 ht.1 with k2 | k2
        · exact Or.inl k2
        · right; omega
    · obtain ⟨k1, k2⟩ := q5 x hx
      refine ⟨?_, ?_⟩
      · rcases k1 with k1 | k1
        · exact Or.inl k1
        · right; omega
      · intro ht
        simp only [Bool.and_eq_true] at ht
        rcases k2 ht.2 with k2 | k2
        · exact Or.inl k2
        · right; omega

/-- The fragment `connect_expression` builds: the expression between two fresh
states, joined to the outer boundary by two epsilon transitions. -/
theorem connect_expression_edges (expr : parsed_expr) (ih : expression_edges expr)
    (cfg : build_config) (ctx c1 : context) (a a1 : automaton)
    (outer inner : boundary_states)
    (h : connect_expression cfg ctx a expr outer = .ok (c1, a1, inner)) :
    fragment_edges expr.has_terms ctx a outer c1 a1 ∧
    inner = { entry := ctx.next_state, exit := ctx.next_state + 1 } ∧
    ctx.next_state + 2 ≤ c1.next_state := by
  obtain ⟨hinner, a2, hsub, ha1⟩ := connect_expression_ok cfg ctx c1 a a1 expr outer inner h
  have hf := ih cfg _ _ _ _ _ hsub
  have hmono : ctx.next_state + 2 ≤ c1.next_state := hf.2.2.1
  have hw := fragment_edges_widen expr.has_terms ctx _ a outer _ c1 a2 hf
    (by show ctx.next_state ≤ ctx.next_state ∧ ctx.next_state < ctx.next_state + 1 + 1; omega)
    (by show ctx.next_state ≤ ctx.next_state + 1 ∧ ctx.next_state + 1 < ctx.next_state + 1 + 1
        omega)
  subst ha1
  refine ⟨?_, hinner, hmono⟩
  apply fragment_edges_add
  · apply fragment_edges_add
    · exact hw
    · right; omega
    · intro _; exact Or.inl rfl
  · exact Or.inl rfl
  · intro _; right; omega

theorem edges_ident (identifier : byte_string) (rename : Option byte_string) :
    expression_edges (.PARSED_IDENT identifier rename) := by
  intro cfg ctx a b c1 a1 h
  obtain ⟨_, t, c2, r2, i, _, _, hadd, hc, ha⟩ :=
    build_body_expression_ident_ok cfg ctx c1 a a1 identifier rename b h
  have hf := add_slot_fields cfg _ _ _ _ _ _ _ hadd
  have hN : c1.next_state = ctx.next_state := by rw [hc]; exact hf.2.2.2.2.1
  subst ha
  exact fragment_edges_add _ ctx a b c1 a _ _ _
    (fragment_edges_start _ ctx a b c1 (by rw [hN])) (Or.inl rfl) (fun _ => Or.inl rfl)

theorem edges_literal (string : byte_string) : expression_edges (.PARSED_LITERAL string) := by
  intro cfg ctx a b c1 a1 h
  obtain ⟨_, c2, r2, s, hadd, hc, ha⟩ :=
    build_body_expression_literal_ok cfg ctx c1 a a1 string b h
  have hf := add_keyword_token_fields _ _ _ _ _ _ _ hadd
  have hN : c1.next_state = ctx.next_state := by rw [hc]; exact hf.2.2.2.2.1
  subst ha
  exact fragment_edges_add _ ctx a b c1 a _ _ _
    (fragment_edges_start _ ctx a b c1 (by omega)) (Or.inl rfl) (fun _ => Or.inl rfl)

theorem edges_bracketed (bracket_expr : parsed_expr_list)
    (begin_token end_token : byte_string) (ih : expression_list_edges bracket_expr) :
    expression_edges (.PARSED_BRACKETED bracket_expr begin_token end_token) := by
  intro cfg ctx a b c1 a1 h
  obtain ⟨_, c3, ba, c5, r5, s5, c7, r7, s7, hsub, hstart, hend, _, _, hc, ha⟩ :=
    build_body_expression_bracketed_ok cfg ctx c1 a a1 bracket_expr begin_token end_token b h
  have h3a := ih.2.2 cfg _ _ _ hsub
  have h3 : c3.next_state = ctx.next_state := h3a
  have hf5 := add_keyword_token_fields _ _ _ _ _ _ _ hstart
  have hf7 := add_keyword_token_fields _ _ _ _ _ _ _ hend
  have h5 : c5.next_state = c3.next_state := hf5.2.2.2.2.1
  have h7 : c7.next_state = c5.next_state := hf7.2.2.2.2.1
  have hN : c1.next_state = ctx.next_state := by
    rw [hc]
    show c7.next_state = ctx.next_state
    omega
  subst ha
  exact fragment_edges_add _ ctx a b c1 a _ _ _
    (fragment_edges_start _ ctx a b c1 (by omega)) (Or.inl rfl) (fun _ => Or.inl rfl)

theorem edges_parens (expr : parsed_expr) (ih : expression_edges expr) :
    expression_edges (.PARSED_PARENS expr) := by
  intro cfg ctx a b c1 a1 h
  obtain ⟨_, c2, hsub, hc⟩ := build_body_expression_parens_ok cfg ctx c1 a a1 expr b h
  have hf := ih cfg _ _ _ _ _ hsub
  subst hc
  simp only [parsed_expr.has_terms]
  exact fragment_edges_congr _ _ ctx a b c2 _ a1 hf rfl rfl

theorem edges_choice (operand : parsed_expr_list) (ih : expression_list_edges operand) :
    expression_edges (.PARSED_CHOICE operand) := by
  intro cfg ctx a b c1 a1 h
  obtain ⟨_, c2, hsub, hc⟩ := build_body_expression_choice_ok cfg ctx c1 a a1 operand b h
  have hf := ih.1 cfg _ _ _ _ _ hsub
  subst hc
  simp only [parsed_expr.has_terms]
  exact fragment_edges_congr _ _ ctx a b c2 _ a1 hf rfl rfl

theorem edges_zero_or_more (operand : parsed_expr) (ih : expression_edges operand) :
    expression_edges (.PARSED_ZERO_OR_MORE operand) := by
  intro cfg ctx a b c1 a1 h
  obtain ⟨_, c2, a2, inner, hsub, hc, ha⟩ :=
    build_body_expression_zero_or_more_ok cfg ctx c1 a a1 operand b h
  obtain ⟨hf, hinner, hmono⟩ := connect_expression_edges operand ih cfg _ _ _ _ _ _ hsub
  have hf2 := fragment_edges_congr _ _ ctx a b c2 c1 a2 hf rfl (by rw [hc]; rfl)
  have hN : c1.next_state = c2.next_state := by rw [hc]; rfl
  have hmono2 : ctx.next_state + 2 ≤ c1.next_state := by rw [hN]; exact hmono
  subst ha
  subst hinner
  simp only [parsed_expr.has_terms]
  apply fragment_edges_add
  · apply fragment_edges_add
    · exact hf2
    · right; simp only [context.enter_expression]; omega
    · intro _; right; simp only [context.enter_expression]; omega
  · exact Or.inl rfl
  · intro _; exact Or.inl rfl

theorem edges_one_or_more (operand : parsed_expr) (ih : expression_edges operand) :
    expression_edges (.PARSED_ONE_OR_MORE operand) := by
  intro cfg ctx a b c1 a1 h
  obtain ⟨_, c2, a2, inner, hsub, hc, ha⟩ :=
    build_body_expression_one_or_more_ok cfg ctx c1 a a1 operand b h
  obtain ⟨hf, hinner, hmono⟩ := connect_expression_edges operand ih cfg _ _ _ _ _ _ hsub
  have hf2 := fragment_edges_congr _ _ ctx a b c2 c1 a2 hf rfl (by rw [hc]; rfl)
  have hN : c1.next_state = c2.next_state := by rw [hc]; rfl
  have hmono2 : ctx.next_state + 2 ≤ c1.next_state := by rw [hN]; exact hmono
  subst ha
  subst hinner
  simp only [parsed_expr.has_terms]
  apply fragment_edges_add
  · exact hf2
  · right; simp only [context.enter_expression]; omega
  · intro _; right; simp only [context.enter_expression]; omega

theorem edges_optional (operand : parsed_expr) (ih : expression_edges operand) :
    expression_edges (.PARSED_OPTIONAL operand) := by
  intro cfg ctx a b c1 a1 h
  obtain ⟨_, c2, a2, inner, hsub, hc, ha⟩ :=
    build_body_expression_optional_ok cfg ctx c1 a a1 operand b h
  obtain ⟨hf, hinner, hmono⟩ := connect_expression_edges operand ih cfg _ _ _ _ _ _ hsub
  have hf2 := fragment_edges_congr _ _ ctx a b c2 c1 a2 hf rfl (by rw [hc]; rfl)
  subst ha
  simp only [parsed_expr.has_terms]
  apply fragment_edges_add
  · exact hf2
  · exact Or.inl rfl
  · intro _; exact Or.inl rfl

theorem edges_concatenation (operand : parsed_expr_list)
    (ih : expression_list_edges operand) :
    expression_edges (.PARSED_CONCATENATION operand) := by
  intro cfg ctx a b c1 a1 h
  obtain ⟨_, c2, a2, inner, hsub, hc, ha⟩ :=
    build_body_expression_concatenation_ok cfg ctx c1 a a1 operand b h
  obtain ⟨k1, k2, k3, k4, k5, added, k6, k7⟩ := ih.2.1 cfg _ _ _ _ _ _ hsub
  have hN : c1.next_state = c2.next_state := by rw [hc]; rfl
  have k3 : ctx.next_state + 1 ≤ c2.next_state := k3
  have k5 : operand ≠ .empty →
      ctx.next_state + 1 ≤ inner.exit ∧ inner.exit < c2.next_state := k5
  have k7 : ∀ t ∈ added,
      (ctx.next_state + 1 ≤ t.target ∧ t.target < c2.next_state) ∧
      (operand.has_terms = true →
        (t.source = ctx.next_state ∨
          (ctx.next_state + 1 ≤ t.source ∧ t.source < c2.next_state))) := k7
  subst ha
  refine ⟨k1, k2, by omega,
    [⟨b.entry, ctx.next_state, .SYMBOL_EPSILON⟩] ++ added ++ [⟨inner.exit, b.exit, .SYMBOL_EPSILON⟩],
    ?_, ?_⟩
  · simp only [automaton_add_transition, k6, List.append_assoc]
  · intro x hx
    rw [hN]
    simp only [List.mem_append, List.mem_singleton] at hx
    rcases hx with (hx | hx) | hx
    · subst hx
      exact ⟨Or.inr (by simp only; omega), fun _ => Or.inl rfl⟩
    · obtain ⟨t1, t2⟩ := k7 x hx
      refine ⟨Or.inr (by omega), ?_⟩
      intro ht
      right
      rcases t2 (parsed_expr.has_terms_concatenation operand ht).2 with t2 | t2
      · rw [t2]; omega
      · omega
    · subst hx
      refine ⟨Or.inl rfl, ?_⟩
      intro ht
      right
      have := k5 (parsed_expr.has_terms_concatenation operand ht).1
      simp only
      omega

theorem edges_empty : expression_list_edges .empty := by
  refine ⟨?_, ?_, ?_⟩
  · intro cfg ctx a b c1 a1 h
    rw [build_body_expression_choice_empty_eq] at h
    simp only [Except.ok.injEq, Prod.mk.injEq] at h
    obtain ⟨h1, h2⟩ := h
    subst h1
    subst h2
    exact fragment_edges_start _ ctx a b ctx (Nat.le_refl _)
  · intro cfg ctx a inner c1 a1 inner1 h
    rw [build_body_expression_concatenation_empty_eq] at h
    simp only [Except.ok.injEq, Prod.mk.injEq] at h
    obtain ⟨h1, h2, h3⟩ := h
    subst h1
    subst h2
    subst h3
    exact ⟨rfl, rfl, Nat.le_refl _, fun _ => rfl, fun hne => absurd rfl hne, [], by simp,
      by simp⟩
  · intro cfg ctx c1 a1 h
    rw [build_body_expression_bracket_empty_eq] at h
    simp only [Except.ok.injEq, Prod.mk.injEq] at h
    rw [← h.1]

theorem edges_cons (head : parsed_expr) (next : parsed_expr_list)
    (ihh : expression_edges head) (ihn : expression_list_edges next) :
    expression_list_edges (.cons head next) := by
  refine ⟨?_, ?_, ?_⟩
  · intro cfg ctx a b c1 a1 h
    obtain ⟨c2, a2, inner, hhead, hnext⟩ :=
      build_body_expression_choice_cons_ok cfg ctx c1 a a1 head next b h
    obtain ⟨hf, _, _⟩ := connect_expression_edges head ihh cfg _ _ _ _ _ _ hhead
    simp only [parsed_expr_list.has_terms]
    exact fragment_edges_then _ _ ctx c2 c1 a a2 a1 b hf (ihn.1 cfg _ _ _ _ _ hnext)
  · intro cfg ctx a inner c1 a1 inner1 h
    obtain ⟨c2, a2, hhead, hnext⟩ :=
      build_body_expression_concatenation_cons_ok cfg ctx c1 a a1 head next inner inner1 h
    obtain ⟨p1, p2, p3, add1, p4, p5⟩ := ihh cfg _ _ _ _ _ hhead
    obtain ⟨q1, q2, q3, q4, q5, add2, q6, q7⟩ := ihn.2.1 cfg _ _ _ _ _ _ hnext
    have p3 : ctx.next_state + 1 ≤ c2.next_state := p3
    have p5 : ∀ t ∈ add1,
        (t.target = ctx.next_state ∨
          (ctx.next_state + 1 ≤ t.target ∧ t.target < c2.next_state)) ∧
        (head.has_terms = true →
          (t.source = inner.entry ∨
            (ctx.next_state + 1 ≤ t.source ∧ t.source < c2.next_state))) := p5
    have q4 : next = .empty →
        inner1 = { entry := ctx.next_state, exit := ctx.next_state } := q4
    have q7 : ∀ t ∈ add2,
        (c2.next_state ≤ t.target ∧ t.target < c1.next_state) ∧
        (next.has_terms = true →
          (t.source = ctx.next_state ∨
            (c2.next_state ≤ t.source ∧ t.source < c1.next_state))) := q7
    refine ⟨q1.trans p1, q2.trans p2, by omega, fun he => parsed_expr_list.noConfusion he,
      ?_, add1 ++ add2, ?_, ?_⟩
    · intro _
      by_cases hne : next = .empty
      · rw [q4 hne]; simp only; omega
      · have := q5 hne; omega
    · rw [q6, p4, List.append_assoc]
    · intro x hx
      simp only [parsed_expr_list.has_terms, Bool.and_eq_true]
      rcases List.mem_append.1 hx with hx | hx
      · obtain ⟨t1, t2⟩ := p5 x hx
        refine ⟨?_, ?_⟩
        · rcases t1 with t1 | t1
          · rw [t1]; omega
          · omega
        · intro ht
          rcases t2 ht.1 with t2 | t2
          · exact Or.inl t2
          · right; omega
      · obtain ⟨t1, t2⟩ := q7 x hx
        refine ⟨by omega, ?_⟩
        intro ht
        right
        rcases t2 ht.2 with t2 | t2
        · rw [t2]; omega
        · omega
  · intro cfg ctx c1 a1 h
    obtain ⟨c2, hsub, hc⟩ := build_body_expression_bracket_cons_ok cfg ctx c1 head next a1 h
    obtain ⟨c3, nfa, _, hc2, _⟩ := build_body_automaton_ok_inv cfg _ _ _ _ hsub
    rw [hc, hc2]

/-- A successful build of an expression only adds transitions, each of which
leads to the exit of the boundary or to a state allocated during the build. -/
theorem build_body_expression_edges (expr : parsed_expr) : expression_edges expr :=
  parsed_expr.rec (motive_1 := expression_edges) (motive_2 := expression_list_edges)
    edges_choice edges_concatenation edges_ident edges_literal edges_parens edges_bracketed
    edges_zero_or_more edges_one_or_more edges_optional edges_empty edges_cons expr

/-- What a repetition build adds: the transitions of the inner expression,
each of which leads to the inner exit `n + 1` or to a state from `n + 2` on, and
then the two connecting epsilon transitions. -/
theorem connect_expression_added (cfg : build_config) (ctx c1 : context) (a a1 : automaton)
    (expr : parsed_expr) (outer inner : boundary_states)
    (h : connect_expression cfg ctx a expr outer = .ok (c1, a1, inner)) :
    inner = { entry := ctx.next_state, exit := ctx.next_state + 1 } ∧
    ∃ added : List transition,
      a1.transitions = a.transitions ++ added ++
        [⟨outer.entry, ctx.next_state, .SYMBOL_EPSILON⟩,
         ⟨ctx.next_state + 1, outer.exit, .SYMBOL_EPSILON⟩] ∧
      ∀ t ∈ added, t.target = ctx.next_state + 1 ∨ ctx.next_state + 2 ≤ t.target := by
  obtain ⟨hinner, a2, hsub, ha1⟩ := connect_expression_ok cfg ctx c1 a a1 expr outer inner h
  obtain ⟨_, _, _, added, h4, h5⟩ := build_body_expression_edges expr cfg _ _ _ _ _ hsub
  refine ⟨hinner, added, ?_, ?_⟩
  · subst ha1
    simp only [automaton_add_transition, h4, List.append_assoc, List.cons_append,
      List.nil_append]
  · intro t ht
    rcases (h5 t ht).1 with k | k
    · exact Or.inl k
    · exact Or.inr k.1

/-- Claim C20: on a boundary whose two states are already allocated, building
`e+` adds no transition from the entry to the exit of the boundary, so an
automaton without such a transition has none afterwards, and building `e?` adds
no transition from the inner exit state `n + 1` back to the inner entry state
`n`, so an automaton that does not mention the fresh states has none afterwards
(`n` is `next_state` before the build); this holds whatever `e` is. -/
theorem C20_repetition_edges_absent (cfg : build_config) (ctx c1 : context)
    (a a1 : automaton) (e : parsed_expr) (b : boundary_states)
    (hentry : b.entry < ctx.next_state) (hexit : b.exit < ctx.next_state) :
    (build_body_expression cfg ctx a (.PARSED_ONE_OR_MORE e) b = .ok (c1, a1) →
      (∃ added : List transition, a1.transitions = a.transitions ++ added ∧
        ∀ t ∈ added, ¬ (t.source = b.entry ∧ t.target = b.exit)) ∧
      ((∀ t ∈ a.transitions, ¬ (t.source = b.entry ∧ t.target = b.exit)) →
        ∀ t ∈ a1.transitions, ¬ (t.source = b.entry ∧ t.target = b.exit))) ∧
    (build_body_expression cfg ctx a (.PARSED_OPTIONAL e) b = .ok (c1, a1) →
      (∃ added : List transition, a1.transitions = a.transitions ++ added ∧
        ∀ t ∈ added, ¬ (t.source = ctx.next_state + 1 ∧ t.target = ctx.next_state)) ∧
      ((∀ t ∈ a.transitions, t.source < ctx.next_state ∨ t.target < ctx.next_state) →
        ∀ t ∈ a1.transitions,
          ¬ (t.source = ctx.next_state + 1 ∧ t.target = ctx.next_state))) := by
  refine ⟨?_, ?_⟩
  · intro h
    obtain ⟨_, c2, a2, inner, hcon, _, ha⟩ :=
      build_body_expression_one_or_more_ok cfg ctx c1 a a1 e b h
    obtain ⟨hi, added, hadd, htarget⟩ := connect_expression_added cfg _ c2 a a2 e b inner hcon
    have hn : ctx.enter_expression.next_state = ctx.next_state := rfl
    rw [hn] at hi hadd htarget
    have hall : ∀ t ∈ added ++
        [(⟨b.entry, ctx.next_state, .SYMBOL_EPSILON⟩ : transition),
         ⟨ctx.next_state + 1, b.exit, .SYMBOL_EPSILON⟩,
         ⟨ctx.next_state + 1, ctx.next_state, .SYMBOL_EPSILON⟩],
        ¬ (t.source = b.entry ∧ t.target = b.exit) := by
      intro t ht hc
      simp only [List.mem_append, List.mem_cons, List.mem_singleton, List.not_mem_nil,
        or_false] at ht
      rcases ht with ht | ht | ht | ht
      · rcases htarget t ht with k | k <;> omega
      · subst ht; simp only at hc; omega
      · subst ht; simp only at hc; omega
      · subst ht; simp only at hc; omega
    have htrans : a1.transitions = a.transitions ++ (added ++
        [(⟨b.entry, ctx.next_state, .SYMBOL_EPSILON⟩ : transition),
         ⟨ctx.next_state + 1, b.exit, .SYMBOL_EPSILON⟩,
         ⟨ctx.next_state + 1, ctx.next_state, .SYMBOL_EPSILON⟩]) := by
      subst ha
      subst hi
      simp only [automaton_add_transition, hadd, List.append_assoc, List.cons_append,
        List.nil_append]
    refine ⟨⟨_, htrans, hall⟩, ?_⟩
    intro hold t ht
    rw [htrans] at ht
    rcases List.mem_append.1 ht with ht | ht
    · exact hold t ht
    · exact hall t ht
  · intro h
    obtain ⟨_, c2, a2, inner, hcon, _, ha⟩ :=
      build_body_expression_optional_ok cfg ctx c1 a a1 e b h
    obtain ⟨hi, added, hadd, htarget⟩ := connect_expression_added cfg _ c2 a a2 e b inner hcon
    have hn : ctx.enter_expression.next_state = ctx.next_state := rfl
    rw [hn] at hi hadd htarget
    have hall : ∀ t ∈ added ++
        [(⟨b.entry, ctx.next_state, .SYMBOL_EPSILON⟩ : transition),
         ⟨ctx.next_state + 1, b.exit, .SYMBOL_EPSILON⟩,
         ⟨b.entry, b.exit, .SYMBOL_EPSILON⟩],
        ¬ (t.source = ctx.next_state + 1 ∧ t.target = ctx.next_state) := by
      intro t ht hc
      simp only [List.mem_append, List.mem_cons, List.mem_singleton, List.not_mem_nil,
        or_false] at ht
      rcases ht with ht | ht | ht | ht
      · rcases htarget t ht with k | k <;> omega
      · subst ht; simp only at hc; omega
      · subst ht; simp only at hc; omega
      · subst ht; simp only at hc; omega
    have htrans : a1.transitions = a.transitions ++ (added ++
        [(⟨b.entry, ctx.next_state, .SYMBOL_EPSILON⟩ : transition),
         ⟨ctx.next_state + 1, b.exit, .SYMBOL_EPSILON⟩,
         ⟨b.entry, b.exit, .SYMBOL_EPSILON⟩]) := by
      subst ha
      simp only [automaton_add_transition, hadd, List.append_assoc, List.cons_append,
        List.nil_append]
    refine ⟨⟨_, htrans, hall⟩, ?_⟩
    intro hold t ht
    rw [htrans] at ht
    rcases List.mem_append.1 ht with ht | ht
    · have := hold t ht
      omega
    · exact hall t ht

theorem C20_repetition_edges_absent_witness :
    (0 : Nat) < 2 ∧ (1 : Nat) < 2 ∧
    (∀ t ∈ [(⟨2, 3, .SYMBOL_EPSILON⟩ : transition), ⟨0, 2, .SYMBOL_EPSILON⟩,
        ⟨3, 1, .SYMBOL_EPSILON⟩, ⟨3, 2, .SYMBOL_EPSILON⟩],
      ¬ (t.source = 0 ∧ t.target = 1)) :=
  ⟨by decide, by decide,
    ((C20_repetition_edges_absent example_config
      { registered_context [['a']] with next_state := 2 }
      { registered_context [['a']] with next_state := 4 }
      automaton.zero
      { start_state := 0, accepting_states := [],
        transitions := [⟨2, 3, .SYMBOL_EPSILON⟩, ⟨0, 2, .SYMBOL_EPSILON⟩,
          ⟨3, 1, .SYMBOL_EPSILON⟩, ⟨3, 2, .SYMBOL_EPSILON⟩] }
      (.PARSED_LITERAL []) { entry := 0, exit := 1 } (by decide) (by decide)).1
        (by decide)).2 (by simp [automaton.zero])⟩
/-! ## Worked example: the grammar `rule = 'a' 'b'` -/

/-- The body `'a' 'b'`, compiled in the only rule of the grammar: the automaton
handed to the determinizer is `example_ab_nfa`, and the two keywords are
interned with the symbols 0 and 1. -/
theorem example_ab_body (cfg : build_config) :
    ∃ c : context,
      build_body_automaton cfg
        { registered_context ["rule".toList] with rule_index := 0, next_symbol := 0 }
        (.PARSED_CONCATENATION
          (.cons (.PARSED_LITERAL (quoted ['a']))
            (.cons (.PARSED_LITERAL (quoted ['b'])) .empty)))
        = .ok (c, cfg.determinize_minimize example_ab_nfa) ∧
      c.rule_index = 0 ∧ c.rule_index < c.grammar.rules.length ∧
      c.current_rule.keyword_tokens =
        [⟨['a'], .TOKEN_NORMAL, 0⟩, ⟨['b'], .TOKEN_NORMAL, 1⟩] := by
  simp [build_body_automaton, build_body_automaton_with,
    build_body_expression_concatenation_eq, build_body_expression_concatenation_cons_eq,
    build_body_expression_concatenation_empty_eq, build_body_expression_literal_eq,
    MAX_EXPRESSION_NESTING, registered_context, context.initial, registered_rules,
    grammar.zero, context.current_rule, context.set_current_rule, grammar.rule_at,
    grammar.set_rule, rule.fresh, add_keyword_token, find_token, find_token_from,
    keyword_text, quoted, context.enter_expression, context.leave_expression,
    implicit_token_rule_names, automaton_add_transition, automaton_mark_accepting_state,
    automaton_set_start_state, automaton.zero, example_ab_nfa, token.zero]

/-- The first step of a run. -/
theorem reaches_iff (ts : List transition) (p : Nat) (w : List Nat) (r : Nat) :
    reaches ts p w r ↔
      (p = r ∧ w = []) ∨
      (∃ q, (⟨p, q, .SYMBOL_EPSILON⟩ : transition) ∈ ts ∧ reaches ts q w r) ∨
      (∃ q s v, (⟨p, q, .issued s⟩ : transition) ∈ ts ∧ w = s :: v ∧ reaches ts q v r) := by
  constructor
  · intro h
    cases h with
    | done => exact Or.inl ⟨rfl, rfl⟩
    | epsilon _ q _ _ hm hr => exact Or.inr (Or.inl ⟨q, hm, hr⟩)
    | symbol _ q _ s v hm hr => exact Or.inr (Or.inr ⟨q, s, v, hm, rfl, hr⟩)
  · rintro (⟨rfl, rfl⟩ | ⟨q, hm, hr⟩ | ⟨q, s, v, hm, rfl, hr⟩)
    · exact reaches.done _
    · exact reaches.epsilon _ q _ _ hm hr
    · exact reaches.symbol _ q _ s v hm hr

/-- The runs of `example_ab_nfa` from its start state to its accepting state
read the symbol of `a` and then the symbol of `b`, and nothing else. -/
theorem example_ab_nfa_runs (w : List Nat) :
    reaches example_ab_nfa.transitions 0 w 1 ↔ w = [0, 1] := by
  obtain ⟨ts, hts⟩ : ∃ ts, ts = example_ab_nfa.transitions := ⟨_, rfl⟩
  rw [← hts]
  have hmem : ∀ t : transition, t ∈ ts ↔
      t = ⟨0, 2, .SYMBOL_EPSILON⟩ ∨ t = ⟨2, 3, .issued 0⟩ ∨ t = ⟨3, 4, .issued 1⟩ ∨
        t = ⟨4, 1, .SYMBOL_EPSILON⟩ := by
    intro t
    rw [hts]
    simp [example_ab_nfa]
  have h1 : ∀ v, reaches ts 1 v 1 ↔ v = [] := by
    intro v
    constructor
    · intro h
      rcases (reaches_iff _ _ _ _).1 h with ⟨_, hw⟩ | ⟨q, hm, hr⟩ | ⟨q, s, v2, hm, hw, hr⟩
      · exact hw
      · simp [hmem] at hm
      · simp [hmem] at hm
    · rintro rfl
      exact reaches.done 1
  have h4 : ∀ v, reaches ts 4 v 1 ↔ v = [] := by
    intro v
    constructor
    · intro h
      rcases (reaches_iff _ _ _ _).1 h with ⟨hp, _⟩ | ⟨q, hm, hr⟩ | ⟨q, s, v2, hm, hw, hr⟩
      · exact absurd hp (by decide)
      · simp [hmem] at hm
        subst hm
        exact (h1 v).1 hr
      · simp [hmem] at hm
    · rintro rfl
      exact reaches.epsilon 4 1 1 [] ((hmem _).2 (by simp)) (reaches.done 1)
  have h3 : ∀ v, reaches ts 3 v 1 ↔ v = [1] := by
    intro v
    constructor
    · intro h
      rcases (reaches_iff _ _ _ _).1 h with ⟨hp, _⟩ | ⟨q, hm, hr⟩ | ⟨q, s, v2, hm, hw, hr⟩
      · exact absurd hp (by decide)
      · simp [hmem] at hm
      · simp [hmem] at hm
        obtain ⟨rfl, rfl⟩ := hm
        rw [hw, (h4 v2).1 hr]
    · rintro rfl
      exact reaches.symbol 3 4 1 1 [] ((hmem _).2 (by simp)) ((h4 _).2 rfl)
  have h2 : ∀ v, reaches ts 2 v 1 ↔ v = [0, 1] := by
    intro v
    constructor
    · intro h
      rcases (reaches_iff _ _ _ _).1 h with ⟨hp, _⟩ | ⟨q, hm, hr⟩ | ⟨q, s, v2, hm, hw, hr⟩
      · exact absurd hp (by decide)
      · simp [hmem] at hm
      · simp [hmem] at hm
        obtain ⟨rfl, rfl⟩ := hm
        rw [hw, (h3 v2).1 hr]
    · rintro rfl
      exact reaches.symbol 2 3 1 0 [1] ((hmem _).2 (by simp)) ((h3 _).2 rfl)
  constructor
  · intro h
    rcases (reaches_iff _ _ _ _).1 h with ⟨hp, _⟩ | ⟨q, hm, hr⟩ | ⟨q, s, v2, hm, hw, hr⟩
    · exact absurd hp (by decide)
    · simp [hmem] at hm
      subst hm
      exact (h2 w).1 hr
    · simp [hmem] at hm
  · rintro rfl
    exact reaches.epsilon 0 2 1 _ ((hmem _).2 (by simp)) ((h2 _).2 rfl)

theorem example_ab_nfa_accepts (w : List Nat) : example_ab_nfa.accepts w ↔ w = [0, 1] := by
  unfold automaton.accepts
  simp only [example_ab_nfa, List.mem_singleton, exists_eq_left]
  exact example_ab_nfa_runs w

/-- Claim C11: the grammar `rule = 'a' 'b'` builds; the automaton handed to the
determinizer for the rule has start state 0 and accepting state 1, accepts the
sequence of the symbol of `a` followed by the symbol of `b` and no other
sequence, in particular neither the empty sequence nor the two symbols in the
other order, and has exactly two transitions that are not epsilon transitions;
the automaton stored in the rule is what the determinizer makes of it, and
accepts the same sequences when the determinizer preserves the accepted
language. -/
theorem C11_rule_ab (cfg : build_config) :
    ∃ (g : grammar) (c : context),
      build cfg grammar.zero example_ab_tree = .ok g ∧
      build_body_expression cfg
        { registered_context ["rule".toList] with
            rule_index := 0, next_symbol := 0, next_state := 2 }
        (automaton_mark_accepting_state (automaton_set_start_state automaton.zero 0) 1)
        (.PARSED_CONCATENATION
          (.cons (.PARSED_LITERAL (quoted ['a']))
            (.cons (.PARSED_LITERAL (quoted ['b'])) .empty)))
        { entry := 0, exit := 1 } = .ok (c, example_ab_nfa) ∧
      (g.rule_at 0).automaton = cfg.determinize_minimize example_ab_nfa ∧
      (g.rule_at 0).keyword_tokens =
        [⟨['a'], .TOKEN_NORMAL, 0⟩, ⟨['b'], .TOKEN_NORMAL, 1⟩] ∧
      example_ab_nfa.start_state = 0 ∧ example_ab_nfa.accepting_states = [1] ∧
      (∀ w : List Nat, example_ab_nfa.accepts w ↔ w = [0, 1]) ∧
      ¬ example_ab_nfa.accepts [] ∧ ¬ example_ab_nfa.accepts [1, 0] ∧
      (example_ab_nfa.transitions.filter
        (fun t => decide (t.symbol ≠ .SYMBOL_EPSILON))).length = 2 ∧
      ((∀ (x : automaton) (w : List Nat),
          (cfg.determinize_minimize x).accepts w ↔ x.accepts w) →
        ∀ w : List Nat, (g.rule_at 0).automaton.accepts w ↔ w = [0, 1]) := by
  obtain ⟨c, hbody, hidx, hrange, htokens⟩ := example_ab_body cfg
  obtain ⟨c2, nfa, hexpr, hc, hdet⟩ := build_body_automaton_ok_inv cfg _ _ _ _ hbody
  have hbuild : build cfg grammar.zero example_ab_tree =
      .ok (c.set_current_rule
        { c.current_rule with
            automaton := cfg.determinize_minimize example_ab_nfa }).grammar := by
    unfold example_ab_tree
    rw [build_single_simple_rule, hbody]
  have hrule : (c.set_current_rule
      { c.current_rule with
          automaton := cfg.determinize_minimize example_ab_nfa }).grammar.rule_at 0 =
      { c.current_rule with automaton := cfg.determinize_minimize example_ab_nfa } := by
    have := context.current_rule_set c
      { c.current_rule with automaton := cfg.determinize_minimize example_ab_nfa } hrange
    rw [← hidx]
    exact this
  have hnfa : example_ab_nfa =
      ⟨0, [1], [⟨0, 2, .SYMBOL_EPSILON⟩, ⟨2, 3, .issued 0⟩, ⟨3, 4, .issued 1⟩,
        ⟨4, 1, .SYMBOL_EPSILON⟩]⟩ := rfl
  have hexpr2 : ∃ c3 : context, build_body_expression cfg
        { registered_context ["rule".toList] with
            rule_index := 0, next_symbol := 0, next_state := 2 }
        (automaton_mark_accepting_state (automaton_set_start_state automaton.zero 0) 1)
        (.PARSED_CONCATENATION
          (.cons (.PARSED_LITERAL (quoted ['a']))
            (.cons (.PARSED_LITERAL (quoted ['b'])) .empty)))
        { entry := 0, exit := 1 } = .ok (c3, example_ab_nfa) := by
    simp [build_body_expression_concatenation_eq, build_body_expression_concatenation_cons_eq,
      build_body_expression_concatenation_empty_eq, build_body_expression_literal_eq,
      MAX_EXPRESSION_NESTING, registered_context, context.initial, registered_rules,
      grammar.zero, context.current_rule, context.set_current_rule, grammar.rule_at,
      grammar.set_rule, rule.fresh, add_keyword_token, find_token, find_token_from,
      keyword_text, quoted, context.enter_expression, context.leave_expression,
      implicit_token_rule_names, automaton_add_transition, automaton_mark_accepting_state,
      automaton_set_start_state, automaton.zero, example_ab_nfa, token.zero]
  obtain ⟨c3, hexpr3⟩ := hexpr2
  refine ⟨_, c3, hbuild, hexpr3, ?_, ?_, rfl, rfl, example_ab_nfa_accepts, ?_, ?_, ?_, ?_⟩
  · rw [hrule]
  · rw [hrule]; exact htokens
  · rw [example_ab_nfa_accepts]; simp
  · rw [example_ab_nfa_accepts]; simp
  · rw [hnfa]; decide
  · intro hdetp w
    rw [hrule]
    show (cfg.determinize_minimize example_ab_nfa).accepts w ↔ w = [0, 1]
    rw [hdetp, example_ab_nfa_accepts]

theorem C11_rule_ab_witness :
    ∃ g : grammar,
      build example_config grammar.zero example_ab_tree = .ok g ∧
      ((g.rule_at 0).automaton.accepts [0, 1] ∧ ¬ (g.rule_at 0).automaton.accepts [] ∧
        ¬ (g.rule_at 0).automaton.accepts [1, 0]) := by
  obtain ⟨g, c, h1, _, _, _, _, _, _, _, _, _, h⟩ := C11_rule_ab example_config
  have hall := h (fun x w => Iff.rfl)
  exact ⟨g, h1, (hall _).2 rfl, fun hc => by simpa using (hall _).1 hc,
    fun hc => by simpa using (hall _).1 hc⟩
/-! ## Runs over edges labelled by languages, and fragments -/

theorem path_mono (es es2 : List language_edge) (h : ∀ e ∈ es, e ∈ es2)
    (p : Nat) (w : List Nat) (q : Nat) (hp : path es p w q) : path es2 p w q := by
  induction hp with
  | done p => exact path.done p
  | step p q r L u w hm hu _ ih => exact path.step p q r L u w (h _ hm) hu ih

theorem path_append (es : List language_edge) (p q r : Nat) (u v : List Nat)
    (h1 : path es p u q) (h2 : path es q v r) : path es p (u ++ v) r := by
  induction h1 with
  | done p => exact h2
  | step p q r1 L u1 w hm hu _ ih =>
    rw [List.append_assoc]
    exact path.step p q r L u1 (w ++ v) hm hu (ih h2)

theorem path_edge (es : List language_edge) (p q : Nat) (L : Language Nat) (u : List Nat)
    (hm : (p, L, q) ∈ es) (hu : u ∈ L) : path es p u q := by
  have := path.step p q q L u [] hm hu (path.done q)
  rwa [List.append_nil] at this

/-- A state no edge starts at is where a run from it ends. -/
theorem path_stuck (es : List language_edge) (x : Nat) (h : ∀ e ∈ es, e.1 ≠ x)
    (w : List Nat) (r : Nat) (hp : path es x w r) : w = [] ∧ r = x := by
  cases hp with
  | done => exact ⟨rfl, rfl⟩
  | step _ q _ L u w hm hu _ => exact absurd rfl (h _ hm)

/-- The runs over transitions are the runs over their edges. -/
theorem reaches_iff_path (ts : List transition) (p : Nat) (w : List Nat) (q : Nat) :
    reaches ts p w q ↔ path (ts.map transition.edge) p w q := by
  constructor
  · intro h
    induction h with
    | done p => exact path.done p
    | epsilon p q r w hm _ ih =>
      have hstep := path.step p q r (1 : Language Nat) [] w
        (List.mem_map.2 ⟨_, hm, rfl⟩) ((Language.mem_one _).2 rfl) ih
      simpa using hstep
    | symbol p q r s w hm _ ih =>
      have hstep := path.step p q r ({[s]} : Language Nat) [s] w
        (List.mem_map.2 ⟨_, hm, rfl⟩) rfl ih
      simpa using hstep
  · intro h
    induction h with
    | done p => exact reaches.done p
    | step p q r L u w hm hu _ ih =>
      obtain ⟨t, ht, he⟩ := List.mem_map.1 hm
      obtain ⟨src, tgt, sym⟩ := t
      simp only [transition.edge, Prod.mk.injEq] at he
      obtain ⟨rfl, rfl, rfl⟩ := he
      cases sym with
      | SYMBOL_EPSILON =>
        have : u = [] := (Language.mem_one _).1 hu
        subst this
        exact reaches.epsilon _ _ _ _ ht ih
      | issued s =>
        have : u = [s] := hu
        subst this
        exact reaches.symbol _ _ _ _ _ ht ih

theorem fragment_weaken (es : List language_edge) (entry exit : Nat)
    (I I2 : Nat → Prop) (L : Language Nat) (h : fragment es entry exit I L)
    (hI : ∀ s, I s → I2 s) (hentry : ¬ I2 entry) (hexit : ¬ I2 exit) :
    fragment es entry exit I2 L := by
  obtain ⟨h1, _, _, h4, h5⟩ := h
  refine ⟨h1, hentry, hexit, ?_, h5⟩
  intro e he
  obtain ⟨k1, k2⟩ := h4 e he
  exact ⟨k1.imp id (hI _), k2.imp id (hI _)⟩

theorem fragment_congr (es es2 : List language_edge) (entry exit : Nat)
    (I : Nat → Prop) (L L2 : Language Nat) (h : fragment es entry exit I L)
    (hmem : ∀ e, e ∈ es2 ↔ e ∈ es) (hL : L = L2) : fragment es2 entry exit I L2 := by
  obtain ⟨h1, h2, h3, h4, h5⟩ := h
  subst hL
  refine ⟨h1, h2, h3, fun e he => h4 e ((hmem e).1 he), ?_⟩
  intro w
  rw [← h5 w]
  exact ⟨path_mono _ _ (fun e he => (hmem e).1 he) _ _ _,
    path_mono _ _ (fun e he => (hmem e).2 he) _ _ _⟩

/-- No edge: the fragment of the empty language. -/
theorem fragment_empty (entry exit : Nat) (I : Nat → Prop) (hne : entry ≠ exit)
    (hentry : ¬ I entry) (hexit : ¬ I exit) : fragment [] entry exit I 0 := by
  refine ⟨hne, hentry, hexit, by simp, ?_⟩
  intro w
  constructor
  · intro h
    have := path_stuck [] entry (by simp) w exit h
    exact absurd this.2.symm hne
  · intro h
    exact absurd h (Language.not_mem_zero w)

/-- One edge: the fragment of the language of the edge. -/
theorem fragment_single (entry exit : Nat) (I : Nat → Prop) (L : Language Nat)
    (hne : entry ≠ exit) (hentry : ¬ I entry) (hexit : ¬ I exit) :
    fragment [(entry, L, exit)] entry exit I L := by
  refine ⟨hne, hentry, hexit, ?_, ?_⟩
  · intro e he
    simp only [List.mem_singleton] at he
    subst he
    exact ⟨Or.inl rfl, Or.inl rfl⟩
  · intro w
    constructor
    · intro h
      cases h with
      | done => exact absurd rfl hne
      | step _ q _ L2 u w2 hm hu hrest =>
        simp only [List.mem_singleton, Prod.mk.injEq, true_and] at hm
        obtain ⟨rfl, rfl⟩ := hm
        have := path_stuck [(entry, L2, q)] q
          (by
            intro e he
            simp only [List.mem_singleton] at he
            subst he
            exact hne) w2 q hrest
        rw [this.1, List.append_nil]
        exact hu
    · intro h
      exact path_edge _ _ _ _ _ (List.mem_singleton.2 rfl) h

/-- Two fragments in a row, the exit of the first being the entry of the
second: the fragment of the product of the two languages. -/
theorem fragment_series (es1 es2 : List language_edge) (entry middle exit : Nat)
    (I1 I2 : Nat → Prop) (L1 L2 : Language Nat)
    (h1 : fragment es1 entry middle I1 L1) (h2 : fragment es2 middle exit I2 L2)
    (hne : entry ≠ exit) (hd : ∀ s, I1 s → ¬ I2 s) (hentry : ¬ I2 entry)
    (hexit : ¬ I1 exit) :
    fragment (es1 ++ es2) entry exit (fun s => I1 s ∨ I2 s ∨ s = middle) (L1 * L2) := by
  obtain ⟨a1, a2, a3, a4, a5⟩ := h1
  obtain ⟨b1, b2, b3, b4, b5⟩ := h2
  refine ⟨hne, ?_, ?_, ?_, ?_⟩
  · rintro (h | h | h)
    · exact a2 h
    · exact hentry h
    · exact a1 h
  · rintro (h | h | h)
    · exact hexit h
    · exact b3 h
    · exact b1 h.symm
  · intro e he
    rcases List.mem_append.1 he with he | he
    · obtain ⟨k1, k2⟩ := a4 e he
      refine ⟨k1.imp id (fun h => Or.inl h), Or.inr ?_⟩
      rcases k2 with k2 | k2
      · exact Or.inr (Or.inr k2)
      · exact Or.inl k2
    · obtain ⟨k1, k2⟩ := b4 e he
      refine ⟨Or.inr ?_, k2.imp id (fun h => Or.inr (Or.inl h))⟩
      rcases k1 with k1 | k1
      · exact Or.inr (Or.inr k1)
      · exact Or.inr (Or.inl k1)
  · intro w
    constructor
    · intro h
      have key : ∀ s w y, path (es1 ++ es2) s w y → y = exit →
          ((s = middle ∨ I2 s ∨ s = exit) → path es2 s w exit) ∧
          ((s = entry ∨ I1 s) →
            ∃ u v, w = u ++ v ∧ path es1 s u middle ∧ path es2 middle v exit) := by
        intro s w y hp
        induction hp with
        | done p =>
          intro hy
          subst hy
          refine ⟨fun _ => path.done _, ?_⟩
          rintro (h | h)
          · exact absurd h.symm hne
          · exact absurd h hexit
        | step p q r L u w hm hu _ ih =>
          intro hy
          obtain ⟨ih1, ih2⟩ := ih hy
          refine ⟨?_, ?_⟩
          · intro hs
            rcases List.mem_append.1 hm with hm | hm
            · exfalso
              rcases (a4 _ hm).1 with k | k
              · simp only at k
                rcases hs with h | h | h
                · exact a1 (k.symm.trans h)
                · exact hentry (k ▸ h)
                · exact hne (k.symm.trans h)
              · simp only at k
                rcases hs with h | h | h
                · exact a3 (h ▸ k)
                · exact hd _ k h
                · exact hexit (h ▸ k)
            · have ht := (b4 _ hm).2
              simp only at ht
              exact path.step p q exit L u w hm hu
                (ih1 (ht.elim (fun h => Or.inr (Or.inr h)) (fun h => Or.inr (Or.inl h))))
          · intro hs
            rcases List.mem_append.1 hm with hm | hm
            · have ht := (a4 _ hm).2
              simp only at ht
              rcases ht with ht | ht
              · refine ⟨u, w, rfl, path_edge _ _ _ _ _ (ht ▸ hm) hu, ?_⟩
                exact ht ▸ ih1 (Or.inl ht)
              · obtain ⟨u2, v2, hw, p1, p2⟩ := ih2 (Or.inr ht)
                refine ⟨u ++ u2, v2, ?_, path.step p q middle L u u2 hm hu p1, p2⟩
                rw [hw, List.append_assoc]
            · exfalso
              rcases (b4 _ hm).1 with k | k
              · simp only at k
                rcases hs with h | h
                · exact a1 (h.symm.trans k)
                · exact a3 (k ▸ h)
              · simp only at k
                rcases hs with h | h
                · exact hentry (h ▸ k)
                · exact hd _ h k
      obtain ⟨u, v, hw, p1, p2⟩ := (key entry w exit h rfl).2 (Or.inl rfl)
      rw [Language.mem_mul]
      exact ⟨u, (a5 u).1 p1, v, (b5 v).1 p2, hw.symm⟩
    · intro h
      rw [Language.mem_mul] at h
      obtain ⟨u, hu, v, hv, rfl⟩ := h
      exact path_append _ _ _ _ _ _
        (path_mono es1 _ (fun e he => List.mem_append.2 (Or.inl he)) _ _ _ ((a5 u).2 hu))
        (path_mono es2 _ (fun e he => List.mem_append.2 (Or.inr he)) _ _ _ ((b5 v).2 hv))

/-- Two fragments on the same boundary: the fragment of the union of the two
languages. -/
theorem fragment_parallel (es1 es2 : List language_edge) (entry exit : Nat)
    (I1 I2 : Nat → Prop) (L1 L2 : Language Nat)
    (h1 : fragment es1 entry exit I1 L1) (h2 : fragment es2 entry exit I2 L2)
    (hd : ∀ s, I1 s → ¬ I2 s) :
    fragment (es1 ++ es2) entry exit (fun s => I1 s ∨ I2 s) (L1 + L2) := by
  obtain ⟨a1, a2, a3, a4, a5⟩ := h1
  obtain ⟨_, b2, b3, b4, b5⟩ := h2
  refine ⟨a1, ?_, ?_, ?_, ?_⟩
  · rintro (h | h)
    · exact a2 h
    · exact b2 h
  · rintro (h | h)
    · exact a3 h
    · exact b3 h
  · intro e he
    rcases List.mem_append.1 he with he | he
    · obtain ⟨k1, k2⟩ := a4 e he
      exact ⟨k1.imp id (fun h => Or.inl h), k2.imp id (fun h => Or.inl h)⟩
    · obtain ⟨k1, k2⟩ := b4 e he
      exact ⟨k1.imp id (fun h => Or.inr h), k2.imp id (fun h => Or.inr h)⟩
  · intro w
    constructor
    · intro h
      have key : ∀ s w y, path (es1 ++ es2) s w y → y = exit →
          (s = exit → w = []) ∧ (I1 s → path es1 s w exit) ∧ (I2 s → path es2 s w exit) ∧
          (s = entry → path es1 entry w exit ∨ path es2 entry w exit) := by
        intro s w y hp
        induction hp with
        | done p =>
          intro hy
          subst hy
          exact ⟨fun _ => rfl, fun h => absurd h a3, fun h => absurd h b3,
            fun h => absurd h.symm a1⟩
        | step p q r L u w hm hu _ ih =>
          intro hy
          obtain ⟨ih0, ih1, ih2, _⟩ := ih hy
          have hfirst : (p, L, q) ∈ es1 → path es1 p (u ++ w) exit := by
            intro hm1
            have ht := (a4 _ hm1).2
            simp only at ht
            rcases ht with ht | ht
            · rw [ih0 ht, List.append_nil]
              exact path_edge _ _ _ _ _ (ht ▸ hm1) hu
            · exact path.step p q exit L u w hm1 hu (ih1 ht)
          have hsecond : (p, L, q) ∈ es2 → path es2 p (u ++ w) exit := by
            intro hm2
            have ht := (b4 _ hm2).2
            simp only at ht
            rcases ht with ht | ht
            · rw [ih0 ht, List.append_nil]
              exact path_edge _ _ _ _ _ (ht ▸ hm2) hu
            · exact path.step p q exit L u w hm2 hu (ih2 ht)
          have hsrc1 : (p, L, q) ∈ es1 → p = entry ∨ I1 p := fun hm1 => (a4 _ hm1).1
          have hsrc2 : (p, L, q) ∈ es2 → p = entry ∨ I2 p := fun hm2 => (b4 _ hm2).1
          refine ⟨?_, ?_, ?_, ?_⟩
          · intro hs
            exfalso
            rcases List.mem_append.1 hm with hm | hm
            · rcases hsrc1 hm with k | k
              · exact a1 (k.symm.trans hs)
              · exact a3 (hs ▸ k)
            · rcases hsrc2 hm with k | k
              · exact a1 (k.symm.trans hs)
              · exact b3 (hs ▸ k)
          · intro hs
            rcases List.mem_append.1 hm with hm | hm
            · exact hfirst hm
            · exfalso
              rcases hsrc2 hm with k | k
              · exact a2 (k ▸ hs)
              · exact hd _ hs k
          · intro hs
            rcases List.mem_append.1 hm with hm | hm
            · exfalso
              rcases hsrc1 hm with k | k
              · exact b2 (k ▸ hs)
              · exact hd _ k hs
            · exact hsecond hm
          · intro hs
            subst hs
            rcases List.mem_append.1 hm with hm | hm
            · exact Or.inl (hfirst hm)
            · exact Or.inr (hsecond hm)
      rw [Language.mem_add]
      rcases (key entry w exit h rfl).2.2.2 rfl with k | k
      · exact Or.inl ((a5 w).1 k)
      · exact Or.inr ((b5 w).1 k)
    · intro h
      rw [Language.mem_add] at h
      rcases h with h | h
      · exact path_mono es1 _ (fun e he => List.mem_append.2 (Or.inl he)) _ _ _ ((a5 w).2 h)
      · exact path_mono es2 _ (fun e he => List.mem_append.2 (Or.inr he)) _ _ _ ((b5 w).2 h)

theorem Language_mul_kstar_subset (L : Language Nat) (x : List Nat)
    (h : x ∈ L * KStar.kstar L) : x ∈ KStar.kstar L := by
  rw [← Language.one_add_self_mul_kstar_eq_kstar, Language.mem_add]
  exact Or.inr h

/-- A fragment with an epsilon edge into its entry, an epsilon edge out of its
exit and an epsilon edge from its exit back to its entry: the fragment of one
or more words of its language in a row. -/
theorem fragment_plus (es : List language_edge) (n m entry exit : Nat)
    (I : Nat → Prop) (L : Language Nat) (h : fragment es n m I L)
    (hne : entry ≠ exit) (hentry : ¬ I entry) (hexit : ¬ I exit)
    (hen : entry ≠ n) (hem : entry ≠ m) (hxn : exit ≠ n) (hxm : exit ≠ m) :
    fragment (es ++ [(entry, 1, n), (m, 1, exit), (m, 1, n)]) entry exit
      (fun s => I s ∨ s = n ∨ s = m) (L * KStar.kstar L) := by
  obtain ⟨a1, a2, a3, a4, a5⟩ := h
  have hcases : ∀ (p q : Nat) (L0 : Language Nat),
      (p, L0, q) ∈ es ++ [(entry, 1, n), (m, 1, exit), (m, 1, n)] →
      ((p, L0, q) ∈ es ∧ (p = n ∨ I p) ∧ (q = m ∨ I q)) ∨
      (p = entry ∧ L0 = 1 ∧ q = n) ∨ (p = m ∧ L0 = 1 ∧ q = exit) ∨
      (p = m ∧ L0 = 1 ∧ q = n) := by
    intro p q L0 hm
    rcases List.mem_append.1 hm with hm | hm
    · exact Or.inl ⟨hm, (a4 _ hm).1, (a4 _ hm).2⟩
    · simp only [List.mem_cons, Prod.mk.injEq, List.mem_singleton, List.not_mem_nil,
        or_false] at hm
      rcases hm with hm | hm | hm
      · exact Or.inr (Or.inl hm)
      · exact Or.inr (Or.inr (Or.inl hm))
      · exact Or.inr (Or.inr (Or.inr hm))
  refine ⟨hne, ?_, ?_, ?_, ?_⟩
  · rintro (h | h | h)
    · exact hentry h
    · exact hen h
    · exact hem h
  · rintro (h | h | h)
    · exact hexit h
    · exact hxn h
    · exact hxm h
  · intro e he
    obtain ⟨p, L0, q⟩ := e
    rcases hcases p q L0 he with ⟨_, k1, k2⟩ | ⟨rfl, _, rfl⟩ | ⟨rfl, _, rfl⟩ | ⟨rfl, _, rfl⟩
    · refine ⟨Or.inr ?_, Or.inr ?_⟩
      · rcases k1 with k1 | k1
        · exact Or.inr (Or.inl k1)
        · exact Or.inl k1
      · rcases k2 with k2 | k2
        · exact Or.inr (Or.inr k2)
        · exact Or.inl k2
    · exact ⟨Or.inl rfl, Or.inr (Or.inr (Or.inl rfl))⟩
    · exact ⟨Or.inr (Or.inr (Or.inr rfl)), Or.inl rfl⟩
    · exact ⟨Or.inr (Or.inr (Or.inr rfl)), Or.inr (Or.inr (Or.inl rfl))⟩
  · intro w
    constructor
    · intro hp
      have key : ∀ s w y, path (es ++ [(entry, 1, n), (m, 1, exit), (m, 1, n)]) s w y →
          y = exit →
          (s = exit → w = []) ∧ (s = m → w ∈ KStar.kstar L) ∧
          ((s = n ∨ I s) → ∃ u v, w = u ++ v ∧ path es s u m ∧ v ∈ KStar.kstar L) ∧
          (s = entry → w ∈ L * KStar.kstar L) := by
        intro s w y hp
        induction hp with
        | done p =>
          intro hy
          subst hy
          refine ⟨fun _ => rfl, fun h => absurd h hxm, ?_, fun h => absurd h.symm hne⟩
          rintro (h | h)
          · exact absurd h hxn
          · exact absurd h hexit
        | step p q r L0 u w hm hu _ ih =>
          intro hy
          obtain ⟨ih0, ih1, ih2, _⟩ := ih hy
          rcases hcases p q L0 hm with ⟨hes, k1, k2⟩ | ⟨rfl, rfl, rfl⟩ | ⟨rfl, rfl, rfl⟩ |
            ⟨rfl, rfl, rfl⟩
          · refine ⟨?_, ?_, ?_, ?_⟩
            · intro hs
              exfalso
              rcases k1 with k | k
              · exact hxn (hs.symm.trans k)
              · exact hexit (hs ▸ k)
            · intro hs
              exfalso
              rcases k1 with k | k
              · exact a1 (k.symm.trans hs)
              · exact a3 (hs ▸ k)
            · intro _
              rcases k2 with k | k
              · exact ⟨u, w, rfl, path_edge _ _ _ _ _ (k ▸ hes) hu, ih1 k⟩
              · obtain ⟨u2, v2, hw, p1, p2⟩ := ih2 (Or.inr k)
                exact ⟨u ++ u2, v2, by rw [hw, List.append_assoc],
                  path.step p q m L0 u u2 hes hu p1, p2⟩
            · intro hs
              exfalso
              rcases k1 with k | k
              · exact hen (hs.symm.trans k)
              · exact hentry (hs ▸ k)
          · have hu2 : u = [] := (Language.mem_one _).1 hu
            subst hu2
            refine ⟨fun hs => absurd hs hne, fun hs => absurd hs hem, ?_, ?_⟩
            · rintro (hs | hs)
              · exact absurd hs hen
              · exact absurd hs hentry
            · intro _
              obtain ⟨u2, v2, hw, p1, p2⟩ := ih2 (Or.inl rfl)
              rw [List.nil_append, Language.mem_mul]
              exact ⟨u2, (a5 u2).1 p1, v2, p2, hw.symm⟩
          · have hu2 : u = [] := (Language.mem_one _).1 hu
            subst hu2
            refine ⟨fun hs => absurd hs.symm hxm, ?_, ?_, fun hs => absurd hs.symm hem⟩
            · intro _
              rw [ih0 rfl]
              exact Language.nil_mem_kstar L
            · rintro (hs | hs)
              · exact absurd hs.symm a1
              · exact absurd hs a3
          · have hu2 : u = [] := (Language.mem_one _).1 hu
            subst hu2
            refine ⟨fun hs => absurd hs.symm hxm, ?_, ?_, fun hs => absurd hs.symm hem⟩
            · intro _
              obtain ⟨u2, v2, hw, p1, p2⟩ := ih2 (Or.inl rfl)
              rw [List.nil_append]
              apply Language_mul_kstar_subset
              rw [Language.mem_mul]
              exact ⟨u2, (a5 u2).1 p1, v2, p2, hw.symm⟩
            · rintro (hs | hs)
              · exact absurd hs.symm a1
              · exact absurd hs a3
      exact (key entry w exit hp rfl).2.2.2 rfl
    · intro hw
      rw [Language.mem_mul] at hw
      obtain ⟨u, hu, v, hv, rfl⟩ := hw
      have hsub : ∀ e ∈ es, e ∈ es ++ [(entry, 1, n), (m, 1, exit), (m, 1, n)] :=
        fun e he => List.mem_append.2 (Or.inl he)
      have hloop : ∀ S : List (List Nat), (∀ y ∈ S, y ∈ L) →
          path (es ++ [(entry, 1, n), (m, 1, exit), (m, 1, n)]) m S.flatten exit := by
        intro S
        induction S with
        | nil =>
          intro _
          exact path_edge _ _ _ _ _ (by simp) ((Language.mem_one _).2 rfl)
        | cons x rest ih =>
          intro hall
          have hx : x ∈ L := hall x (List.mem_cons_self _ _)
          have hrest := ih (fun y hy => hall y (List.mem_cons_of_mem _ hy))
          have hback := path_edge (es ++ [(entry, 1, n), (m, 1, exit), (m, 1, n)]) m n 1 []
            (by simp) ((Language.mem_one _).2 rfl)
          have hx2 := path_mono es _ hsub _ _ _ ((a5 x).2 hx)
          have := path_append _ _ _ _ _ _ hback (path_append _ _ _ _ _ _ hx2 hrest)
          simpa using this
      obtain ⟨S, hS, hall⟩ := Language.mem_kstar.1 hv
      have hin := path_edge (es ++ [(entry, 1, n), (m, 1, exit), (m, 1, n)]) entry n 1 []
        (by simp) ((Language.mem_one _).2 rfl)
      have hu2 := path_mono es _ hsub _ _ _ ((a5 u).2 hu)
      have := path_append _ _ _ _ _ _ hin (path_append _ _ _ _ _ _ hu2 (hloop S hall))
      rw [hS]
      simpa using this

/-- A fragment with an epsilon edge into its entry and an epsilon edge out of
its exit: a fragment of the same language on the outer boundary. -/
theorem fragment_connect (es : List language_edge) (n m entry exit : Nat)
    (I : Nat → Prop) (L : Language Nat) (h : fragment es n m I L)
    (hne : entry ≠ exit) (hentry : ¬ I entry) (hexit : ¬ I exit)
    (hen : entry ≠ n) (hem : entry ≠ m) (hxn : exit ≠ n) (hxm : exit ≠ m) :
    fragment (es ++ [(entry, 1, n), (m, 1, exit)]) entry exit
      (fun s => I s ∨ s = n ∨ s = m) L := by
  have s1 := fragment_single entry n (fun _ => False) 1 hen (fun h => h) (fun h => h)
  have s3 := fragment_single m exit (fun _ => False) 1 (fun h => hxm h.symm) (fun h => h)
    (fun h => h)
  have mid := fragment_series es [(m, 1, exit)] n m exit I (fun _ => False) L 1 h s3
    (fun h => hxn h.symm) (fun _ _ h => h) (fun h => h) hexit
  have tot := fragment_series [(entry, 1, n)] (es ++ [(m, 1, exit)]) entry n exit
    (fun _ => False) _ 1 (L * 1) s1 mid hne (fun _ h => h.elim)
    (by
      rintro (h | h | h)
      · exact hentry h
      · exact h
      · exact hem h)
    (fun h => h)
  have hc := fragment_congr _ (es ++ [(entry, 1, n), (m, 1, exit)]) _ _ _ _ L tot
    (by
      intro e
      simp only [List.mem_append, List.mem_singleton, List.mem_cons, List.not_mem_nil,
        or_false]
      constructor
      · rintro (h | h | h)
        · exact Or.inr (Or.inl h)
        · exact Or.inl h
        · exact Or.inr (Or.inr h)
      · rintro (h | h | h)
        · exact Or.inr (Or.inl h)
        · exact Or.inl h
        · exact Or.inr (Or.inr h))
    (by simp)
  refine fragment_weaken _ _ _ _ _ _ hc ?_ ?_ ?_
  · rintro s (h | (h | h | h) | h)
    · exact h.elim
    · exact Or.inl h
    · exact h.elim
    · exact Or.inr (Or.inr h)
    · exact Or.inr (Or.inl h)
  · rintro (h | h | h)
    · exact hentry h
    · exact hen h
    · exact hem h
  · rintro (h | h | h)
    · exact hexit h
    · exact hxn h
    · exact hxm h

/-- The fragment of `e*`: one or more words in a row, or the bypass. -/
theorem fragment_star (es : List language_edge) (n m entry exit : Nat)
    (I : Nat → Prop) (L : Language Nat) (h : fragment es n m I L)
    (hne : entry ≠ exit) (hentry : ¬ I entry) (hexit : ¬ I exit)
    (hen : entry ≠ n) (hem : entry ≠ m) (hxn : exit ≠ n) (hxm : exit ≠ m) :
    fragment (es ++ [(entry, 1, n), (m, 1, exit), (m, 1, n), (entry, 1, exit)]) entry exit
      (fun s => I s ∨ s = n ∨ s = m) (KStar.kstar L) := by
  have hp := fragment_plus es n m entry exit I L h hne hentry hexit hen hem hxn hxm
  have hs := fragment_single entry exit (fun _ => False) 1 hne (fun h => h) (fun h => h)
  have tot := fragment_parallel _ _ entry exit _ _ _ _ hp hs (fun _ _ h => h)
  have hc := fragment_congr _
    (es ++ [(entry, 1, n), (m, 1, exit), (m, 1, n), (entry, 1, exit)]) _ _ _ _
    (KStar.kstar L) tot
    (by
      intro e
      simp only [List.mem_append, List.mem_singleton, List.mem_cons, List.not_mem_nil,
        or_false]
      tauto)
    (by rw [add_comm, Language.one_add_self_mul_kstar_eq_kstar])
  refine fragment_weaken _ _ _ _ _ _ hc ?_ hp.2.1 hp.2.2.1
  rintro s (h | h)
  · exact h
  · exact h.elim

/-- The fragment of `e?`: one word, or the bypass. -/
theorem fragment_optional (es : List language_edge) (n m entry exit : Nat)
    (I : Nat → Prop) (L : Language Nat) (h : fragment es n m I L)
    (hne : entry ≠ exit) (hentry : ¬ I entry) (hexit : ¬ I exit)
    (hen : entry ≠ n) (hem : entry ≠ m) (hxn : exit ≠ n) (hxm : exit ≠ m) :
    fragment (es ++ [(entry, 1, n), (m, 1, exit), (entry, 1, exit)]) entry exit
      (fun s => I s ∨ s = n ∨ s = m) (1 + L) := by
  have hp := fragment_connect es n m entry exit I L h hne hentry hexit hen hem hxn hxm
  have hs := fragment_single entry exit (fun _ => False) 1 hne (fun h => h) (fun h => h)
  have tot := fragment_parallel _ _ entry exit _ _ _ _ hp hs (fun _ _ h => h)
  have hc := fragment_congr _
    (es ++ [(entry, 1, n), (m, 1, exit), (entry, 1, exit)]) _ _ _ _ (1 + L) tot
    (by
      intro e
      simp only [List.mem_append, List.mem_singleton, List.mem_cons, List.not_mem_nil,
        or_false]
      tauto)
    (by rw [add_comm])
  refine fragment_weaken _ _ _ _ _ _ hc ?_ hp.2.1 hp.2.2.1
  rintro s (h | h)
  · exact h
  · exact h.elim
/-! ## The language of the fragment a build adds -/

theorem built_fragment_leaf (ctx : context) (a : automaton) (b : boundary_states)
    (c1 : context) (symbol : symbol_id) (hN : ctx.next_state ≤ c1.next_state)
    (hentry : b.entry < ctx.next_state) (hexit : b.exit < ctx.next_state)
    (hne : b.entry ≠ b.exit) :
    built_fragment ctx a b c1 (automaton_add_transition a b.entry b.exit symbol)
      (symbol_language symbol) := by
  refine ⟨hN, rfl, rfl, [⟨b.entry, b.exit, symbol⟩], rfl, ?_⟩
  exact fragment_single b.entry b.exit _ (symbol_language symbol) hne
    (fun h => by omega) (fun h => by omega)

theorem fragment_ident (identifier : byte_string) (rename : Option byte_string) :
    expression_fragment (.PARSED_IDENT identifier rename) := by
  intro cfg ctx a b c1 a1 _ hentry hexit hne h
  obtain ⟨_, t, c2, r2, i, hfind, _, hadd, hc, ha⟩ :=
    build_body_expression_ident_ok cfg ctx c1 a a1 identifier rename b h
  have hf := add_slot_fields cfg _ _ _ _ _ _ _ hadd
  have hN : c1.next_state = ctx.next_state := by rw [hc]; exact hf.2.2.2.2.1
  refine ⟨symbol_language (.issued (r2.slots.getD i slot.zero).symbol), ?_, ?_⟩
  · rw [hc]
    exact expression_denotes.ident ctx c2 r2 identifier rename t i hfind hadd
  · rw [ha]
    exact built_fragment_leaf ctx a b c1 _ (by rw [hN]) hentry hexit hne

theorem fragment_literal (string : byte_string) :
    expression_fragment (.PARSED_LITERAL string) := by
  intro cfg ctx a b c1 a1 _ hentry hexit hne h
  obtain ⟨_, c2, r2, s, hadd, hc, ha⟩ :=
    build_body_expression_literal_ok cfg ctx c1 a a1 string b h
  have hf := add_keyword_token_fields _ _ _ _ _ _ _ hadd
  have hN : c1.next_state = ctx.next_state := by rw [hc]; exact hf.2.2.2.2.1
  refine ⟨symbol_language s, ?_, ?_⟩
  · rw [hc]
    exact expression_denotes.literal ctx c2 r2 string s hadd
  · rw [ha]
    exact built_fragment_leaf ctx a b c1 _ (by rw [hN]) hentry hexit hne

theorem fragment_bracketed (bracket_expr : parsed_expr_list)
    (begin_token end_token : byte_string) :
    expression_fragment (.PARSED_BRACKETED bracket_expr begin_token end_token) := by
  intro cfg ctx a b c1 a1 _ hentry hexit hne h
  obtain ⟨_, c3, ba, c5, r5, s5, c7, r7, s7, _, _, _, _, _, _, ha⟩ :=
    build_body_expression_bracketed_ok cfg ctx c1 a a1 bracket_expr begin_token end_token b h
  have hN := (build_body_expression_edges _ cfg ctx a b c1 a1 h).2.2.1
  refine ⟨_, expression_denotes.bracketed ctx c1 a a1 b bracket_expr begin_token end_token
    c3.next_symbol h ha, ?_⟩
  rw [ha]
  exact built_fragment_leaf ctx a b c1 _ hN hentry hexit hne

theorem fragment_parens (expr : parsed_expr) (ih : expression_fragment expr) :
    expression_fragment (.PARSED_PARENS expr) := by
  intro cfg ctx a b c1 a1 ht hentry hexit hne h
  obtain ⟨_, c2, hsub, hc⟩ := build_body_expression_parens_ok cfg ctx c1 a a1 expr b h
  simp only [parsed_expr.has_terms] at ht
  obtain ⟨L, hden, hfrag⟩ := ih cfg ctx.enter_expression a b c2 a1 ht hentry hexit hne hsub
  refine ⟨L, ?_, ?_⟩
  · rw [hc]
    exact expression_denotes.parens ctx c2 expr L hden
  · rw [hc]
    exact hfrag

theorem fragment_choice (operand : parsed_expr_list)
    (ih : expression_list_fragment operand) :
    expression_fragment (.PARSED_CHOICE operand) := by
  intro cfg ctx a b c1 a1 ht hentry hexit hne h
  obtain ⟨_, c2, hsub, hc⟩ := build_body_expression_choice_ok cfg ctx c1 a a1 operand b h
  simp only [parsed_expr.has_terms] at ht
  obtain ⟨L, hden, hfrag⟩ :=
    ih.1 cfg ctx.enter_expression a b c2 a1 ht hentry hexit hne hsub
  refine ⟨L, ?_, ?_⟩
  · rw [hc]
    exact expression_denotes.choice ctx c2 operand L hden
  · rw [hc]
    exact hfrag

/-- The inner expression of `connect_expression`, built between the two fresh
states: its fragment, and the transitions the call ends up with. -/
theorem connect_expression_fragment (expr : parsed_expr) (ih : expression_fragment expr)
    (cfg : build_config) (ctx c1 : context) (a a1 : automaton)
    (outer inner : boundary_states) (ht : expr.has_terms = true)
    (h : connect_expression cfg ctx a expr outer = .ok (c1, a1, inner)) :
    inner = { entry := ctx.next_state, exit := ctx.next_state + 1 } ∧
    ctx.next_state + 2 ≤ c1.next_state ∧ a1.start_state = a.start_state ∧
    a1.accepting_states = a.accepting_states ∧
    ∃ (L : Language Nat) (added : List transition),
      expression_denotes cfg { ctx with next_state := ctx.next_state + 1 + 1 } expr c1 L ∧
      a1.transitions = a.transitions ++ (added ++
        [⟨outer.entry, ctx.next_state, .SYMBOL_EPSILON⟩,
         ⟨ctx.next_state + 1, outer.exit, .SYMBOL_EPSILON⟩]) ∧
      fragment (added.map transition.edge) ctx.next_state (ctx.next_state + 1)
        (fun s => ctx.next_state + 2 ≤ s ∧ s < c1.next_state) L := by
  obtain ⟨hinner, a2, hsub, ha1⟩ := connect_expression_ok cfg ctx c1 a a1 expr outer inner h
  obtain ⟨L, hden, hN, hs, hacc, added, hadd, hfrag⟩ :=
    ih cfg { ctx with next_state := ctx.next_state + 1 + 1 } a
      { entry := ctx.next_state, exit := ctx.next_state + 1 } c1 a2 ht
      (by show ctx.next_state < ctx.next_state + 1 + 1; omega)
      (by show ctx.next_state + 1 < ctx.next_state + 1 + 1; omega)
      (by show ctx.next_state ≠ ctx.next_state + 1; omega) hsub
  refine ⟨hinner, hN, ?_, ?_, L, added, hden, ?_, hfrag⟩
  · rw [ha1]; exact hs
  · rw [ha1]; exact hacc
  · rw [ha1]
    simp only [automaton_add_transition, hadd, List.append_assoc, List.cons_append,
      List.nil_append]

theorem fragment_zero_or_more (operand : parsed_expr) (ih : expression_fragment operand) :
    expression_fragment (.PARSED_ZERO_OR_MORE operand) := by
  intro cfg ctx a b c1 a1 ht hentry hexit hne h
  obtain ⟨_, c2, a2, inner, hsub, hc, ha⟩ :=
    build_body_expression_zero_or_more_ok cfg ctx c1 a a1 operand b h
  simp only [parsed_expr.has_terms] at ht
  obtain ⟨hinner, hN, hs, hacc, L, added, hden, hadd, hfrag⟩ :=
    connect_expression_fragment operand ih cfg ctx.enter_expression c2 a a2 b inner ht hsub
  have hn : ctx.enter_expression.next_state = ctx.next_state := rfl
  rw [hn] at hinner hN hadd hfrag
  have hN1 : c1.next_state = c2.next_state := by rw [hc]; rfl
  refine ⟨KStar.kstar L, ?_, ?_⟩
  · rw [hc]
    exact expression_denotes.zero_or_more ctx c2 operand L hden
  · refine ⟨by omega, by rw [ha]; exact hs, by rw [ha]; exact hacc,
      added ++ [⟨b.entry, ctx.next_state, .SYMBOL_EPSILON⟩,
        ⟨ctx.next_state + 1, b.exit, .SYMBOL_EPSILON⟩,
        ⟨ctx.next_state + 1, ctx.next_state, .SYMBOL_EPSILON⟩,
        ⟨b.entry, b.exit, .SYMBOL_EPSILON⟩], ?_, ?_⟩
    · rw [ha, hinner]
      simp only [automaton_add_transition, hadd, List.append_assoc, List.cons_append,
        List.nil_append]
    · have hstar := fragment_star (added.map transition.edge) ctx.next_state
        (ctx.next_state + 1) b.entry b.exit _ L hfrag hne
        (fun h => by omega) (fun h => by omega) (by omega) (by omega) (by omega) (by omega)
      have hmap : (added ++ [(⟨b.entry, ctx.next_state, .SYMBOL_EPSILON⟩ : transition),
          ⟨ctx.next_state + 1, b.exit, .SYMBOL_EPSILON⟩,
          ⟨ctx.next_state + 1, ctx.next_state, .SYMBOL_EPSILON⟩,
          ⟨b.entry, b.exit, .SYMBOL_EPSILON⟩]).map transition.edge =
          added.map transition.edge ++
            [(b.entry, 1, ctx.next_state), (ctx.next_state + 1, 1, b.exit),
             (ctx.next_state + 1, 1, ctx.next_state), (b.entry, 1, b.exit)] := by
        rw [List.map_append]
        rfl
      rw [hmap, hN1]
      refine fragment_weaken _ _ _ _ _ _ hstar ?_ (fun h => by omega) (fun h => by omega)
      rintro s (hs | hs | hs) <;> omega

theorem fragment_one_or_more (operand : parsed_expr) (ih : expression_fragment operand) :
    expression_fragment (.PARSED_ONE_OR_MORE operand) := by
  intro cfg ctx a b c1 a1 ht hentry hexit hne h
  obtain ⟨_, c2, a2, inner, hsub, hc, ha⟩ :=
    build_body_expression_one_or_more_ok cfg ctx c1 a a1 operand b h
  simp only [parsed_expr.has_terms] at ht
  obtain ⟨hinner, hN, hs, hacc, L, added, hden, hadd, hfrag⟩ :=
    connect_expression_fragment operand ih cfg ctx.enter_expression c2 a a2 b inner ht hsub
  have hn : ctx.enter_expression.next_state = ctx.next_state := rfl
  rw [hn] at hinner hN hadd hfrag
  have hN1 : c1.next_state = c2.next_state := by rw [hc]; rfl
  refine ⟨L * KStar.kstar L, ?_, ?_⟩
  · rw [hc]
    exact expression_denotes.one_or_more ctx c2 operand L hden
  · refine ⟨by omega, by rw [ha]; exact hs, by rw [ha]; exact hacc,
      added ++ [⟨b.entry, ctx.next_state, .SYMBOL_EPSILON⟩,
        ⟨ctx.next_state + 1, b.exit, .SYMBOL_EPSILON⟩,
        ⟨ctx.next_state + 1, ctx.next_state, .SYMBOL_EPSILON⟩], ?_, ?_⟩
    · rw [ha, hinner]
      simp only [automaton_add_transition, hadd, List.append_assoc, List.cons_append,
        List.nil_append]
    · have hplus := fragment_plus (added.map transition.edge) ctx.next_state
        (ctx.next_state + 1) b.entry b.exit _ L hfrag hne
        (fun h => by omega) (fun h => by omega) (by omega) (by omega) (by omega) (by omega)
      have hmap : (added ++ [(⟨b.entry, ctx.next_state, .SYMBOL_EPSILON⟩ : transition),
          ⟨ctx.next_state + 1, b.exit, .SYMBOL_EPSILON⟩,
          ⟨ctx.next_state + 1, ctx.next_state, .SYMBOL_EPSILON⟩]).map transition.edge =
          added.map transition.edge ++
            [(b.entry, 1, ctx.next_state), (ctx.next_state + 1, 1, b.exit),
             (ctx.next_state + 1, 1, ctx.next_state)] := by
        rw [List.map_append]
        rfl
      rw [hmap, hN1]
      refine fragment_weaken _ _ _ _ _ _ hplus ?_ (fun h => by omega) (fun h => by omega)
      rintro s (hs | hs | hs) <;> omega

theorem fragment_optional_case (operand : parsed_expr) (ih : expression_fragment operand) :
    expression_fragment (.PARSED_OPTIONAL operand) := by
  intro cfg ctx a b c1 a1 ht hentry hexit hne h
  obtain ⟨_, c2, a2, inner, hsub, hc, ha⟩ :=
    build_body_expression_optional_ok cfg ctx c1 a a1 operand b h
  simp only [parsed_expr.has_terms] at ht
  obtain ⟨hinner, hN, hs, hacc, L, added, hden, hadd, hfrag⟩ :=
    connect_expression_fragment operand ih cfg ctx.enter_expression c2 a a2 b inner ht hsub
  have hn : ctx.enter_expression.next_state = ctx.next_state := rfl
  rw [hn] at hinner hN hadd hfrag
  have hN1 : c1.next_state = c2.next_state := by rw [hc]; rfl
  refine ⟨1 + L, ?_, ?_⟩
  · rw [hc]
    exact expression_denotes.optional ctx c2 operand L hden
  · refine ⟨by omega, by rw [ha]; exact hs, by rw [ha]; exact hacc,
      added ++ [⟨b.entry, ctx.next_state, .SYMBOL_EPSILON⟩,
        ⟨ctx.next_state + 1, b.exit, .SYMBOL_EPSILON⟩,
        ⟨b.entry, b.exit, .SYMBOL_EPSILON⟩], ?_, ?_⟩
    · rw [ha]
      simp only [automaton_add_transition, hadd, List.append_assoc, List.cons_append,
        List.nil_append]
    · have hopt := fragment_optional (added.map transition.edge) ctx.next_state
        (ctx.next_state + 1) b.entry b.exit _ L hfrag hne
        (fun h => by omega) (fun h => by omega) (by omega) (by omega) (by omega) (by omega)
      have hmap : (added ++ [(⟨b.entry, ctx.next_state, .SYMBOL_EPSILON⟩ : transition),
          ⟨ctx.next_state + 1, b.exit, .SYMBOL_EPSILON⟩,
          ⟨b.entry, b.exit, .SYMBOL_EPSILON⟩]).map transition.edge =
          added.map transition.edge ++
            [(b.entry, 1, ctx.next_state), (ctx.next_state + 1, 1, b.exit),
             (b.entry, 1, b.exit)] := by
        rw [List.map_append]
        rfl
      rw [hmap, hN1]
      refine fragment_weaken _ _ _ _ _ _ hopt ?_ (fun h => by omega) (fun h => by omega)
      rintro s (hs | hs | hs) <;> omega

theorem fragment_concatenation (operand : parsed_expr_list)
    (ih : expression_list_fragment operand) :
    expression_fragment (.PARSED_CONCATENATION operand) := by
  intro cfg ctx a b c1 a1 ht hentry hexit hne h
  obtain ⟨_, c2, a2, inner, hsub, hc, ha⟩ :=
    build_body_expression_concatenation_ok cfg ctx c1 a a1 operand b h
  obtain ⟨hnonempty, ht2⟩ := parsed_expr.has_terms_concatenation operand ht
  obtain ⟨L, hden, hN, hs, hacc, added, hadd, _, hchain⟩ :=
    ih.2 cfg { ctx.enter_expression with next_state := ctx.next_state + 1 }
      (automaton_add_transition a b.entry ctx.next_state .SYMBOL_EPSILON)
      { entry := ctx.next_state, exit := 0 } c2 a2 inner ht2
      (by show ctx.next_state < ctx.next_state + 1; omega) hsub
  obtain ⟨hf1, hf2, hfrag⟩ := hchain hnonempty
  have hN : ctx.next_state + 1 ≤ c2.next_state := hN
  have hf1 : ctx.next_state + 1 ≤ inner.exit := hf1
  have hfrag : fragment (added.map transition.edge) ctx.next_state inner.exit
      (fun s => ctx.next_state + 1 ≤ s ∧ s < c2.next_state ∧ s ≠ inner.exit) L := hfrag
  have hN1 : c1.next_state = c2.next_state := by rw [hc]; rfl
  refine ⟨L, ?_, ?_⟩
  · rw [hc]
    exact expression_denotes.concatenation ctx c2 operand L hden
  · refine ⟨by omega, by rw [ha]; exact hs, by rw [ha]; exact hacc,
      [(⟨b.entry, ctx.next_state, .SYMBOL_EPSILON⟩ : transition)] ++ added ++
        [(⟨inner.exit, b.exit, .SYMBOL_EPSILON⟩ : transition)], ?_, ?_⟩
    · rw [ha]
      simp only [automaton_add_transition, hadd, List.append_assoc, List.cons_append,
        List.nil_append]
    · have hconn := fragment_connect (added.map transition.edge) ctx.next_state inner.exit
        b.entry b.exit _ L hfrag hne
        (fun h => by omega) (fun h => by omega) (by omega) (by omega) (by omega) (by omega)
      rw [hN1]
      have hmap : ([(⟨b.entry, ctx.next_state, .SYMBOL_EPSILON⟩ : transition)] ++ added ++
          [(⟨inner.exit, b.exit, .SYMBOL_EPSILON⟩ : transition)]).map transition.edge =
          [(b.entry, 1, ctx.next_state)] ++ added.map transition.edge ++
            [(inner.exit, 1, b.exit)] := by
        rw [List.map_append, List.map_append]
        rfl
      rw [hmap]
      have hc2 := fragment_congr _
        ([(b.entry, 1, ctx.next_state)] ++ added.map transition.edge ++
            [(inner.exit, 1, b.exit)]) _ _ _ _ L hconn
        (by
          intro e
          simp only [List.mem_append, List.mem_singleton, List.mem_cons, List.not_mem_nil,
            or_false]
          tauto)
        rfl
      refine fragment_weaken _ _ _ _ _ _ hc2 ?_ (fun h => by omega) (fun h => by omega)
      rintro s (hs | hs | hs) <;> omega

theorem fragment_list_empty : expression_list_fragment .empty := by
  refine ⟨?_, ?_⟩
  · intro cfg ctx a b c1 a1 _ hentry hexit hne h
    rw [build_body_expression_choice_empty_eq] at h
    simp only [Except.ok.injEq, Prod.mk.injEq] at h
    obtain ⟨h1, h2⟩ := h
    subst h1
    subst h2
    refine ⟨0, choice_denotes.empty ctx, Nat.le_refl _, rfl, rfl, [], by simp, ?_⟩
    exact fragment_empty _ _ _ hne (fun h => by omega) (fun h => by omega)
  · intro cfg ctx a inner c1 a1 inner1 _ _ h
    rw [build_body_expression_concatenation_empty_eq] at h
    simp only [Except.ok.injEq, Prod.mk.injEq] at h
    obtain ⟨h1, h2, h3⟩ := h
    subst h1
    subst h2
    subst h3
    exact ⟨1, concatenation_denotes.empty ctx, Nat.le_refl _, rfl, rfl, [], by simp,
      fun _ => ⟨rfl, rfl, rfl⟩, fun hne => absurd rfl hne⟩

theorem fragment_list_cons (head : parsed_expr) (next : parsed_expr_list)
    (ihh : expression_fragment head) (ihn : expression_list_fragment next) :
    expression_list_fragment (.cons head next) := by
  refine ⟨?_, ?_⟩
  · intro cfg ctx a b c1 a1 ht hentry hexit hne h
    obtain ⟨c2, a2, inner, hhead, hnext⟩ :=
      build_body_expression_choice_cons_ok cfg ctx c1 a a1 head next b h
    simp only [parsed_expr_list.has_terms, Bool.and_eq_true] at ht
    obtain ⟨hinner, hN, hs, hacc, L1, add1, hden1, hadd1, hfrag1⟩ :=
      connect_expression_fragment head ihh cfg ctx c2 a a2 b inner ht.1 hhead
    obtain ⟨L2, hden2, hN2, hs2, hacc2, add2, hadd2, hfrag2⟩ :=
      ihn.1 cfg c2 a2 b c1 a1 ht.2 (by omega) (by omega) hne hnext
    refine ⟨L1 + L2, choice_denotes.cons ctx c2 c1 head next L1 L2 hden1 hden2, by omega,
      hs2.trans hs, hacc2.trans hacc,
      (add1 ++ [⟨b.entry, ctx.next_state, .SYMBOL_EPSILON⟩,
        ⟨ctx.next_state + 1, b.exit, .SYMBOL_EPSILON⟩]) ++ add2, ?_, ?_⟩
    · rw [hadd2, hadd1, List.append_assoc]
    · have hconn := fragment_connect (add1.map transition.edge) ctx.next_state
        (ctx.next_state + 1) b.entry b.exit _ L1 hfrag1 hne
        (fun h => by omega) (fun h => by omega) (by omega) (by omega) (by omega) (by omega)
      have hpar := fragment_parallel _ _ b.entry b.exit _ _ L1 L2 hconn hfrag2
        (by
          rintro s (hs | hs | hs) hs2 <;> omega)
      have hmap : ((add1 ++ [(⟨b.entry, ctx.next_state, .SYMBOL_EPSILON⟩ : transition),
          ⟨ctx.next_state + 1, b.exit, .SYMBOL_EPSILON⟩]) ++ add2).map transition.edge =
          (add1.map transition.edge ++
            [(b.entry, 1, ctx.next_state), (ctx.next_state + 1, 1, b.exit)]) ++
            add2.map transition.edge := by
        rw [List.map_append, List.map_append]
        rfl
      rw [hmap]
      refine fragment_weaken _ _ _ _ _ _ hpar ?_ (fun h => by omega) (fun h => by omega)
      rintro s ((hs | hs | hs) | hs) <;> omega
  · intro cfg ctx a inner c1 a1 inner1 ht hentry h
    obtain ⟨c2, a2, hhead, hnext⟩ :=
      build_body_expression_concatenation_cons_ok cfg ctx c1 a a1 head next inner inner1 h
    simp only [parsed_expr_list.has_terms, Bool.and_eq_true] at ht
    obtain ⟨L1, hden1, hN, hs, hacc, add1, hadd1, hfrag1⟩ :=
      ihh cfg { ctx with next_state := ctx.next_state + 1 } a
        { entry := inner.entry, exit := ctx.next_state } c2 a2 ht.1
        (by show inner.entry < ctx.next_state + 1; omega)
        (by show ctx.next_state < ctx.next_state + 1; omega)
        (by show inner.entry ≠ ctx.next_state; omega) hhead
    have hN : ctx.next_state + 1 ≤ c2.next_state := hN
    have hfrag1 : fragment (add1.map transition.edge) inner.entry ctx.next_state
        (fun s => ctx.next_state + 1 ≤ s ∧ s < c2.next_state) L1 := hfrag1
    obtain ⟨L2, hden2, hN2, hs2, hacc2, add2, hadd2, hempty, hchain⟩ :=
      ihn.2 cfg c2 a2 { entry := ctx.next_state, exit := ctx.next_state } c1 a1 inner1 ht.2
        (by show ctx.next_state < c2.next_state; omega) hnext
    refine ⟨L1 * L2, concatenation_denotes.cons ctx c2 c1 head next L1 L2 hden1 hden2,
      by omega, hs2.trans hs, hacc2.trans hacc, add1 ++ add2,
      by rw [hadd2, hadd1, List.append_assoc],
      fun he => parsed_expr_list.noConfusion he, ?_⟩
    intro _
    by_cases hnext_empty : next = .empty
    · obtain ⟨e1, e2, e3⟩ := hempty hnext_empty
      subst e1
      subst e2
      subst e3
      refine ⟨Nat.le_refl _, by show ctx.next_state < c1.next_state; omega, ?_⟩
      rw [List.append_nil, mul_one]
      refine fragment_weaken _ _ _ _ _ _ hfrag1 ?_ (fun h => by omega) (fun h => by simp at h)
      rintro s ⟨hs1, hs2⟩
      exact ⟨by omega, by omega, by show s ≠ ctx.next_state; omega⟩
    · obtain ⟨f1, f2, hfrag2⟩ := hchain hnext_empty
      have hfrag2 : fragment (add2.map transition.edge) ctx.next_state inner1.exit
          (fun s => c2.next_state ≤ s ∧ s < c1.next_state ∧ s ≠ inner1.exit) L2 := hfrag2
      refine ⟨by omega, f2, ?_⟩
      have hser := fragment_series _ _ inner.entry ctx.next_state inner1.exit _ _ L1 L2
        hfrag1 hfrag2 (by omega) (by rintro s ⟨h1, h2⟩ ⟨h3, _⟩; omega)
        (fun h => by omega) (fun h => by omega)
      rw [List.map_append]
      refine fragment_weaken _ _ _ _ _ _ hser ?_ (fun h => by omega) (fun h => h.2.2 rfl)
      rintro s (hs | hs | hs)
      · exact ⟨by omega, by omega, by omega⟩
      · exact ⟨by omega, by omega, hs.2.2⟩
      · exact ⟨by omega, by omega, by omega⟩

/-- A successful build of an expression, every concatenation of which has a
term, on a boundary of two different states that are already allocated, adds a
fragment for the language the expression denotes. -/
theorem build_body_expression_fragment (expr : parsed_expr) : expression_fragment expr :=
  parsed_expr.rec (motive_1 := expression_fragment) (motive_2 := expression_list_fragment)
    fragment_choice fragment_concatenation fragment_ident fragment_literal fragment_parens
    (fun l b e _ => fragment_bracketed l b e) fragment_zero_or_more fragment_one_or_more
    fragment_optional_case fragment_list_empty fragment_list_cons expr
/-! ## The denoted language is unique -/

theorem denotes_once_literal (string : byte_string) :
    expression_denotes_once (.PARSED_LITERAL string) := by
  intro cfg ctx c1 c2 L1 L2 h1 h2
  cases h1 with
  | literal _ d1 r1 _ s1 e1 =>
    cases h2 with
    | literal _ d2 r2 _ s2 e2 =>
      rw [e1] at e2
      simp only [Except.ok.injEq, Prod.mk.injEq] at e2
      obtain ⟨rfl, rfl, rfl⟩ := e2
      exact ⟨rfl, rfl⟩

theorem denotes_once_ident (identifier : byte_string) (rename : Option byte_string) :
    expression_denotes_once (.PARSED_IDENT identifier rename) := by
  intro cfg ctx c1 c2 L1 L2 h1 h2
  cases h1 with
  | ident _ d1 r1 _ _ t1 i1 f1 e1 =>
    cases h2 with
    | ident _ d2 r2 _ _ t2 i2 f2 e2 =>
      rw [f1] at f2
      simp only [Option.some.injEq] at f2
      subst f2
      rw [e1] at e2
      simp only [Except.ok.injEq, Prod.mk.injEq] at e2
      obtain ⟨rfl, rfl, rfl⟩ := e2
      exact ⟨rfl, rfl⟩

theorem denotes_once_bracketed (bracket_expr : parsed_expr_list)
    (begin_token end_token : byte_string) :
    expression_denotes_once (.PARSED_BRACKETED bracket_expr begin_token end_token) := by
  intro cfg ctx c1 c2 L1 L2 h1 h2
  cases h1 with
  | bracketed _ _ a1 b1 x1 _ _ _ s1 e1 g1 =>
    cases h2 with
    | bracketed _ _ a2 b2 x2 _ _ _ s2 e2 g2 =>
      obtain ⟨_, c3, ba, c5, r5, t5, c7, r7, t7, k1, k2, k3, _, _, k6, k7⟩ :=
        build_body_expression_bracketed_ok cfg ctx c1 a1 b1 bracket_expr begin_token
          end_token x1 e1
      obtain ⟨_, c3', ba', c5', r5', t5', c7', r7', t7', m1, m2, m3, _, _, m6, m7⟩ :=
        build_body_expression_bracketed_ok cfg ctx c2 a2 b2 bracket_expr begin_token
          end_token x2 e2
      rw [k1] at m1
      simp only [Except.ok.injEq, Prod.mk.injEq] at m1
      obtain ⟨rfl, rfl⟩ := m1
      rw [k2] at m2
      simp only [Except.ok.injEq, Prod.mk.injEq] at m2
      obtain ⟨rfl, rfl, rfl⟩ := m2
      rw [k3] at m3
      simp only [Except.ok.injEq, Prod.mk.injEq] at m3
      obtain ⟨rfl, rfl, rfl⟩ := m3
      have hs1 : s1 = c3.next_symbol := by
        rw [g1] at k7
        have := congrArg automaton.transitions k7
        simp only [automaton_add_transition, List.append_cancel_left_eq, List.cons.injEq,
          transition.mk.injEq, symbol_id.issued.injEq, true_and, and_true] at this
        exact this
      have hs2 : s2 = c3.next_symbol := by
        rw [g2] at m7
        have := congrArg automaton.transitions m7
        simp only [automaton_add_transition, List.append_cancel_left_eq, List.cons.injEq,
          transition.mk.injEq, symbol_id.issued.injEq, true_and, and_true] at this
        exact this
      exact ⟨k6.trans m6.symm, by rw [hs1, hs2]⟩

theorem denotes_once_parens (expr : parsed_expr) (ih : expression_denotes_once expr) :
    expression_denotes_once (.PARSED_PARENS expr) := by
  intro cfg ctx c1 c2 L1 L2 h1 h2
  cases h1 with
  | parens _ d1 _ _ e1 =>
    cases h2 with
    | parens _ d2 _ _ e2 =>
      obtain ⟨rfl, rfl⟩ := ih cfg _ _ _ _ _ e1 e2
      exact ⟨rfl, rfl⟩

theorem denotes_once_choice (operand : parsed_expr_list)
    (ih : expression_list_denotes_once operand) :
    expression_denotes_once (.PARSED_CHOICE operand) := by
  intro cfg ctx c1 c2 L1 L2 h1 h2
  cases h1 with
  | choice _ d1 _ _ e1 =>
    cases h2 with
    | choice _ d2 _ _ e2 =>
      obtain ⟨rfl, rfl⟩ := ih.1 cfg _ _ _ _ _ e1 e2
      exact ⟨rfl, rfl⟩

theorem denotes_once_concatenation (operand : parsed_expr_list)
    (ih : expression_list_denotes_once operand) :
    expression_denotes_once (.PARSED_CONCATENATION operand) := by
  intro cfg ctx c1 c2 L1 L2 h1 h2
  cases h1 with
  | concatenation _ d1 _ _ e1 =>
    cases h2 with
    | concatenation _ d2 _ _ e2 =>
      obtain ⟨rfl, rfl⟩ := ih.2 cfg _ _ _ _ _ e1 e2
      exact ⟨rfl, rfl⟩

theorem denotes_once_zero_or_more (operand : parsed_expr)
    (ih : expression_denotes_once operand) :
    expression_denotes_once (.PARSED_ZERO_OR_MORE operand) := by
  intro cfg ctx c1 c2 L1 L2 h1 h2
  cases h1 with
  | zero_or_more _ d1 _ _ e1 =>
    cases h2 with
    | zero_or_more _ d2 _ _ e2 =>
      obtain ⟨rfl, rfl⟩ := ih cfg _ _ _ _ _ e1 e2
      exact ⟨rfl, rfl⟩

theorem denotes_once_one_or_more (operand : parsed_expr)
    (ih : expression_denotes_once operand) :
    expression_denotes_once (.PARSED_ONE_OR_MORE operand) := by
  intro cfg ctx c1 c2 L1 L2 h1 h2
  cases h1 with
  | one_or_more _ d1 _ _ e1 =>
    cases h2 with
    | one_or_more _ d2 _ _ e2 =>
      obtain ⟨rfl, rfl⟩ := ih cfg _ _ _ _ _ e1 e2
      exact ⟨rfl, rfl⟩

theorem denotes_once_optional (operand : parsed_expr)
    (ih : expression_denotes_once operand) :
    expression_denotes_once (.PARSED_OPTIONAL operand) := by
  intro cfg ctx c1 c2 L1 L2 h1 h2
  cases h1 with
  | optional _ d1 _ _ e1 =>
    cases h2 with
    | optional _ d2 _ _ e2 =>
      obtain ⟨rfl, rfl⟩ := ih cfg _ _ _ _ _ e1 e2
      exact ⟨rfl, rfl⟩

theorem denotes_once_empty : expression_list_denotes_once .empty := by
  refine ⟨?_, ?_⟩
  · intro cfg ctx c1 c2 L1 L2 h1 h2
    cases h1
    cases h2
    exact ⟨rfl, rfl⟩
  · intro cfg ctx c1 c2 L1 L2 h1 h2
    cases h1
    cases h2
    exact ⟨rfl, rfl⟩

theorem denotes_once_cons (head : parsed_expr) (next : parsed_expr_list)
    (ihh : expression_denotes_once head) (ihn : expression_list_denotes_once next) :
    expression_list_denotes_once (.cons head next) := by
  refine ⟨?_, ?_⟩
  · intro cfg ctx c1 c2 L1 L2 h1 h2
    cases h1 with
    | cons _ d1 _ _ _ A1 B1 e1 f1 =>
      cases h2 with
      | cons _ d2 _ _ _ A2 B2 e2 f2 =>
        obtain ⟨rfl, rfl⟩ := ihh cfg _ _ _ _ _ e1 e2
        obtain ⟨rfl, rfl⟩ := ihn.1 cfg _ _ _ _ _ f1 f2
        exact ⟨rfl, rfl⟩
  · intro cfg ctx c1 c2 L1 L2 h1 h2
    cases h1 with
    | cons _ d1 _ _ _ A1 B1 e1 f1 =>
      cases h2 with
      | cons _ d2 _ _ _ A2 B2 e2 f2 =>
        obtain ⟨rfl, rfl⟩ := ihh cfg _ _ _ _ _ e1 e2
        obtain ⟨rfl, rfl⟩ := ihn.2 cfg _ _ _ _ _ f1 f2
        exact ⟨rfl, rfl⟩

/-- An expression compiled from a context denotes one language only. -/
theorem expression_denotes_unique (expr : parsed_expr) : expression_denotes_once expr :=
  parsed_expr.rec (motive_1 := expression_denotes_once)
    (motive_2 := expression_list_denotes_once)
    denotes_once_choice denotes_once_concatenation denotes_once_ident denotes_once_literal
    denotes_once_parens (fun l b e _ => denotes_once_bracketed l b e)
    denotes_once_zero_or_more denotes_once_one_or_more denotes_once_optional
    denotes_once_empty denotes_once_cons expr

/-- Claim C18: the expression-to-NFA construction is language-correct.  When
`build_body_automaton` succeeds on an expression every concatenation of which
has at least one term, the NFA it hands to the determinizer, built by
`build_body_expression` between the start state 0 and the sole accepting state
1, accepts a symbol sequence if and only if the sequence belongs to the
language the expression denotes, where a literal denotes the symbol its keyword
is interned with (the empty word for an empty keyword), an identifier
reference the symbol of its slot, and a bracketed group the symbol of its
bracket; that language is the only one the expression denotes. -/
theorem C18_expression_language (cfg : build_config) (ctx c1 : context)
    (expr : parsed_expr) (built : automaton) (hterms : expr.has_terms = true)
    (h : build_body_automaton cfg ctx expr = .ok (c1, built)) :
    ∃ (nfa : automaton) (c2 : context) (L : Language Nat),
      build_body_expression cfg { ctx with next_state := 2 }
        (automaton_mark_accepting_state (automaton_set_start_state automaton.zero 0) 1)
        expr { entry := 0, exit := 1 } = .ok (c2, nfa) ∧
      built = cfg.determinize_minimize nfa ∧
      nfa.start_state = 0 ∧ nfa.accepting_states = [1] ∧
      expression_denotes cfg { ctx with next_state := 2 } expr c2 L ∧
      (∀ (c3 : context) (L3 : Language Nat),
        expression_denotes cfg { ctx with next_state := 2 } expr c3 L3 → L3 = L) ∧
      ∀ w : List Nat, nfa.accepts w ↔ w ∈ L := by
  obtain ⟨c2, nfa, hexpr, _, hbuilt⟩ := build_body_automaton_ok_inv cfg ctx c1 expr built h
  obtain ⟨L, hden, _, hs, hacc, added, hadd, hfrag⟩ :=
    build_body_expression_fragment expr cfg { ctx with next_state := 2 }
      (automaton_mark_accepting_state (automaton_set_start_state automaton.zero 0) 1)
      { entry := 0, exit := 1 } c2 nfa hterms
      (by show 0 < 2; omega) (by show 1 < 2; omega) (by show (0 : Nat) ≠ 1; omega) hexpr
  have hs2 : nfa.start_state = 0 := hs
  have hacc2 : nfa.accepting_states = [1] := hacc
  have hadd2 : nfa.transitions = added := by
    rw [hadd]
    rfl
  refine ⟨nfa, c2, L, hexpr, hbuilt, hs2, hacc2, hden,
    fun c3 L3 h3 => (expression_denotes_unique expr cfg _ _ _ _ _ h3 hden).2, ?_⟩
  intro w
  unfold automaton.accepts
  rw [hs2, hacc2, hadd2]
  simp only [List.mem_singleton, exists_eq_left]
  rw [reaches_iff_path]
  exact hfrag.2.2.2.2 w

theorem C18_expression_language_witness :
    ∃ (c1 : context) (nfa : automaton) (L : Language Nat),
      build_body_automaton example_config
        { registered_context ["rule".toList] with rule_index := 0, next_symbol := 0 }
        (.PARSED_CONCATENATION
          (.cons (.PARSED_LITERAL (quoted ['a']))
            (.cons (.PARSED_LITERAL (quoted ['b'])) .empty)))
        = .ok (c1, example_config.determinize_minimize example_ab_nfa) ∧
      example_config.determinize_minimize example_ab_nfa
        = example_config.determinize_minimize nfa ∧
      nfa.start_state = 0 ∧ nfa.accepting_states = [1] ∧
      (∀ w : List Nat, nfa.accepts w ↔ w ∈ L) := by
  obtain ⟨c, hb, _⟩ := example_ab_body example_config
  obtain ⟨nfa, _, L, _, h2, h3, h4, _, _, h6⟩ :=
    C18_expression_language example_config _ c _ _ (by rfl) hb
  exact ⟨c, nfa, L, hb, h2, h3, h4, h6⟩
/-! ## The symbol ids of a rule: issue and uniqueness -/

theorem count_range_from_eq (n k x : Nat) :
    (List.range' n k).count x = if n ≤ x ∧ x < n + k then 1 else 0 := by
  split
  · rename_i h
    exact List.count_eq_one_of_mem (List.nodup_range' n k)
      (List.mem_range'.2 ⟨x - n, by omega, by omega⟩)
  · rename_i h
    apply List.count_eq_zero_of_not_mem
    intro hm
    obtain ⟨i, hi, hx⟩ := List.mem_range'.1 hm
    apply h
    omega

theorem perm_range_from_iff_count (l : List Nat) (n k : Nat) :
    l.Perm (List.range' n k) ↔
      ∀ x : Nat, l.count x = if n ≤ x ∧ x < n + k then 1 else 0 := by
  rw [List.perm_iff_count]
  constructor
  · intro h x
    rw [h x, count_range_from_eq]
  · intro h x
    rw [h x, count_range_from_eq]

theorem issued_bracket_symbols_append (pending : List Nat) (xs ys : List bracket)
    (index : Nat) :
    issued_bracket_symbols pending (xs ++ ys) index =
      issued_bracket_symbols pending xs index ++
        issued_bracket_symbols pending ys (index + xs.length) := by
  induction xs generalizing index with
  | nil => simp [issued_bracket_symbols]
  | cons b rest ih =>
    have e := ih (index + 1)
    have he : index + 1 + rest.length = index + (rest.length + 1) := by omega
    rw [he] at e
    simp only [List.cons_append, issued_bracket_symbols, List.length_cons]
    split
    · exact e
    · simp only [List.cons_append, List.cons.injEq, true_and]
      exact e

theorem issued_bracket_symbols_all (pending : List Nat) (ys : List bracket) (index : Nat)
    (h : ∀ i ∈ pending, i < index) :
    issued_bracket_symbols pending ys index = ys.map (fun b => b.symbol) := by
  induction ys generalizing index with
  | nil => simp [issued_bracket_symbols]
  | cons b rest ih =>
    simp only [issued_bracket_symbols, List.map_cons]
    have hn : index ∉ pending := fun hm => Nat.lt_irrefl _ (h _ hm)
    rw [if_neg hn, ih (index + 1) (fun i hi => Nat.lt_succ_of_lt (h i hi))]

theorem set_append_length (xs zs : List bracket) (y v : bracket) :
    (xs ++ y :: zs).set xs.length v = xs ++ v :: zs := by
  induction xs with
  | nil => simp
  | cons x rest ih => simp [ih]

theorem rule.issues_same (r : rule) (n : Nat) : r.issues n r n :=
  ⟨Nat.le_refl _, [], [], [], by simp, by simp, by simp, by simp⟩

theorem rule.issues_then (r1 r2 r3 : rule) (n1 n2 n3 : Nat) (h12 : r1.issues n1 r2 n2)
    (h23 : r2.issues n2 r3 n3) : r1.issues n1 r3 n3 := by
  obtain ⟨hle1, s1, t1, b1, hs1, ht1, hb1, hp1⟩ := h12
  obtain ⟨hle2, s2, t2, b2, hs2, ht2, hb2, hp2⟩ := h23
  refine ⟨Nat.le_trans hle1 hle2, s1 ++ s2, t1 ++ t2, b1 ++ b2, ?_, ?_, ?_, ?_⟩
  · rw [hs2, hs1, List.append_assoc]
  · rw [ht2, ht1, List.append_assoc]
  · rw [hb2, hb1, List.append_assoc]
  · rw [perm_range_from_iff_count] at hp1 hp2 ⊢
    intro x
    have e1 := hp1 x
    have e2 := hp2 x
    simp only [List.map_append, List.count_append] at e1 e2 ⊢
    split at e1 <;> split at e2 <;> split <;> omega

/-- The two outcomes of a successful `add_slot`: the name is found and nothing
changes, or a slot holding the current `next_symbol` is appended and the counter
advances by one. -/
theorem add_slot_allocation (cfg : build_config) (ctx c1 : context) (r r1 : rule)
    (name : byte_string) (target i : Nat)
    (h : add_slot cfg ctx r name target = .ok (c1, r1, i)) :
    (c1 = ctx ∧ r1 = r ∧ i < r.slots.length) ∨
    (c1 = { ctx with next_symbol := ctx.next_symbol + 1 } ∧
      r1 = { r with slots := r.slots ++
        [{ name := name, symbol := ctx.next_symbol, rule_index := target }] } ∧
      i = r.slots.length) := by
  unfold add_slot at h
  split at h
  · cases h
  · rename_i j hscan
    have hb := add_slot_scan_bounds _ _ _ _ _ hscan
    split at h
    · split at h
      · cases h
      · simp only [Except.ok.injEq, Prod.mk.injEq] at h
        obtain ⟨hc, hr, hi⟩ := h
        right
        exact ⟨hc.symm, hr.symm, by omega⟩
    · simp only [Except.ok.injEq, Prod.mk.injEq] at h
      obtain ⟨hc, hr, hi⟩ := h
      left
      exact ⟨hc.symm, hr.symm, by omega⟩

/-- The two outcomes of a successful `add_keyword_token`: nothing changes (the
keyword is empty or already interned), or a token holding the current
`next_symbol` is appended and the counter advances by one. -/
theorem add_keyword_token_allocation (ctx c1 : context) (r r1 : rule)
    (keyword : byte_string) (type : token_type) (s : symbol_id)
    (h : add_keyword_token ctx r keyword type = .ok (c1, r1, s)) :
    (c1 = ctx ∧ r1 = r) ∨
    (c1 = { ctx with next_symbol := ctx.next_symbol + 1 } ∧
      r1 = { r with keyword_tokens := r.keyword_tokens ++
        [{ string := keyword_text keyword, type := type, symbol := ctx.next_symbol }] } ∧
      s = .issued ctx.next_symbol) := by
  unfold add_keyword_token at h
  split at h
  · simp only [Except.ok.injEq, Prod.mk.injEq] at h
    exact Or.inl ⟨h.1.symm, h.2.1.symm⟩
  · unfold find_token at h
    split at h
    · cases h
    · rename_i j hfind
      have hb := find_token_from_bounds _ _ _ _ _ hfind
      split at h
      · simp only [Except.ok.injEq, Prod.mk.injEq] at h
        obtain ⟨hc, hr, hs⟩ := h
        right
        refine ⟨hc.symm, hr.symm, ?_⟩
        have hj : j = r.keyword_tokens.length := by omega
        rw [← hs, hj]
        simp [List.getD_eq_getElem?_getD]
      · simp only [Except.ok.injEq, Prod.mk.injEq] at h
        exact Or.inl ⟨h.1.symm, h.2.1.symm⟩

theorem add_slot_issues (cfg : build_config) (ctx c1 : context) (r r1 : rule)
    (name : byte_string) (target i : Nat)
    (h : add_slot cfg ctx r name target = .ok (c1, r1, i)) :
    r.issues ctx.next_symbol r1 c1.next_symbol ∧ r1.brackets = r.brackets := by
  rcases add_slot_allocation cfg ctx c1 r r1 name target i h with ⟨hc, hr, _⟩ | ⟨hc, hr, _⟩
  · subst hc hr
    exact ⟨rule.issues_same _ _, rfl⟩
  · subst hc hr
    refine ⟨⟨Nat.le_succ _, [_], [], [], rfl, by simp, by simp, ?_⟩, rfl⟩
    simp

theorem add_keyword_token_issues (ctx c1 : context) (r r1 : rule)
    (keyword : byte_string) (type : token_type) (s : symbol_id)
    (h : add_keyword_token ctx r keyword type = .ok (c1, r1, s)) :
    r.issues ctx.next_symbol r1 c1.next_symbol ∧ r1.brackets = r.brackets := by
  rcases add_keyword_token_allocation ctx c1 r r1 keyword type s h with
    ⟨hc, hr⟩ | ⟨hc, hr, _⟩
  · subst hc hr
    exact ⟨rule.issues_same _ _, rfl⟩
  · subst hc hr
    refine ⟨⟨Nat.le_succ _, [], [_], [], by simp, rfl, by simp, ?_⟩, rfl⟩
    simp

theorem rule.issues_count (r1 r2 : rule) (n1 n2 : Nat) (h : r1.issues n1 r2 n2) :
    n1 ≤ n2 ∧
    ∃ (slots : List slot) (tokens : List token) (brackets : List bracket),
      r2.slots = r1.slots ++ slots ∧
      r2.keyword_tokens = r1.keyword_tokens ++ tokens ∧
      r2.brackets = r1.brackets ++ brackets ∧
      ∀ x : Nat,
        (slots.map (fun s => s.symbol)).count x + (tokens.map (fun t => t.symbol)).count x +
          (brackets.map (fun b => b.symbol)).count x = if n1 ≤ x ∧ x < n2 then 1 else 0 := by
  obtain ⟨hle, s, t, b, hs, ht, hb, hp⟩ := h
  refine ⟨hle, s, t, b, hs, ht, hb, ?_⟩
  rw [perm_range_from_iff_count] at hp
  intro x
  have e := hp x
  simp only [List.count_append] at e
  rw [e]
  have hn : n1 + (n2 - n1) = n2 := by omega
  rw [hn]

theorem rule.issues_of_count (r1 r2 : rule) (n1 n2 : Nat) (hle : n1 ≤ n2)
    (slots : List slot) (tokens : List token) (brackets : List bracket)
    (hs : r2.slots = r1.slots ++ slots)
    (ht : r2.keyword_tokens = r1.keyword_tokens ++ tokens)
    (hb : r2.brackets = r1.brackets ++ brackets)
    (hc : ∀ x : Nat,
      (slots.map (fun s => s.symbol)).count x + (tokens.map (fun t => t.symbol)).count x +
        (brackets.map (fun b => b.symbol)).count x = if n1 ≤ x ∧ x < n2 then 1 else 0) :
    r1.issues n1 r2 n2 := by
  refine ⟨hle, slots, tokens, brackets, hs, ht, hb, ?_⟩
  rw [perm_range_from_iff_count]
  intro x
  simp only [List.count_append]
  rw [hc x]
  have hn : n1 + (n2 - n1) = n2 := by omega
  rw [hn]

theorem context.grows_refl (c : context) : c.grows c 0 :=
  ⟨rule.issues_same _ _, rfl⟩

theorem context.grows_trans (c1 c2 c3 : context) (k1 k2 : Nat) (h12 : c1.grows c2 k1)
    (h23 : c2.grows c3 k2) : c1.grows c3 (k1 + k2) := by
  refine ⟨rule.issues_then _ _ _ _ _ _ h12.1 h23.1, ?_⟩
  rw [h23.2, h12.2, Nat.add_assoc]

/-- Writing back a rule that was grown from the rule being filled in. -/
theorem context.grows_step (c c2 : context) (r2 : rule)
    (hr : c.rule_index < c.grammar.rules.length)
    (hg : c2.grammar = c.grammar) (hi : c2.rule_index = c.rule_index)
    (h : c.current_rule.issues c.next_symbol r2 c2.next_symbol)
    (hb : r2.brackets = c.current_rule.brackets) :
    c.grows (c2.set_current_rule r2) 0 := by
  have hr2 : c2.rule_index < c2.grammar.rules.length := by rw [hg, hi]; exact hr
  have hcur : (c2.set_current_rule r2).current_rule = r2 := context.current_rule_set c2 r2 hr2
  unfold context.grows context.issues
  rw [hcur]
  exact ⟨h, by rw [hb]; rfl⟩

theorem build_body_expression_list_preserved (l : parsed_expr_list) :
    expression_list_preserved l :=
  parsed_expr_list.rec (motive_1 := expression_preserved)
    (motive_2 := expression_list_preserved)
    build_body_expression_choice_case_preserved
    build_body_expression_concatenation_case_preserved
    build_body_expression_ident_preserved
    build_body_expression_literal_preserved
    build_body_expression_parens_preserved
    build_body_expression_bracketed_preserved
    build_body_expression_zero_or_more_preserved
    build_body_expression_one_or_more_preserved
    build_body_expression_optional_preserved
    expression_list_empty_preserved
    expression_list_cons_preserved
    l

theorem connect_expression_issues (expr : parsed_expr) (ih : expression_issues expr)
    (cfg : build_config) (ctx c1 : context) (a a1 : automaton)
    (outer inner : boundary_states)
    (h : connect_expression cfg ctx a expr outer = .ok (c1, a1, inner))
    (hr : ctx.rule_index < ctx.grammar.rules.length) :
    ctx.grows c1 expr.bracket_groups := by
  obtain ⟨_, a2, hsub, _⟩ := connect_expression_ok cfg ctx c1 a a1 expr outer inner h
  have := ih cfg _ _ _ _ _ hsub hr
  exact this

theorem build_body_automaton_issues_of (expr : parsed_expr) (ih : expression_issues expr)
    (cfg : build_config) (ctx c1 : context) (a1 : automaton)
    (h : build_body_automaton cfg ctx expr = .ok (c1, a1))
    (hr : ctx.rule_index < ctx.grammar.rules.length) :
    ctx.grows c1 expr.bracket_groups := by
  obtain ⟨c2, nfa, hsub, hc, _⟩ := build_body_automaton_ok_inv cfg ctx c1 expr a1 h
  have := ih cfg _ _ _ _ _ hsub hr
  subst hc
  exact this

theorem issues_ident (identifier : byte_string) (rename : Option byte_string) :
    expression_issues (.PARSED_IDENT identifier rename) := by
  intro cfg ctx a b c1 a1 h hr
  obtain ⟨_, t, c2, r2, i, _, _, hadd, hc, _⟩ :=
    build_body_expression_ident_ok cfg ctx c1 a a1 identifier rename b h
  subst hc
  have hf := add_slot_fields cfg _ _ _ _ _ _ _ hadd
  have hi := add_slot_issues cfg _ _ _ _ _ _ _ hadd
  have := context.grows_step ctx c2 r2 hr hf.1 hf.2.1 hi.1 hi.2
  simp only [parsed_expr.bracket_groups]
  exact this

theorem issues_literal (string : byte_string) :
    expression_issues (.PARSED_LITERAL string) := by
  intro cfg ctx a b c1 a1 h hr
  obtain ⟨_, c2, r2, s, hadd, hc, _⟩ :=
    build_body_expression_literal_ok cfg ctx c1 a a1 string b h
  subst hc
  have hf := add_keyword_token_fields _ _ _ _ _ _ _ hadd
  have hi := add_keyword_token_issues _ _ _ _ _ _ _ hadd
  have := context.grows_step ctx c2 r2 hr hf.1 hf.2.1 hi.1 hi.2
  simp only [parsed_expr.bracket_groups]
  exact this

theorem issues_parens (expr : parsed_expr) (ih : expression_issues expr) :
    expression_issues (.PARSED_PARENS expr) := by
  intro cfg ctx a b c1 a1 h hr
  obtain ⟨_, c2, hsub, hc⟩ := build_body_expression_parens_ok cfg ctx c1 a a1 expr b h
  subst hc
  have := ih cfg _ _ _ _ _ hsub hr
  simp only [parsed_expr.bracket_groups]
  exact this

theorem issues_choice (operand : parsed_expr_list) (ih : expression_list_issues operand) :
    expression_issues (.PARSED_CHOICE operand) := by
  intro cfg ctx a b c1 a1 h hr
  obtain ⟨_, c2, hsub, hc⟩ := build_body_expression_choice_ok cfg ctx c1 a a1 operand b h
  subst hc
  have := ih.1 cfg _ _ _ _ _ hsub hr
  simp only [parsed_expr.bracket_groups]
  exact this

theorem issues_concatenation (operand : parsed_expr_list)
    (ih : expression_list_issues operand) :
    expression_issues (.PARSED_CONCATENATION operand) := by
  intro cfg ctx a b c1 a1 h hr
  obtain ⟨_, c2, a2, inner, hsub, hc, _⟩ :=
    build_body_expression_concatenation_ok cfg ctx c1 a a1 operand b h
  subst hc
  have := ih.2.1 cfg _ _ _ _ _ _ hsub hr
  simp only [parsed_expr.bracket_groups]
  exact this

theorem issues_zero_or_more (operand : parsed_expr) (ih : expression_issues operand) :
    expression_issues (.PARSED_ZERO_OR_MORE operand) := by
  intro cfg ctx a b c1 a1 h hr
  obtain ⟨_, c2, a2, inner, hsub, hc, _⟩ :=
    build_body_expression_zero_or_more_ok cfg ctx c1 a a1 operand b h
  subst hc
  have := connect_expression_issues operand ih cfg _ _ _ _ _ _ hsub hr
  simp only [parsed_expr.bracket_groups]
  exact this

theorem issues_one_or_more (operand : parsed_expr) (ih : expression_issues operand) :
    expression_issues (.PARSED_ONE_OR_MORE operand) := by
  intro cfg ctx a b c1 a1 h hr
  obtain ⟨_, c2, a2, inner, hsub, hc, _⟩ :=
    build_body_expression_one_or_more_ok cfg ctx c1 a a1 operand b h
  subst hc
  have := connect_expression_issues operand ih cfg _ _ _ _ _ _ hsub hr
  simp only [parsed_expr.bracket_groups]
  exact this

theorem issues_optional (operand : parsed_expr) (ih : expression_issues operand) :
    expression_issues (.PARSED_OPTIONAL operand) := by
  intro cfg ctx a b c1 a1 h hr
  obtain ⟨_, c2, a2, inner, hsub, hc, _⟩ :=
    build_body_expression_optional_ok cfg ctx c1 a a1 operand b h
  subst hc
  have := connect_expression_issues operand ih cfg _ _ _ _ _ _ hsub hr
  simp only [parsed_expr.bracket_groups]
  exact this

theorem issues_empty : expression_list_issues .empty := by
  refine ⟨?_, ?_, ?_⟩
  · intro cfg ctx a b c1 a1 h _
    rw [build_body_expression_choice_empty_eq] at h
    simp only [Except.ok.injEq, Prod.mk.injEq] at h
    rw [← h.1]
    exact context.grows_refl _
  · intro cfg ctx a inner c1 a1 inner1 h _
    rw [build_body_expression_concatenation_empty_eq] at h
    simp only [Except.ok.injEq, Prod.mk.injEq] at h
    rw [← h.1]
    exact context.grows_refl _
  · intro cfg ctx c1 a1 h _
    rw [build_body_expression_bracket_empty_eq] at h
    simp only [Except.ok.injEq, Prod.mk.injEq] at h
    rw [← h.1]
    exact context.grows_refl _

theorem issues_cons (head : parsed_expr) (next : parsed_expr_list)
    (ihh : expression_issues head) (ihn : expression_list_issues next) :
    expression_list_issues (.cons head next) := by
  refine ⟨?_, ?_, ?_⟩
  · intro cfg ctx a b c1 a1 h hr
    obtain ⟨c2, a2, inner, hhead, hnext⟩ :=
      build_body_expression_choice_cons_ok cfg ctx c1 a a1 head next b h
    have hp := connect_expression_preserved head (build_body_expression_preserved head)
      cfg _ _ _ _ _ _ hhead
    have hr2 := context.preserved_in_range _ _ hp hr
    simp only [parsed_expr_list.bracket_groups]
    exact context.grows_trans _ _ _ _ _
      (connect_expression_issues head ihh cfg _ _ _ _ _ _ hhead hr)
      (ihn.1 cfg _ _ _ _ _ hnext hr2)
  · intro cfg ctx a inner c1 a1 inner1 h hr
    obtain ⟨c2, a2, hhead, hnext⟩ :=
      build_body_expression_concatenation_cons_ok cfg ctx c1 a a1 head next inner inner1 h
    have hp := build_body_expression_preserved head cfg _ _ _ _ _ hhead
    have hr1 : ({ ctx with next_state := ctx.next_state + 1 } : context).rule_index <
        ({ ctx with next_state := ctx.next_state + 1 } : context).grammar.rules.length := hr
    have hr2 := context.preserved_in_range _ _ hp hr1
    have h1' := ihh cfg _ _ _ _ _ hhead hr1
    have h1 : ctx.grows c2 head.bracket_groups := h1'
    simp only [parsed_expr_list.bracket_groups]
    exact context.grows_trans _ _ _ _ _ h1 (ihn.2.1 cfg _ _ _ _ _ _ hnext hr2)
  · intro cfg ctx c1 a1 h hr
    obtain ⟨c2, hsub, hc⟩ := build_body_expression_bracket_cons_ok cfg ctx c1 head next a1 h
    subst hc
    have hr1 : ({ ctx with bracket_nesting := ctx.bracket_nesting + 1 } : context).rule_index <
        ({ ctx with bracket_nesting := ctx.bracket_nesting + 1 } : context).grammar.rules.length :=
      hr
    have := build_body_automaton_issues_of head ihh cfg _ _ _ hsub hr1
    simp only [parsed_expr_list.head_bracket_groups]
    exact this

theorem context.set_current_rule_in_range (c : context) (r : rule)
    (hr : c.rule_index < c.grammar.rules.length) :
    (c.set_current_rule r).rule_index < (c.set_current_rule r).grammar.rules.length := by
  simp only [context.set_current_rule, grammar.set_rule, List.length_set]
  exact hr

theorem count_interval_step (n0 n3 n7 x A B C A2 B2 : Nat) (h03 : n0 ≤ n3)
    (h37 : n3 + 1 ≤ n7)
    (e3 : A + B + C = if n0 ≤ x ∧ x < n3 then 1 else 0)
    (e7 : A2 + B2 = if n3 + 1 ≤ x ∧ x < n7 then 1 else 0) :
    A + A2 + (B + B2) + (C + if n3 = x then 1 else 0) =
      if n0 ≤ x ∧ x < n7 then 1 else 0 := by
  split at e3 <;> split at e7 <;> split <;> split <;> omega

theorem add_keyword_token_not_epsilon (ctx c1 : context) (r r1 : rule)
    (keyword : byte_string) (type : token_type) (s : symbol_id)
    (h : add_keyword_token ctx r keyword type = .ok (c1, r1, s))
    (hs : s ≠ .SYMBOL_EPSILON) : 2 < keyword.length := by
  unfold add_keyword_token at h
  split at h
  · simp only [Except.ok.injEq, Prod.mk.injEq] at h
    exact absurd h.2.2.symm hs
  · omega

theorem build_body_expression_bracket_next_state (cfg : build_config) (ctx c1 : context)
    (l : parsed_expr_list) (a1 : automaton)
    (h : build_body_expression_bracket cfg ctx l = .ok (c1, a1)) :
    c1.next_state = ctx.next_state := by
  cases l with
  | empty =>
    rw [build_body_expression_bracket_empty_eq] at h
    simp only [Except.ok.injEq, Prod.mk.injEq] at h
    rw [← h.1]
  | cons head next =>
    obtain ⟨c2, hsub, hc⟩ := build_body_expression_bracket_cons_ok cfg ctx c1 head next a1 h
    obtain ⟨c3, nfa, _, hc2, _⟩ := build_body_automaton_ok_inv cfg _ c2 head a1 hsub
    subst hc hc2
    rfl

/-- The `PARSED_BRACKETED` case in full: the body is compiled after the zeroed
record of the group is appended, the group takes the value of the counter the
body leaves, the two keywords are interned next, and the record of the group is
written at the index it was appended at, in front of the records of the groups
of the body. -/
theorem build_body_expression_bracketed_result (bracket_expr : parsed_expr_list)
    (begin_token end_token : byte_string) (ih : expression_list_issues bracket_expr)
    (cfg : build_config) (ctx c1 : context) (a a1 : automaton) (b : boundary_states)
    (h : build_body_expression cfg ctx a
      (.PARSED_BRACKETED bracket_expr begin_token end_token) b = .ok (c1, a1))
    (hr : ctx.rule_index < ctx.grammar.rules.length) :
    ∃ (c3 : context) (ba : automaton) (c5 : context) (r5 : rule) (s5 : symbol_id)
      (s7 : symbol_id) (nested : List bracket),
      build_body_expression_bracket cfg
        (ctx.enter_expression.set_current_rule
          { ctx.current_rule with brackets := ctx.current_rule.brackets ++ [bracket.zero] })
        bracket_expr = .ok (c3, ba) ∧
      add_keyword_token { c3 with next_symbol := c3.next_symbol + 1 } c3.current_rule
        begin_token .TOKEN_START = .ok (c5, r5, s5) ∧
      2 < begin_token.length ∧ 2 < end_token.length ∧
      ctx.next_symbol ≤ c3.next_symbol ∧ c3.next_symbol + 1 ≤ c1.next_symbol ∧
      c1.next_state = ctx.next_state ∧
      c1.current_rule.brackets = ctx.current_rule.brackets ++
        ({ automaton := ba, symbol := c3.next_symbol, start_symbol := s5,
           end_symbol := s7 } : bracket) :: nested ∧
      nested.length = bracket_expr.head_bracket_groups ∧
      ctx.grows c1 (1 + bracket_expr.head_bracket_groups) ∧
      a1 = automaton_add_transition a b.entry b.exit (.issued c3.next_symbol) := by
  obtain ⟨_, c3, ba, c5, r5, s5, c7, r7, s7, hsub, hstart, hend, hne5, hne7, hc, ha⟩ :=
    build_body_expression_bracketed_ok cfg ctx c1 a a1 bracket_expr begin_token end_token b h
  subst hc
  have hr0 : ctx.enter_expression.rule_index < ctx.enter_expression.grammar.rules.length := hr
  have hrA := context.set_current_rule_in_range ctx.enter_expression
    { ctx.current_rule with brackets := ctx.current_rule.brackets ++ [bracket.zero] } hr0
  have hcurA := context.current_rule_set ctx.enter_expression
    { ctx.current_rule with brackets := ctx.current_rule.brackets ++ [bracket.zero] } hr0
  have h3 := ih.2.2 cfg _ _ _ hsub hrA
  have hp3 := (build_body_expression_list_preserved bracket_expr).2.2 cfg _ _ _ hsub
  have hr3 := context.preserved_in_range _ _ hp3 hrA
  have hns3 := build_body_expression_bracket_next_state cfg _ _ _ _ hsub
  have hf5 := add_keyword_token_fields _ _ _ _ _ _ _ hstart
  have hi5 := add_keyword_token_issues _ _ _ _ _ _ _ hstart
  have hr5 : c5.rule_index < c5.grammar.rules.length := by
    rw [hf5.1, hf5.2.1]; exact hr3
  have hcur5 := context.current_rule_set c5 r5 hr5
  have hend0 := hend
  rw [hcur5] at hend
  have hf7 := add_keyword_token_fields _ _ _ _ _ _ _ hend
  have hi7 := add_keyword_token_issues _ _ _ _ _ _ _ hend
  have hr7 : c7.rule_index < c7.grammar.rules.length := by
    rw [hf7.1, hf7.2.1]; exact context.set_current_rule_in_range c5 r5 hr5
  have hcur7 := context.current_rule_set c7
    { r7 with brackets := (r7.brackets.set ctx.current_rule.brackets.length
        { automaton := ba, symbol := c3.next_symbol, start_symbol := s5,
          end_symbol := s7 }) } hr7
  have h3i : rule.issues
      { ctx.current_rule with brackets := ctx.current_rule.brackets ++ [bracket.zero] }
      ctx.next_symbol c3.current_rule c3.next_symbol := by
    have := h3.1
    unfold context.issues at this
    rw [hcurA] at this
    exact this
  have h3l : c3.current_rule.brackets.length =
      (ctx.current_rule.brackets ++ [bracket.zero]).length +
        bracket_expr.head_bracket_groups := by
    have := h3.2
    rw [hcurA] at this
    exact this
  obtain ⟨hle3, ns, nt, nb, hs3, ht3, hb3, hc3⟩ := rule.issues_count _ _ _ _ h3i
  have h37 : rule.issues c3.current_rule (c3.next_symbol + 1) r7 c7.next_symbol :=
    rule.issues_then _ _ _ _ _ _ hi5.1 hi7.1
  obtain ⟨hle7, ns2, nt2, nb2, hs7, ht7, hb72, hc7⟩ := rule.issues_count _ _ _ _ h37
  have hb7 : r7.brackets = c3.current_rule.brackets := hi7.2.trans hi5.2
  have hnb2 : nb2 = [] := by
    rw [hb7] at hb72
    simpa using hb72
  subst hnb2
  simp only at hs3 ht3 hb3
  have hset : r7.brackets.set ctx.current_rule.brackets.length
      { automaton := ba, symbol := c3.next_symbol, start_symbol := s5, end_symbol := s7 } =
      ctx.current_rule.brackets ++
        ({ automaton := ba, symbol := c3.next_symbol, start_symbol := s5,
           end_symbol := s7 } : bracket) :: nb := by
    rw [hb7, hb3, List.append_assoc, List.singleton_append, set_append_length]
  have hcur1 : (c7.set_current_rule
      { r7 with brackets := (r7.brackets.set ctx.current_rule.brackets.length
          { automaton := ba, symbol := c3.next_symbol, start_symbol := s5,
            end_symbol := s7 }) }).leave_expression.current_rule =
      { r7 with brackets := (r7.brackets.set ctx.current_rule.brackets.length
          { automaton := ba, symbol := c3.next_symbol, start_symbol := s5,
            end_symbol := s7 }) } := hcur7
  have hnb : nb.length = bracket_expr.head_bracket_groups := by
    rw [hb3] at h3l
    simp only [List.length_append, List.length_singleton] at h3l
    omega
  refine ⟨c3, ba, c5, r5, s5, s7, nb, hsub, hstart,
    add_keyword_token_not_epsilon _ _ _ _ _ _ _ hstart hne5,
    add_keyword_token_not_epsilon _ _ _ _ _ _ _ hend hne7, hle3, hle7, ?_, ?_, hnb,
    ⟨?_, ?_⟩, ha⟩
  · show c7.next_state = ctx.next_state
    rw [hf7.2.2.2.2.1]
    show c5.next_state = ctx.next_state
    rw [hf5.2.2.2.2.1]
    exact hns3
  · rw [hcur1]
    exact hset
  · show rule.issues ctx.current_rule ctx.next_symbol _ c7.next_symbol
    rw [hcur1]
    refine rule.issues_of_count _ _ _ _ ?_ (ns ++ ns2) (nt ++ nt2)
      (({ automaton := ba, symbol := c3.next_symbol, start_symbol := s5,
          end_symbol := s7 } : bracket) :: nb) ?_ ?_ ?_ ?_
    · omega
    · show r7.slots = _
      rw [hs7, hs3, List.append_assoc]
    · show r7.keyword_tokens = _
      rw [ht7, ht3, List.append_assoc]
    · exact hset
    · intro x
      have e3 := hc3 x
      have e7 := hc7 x
      simp only [List.map_append, List.count_append, List.map_cons, List.count_cons,
        beq_iff_eq] at e3 e7 ⊢
      exact count_interval_step _ _ _ x _ _ _ _ _ hle3 hle7 e3 e7
  · rw [hcur1]
    show (r7.brackets.set _ _).length = _
    rw [hset]
    simp only [List.length_append, List.length_cons]
    omega

theorem issues_bracketed (bracket_expr : parsed_expr_list)
    (begin_token end_token : byte_string) (ih : expression_list_issues bracket_expr) :
    expression_issues (.PARSED_BRACKETED bracket_expr begin_token end_token) := by
  intro cfg ctx a b c1 a1 h hr
  obtain ⟨_, _, _, _, _, _, _, _, _, _, _, _, _, _, _, _, hg, _⟩ :=
    build_body_expression_bracketed_result bracket_expr begin_token end_token ih cfg ctx c1
      a a1 b h hr
  simp only [parsed_expr.bracket_groups]
  exact hg

/-- Every successful `build_body_expression` issues symbol ids from the counter
and appends one bracket record per group it compiles. -/
theorem build_body_expression_issues (expr : parsed_expr) : expression_issues expr :=
  parsed_expr.rec (motive_1 := expression_issues) (motive_2 := expression_list_issues)
    issues_choice issues_concatenation issues_ident issues_literal issues_parens
    issues_bracketed issues_zero_or_more issues_one_or_more issues_optional
    issues_empty issues_cons expr

theorem build_body_expression_list_issues (l : parsed_expr_list) :
    expression_list_issues l :=
  parsed_expr_list.rec (motive_1 := expression_issues) (motive_2 := expression_list_issues)
    issues_choice issues_concatenation issues_ident issues_literal issues_parens
    issues_bracketed issues_zero_or_more issues_one_or_more issues_optional
    issues_empty issues_cons l

/-- Every successful `build_body_automaton` issues symbol ids from the counter
and appends one bracket record per group it compiles. -/
theorem build_body_automaton_issues (cfg : build_config) (ctx c1 : context)
    (expr : parsed_expr) (a1 : automaton)
    (h : build_body_automaton cfg ctx expr = .ok (c1, a1))
    (hr : ctx.rule_index < ctx.grammar.rules.length) :
    ctx.grows c1 expr.bracket_groups :=
  build_body_automaton_issues_of expr (build_body_expression_issues expr) cfg ctx c1 a1 h hr

/-- The ids a rule holds after a run that issues ids: those it held before, and
each value the counter passed exactly once. -/
theorem rule.held_symbols_issues (r1 r2 : rule) (n1 n2 : Nat) (pending : List Nat)
    (hp : ∀ i ∈ pending, i < r1.brackets.length) (hi : r1.issues n1 r2 n2) (x : Nat) :
    (r2.held_symbols pending).count x =
      (r1.held_symbols pending).count x + if n1 ≤ x ∧ x < n2 then 1 else 0 := by
  obtain ⟨_, ns, nt, nb, hs, ht, hb, hc⟩ := rule.issues_count _ _ _ _ hi
  have e := hc x
  unfold rule.held_symbols
  rw [hs, ht, hb, issued_bracket_symbols_append,
    issued_bracket_symbols_all pending nb (0 + r1.brackets.length)
      (fun i hi => by have := hp i hi; omega)]
  simp only [List.map_append, List.count_append]
  omega

theorem symbols_unique_iff_count (l : List Nat) (n : Nat) :
    (l.Nodup ∧ ∀ x ∈ l, x < n) ↔ ∀ x : Nat, l.count x ≤ if x < n then 1 else 0 := by
  constructor
  · rintro ⟨hn, hb⟩ x
    have h1 := List.nodup_iff_count_le_one.1 hn x
    by_cases hx : x ∈ l
    · rw [if_pos (hb x hx)]; exact h1
    · rw [List.count_eq_zero_of_not_mem hx]; exact Nat.zero_le _
  · intro h
    refine ⟨List.nodup_iff_count_le_one.2 (fun x => ?_), fun x hx => ?_⟩
    · have := h x
      split at this <;> omega
    · have := h x
      have hpos := List.count_pos_iff.2 hx
      split at this
      · assumption
      · omega

/-- A run that issues ids from the counter keeps the symbol ids of the rule
unique. -/
theorem context.symbols_unique_of_issues (c1 c2 : context) (pending : List Nat)
    (hp : ∀ i ∈ pending, i < c1.current_rule.brackets.length) (hi : c1.issues c2)
    (hu : c1.symbols_unique pending) : c2.symbols_unique pending := by
  unfold context.symbols_unique at hu ⊢
  rw [symbols_unique_iff_count] at hu ⊢
  intro x
  have e := rule.held_symbols_issues _ _ _ _ pending hp hi x
  have h1 := hu x
  have hle : c1.next_symbol ≤ c2.next_symbol := hi.1
  rw [e]
  split at h1 <;> split <;> split <;> omega

theorem context.issues_refl (c : context) : c.issues c := rule.issues_same _ _

theorem context.issues_trans (c1 c2 c3 : context) (h12 : c1.issues c2) (h23 : c2.issues c3) :
    c1.issues c3 := rule.issues_then _ _ _ _ _ _ h12 h23

theorem rule.issues_congr (r1 r2 r3 : rule) (n1 n2 : Nat) (h : r1.issues n1 r2 n2)
    (hs : r3.slots = r2.slots) (ht : r3.keyword_tokens = r2.keyword_tokens)
    (hb : r3.brackets = r2.brackets) : r1.issues n1 r3 n2 := by
  obtain ⟨hle, ns, nt, nb, h1, h2, h3, h4⟩ := h
  exact ⟨hle, ns, nt, nb, hs.trans h1, ht.trans h2, hb.trans h3, h4⟩

/-- Writing back a rule whose slots, tokens and brackets come from a run that
issues ids. -/
theorem context.issues_step (c c2 : context) (r2 r3 : rule)
    (hr : c.rule_index < c.grammar.rules.length)
    (hg : c2.grammar = c.grammar) (hi : c2.rule_index = c.rule_index)
    (h : c.current_rule.issues c.next_symbol r2 c2.next_symbol)
    (hs : r3.slots = r2.slots) (ht : r3.keyword_tokens = r2.keyword_tokens)
    (hb : r3.brackets = r2.brackets) :
    c.issues (c2.set_current_rule r3) := by
  have hr2 : c2.rule_index < c2.grammar.rules.length := by rw [hg, hi]; exact hr
  have hcur : (c2.set_current_rule r3).current_rule = r3 := context.current_rule_set c2 r3 hr2
  unfold context.issues
  rw [hcur]
  exact rule.issues_congr _ _ _ _ _ h hs ht hb

/-- Writing a field other than the slots, tokens and brackets of the rule being
filled in issues nothing. -/
theorem context.issues_write (c : context) (r : rule)
    (hr : c.rule_index < c.grammar.rules.length)
    (hs : r.slots = c.current_rule.slots)
    (ht : r.keyword_tokens = c.current_rule.keyword_tokens)
    (hb : r.brackets = c.current_rule.brackets) : c.issues (c.set_current_rule r) :=
  context.issues_step c c c.current_rule r hr rfl rfl (rule.issues_same _ _) hs ht hb

theorem build_choices_issues (cfg : build_config) (clauses : List parsed_clause)
    (ctx ctx1 : context) (hr : ctx.rule_index < ctx.grammar.rules.length)
    (h : build_choices cfg clauses ctx = .ok ctx1) : ctx.issues ctx1 := by
  induction clauses generalizing ctx with
  | nil =>
    simp only [build_choices, Except.ok.injEq] at h
    subst h
    exact context.issues_refl _
  | cons clause rest ih =>
    obtain ⟨_, _, c2, built, hb, hrest⟩ := build_choices_cons_ok cfg clause rest ctx ctx1 h
    have hA := context.issues_write ctx
      { ctx.current_rule with choices := (ctx.current_rule.choices ++
          [{ name := clause.identifier, automaton := automaton.zero }]) } hr rfl rfl rfl
    have hrA := context.set_current_rule_in_range ctx
      { ctx.current_rule with choices := (ctx.current_rule.choices ++
          [{ name := clause.identifier, automaton := automaton.zero }]) } hr
    have hp := build_body_automaton_preserved cfg _ _ _ _ hb
    have hr2 := context.preserved_in_range _ _ hp hrA
    have h2 := (build_body_automaton_issues cfg _ _ _ _ hb hrA).1
    have hB := context.issues_write c2
      { c2.current_rule with choices :=
          (c2.current_rule.choices.set ctx.current_rule.choices.length
            { name := clause.identifier, automaton := built }) } hr2 rfl rfl rfl
    have hrB := context.set_current_rule_in_range c2
      { c2.current_rule with choices :=
          (c2.current_rule.choices.set ctx.current_rule.choices.length
            { name := clause.identifier, automaton := built }) } hr2
    exact context.issues_trans _ _ _ hA
      (context.issues_trans _ _ _ h2 (context.issues_trans _ _ _ hB (ih _ hrB hrest)))

theorem build_choices_in_range (cfg : build_config) (clauses : List parsed_clause)
    (ctx ctx1 : context) (hr : ctx.rule_index < ctx.grammar.rules.length)
    (h : build_choices cfg clauses ctx = .ok ctx1) :
    ctx1.rule_index < ctx1.grammar.rules.length :=
  context.preserved_in_range _ _ (build_choices_preserved cfg clauses ctx ctx1 h) hr

theorem build_operators_section_issues (cfg : build_config) (rule_fixity : fixity)
    (rule_associativity : Nat) (precedence : Int) (ops : List parsed_clause)
    (ctx ctx1 : context) (hr : ctx.rule_index < ctx.grammar.rules.length)
    (h : build_operators_section cfg rule_fixity rule_associativity precedence ops ctx
      = .ok ctx1) : ctx.issues ctx1 := by
  induction ops generalizing ctx with
  | nil =>
    simp only [build_operators_section, Except.ok.injEq] at h
    subst h
    exact context.issues_refl _
  | cons op rest ih =>
    obtain ⟨_, _, _, c2, built, hb, hrest⟩ :=
      build_operators_section_cons_ok cfg rule_fixity rule_associativity precedence op rest
        ctx ctx1 h
    have hA := context.issues_write ctx
      { ctx.current_rule with operators := (ctx.current_rule.operators ++
          [{ name := op.identifier, fixity := rule_fixity,
             associativity := rule_associativity, precedence := precedence,
             automaton := automaton.zero }]) } hr rfl rfl rfl
    have hrA := context.set_current_rule_in_range ctx
      { ctx.current_rule with operators := (ctx.current_rule.operators ++
          [{ name := op.identifier, fixity := rule_fixity,
             associativity := rule_associativity, precedence := precedence,
             automaton := automaton.zero }]) } hr
    have hp := build_body_automaton_preserved cfg _ _ _ _ hb
    have hr2 := context.preserved_in_range _ _ hp hrA
    have h2 := (build_body_automaton_issues cfg _ _ _ _ hb hrA).1
    have hB := context.issues_write c2
      { c2.current_rule with operators :=
          (c2.current_rule.operators.set ctx.current_rule.operators.length
            { name := op.identifier, fixity := rule_fixity,
              associativity := rule_associativity, precedence := precedence,
              automaton := built }) } hr2 rfl rfl rfl
    have hrB := context.set_current_rule_in_range c2
      { c2.current_rule with operators :=
          (c2.current_rule.operators.set ctx.current_rule.operators.length
            { name := op.identifier, fixity := rule_fixity,
              associativity := rule_associativity, precedence := precedence,
              automaton := built }) } hr2
    exact context.issues_trans _ _ _ hA
      (context.issues_trans _ _ _ h2 (context.issues_trans _ _ _ hB (ih _ hrB hrest)))

theorem build_operators_issues (cfg : build_config) (sections : List parsed_operators)
    (precedence : Int) (ctx ctx1 : context) (hr : ctx.rule_index < ctx.grammar.rules.length)
    (h : build_operators cfg sections precedence ctx = .ok ctx1) : ctx.issues ctx1 := by
  induction sections generalizing ctx precedence with
  | nil =>
    simp only [build_operators, Except.ok.injEq] at h
    subst h
    exact context.issues_refl _
  | cons ops rest ih =>
    unfold build_operators at h
    simp only at h
    split at h
    · cases h
    · rename_i c2 hsec
      have h1 := build_operators_section_issues cfg _ _ _ _ _ _ hr hsec
      have hp := build_operators_section_preserved cfg _ _ _ _ _ _ hsec
      have hr2 := context.preserved_in_range _ _ hp hr
      exact context.issues_trans _ _ _ h1 (ih _ _ hr2 h)

/-- One `add_slot` on the rule being filled in, followed by the write of a field
other than the slots, tokens and brackets of the rule. -/
theorem add_slot_issues_step (cfg : build_config) (ctx c1 : context) (r1 r2 : rule)
    (name : byte_string) (target i : Nat)
    (hr : ctx.rule_index < ctx.grammar.rules.length)
    (h : add_slot cfg ctx ctx.current_rule name target = .ok (c1, r1, i))
    (hs : r2.slots = r1.slots) (ht : r2.keyword_tokens = r1.keyword_tokens)
    (hb : r2.brackets = r1.brackets) :
    ctx.issues (c1.set_current_rule r2) ∧
    (c1.set_current_rule r2).rule_index < (c1.set_current_rule r2).grammar.rules.length := by
  have hf := add_slot_fields cfg _ _ _ _ _ _ _ h
  have hi := add_slot_issues cfg _ _ _ _ _ _ _ h
  have hr1 : c1.rule_index < c1.grammar.rules.length := by rw [hf.1, hf.2.1]; exact hr
  exact ⟨context.issues_step ctx c1 r1 r2 hr hf.1 hf.2.1 hi.1 hs ht hb,
    context.set_current_rule_in_range c1 r2 hr1⟩

theorem build_operand_slots_issues (cfg : build_config) (rule_index : Nat)
    (ops : List operator) (ctx ctx1 : context)
    (hr : ctx.rule_index < ctx.grammar.rules.length)
    (h : build_operand_slots cfg rule_index ops ctx = .ok ctx1) : ctx.issues ctx1 := by
  induction ops generalizing ctx with
  | nil =>
    simp only [build_operand_slots, Except.ok.injEq] at h
    subst h
    exact context.issues_refl _
  | cons op rest ih =>
    unfold build_operand_slots at h
    split at h
    · split at h
      · cases h
      · rename_i cA rA li hA
        simp only at h
        split at h
        · cases h
        · rename_i cB rB ri hB
          obtain ⟨a1, a2⟩ := add_slot_issues_step cfg ctx cA rA
            { rA with left_slot_index := some li } "left".toList rule_index li hr hA
            rfl rfl rfl
          obtain ⟨b1, b2⟩ := add_slot_issues_step cfg _ cB rB
            { rB with right_slot_index := some ri } "right".toList rule_index ri a2 hB
            rfl rfl rfl
          exact context.issues_trans _ _ _ a1 (context.issues_trans _ _ _ b1 (ih _ b2 h))
    · split at h
      · cases h
      · rename_i cA rA oi hA
        obtain ⟨a1, a2⟩ := add_slot_issues_step cfg ctx cA rA
          { rA with operand_slot_index := some oi } "operand".toList rule_index oi hr hA
          rfl rfl rfl
        exact context.issues_trans _ _ _ a1 (ih _ a2 h)

/-- The fill-in of a rule issues symbol ids from a counter that starts at 0. -/
theorem build_fill_rule_issues (cfg : build_config) (parsed : parsed_rule)
    (ctx ctx1 : context) (i : Nat) (hfind : find_rule ctx parsed.identifier = some i)
    (h : build_fill_rule cfg parsed ctx = .ok ctx1) :
    (ctx.grammar.rule_at i).issues 0 (ctx1.grammar.rule_at i) ctx1.next_symbol := by
  obtain ⟨j, hj, hp⟩ := build_fill_rule_preserved cfg parsed ctx ctx1 h
  rw [hfind] at hj
  simp only [Option.some.injEq] at hj
  subst hj
  have hin := (find_rule_in_range ctx _ i hfind).1
  have hr0 : ({ ctx with rule_index := i, next_symbol := 0 } : context).rule_index <
      ({ ctx with rule_index := i, next_symbol := 0 } : context).grammar.rules.length := hin
  have hidx : ctx1.rule_index = i := hp.1.1
  suffices hs : context.issues { ctx with rule_index := i, next_symbol := 0 } ctx1 by
    unfold context.issues context.current_rule at hs
    rw [hidx] at hs
    exact hs
  unfold build_fill_rule at h
  rw [hfind] at h
  simp only at h
  split at h
  · rename_i expr hbody
    split at h
    · cases h
    · rename_i c built hb
      simp only [Except.ok.injEq] at h
      subst h
      have h1 := (build_body_automaton_issues cfg _ _ _ _ hb hr0).1
      have hpb := build_body_automaton_preserved cfg _ _ _ _ hb
      have hr1 := context.preserved_in_range _ _ hpb hr0
      exact context.issues_trans _ _ _ h1
        (context.issues_write c { c.current_rule with automaton := built } hr1 rfl rfl rfl)
  · rename_i choices operators hbody
    split at h
    · cases h
    · rename_i cA hA
      split at h
      · cases h
      · rename_i cB hB
        have h1 := build_choices_issues cfg _ _ _ hr0 hA
        have hrA := build_choices_in_range cfg _ _ _ hr0 hA
        have h2 := build_operators_issues cfg _ _ _ _ hrA hB
        have hrB := context.preserved_in_range _ _ (build_operators_preserved cfg _ _ _ _ hB) hrA
        have h3 := build_operand_slots_issues cfg _ _ _ _ hrB h
        exact context.issues_trans _ _ _ h1 (context.issues_trans _ _ _ h2 h3)

/-- A rule filled in from a rule without slots, tokens and brackets holds the
ids `0`, ..., `n - 1`, each once, `n` being the final value of the counter. -/
theorem rule.held_symbols_of_issues (r1 r2 : rule) (n : Nat) (h : r1.issues 0 r2 n)
    (hs : r1.slots = []) (ht : r1.keyword_tokens = []) (hb : r1.brackets = []) :
    (r2.held_symbols []).Perm (List.range n) := by
  obtain ⟨_, ns, nt, nb, h1, h2, h3, h4⟩ := h
  unfold rule.held_symbols
  rw [h1, h2, h3, hs, ht, hb, List.nil_append, List.nil_append, List.nil_append,
    issued_bracket_symbols_all [] nb 0 (fun i hi => absurd hi (List.not_mem_nil i)),
    List.range_eq_range']
  exact h4

theorem registered_rule_held_symbols (names : List byte_string) (j : Nat) :
    ((registered_context names).grammar.rule_at j).held_symbols [] = [] := by
  have hcases : ∀ r ∈ registered_rules names, r.held_symbols [] = [] := by
    intro r hr
    unfold registered_rules at hr
    rw [List.mem_append, List.mem_map, List.mem_map] at hr
    rcases hr with ⟨n, _, hn⟩ | ⟨n, _, hn⟩
    · subst hn; rfl
    · subst hn; rfl
  unfold grammar.rule_at registered_context
  simp only
  by_cases hj : j < (registered_rules names).length
  · rw [List.getD_eq_getElem _ _ hj]
    exact hcases _ (List.getElem_mem _)
  · rw [List.getD_eq_default _ _ (by omega)]
    rfl

/-- In a built grammar the symbol ids each rule holds are the values `0`, ...,
`k - 1`, each held by exactly one slot, keyword token or bracket of the rule. -/
theorem build_rule_held_symbols (cfg : build_config) (tree : List parsed_rule)
    (g : grammar) (h : build cfg grammar.zero tree = .ok g) (j : Nat) :
    ((g.rule_at j).held_symbols []).Perm
      (List.range ((g.rule_at j).held_symbols []).length) := by
  obtain ⟨_, hnd, ctx1, hfill, hg⟩ := build_ok_registered cfg tree g h
  obtain ⟨_, hkeep, hfilled⟩ := build_fill_rules_rule cfg tree _ ctx1 hfill hnd
  by_cases hex : ∃ p ∈ tree,
      find_rule (registered_context (tree.map (fun p => p.identifier))) p.identifier = some j
  · obtain ⟨p, hp, hpj⟩ := hex
    obtain ⟨c, c1, i, f1, f2, f3, f4, f5⟩ := hfilled p hp
    rw [hpj] at f1
    simp only [Option.some.injEq] at f1
    subst f1
    have hfresh := registered_rule_fresh _ _ j (List.mem_map_of_mem _ hp) hpj
    have hi := build_fill_rule_issues cfg p c c1 j f2 f4
    rw [f3, hfresh] at hi
    have hperm := rule.held_symbols_of_issues _ _ _ hi rfl rfl rfl
    rw [hg, f5]
    have hlen := hperm.length_eq
    rw [List.length_range] at hlen
    rw [hlen]
    exact hperm
  · have hj : ctx1.grammar.rule_at j =
        (registered_context (tree.map (fun p => p.identifier))).grammar.rule_at j :=
      hkeep j (fun p hp hpj => hex ⟨p, hp, hpj⟩)
    rw [hg, hj, registered_rule_held_symbols]
    exact List.Perm.refl _

/-! ## Worked example: a bracketed group -/

theorem example_group_nested_build :
    build_body_automaton example_config example_group_context
        (.PARSED_LITERAL (quoted ['x'])) =
      .ok ({ (example_group_context.set_current_rule
               { example_group_context.current_rule with
                   keyword_tokens :=
                     [{ string := ['x'], type := .TOKEN_NORMAL, symbol := 0 }] }) with
             next_symbol := 1 },
           { start_state := 0, accepting_states := [1],
             transitions := [⟨0, 1, .issued 0⟩] }) := by
  simp [build_body_automaton, build_body_automaton_with, build_body_expression_literal_eq,
    MAX_EXPRESSION_NESTING, example_group_context, example_group_bracket_context,
    example_group_outer_context,
    registered_context, context.initial,
    registered_rules, grammar.zero, context.current_rule, context.set_current_rule,
    grammar.rule_at, grammar.set_rule, rule.fresh, example_config, implicit_token_rule_names,
    add_keyword_token, find_token, find_token_from, keyword_text, quoted,
    context.enter_expression, context.leave_expression, automaton_add_transition,
    automaton_mark_accepting_state, automaton_set_start_state, automaton.zero, bracket.zero,
    token.zero]

theorem example_group_tree_build :
    build example_config grammar.zero example_group_tree = .ok example_group_grammar := by
  unfold example_group_tree example_group_expr
  rw [build_single_simple_rule]
  simp [build_body_automaton, build_body_automaton_with, build_body_expression_literal_eq,
    build_body_expression_bracketed_eq, build_body_expression_bracket_cons_eq,
    MAX_EXPRESSION_NESTING, registered_context, context.initial,
    registered_rules, grammar.zero, context.current_rule, context.set_current_rule,
    grammar.rule_at, grammar.set_rule, rule.fresh, example_config, implicit_token_rule_names,
    add_keyword_token, find_token, find_token_from, keyword_text, quoted,
    context.enter_expression, context.leave_expression, automaton_add_transition,
    automaton_mark_accepting_state, automaton_set_start_state, automaton.zero, bracket.zero,
    token.zero, example_group_grammar]

theorem example_group_outer_context_in_range :
    example_group_outer_context.rule_index <
      example_group_outer_context.grammar.rules.length := by
  simp [example_group_outer_context, registered_context, registered_rules,
    implicit_token_rule_names]

theorem example_group_context_in_range :
    example_group_context.rule_index < example_group_context.grammar.rules.length := by
  simp [example_group_context, example_group_bracket_context,
    example_group_outer_context, registered_context,
    registered_rules, implicit_token_rule_names, context.set_current_rule,
    context.enter_expression, grammar.set_rule]

theorem example_group_expr_builds :
    ∃ (c1 : context) (a1 : automaton),
      build_body_expression example_config example_group_outer_context
        example_start_automaton example_group_expr { entry := 0, exit := 1 }
        = .ok (c1, a1) := by
  simp [example_group_expr, example_start_automaton, build_body_automaton,
    build_body_automaton_with,
    build_body_expression_literal_eq,
    build_body_expression_bracketed_eq, build_body_expression_bracket_cons_eq,
    MAX_EXPRESSION_NESTING, example_group_outer_context, registered_context, context.initial,
    registered_rules, grammar.zero, context.current_rule, context.set_current_rule,
    grammar.rule_at, grammar.set_rule, rule.fresh, example_config, implicit_token_rule_names,
    add_keyword_token, find_token, find_token_from, keyword_text, quoted,
    context.enter_expression, context.leave_expression, automaton_add_transition,
    automaton_mark_accepting_state, automaton_set_start_state, automaton.zero, bracket.zero,
    token.zero]

theorem example_group_bracket_context_in_range :
    example_group_bracket_context.rule_index <
      example_group_bracket_context.grammar.rules.length :=
  example_group_context_in_range

theorem example_group_bracket_build :
    ∃ (c1 : context) (a1 : automaton),
      build_body_expression_bracket example_config example_group_bracket_context
        (.cons (.PARSED_LITERAL (quoted ['x'])) .empty) = .ok (c1, a1) := by
  rw [build_body_expression_bracket_cons_eq]
  have h := example_group_nested_build
  unfold example_group_context at h
  rw [h]
  exact ⟨_, _, rfl⟩

/-! ## Symbol ids, counters and bracketed groups: the claims -/

/-- Claim C21: symbol ids are unique within a rule, and are issued monotonically
from the one counter `next_symbol` that slots, keyword tokens and brackets
share.
(1) A successful `add_slot` either finds the name and changes nothing, or
appends a slot that holds exactly the current `next_symbol` and advances the
counter by one.
(2) A successful `add_keyword_token` either changes nothing, or appends a token
that holds exactly the current `next_symbol` and advances the counter by one.
(3) A successful `PARSED_BRACKETED` case gives the group exactly the value
`next_symbol` has when the body of the group is built, labels the transition of
the group with it, and goes on (interning the start keyword) from that value
plus one.
(4) Every successful `build_body_expression` keeps the invariant: if the ids
the rule holds are pairwise distinct and smaller than `next_symbol` before, they
are so after, and the records added in between hold the values the counter
passed, each exactly once.  The records at the `pending` indices are those of
the groups whose body is being compiled at that point; their symbol is written
only after the body is built, so they hold no id yet.
(5) The fill-in of a rule, from the counter value 0, adds records whose ids are
the values the counter passed, each exactly once.
(6) In a grammar that builds, the ids held by the slots, keyword tokens and
brackets of every rule are pairwise distinct: they are `0`, ..., `k - 1`, each
held once. -/
theorem C21_symbol_ids_unique (cfg : build_config) :
    (∀ (ctx c1 : context) (r r1 : rule) (name : byte_string) (target i : Nat),
      add_slot cfg ctx r name target = .ok (c1, r1, i) →
      (c1 = ctx ∧ r1 = r ∧ i < r.slots.length) ∨
      (c1 = { ctx with next_symbol := ctx.next_symbol + 1 } ∧
        r1 = { r with slots := r.slots ++
          [{ name := name, symbol := ctx.next_symbol, rule_index := target }] } ∧
        i = r.slots.length)) ∧
    (∀ (ctx c1 : context) (r r1 : rule) (keyword : byte_string) (type : token_type)
      (s : symbol_id),
      add_keyword_token ctx r keyword type = .ok (c1, r1, s) →
      (c1 = ctx ∧ r1 = r) ∨
      (c1 = { ctx with next_symbol := ctx.next_symbol + 1 } ∧
        r1 = { r with keyword_tokens := r.keyword_tokens ++
          [{ string := keyword_text keyword, type := type, symbol := ctx.next_symbol }] } ∧
        s = .issued ctx.next_symbol)) ∧
    (∀ (ctx c1 : context) (a a1 : automaton) (body : parsed_expr_list)
      (begin_token end_token : byte_string) (b : boundary_states),
      build_body_expression cfg ctx a (.PARSED_BRACKETED body begin_token end_token) b
        = .ok (c1, a1) →
      ctx.rule_index < ctx.grammar.rules.length →
      ∃ (c3 : context) (ba : automaton) (c5 : context) (r5 : rule) (s5 : symbol_id),
        build_body_expression_bracket cfg
          (ctx.enter_expression.set_current_rule
            { ctx.current_rule with
                brackets := ctx.current_rule.brackets ++ [bracket.zero] })
          body = .ok (c3, ba) ∧
        add_keyword_token { c3 with next_symbol := c3.next_symbol + 1 } c3.current_rule
          begin_token .TOKEN_START = .ok (c5, r5, s5) ∧
        (c1.current_rule.brackets.getD ctx.current_rule.brackets.length bracket.zero).symbol
          = c3.next_symbol ∧
        a1 = automaton_add_transition a b.entry b.exit (.issued c3.next_symbol)) ∧
    (∀ (expr : parsed_expr) (ctx c1 : context) (a a1 : automaton) (b : boundary_states)
      (pending : List Nat),
      build_body_expression cfg ctx a expr b = .ok (c1, a1) →
      ctx.rule_index < ctx.grammar.rules.length →
      (∀ i ∈ pending, i < ctx.current_rule.brackets.length) →
      ctx.symbols_unique pending →
      ctx.issues c1 ∧ c1.symbols_unique pending) ∧
    (∀ (parsed : parsed_rule) (ctx ctx1 : context) (i : Nat),
      find_rule ctx parsed.identifier = some i →
      build_fill_rule cfg parsed ctx = .ok ctx1 →
      (ctx.grammar.rule_at i).issues 0 (ctx1.grammar.rule_at i) ctx1.next_symbol) ∧
    (∀ (tree : List parsed_rule) (g : grammar),
      build cfg grammar.zero tree = .ok g →
      ∀ j : Nat, ((g.rule_at j).held_symbols []).Nodup ∧
        ((g.rule_at j).held_symbols []).Perm
          (List.range ((g.rule_at j).held_symbols []).length)) := by
  refine ⟨?_, ?_, ?_, ?_, ?_, ?_⟩
  · intro ctx c1 r r1 name target i h
    exact add_slot_allocation cfg ctx c1 r r1 name target i h
  · intro ctx c1 r r1 keyword type s h
    exact add_keyword_token_allocation ctx c1 r r1 keyword type s h
  · intro ctx c1 a a1 body begin_token end_token b h hr
    obtain ⟨c3, ba, c5, r5, s5, s7, nested, hsub, hstart, _, _, _, _, _, hbr, _, _, ha⟩ :=
      build_body_expression_bracketed_result body begin_token end_token
        (build_body_expression_list_issues body) cfg ctx c1 a a1 b h hr
    refine ⟨c3, ba, c5, r5, s5, hsub, hstart, ?_, ha⟩
    rw [hbr, List.getD_eq_getElem?_getD, List.getElem?_append_right (Nat.le_refl _)]
    simp
  · intro expr ctx c1 a a1 b pending h hr hp hu
    have hi := (build_body_expression_issues expr cfg ctx a b c1 a1 h hr).1
    exact ⟨hi, context.symbols_unique_of_issues ctx c1 pending hp hi hu⟩
  · intro parsed ctx ctx1 i hfind h
    exact build_fill_rule_issues cfg parsed ctx ctx1 i hfind h
  · intro tree g h j
    have hperm := build_rule_held_symbols cfg tree g h j
    exact ⟨(hperm.nodup_iff).2 (List.nodup_range _), hperm⟩

theorem C21_symbol_ids_unique_witness :
    (build example_config grammar.zero example_group_tree = .ok example_group_grammar ∧
      (example_group_grammar.rule_at 0).held_symbols [] = [0, 2, 3, 1] ∧
      ((example_group_grammar.rule_at 0).held_symbols []).Nodup ∧
      ((example_group_grammar.rule_at 0).held_symbols []).Perm
        (List.range ((example_group_grammar.rule_at 0).held_symbols []).length)) ∧
    ∃ (c1 : context) (a1 : automaton),
      build_body_expression example_config example_group_outer_context
        example_start_automaton example_group_expr { entry := 0, exit := 1 }
        = .ok (c1, a1) ∧
      example_group_outer_context.rule_index <
        example_group_outer_context.grammar.rules.length ∧
      example_group_outer_context.symbols_unique [] ∧
      example_group_outer_context.issues c1 ∧ c1.symbols_unique [] := by
  have h := (C21_symbol_ids_unique example_config).2.2.2.2.2 example_group_tree
    example_group_grammar example_group_tree_build 0
  obtain ⟨c1, a1, hb⟩ := example_group_expr_builds
  have hu : example_group_outer_context.symbols_unique [] := by
    simp [context.symbols_unique, rule.held_symbols, issued_bracket_symbols,
      example_group_outer_context, registered_context, registered_rules,
      context.current_rule, grammar.rule_at, rule.fresh]
  have h4 := (C21_symbol_ids_unique example_config).2.2.2.1 example_group_expr
    example_group_outer_context c1 example_start_automaton a1 { entry := 0, exit := 1 } []
    hb example_group_outer_context_in_range
    (fun i hi => absurd hi (List.not_mem_nil i)) hu
  exact ⟨⟨example_group_tree_build, rfl, h.1, h.2⟩, c1, a1, hb,
    example_group_outer_context_in_range, hu, h4.1, h4.2⟩

/-- Claim C22 (amended): of the two counters only `next_state` is saved and
restored around a nested build.  For every bracketed group whose body is built
by a nested `build_body_automaton` call, `next_state` after the nested build is
its value before it; `next_symbol` is not restored: it is the one counter of the
rule, and after the nested build it is its value before plus the number of slot,
keyword token and bracket records the body added to the rule. -/
theorem C22_nested_build_counters (cfg : build_config) (ctx c1 : context)
    (inner : parsed_expr) (rest : parsed_expr_list) (a1 : automaton)
    (h : build_body_expression_bracket cfg ctx (.cons inner rest) = .ok (c1, a1))
    (hr : ctx.rule_index < ctx.grammar.rules.length) :
    ∃ c2 : context,
      build_body_automaton cfg { ctx with bracket_nesting := ctx.bracket_nesting + 1 } inner
        = .ok (c2, a1) ∧
      c1 = { c2 with bracket_nesting := c2.bracket_nesting - 1 } ∧
      c2.next_state = ctx.next_state ∧
      ctx.next_symbol ≤ c2.next_symbol ∧
      ∃ (slots : List slot) (tokens : List token) (brackets : List bracket),
        c2.current_rule.slots = ctx.current_rule.slots ++ slots ∧
        c2.current_rule.keyword_tokens = ctx.current_rule.keyword_tokens ++ tokens ∧
        c2.current_rule.brackets = ctx.current_rule.brackets ++ brackets ∧
        c2.next_symbol = ctx.next_symbol + (slots.length + tokens.length + brackets.length) := by
  obtain ⟨c2, hsub, hc⟩ := build_body_expression_bracket_cons_ok cfg ctx c1 inner rest a1 h
  obtain ⟨c3, nfa, _, hc2, _⟩ := build_body_automaton_ok_inv cfg _ c2 inner a1 hsub
  have hr1 : ({ ctx with bracket_nesting := ctx.bracket_nesting + 1 } : context).rule_index <
      ({ ctx with bracket_nesting := ctx.bracket_nesting + 1 } : context).grammar.rules.length :=
    hr
  have hi : rule.issues ctx.current_rule ctx.next_symbol c2.current_rule c2.next_symbol :=
    (build_body_automaton_issues cfg _ c2 inner a1 hsub hr1).1
  obtain ⟨hle, slots, tokens, brackets, hs, ht, hb, hperm⟩ := hi
  refine ⟨c2, hsub, hc, ?_, hle, slots, tokens, brackets, hs, ht, hb, ?_⟩
  · rw [hc2]
  · have hlen := hperm.length_eq
    simp only [List.length_append, List.length_map, List.length_range'] at hlen
    omega

theorem C22_nested_build_counters_witness :
    ∃ (c1 c2 : context) (a1 : automaton),
      build_body_expression_bracket example_config example_group_bracket_context
        (.cons (.PARSED_LITERAL (quoted ['x'])) .empty) = .ok (c1, a1) ∧
      example_group_bracket_context.rule_index <
        example_group_bracket_context.grammar.rules.length ∧
      build_body_automaton example_config example_group_context
        (.PARSED_LITERAL (quoted ['x'])) = .ok (c2, a1) ∧
      c2.next_state = example_group_bracket_context.next_state ∧
      example_group_bracket_context.next_symbol ≤ c2.next_symbol := by
  obtain ⟨c1, a1, h⟩ := example_group_bracket_build
  obtain ⟨c2, h1, _, h3, h4, _⟩ := C22_nested_build_counters example_config
    example_group_bracket_context c1 _ _ a1 h example_group_bracket_context_in_range
  exact ⟨c1, c2, a1, h, example_group_bracket_context_in_range, h1, h3, h4⟩

/-- Claim C22 as stated fails: `next_symbol` is not restored around a nested
build.  In the build of the grammar `group = [ '(' 'x' ')' ]` the nested
`build_body_automaton` call on the body `'x'` of the group starts with
`next_state = 2` and `next_symbol = 0`; it ends with `next_state = 2` again but
with `next_symbol = 1`, the keyword `x` having taken symbol 0.  The group then
takes symbol 1, as the built grammar shows. -/
theorem C22_next_symbol_counterexample :
    ∃ (c2 : context) (a1 : automaton),
      build_body_automaton example_config example_group_context
        (.PARSED_LITERAL (quoted ['x'])) = .ok (c2, a1) ∧
      example_group_context.next_state = 2 ∧ c2.next_state = 2 ∧
      example_group_context.next_symbol = 0 ∧ c2.next_symbol = 1 ∧
      c2.next_symbol ≠ example_group_context.next_symbol ∧
      build example_config grammar.zero example_group_tree = .ok example_group_grammar ∧
      (example_group_grammar.rule_at 0).keyword_tokens.map (fun t => t.symbol) = [0, 2, 3] ∧
      (example_group_grammar.rule_at 0).brackets.map (fun b => b.symbol) = [1] :=
  ⟨_, _, example_group_nested_build, rfl, rfl, rfl, rfl, by decide,
    example_group_tree_build, rfl, rfl⟩

/-- Claim C23: the frame of a bracketed group.  Whenever a group
`[ begin ... end ]` compiles between the boundary `b`, whatever its body is: both
keywords are non-empty; the outer automaton gains exactly one transition, from
`b.entry` to `b.exit`, labelled by the symbol of the group, which is issued from
the counter during this compilation; the outer `next_state` and
`bracket_nesting` are the same after as before; the rule gains exactly one
bracket record for this group, at the index the bracket count had before and
holding that symbol, followed by one record per group nested in the body; and
the body, when there is one, is built in an automaton of its own with start
state 0, accepting state 1 and states numbered from 2, whose determinization the
record of the group stores. -/
theorem C23_bracketed_group_frame (cfg : build_config) (ctx c1 : context)
    (a a1 : automaton) (body : parsed_expr_list) (begin_token end_token : byte_string)
    (b : boundary_states)
    (h : build_body_expression cfg ctx a (.PARSED_BRACKETED body begin_token end_token) b
      = .ok (c1, a1))
    (hr : ctx.rule_index < ctx.grammar.rules.length) :
    2 < begin_token.length ∧ 2 < end_token.length ∧
    ∃ (record : bracket) (nested : List bracket),
      a1 = automaton_add_transition a b.entry b.exit (.issued record.symbol) ∧
      a1.transitions = a.transitions ++ [⟨b.entry, b.exit, .issued record.symbol⟩] ∧
      a1.start_state = a.start_state ∧ a1.accepting_states = a.accepting_states ∧
      ctx.next_symbol ≤ record.symbol ∧ record.symbol < c1.next_symbol ∧
      c1.next_state = ctx.next_state ∧
      c1.bracket_nesting = ctx.bracket_nesting ∧
      c1.current_rule.brackets = ctx.current_rule.brackets ++ record :: nested ∧
      nested.length = body.head_bracket_groups ∧
      ctx.issues c1 ∧
      ∀ (inner : parsed_expr) (rest : parsed_expr_list), body = .cons inner rest →
        ∃ (c2 : context) (nfa : automaton),
          build_body_expression cfg
            { (ctx.enter_expression.set_current_rule
                { ctx.current_rule with
                    brackets := ctx.current_rule.brackets ++ [bracket.zero] }) with
              bracket_nesting := ctx.bracket_nesting + 1, next_state := 2 }
            (automaton_mark_accepting_state (automaton_set_start_state automaton.zero 0) 1)
            inner { entry := 0, exit := 1 } = .ok (c2, nfa) ∧
          record.automaton = cfg.determinize_minimize nfa := by
  obtain ⟨c3, ba, c5, r5, s5, s7, nested, hsub, _, hb, he, hle3, hlt, hns, hbr, hnl, hg, ha⟩ :=
    build_body_expression_bracketed_result body begin_token end_token
      (build_body_expression_list_issues body) cfg ctx c1 a a1 b h hr
  have hp := build_body_expression_preserved _ cfg ctx a b c1 a1 h
  refine ⟨hb, he, ⟨ba, c3.next_symbol, s5, s7⟩, nested, ha, ?_, ?_, ?_, hle3, ?_, hns,
    hp.2.1, hbr, hnl, hg.1, ?_⟩
  · rw [ha]; rfl
  · rw [ha]; rfl
  · rw [ha]; rfl
  · show c3.next_symbol < c1.next_symbol
    omega
  · intro inner rest hbody
    subst hbody
    obtain ⟨c2, hsub2, _⟩ := build_body_expression_bracket_cons_ok cfg _ c3 inner rest ba hsub
    obtain ⟨c4, nfa, hnfa, _, hdet⟩ := build_body_automaton_ok_inv cfg _ c2 inner ba hsub2
    exact ⟨c4, nfa, hnfa, hdet⟩

theorem C23_bracketed_group_frame_witness :
    ∃ (c1 : context) (a1 : automaton) (record : bracket) (nested : List bracket),
      build_body_expression example_config example_group_outer_context
        example_start_automaton example_group_expr { entry := 0, exit := 1 }
        = .ok (c1, a1) ∧
      example_group_outer_context.rule_index <
        example_group_outer_context.grammar.rules.length ∧
      a1.transitions = example_start_automaton.transitions ++
        [⟨0, 1, .issued record.symbol⟩] ∧
      c1.next_state = example_group_outer_context.next_state ∧
      c1.bracket_nesting = example_group_outer_context.bracket_nesting ∧
      c1.current_rule.brackets =
        example_group_outer_context.current_rule.brackets ++ record :: nested ∧
      nested.length = 0 := by
  obtain ⟨c1, a1, h⟩ := example_group_expr_builds
  have h0 := h
  unfold example_group_expr at h0
  obtain ⟨_, _, record, nested, _, h2, _, _, _, _, h7, h8, h9, h10, _, _⟩ :=
    C23_bracketed_group_frame example_config example_group_outer_context c1
      example_start_automaton a1 _ _ _ _ h0 example_group_outer_context_in_range
  exact ⟨c1, a1, record, nested, h, example_group_outer_context_in_range, h2, h7, h8, h9,
    h10⟩

theorem context.enter_leave_self (ctx : context) :
    (ctx.enter_expression.set_current_rule ctx.enter_expression.current_rule).leave_expression
      = ctx := by
  rw [context.set_current_rule_self]
  cases ctx
  simp [context.enter_expression, context.leave_expression]

/-- Claim C24 (amended): a literal whose quoted text has length at most 2 (the
two quote delimiters with nothing between them) collapses to the epsilon symbol
and carries no content.  `add_keyword_token` returns the epsilon symbol for it
and registers no token; compiling it between the boundary `b` leaves the context
as it was (no token, no symbol id) and adds exactly one transition to the
automaton, the epsilon transition from `b.entry` to `b.exit`, unless the nesting
guard stops the compilation first. -/
theorem C24_empty_literal (cfg : build_config) (ctx : context) (a : automaton)
    (string : byte_string) (b : boundary_states) (hlen : string.length ≤ 2) :
    (∀ (r : rule) (type : token_type),
      add_keyword_token ctx r string type = .ok (ctx, r, .SYMBOL_EPSILON)) ∧
    build_body_expression cfg ctx a (.PARSED_LITERAL string) b =
      (if ctx.expression_nesting > MAX_EXPRESSION_NESTING then .error .nested_too_deeply
       else .ok (ctx, automaton_add_transition a b.entry b.exit .SYMBOL_EPSILON)) ∧
    (automaton_add_transition a b.entry b.exit .SYMBOL_EPSILON).transitions =
      a.transitions ++ [⟨b.entry, b.exit, .SYMBOL_EPSILON⟩] ∧
    (automaton_add_transition a b.entry b.exit .SYMBOL_EPSILON).start_state =
      a.start_state ∧
    (automaton_add_transition a b.entry b.exit .SYMBOL_EPSILON).accepting_states =
      a.accepting_states := by
  have hk : ∀ (c : context) (r : rule) (type : token_type),
      add_keyword_token c r string type = .ok (c, r, .SYMBOL_EPSILON) := by
    intro c r type
    unfold add_keyword_token
    rw [if_pos hlen]
  refine ⟨hk ctx, ?_, rfl, rfl, rfl⟩
  rw [build_body_expression_literal_eq]
  split
  · rfl
  · rw [hk]
    simp only
    rw [context.enter_leave_self]

theorem C24_empty_literal_witness :
    (quoted []).length ≤ 2 ∧
    build_body_expression example_config example_group_outer_context
        example_start_automaton (.PARSED_LITERAL (quoted [])) { entry := 0, exit := 1 } =
      .ok (example_group_outer_context,
        automaton_add_transition example_start_automaton 0 1 .SYMBOL_EPSILON) := by
  have h := (C24_empty_literal example_config example_group_outer_context
    example_start_automaton (quoted []) { entry := 0, exit := 1 } (by decide)).2.1
  rw [if_neg (by decide)] at h
  exact ⟨by decide, h⟩

/-- Claim C24 as stated fails: an empty literal does add a transition.
Compiling the literal `''` between the states 0 and 1 of an automaton without
transitions registers no token, and leaves an automaton with one transition, the
epsilon transition from 0 to 1; with it the automaton accepts the empty
sequence, which it does not accept without it. -/
theorem C24_transition_added_counterexample :
    (quoted []).length ≤ 2 ∧
    ∃ (c1 : context) (a1 : automaton),
      build_body_expression example_config example_group_outer_context
        example_start_automaton (.PARSED_LITERAL (quoted [])) { entry := 0, exit := 1 }
        = .ok (c1, a1) ∧
      c1.current_rule.keyword_tokens = [] ∧
      example_start_automaton.transitions = [] ∧
      a1.transitions = [⟨0, 1, .SYMBOL_EPSILON⟩] ∧
      a1.transitions ≠ example_start_automaton.transitions ∧
      a1.accepts [] ∧ ¬ example_start_automaton.accepts [] := by
  refine ⟨by decide, example_group_outer_context,
    automaton_add_transition example_start_automaton 0 1 .SYMBOL_EPSILON, ?_, ?_, rfl, rfl,
    by decide, ?_, ?_⟩
  · rw [build_body_expression_literal_eq, if_neg (by decide)]
    have hk : add_keyword_token example_group_outer_context.enter_expression
        example_group_outer_context.enter_expression.current_rule (quoted [])
        .TOKEN_NORMAL =
        .ok (example_group_outer_context.enter_expression,
          example_group_outer_context.enter_expression.current_rule, .SYMBOL_EPSILON) := by
      unfold add_keyword_token
      rw [if_pos (by decide)]
    rw [hk]
    simp only
    rw [context.enter_leave_self]
  · simp [example_group_outer_context, registered_context, registered_rules,
      context.current_rule, grammar.rule_at, rule.fresh]
  · refine ⟨1, by simp [automaton_add_transition, example_start_automaton,
      automaton_mark_accepting_state, automaton_set_start_state, automaton.zero], ?_⟩
    exact reaches.epsilon 0 1 1 []
      (by simp [automaton_add_transition, example_start_automaton,
        automaton_mark_accepting_state, automaton_set_start_state, automaton.zero])
      (reaches.done 1)
  · rintro ⟨f, hf, hrun⟩
    have hf1 : f = 1 := by
      simpa [example_start_automaton, automaton_mark_accepting_state,
        automaton_set_start_state, automaton.zero] using hf
    subst hf1
    rcases (reaches_iff _ _ _ _).1 hrun with ⟨h0, _⟩ | ⟨q, hm, _⟩ | ⟨q, s, v, hm, _, _⟩
    · simp [example_start_automaton, automaton_mark_accepting_state,
        automaton_set_start_state, automaton.zero] at h0
    · simp [example_start_automaton, automaton_mark_accepting_state,
        automaton_set_start_state, automaton.zero] at hm
    · simp [example_start_automaton, automaton_mark_accepting_state,
        automaton_set_start_state, automaton.zero] at hm

end Owl
